import Mathlib

/-!
# A UTF-8 keyed radix tree with an intrusive leaf chain

Shallow embedding of `radix.cc`, `radix.h` and `radix_node.h`.

* Memory is an arena: `radix_tree.nodes` is the list of all nodes ever allocated, a pointer
  is an index into it (`Option Nat`, `none` being `nullptr`), and `new` appends a node.
* A `Slice` is modelled by the bytes it views (a `List Nat`, each byte in `0..255`).
  All slices stored in the tree view the append-only `m_patterns` storage, so viewing them by
  value loses nothing.  Reading the byte just past a `std::string` yields its NUL terminator;
  `byteAt` returns `0` there.
* The union in `radix_tree_node` is modelled by the field that is live: a leaf has
  `m_value = some _`, an interior node has `m_value = none` and carries `m_children`, `m_heap`.
* A function returns `none` when the C++ call does not return normally: a loop that never
  terminates (the fuel given to each loop bounds the number of distinct control states, so
  running out of it means that a control state repeated), or a dereference of a pointer that is
  not a node of the arena.
-/

namespace radix

/-- Bytes viewed by a `Slice`. -/
abbrev Slice := List Nat

/-- The byte `s[i]`; the position just past the end holds the NUL terminator. -/
def byteAt (s : List Nat) (i : Nat) : Nat := s.getD i 0

/-- Model of `radix_substr(key, begin, num)` for the non-negative arguments of every call site. -/
def radix_substr (key : Slice) (b num : Nat) : Slice :=
  if b + num > key.length then [] else (key.drop b).take num

/-- Model of `radix_length`. -/
def radix_length (key : Slice) : Nat := key.length

/-- Modelled from the spec: `slice.h` (the `Slice` type and its comparison operators) is not
among the sources; "equality and ordering are bytewise".  Strict lexicographic order on bytes. -/
def slice_lt : Slice → Slice → Bool
  | [], [] => false
  | [], _ :: _ => true
  | _ :: _, [] => false
  | a :: as, b :: bs => if a < b then true else if b < a then false else slice_lt as bs

/-- The inner `for (code_len = 1; code_len <= 6; code_len++)` loop shared by `UTF8Decode` and
`SliceDecode`: `n` iterations remain, `c` is the shifted lead byte.  Returns `none` when the
loop executes `return false`, else the value of `code_len` on leaving the loop. -/
def code_len_loop (str : List Nat) (i : Nat) : Nat → Nat → Nat → Option Nat
  | 0, _, code_len => some code_len
  | n + 1, c, code_len =>
    let c1 := (c <<< 1) % 256
    if c1 &&& 0x80 ≠ 0 then
      if byteAt str (i + code_len) &&& 0xC0 ≠ 0x80 then none
      else code_len_loop str i n c1 (code_len + 1)
    else some code_len

/-- The outer loop of `UTF8Decode`, started at byte index `i` with `uchars` already emitted.
Each iteration advances `i` by at least one, so `fuel = len` iterations are never exceeded.
`none` is `return false`. -/
def UTF8Decode_loop (key : List Nat) : Nat → Nat → List Slice → Option (List Slice)
  | 0, _, uchars => some uchars
  | fuel + 1, i, uchars =>
    if i < key.length then
      if byteAt key i = 0 then some uchars
      else if byteAt key i &&& 0x80 = 0 then
        UTF8Decode_loop key fuel (i + 1) (uchars ++ [(key.drop i).take 1])
      else
        match code_len_loop key i 6 (byteAt key i) 1 with
        | none => none
        | some code_len =>
          if code_len = 1 then none
          else UTF8Decode_loop key fuel (i + code_len) (uchars ++ [(key.drop i).take code_len])
    else some uchars

/-- Model of `radix_tree::UTF8Decode(key.c_str(), key.length(), uchars)`: `none` when it returns
`false`, else the emitted slices. -/
def UTF8Decode (key : List Nat) : Option (List Slice) :=
  UTF8Decode_loop key key.length 0 []

/-- Model of `radix_tree::SliceDecode(key, &uchar)` (the `for` loop runs at most one iteration):
`none` when it returns `false`, else the slice stored into `*uchar`. -/
def SliceDecode (key : Slice) : Option Slice :=
  if 0 < key.length then
    if byteAt key 0 = 0 then none
    else if byteAt key 0 &&& 0x80 = 0 then some (key.take 1)
    else
      match code_len_loop key 0 6 (byteAt key 0) 1 with
      | none => none
      | some code_len => if code_len = 1 then none else some (key.take code_len)
  else none

/-- The bytes of the constant `CHILD`, `"__CHILD"`. -/
def CHILD : Slice := [95, 95, 67, 72, 73, 76, 68]

/-- The constant `nodes_threshold`. -/
def nodes_threshold : Nat := 200

/-- Model of `radix_tree_node<V>`; `m_first`/`m_last` are the subtree range on an interior node
and the previous/next links of the leaf chain on a leaf. -/
structure radix_tree_node (V : Type) where
  m_first : Option Nat := none
  m_last : Option Nat := none
  m_key : Slice := []
  m_children : List (Slice × Nat) := []
  m_heap : Option (List V) := none
  m_value : Option (List V) := none
  m_count : Nat := 0
deriving DecidableEq, Repr

/-- Model of `radix_tree<V>`: the arena of nodes plus the members of the class. -/
structure radix_tree (V : Type) where
  nodes : List (radix_tree_node V)
  m_root : Nat
  m_patterns : List (List Nat) := []
  m_size : Nat := 0
deriving DecidableEq, Repr

/-- The constructor `radix_tree()`: a root node without children, leaves or key. -/
def radix_tree.fresh (V : Type) : radix_tree V :=
  { nodes := [{}], m_root := 0 }

/-- Model of `m_children.find(k)` on the `std::map<Slice, radix_tree_node*>`, kept as a list
sorted by key. -/
def map_find : List (Slice × Nat) → Slice → Option Nat
  | [], _ => none
  | (k1, v1) :: rest, k => if k1 = k then some v1 else map_find rest k

/-- Model of `m_children[k] = v`: overwrite the entry of `k` or insert it at its sorted place. -/
def map_assign : List (Slice × Nat) → Slice → Nat → List (Slice × Nat)
  | [], k, v => [(k, v)]
  | (k1, v1) :: rest, k, v =>
    if k1 = k then (k, v) :: rest
    else if slice_lt k k1 then (k, v) :: (k1, v1) :: rest
    else (k1, v1) :: map_assign rest k v

/-- The inner `for (count = 0; count < m_key.size() && depth < key.size(); ++depth)` loop of
`find_node` and `update_node`, on the codepoints `key[depth..]` still to be consumed. -/
def match_edge (m_key : Slice) : List Slice → Nat → Nat → Nat × Nat
  | [], count, depth => (count, depth)
  | u :: us, count, depth =>
    if count < m_key.length then
      if m_key.length - count < u.length ∨ u ≠ radix_substr m_key count u.length then
        (count, depth)
      else match_edge m_key us (count + u.length) (depth + 1)
    else (count, depth)

/-- The `while (len_key > 0)` loop of `find_node`. -/
def find_loop {V : Type} (ns : List (radix_tree_node V)) (key : List Slice) :
    Nat → Nat → Nat → Nat → Option (Nat × Nat × Nat)
  | 0, _, _, _ => none
  | fuel + 1, result, count, depth =>
    if key.length - depth > 0 then
      match ns[result]? with
      | none => none
      | some r =>
        match map_find r.m_children (key.getD depth []) with
        | none => some (result, count, depth)
        | some child =>
          match ns[child]? with
          | none => none
          | some c =>
            let cd := match_edge c.m_key (key.drop depth) 0 depth
            if cd.1 < c.m_key.length then some (child, cd.1, cd.2)
            else find_loop ns key fuel child cd.1 cd.2
    else some (result, count, depth)

/-- Number of loop iterations after which a control state `(result, depth)` must have repeated. -/
def walk_fuel {V : Type} (ns : List (radix_tree_node V)) (key : List Slice) : Nat :=
  (key.length + 1) * ns.length + 1

/-- Model of `radix_tree::find_node(key)`: `(node, match_count, match_depth)`. -/
def find_node {V : Type} (t : radix_tree V) (key : List Slice) : Option (Nat × Nat × Nat) :=
  if key = [] then some (t.m_root, 0, 0)
  else find_loop t.nodes key (walk_fuel t.nodes key) t.m_root 0 0

/-- Apply `f` to the node at address `i`. -/
def upd {V : Type} (ns : List (radix_tree_node V)) (i : Nat)
    (f : radix_tree_node V → radix_tree_node V) : List (radix_tree_node V) :=
  match ns[i]? with
  | none => ns
  | some n => ns.set i (f n)

/-- The two statements `++result->m_count; if (old_last == result->m_last) result->m_last =
new_last;` of `update_node`. -/
def bump {V : Type} (ns : List (radix_tree_node V)) (result : Nat) (old_last : Option Nat)
    (new_last : Nat) : List (radix_tree_node V) :=
  upd ns result (fun n =>
    { n with m_count := n.m_count + 1,
             m_last := if old_last = n.m_last then some new_last else n.m_last })

/-- The `while (len_key > 0)` loop of `update_node` followed by the final update of `result`. -/
def update_loop {V : Type} (key : List Slice) (old_last : Option Nat) (new_last : Nat) :
    Nat → List (radix_tree_node V) → Nat → Nat → Option (List (radix_tree_node V))
  | 0, _, _, _ => none
  | fuel + 1, ns, result, depth =>
    if key.length - depth > 0 then
      match ns[result]? with
      | none => none
      | some r =>
        match map_find r.m_children (key.getD depth []) with
        | none => some (bump ns result old_last new_last)
        | some child =>
          let ns1 := bump ns result old_last new_last
          match ns1[child]? with
          | none => none
          | some c =>
            let cd := match_edge c.m_key (key.drop depth) 0 depth
            if cd.1 < c.m_key.length then some (bump ns1 child old_last new_last)
            else update_loop key old_last new_last fuel ns1 child cd.2
    else
      match ns[result]? with
      | none => none
      | some _ => some (bump ns result old_last new_last)

/-- Model of `radix_tree::update_node(key, old_last, new_last)`. -/
def update_node {V : Type} (ns : List (radix_tree_node V)) (root : Nat) (key : List Slice)
    (old_last : Option Nat) (new_last : Nat) : Option (List (radix_tree_node V)) :=
  if key = [] then some ns
  else update_loop key old_last new_last (walk_fuel ns key) ns root 0

/-- The leaf-splicing statements shared by both structural branches of `insert`:
`if (temp_last->m_last != nullptr) { temp_last->m_last->m_first = new_leaf; new_leaf->m_last =
temp_last->m_last; } new_leaf->m_first = temp_last; temp_last->m_last = new_leaf;`. -/
def splice_after {V : Type} (ns : List (radix_tree_node V)) (temp_last new_leaf : Nat) :
    Option (List (radix_tree_node V)) :=
  match ns[temp_last]? with
  | none => none
  | some tl =>
    let linked : Option (List (radix_tree_node V)) :=
      match tl.m_last with
      | none => some ns
      | some nx =>
        match ns[nx]? with
        | none => none
        | some _ =>
          some (upd (upd ns nx (fun n => { n with m_first := some new_leaf }))
            new_leaf (fun n => { n with m_last := some nx }))
    match linked with
    | none => none
    | some ns1 =>
      some (upd (upd ns1 new_leaf (fun n => { n with m_first := some temp_last }))
        temp_last (fun n => { n with m_last := some new_leaf }))

/-- The residual pattern bytes `radix_substr(insert_key, total_count, insert_key.size() -
total_count)`, `total_count` being the summed sizes of `uchars[0 .. match_depth)`. -/
def residual_key (uchars : List Slice) (insert_key : Slice) (match_depth : Nat) : Slice :=
  let total_count := ((uchars.take match_depth).map List.length).sum
  radix_substr insert_key total_count (insert_key.length - total_count)

/-- The child-map key `radix_substr(leaf_key, 0, uchars[match_depth].size())` of the residual. -/
def residual_child_key (uchars : List Slice) (insert_key : Slice) (match_depth : Nat) : Slice :=
  radix_substr (residual_key uchars insert_key match_depth) 0 (uchars.getD match_depth []).length

/-- The block `if (match_depth != uchars.size()) { ... }` shared by both structural branches of
`insert`: allocate `new_node1`, copy the residual pattern bytes into `m_patterns`, label
`new_node1` and `new_leaf` with them and enter `new_node1` into the child map of `match_node`
under the residual's first `uchars[match_depth].size()` bytes. -/
def attach_residual {V : Type} (ns : List (radix_tree_node V)) (patterns : List (List Nat))
    (uchars : List Slice) (insert_key : Slice) (match_node new_leaf match_depth : Nat) :
    List (radix_tree_node V) × List (List Nat) :=
  let leaf_key := residual_key uchars insert_key match_depth
  let new_node1 := ns.length
  let ns1 := ns ++ [{ m_key := leaf_key, m_first := some new_leaf, m_last := some new_leaf }]
  let ns2 := upd ns1 new_leaf (fun n => { n with m_key := leaf_key })
  let child_key := residual_child_key uchars insert_key match_depth
  let ns3 := upd ns2 match_node (fun n =>
    { n with m_children := map_assign n.m_children child_key new_node1 })
  (ns3, patterns ++ [leaf_key])

/-- The statements of the branch `if (match_count < match_node->m_key.size())` of `insert`
that precede the call of `update_node`, once `SliceDecode` has produced `new_key`: split the
edge of `match_node` at `match_count`.  Returns the arena, `m_patterns` and `temp_last`. -/
def split_rewire {V : Type} (t : radix_tree V) (uchars : List Slice) (insert_key : Slice)
    (value : V) (match_node match_count match_depth : Nat) (new_key : Slice) :
    Option (List (radix_tree_node V) × List (List Nat) × Nat) :=
  match t.nodes[match_node]? with
  | none => none
  | some mn =>
    let new_leaf := t.nodes.length
    let new_node := t.nodes.length + 1
    let m_key1 := radix_substr mn.m_key 0 match_count
    -- new_leaf, and new_node after new_node->swap(*match_node) and remove_prefix
    let ns1 := t.nodes ++
      [{ m_key := m_key1, m_value := some [value] },
       { m_first := mn.m_first, m_last := mn.m_last, m_key := mn.m_key.drop match_count,
         m_children := mn.m_children, m_heap := mn.m_heap, m_count := mn.m_count }]
    -- match_node after the swap: the members of the fresh node, its own m_count
    let ns2 := upd ns1 match_node (fun n =>
      { n with m_first := none, m_last := none, m_key := m_key1, m_children := [],
               m_heap := none })
    match mn.m_last with
    | none => none
    | some temp_last =>
      match splice_after ns2 temp_last new_leaf with
      | none => none
      | some ns3 =>
        let ns4 := upd ns3 match_node (fun n =>
          { n with m_first := mn.m_first, m_last := some new_leaf,
                   m_children := map_assign n.m_children new_key new_node })
        let r := if match_depth ≠ uchars.length then
            attach_residual ns4 t.m_patterns uchars insert_key match_node new_leaf match_depth
          else (ns4, t.m_patterns)
        some (r.1, r.2, temp_last)

/-- The branch `if (match_count < match_node->m_key.size())` of `insert` once `SliceDecode`
has produced `new_key`. -/
def insert_split {V : Type} (t : radix_tree V) (uchars : List Slice) (insert_key : Slice)
    (value : V) (match_node match_count match_depth : Nat) (new_key : Slice) :
    Option (radix_tree V) :=
  match split_rewire t uchars insert_key value match_node match_count match_depth new_key with
  | none => none
  | some (ns, patterns, temp_last) =>
    match update_node ns t.m_root uchars (some temp_last) t.nodes.length with
    | none => none
    | some ns5 => some { t with nodes := ns5, m_patterns := patterns }

/-- The statements of the branch `else if (match_count == match_node->m_key.size())` of
`insert` that precede the call of `update_node`: hang a new leaf below `match_node`.  Returns
the arena, `m_patterns` and `temp_last`. -/
def attach_rewire {V : Type} (t : radix_tree V) (uchars : List Slice) (insert_key : Slice)
    (value : V) (match_node match_depth : Nat) :
    Option (List (radix_tree_node V) × List (List Nat) × Option Nat) :=
  match t.nodes[match_node]? with
  | none => none
  | some mn =>
    let new_leaf := t.nodes.length
    let ns1 := t.nodes ++ [{ m_key := mn.m_key, m_value := some [value] }]
    let r := if match_depth ≠ uchars.length then
        attach_residual ns1 t.m_patterns uchars insert_key match_node new_leaf match_depth
      else (ns1, t.m_patterns)
    let spliced : Option (List (radix_tree_node V)) :=
      match mn.m_last with
      | none =>
        some (upd r.1 match_node (fun n =>
          { n with m_first := some new_leaf, m_last := some new_leaf }))
      | some temp_last => splice_after r.1 temp_last new_leaf
    match spliced with
    | none => none
    | some ns2 => some (ns2, r.2, mn.m_last)

/-- The branch `else if (match_count == match_node->m_key.size())` of `insert`. -/
def insert_attach {V : Type} (t : radix_tree V) (uchars : List Slice) (insert_key : Slice)
    (value : V) (match_node match_depth : Nat) : Option (radix_tree V) :=
  match attach_rewire t uchars insert_key value match_node match_depth with
  | none => none
  | some (ns, patterns, temp_last) =>
    match update_node ns t.m_root uchars temp_last t.nodes.length with
    | none => none
    | some ns3 => some { t with nodes := ns3, m_patterns := patterns }

/-- Model of `radix_tree::insert(pattern, value)`. -/
def insert {V : Type} (t : radix_tree V) (pattern : List Nat) (value : V) :
    Option (radix_tree V) :=
  if pattern = [] then some t
  else
    match UTF8Decode pattern with
    | none => some t
    | some uchars =>
      if uchars = [] then some t
      else
        match find_node t uchars with
        | none => none
        | some (match_node, match_count, match_depth) =>
          match t.nodes[match_node]? with
          | none => none
          | some mn =>
            -- `some (some (f, vs))`: the exact-key test succeeds with leaf `f`
            let exact : Option (Option (Nat × List V)) :=
              if match_depth = uchars.length ∧ match_count = mn.m_key.length then
                match mn.m_first with
                | none => some none
                | some f =>
                  match t.nodes[f]? with
                  | none => none
                  | some fn =>
                    match fn.m_value with
                    | none => some none
                    | some vs => some (some (f, vs))
              else some none
            match exact with
            | none => none
            | some (some (f, vs)) =>
              some { t with
                nodes := upd t.nodes f (fun n => { n with m_value := some (vs ++ [value]) }) }
            | some none =>
              if match_count < mn.m_key.length then
                match SliceDecode
                    (radix_substr mn.m_key match_count (mn.m_key.length - match_count)) with
                | none => some t
                | some new_key =>
                  insert_split t uchars pattern value match_node match_count match_depth new_key
              else if match_count = mn.m_key.length then
                insert_attach t uchars pattern value match_node match_depth
              else some t

/-- The `while (temp != nullptr)` walk of the exhaustive `match` along the leaf chain, from
`temp` up to and including `last`, pushing every value onto `vec`. -/
def collect_walk {V : Type} (ns : List (radix_tree_node V)) (last : Option Nat) :
    Nat → Option Nat → List V → Option (List V)
  | _, none, vec => some vec
  | 0, some _, _ => none
  | fuel + 1, some temp, vec =>
    match ns[temp]? with
    | none => none
    | some n =>
      let vec1 := match n.m_value with
        | none => vec
        | some vs => vec ++ vs
      if some temp = last then some vec1
      else collect_walk ns last fuel n.m_last vec1

/-- Model of the exhaustive `radix_tree::match(key, vec)`: the final contents of `vec`. -/
def match_all {V : Type} (t : radix_tree V) (key : List Nat) (vec : List V) :
    Option (List V) :=
  match UTF8Decode key with
  | none => some vec
  | some uchars =>
    if uchars = [] then some vec
    else
      match find_node t uchars with
      | none => none
      | some (match_node, _, match_depth) =>
        if match_depth = uchars.length then
          match t.nodes[match_node]? with
          | none => none
          | some mn => collect_walk t.nodes mn.m_last t.nodes.length mn.m_first vec
        else some vec

/-- Run a sequence of `insert` calls. -/
def insert_list {V : Type} (t : radix_tree V) : List (List Nat × V) → Option (radix_tree V)
  | [] => some t
  | (p, v) :: rest =>
    match insert t p v with
    | none => none
    | some t1 => insert_list t1 rest

/-- A sequence of `insert` calls on a fresh tree. -/
def build {V : Type} (ops : List (List Nat × V)) : Option (radix_tree V) :=
  insert_list (radix_tree.fresh V) ops

/-- Model of `radix_tree_iter<V>`. -/
structure radix_tree_iter where
  m_begin : Option Nat := none
  m_end : Option Nat := none
  m_current : Option Nat := none
  m_index : Nat := 0
  m_cursor : Int := 0
  m_order : Bool := true
  m_count : Int := 0
deriving DecidableEq, Repr

/-- The constructor `radix_tree_iter(begin, end, count)`. -/
def radix_tree_iter.mk3 (b e : Option Nat) (count : Int) : radix_tree_iter :=
  { m_begin := b, m_end := e, m_current := b, m_index := 0, m_cursor := 0, m_count := count }

/-- Model of `radix_tree_iter::count()`. -/
def radix_tree_iter.count (it : radix_tree_iter) : Int := it.m_count

/-- Model of `radix_tree_iter::valid()`. -/
def radix_tree_iter.valid {V : Type} (ns : List (radix_tree_node V)) (it : radix_tree_iter) :
    Option Bool :=
  match it.m_current with
  | none => some false
  | some cur =>
    match ns[cur]? with
    | none => none
    | some n =>
      match n.m_value with
      | none => some false
      | some vs =>
        if it.m_cursor ≥ it.m_count then some false
        else if it.m_cursor = it.m_count - 1 ∨ it.m_current = it.m_end then
          some (decide (it.m_index < vs.length))
        else some true

/-- Model of `radix_tree_iter::value()`; `at` throws when the index is out of range. -/
def radix_tree_iter.value {V : Type} (ns : List (radix_tree_node V)) (it : radix_tree_iter) :
    Option V :=
  match it.m_current with
  | none => none
  | some cur =>
    match ns[cur]? with
    | none => none
    | some n =>
      match n.m_value with
      | none => none
      | some vs => vs[it.m_index]?

/-- Model of `radix_tree_iter::next()`. -/
def radix_tree_iter.next {V : Type} (ns : List (radix_tree_node V)) (it : radix_tree_iter) :
    Option radix_tree_iter :=
  match it.m_current with
  | none => none
  | some cur =>
    match ns[cur]? with
    | none => none
    | some n =>
      match n.m_value with
      | none => none
      | some vs =>
        if it.m_index + 1 < vs.length then some { it with m_index := it.m_index + 1 }
        else if it.m_current ≠ it.m_end ∧ it.m_cursor < it.m_count then
          some { it with m_index := 0, m_current := n.m_last, m_cursor := it.m_cursor + 1 }
        else some { it with m_index := it.m_index + 1 }

/-- The `for (skip = 0; skip < start; ++skip)` loop of `reset`, `n` iterations remaining. -/
def reset_skip {V : Type} (ns : List (radix_tree_node V)) (e : Option Nat) :
    Nat → Option Nat → Option (Option Nat)
  | 0, b => some b
  | n + 1, b =>
    match b with
    | none => reset_skip ns e n b
    | some bi =>
      if b ≠ e then
        match ns[bi]? with
        | none => none
        | some bn =>
          match bn.m_last with
          | none => reset_skip ns e n b
          | some nx => reset_skip ns e n (some nx)
      else reset_skip ns e n b

/-- Model of `radix_tree_iter::reset(start, count)`. -/
def radix_tree_iter.reset {V : Type} (ns : List (radix_tree_node V)) (it : radix_tree_iter)
    (start count : Int) : Option radix_tree_iter :=
  match reset_skip ns it.m_end start.toNat it.m_begin with
  | none => none
  | some b => some { it with m_cursor := 0, m_count := count, m_begin := b, m_current := b }

/-- Model of the iterator form `radix_tree::match(key)`. -/
def match_iter {V : Type} (t : radix_tree V) (key : List Nat) : Option radix_tree_iter :=
  match UTF8Decode key with
  | none => some (radix_tree_iter.mk3 none none 0)
  | some uchars =>
    if uchars = [] then some (radix_tree_iter.mk3 none none 0)
    else
      match find_node t uchars with
      | none => none
      | some (match_node, _, match_depth) =>
        if match_depth = uchars.length then
          match t.nodes[match_node]? with
          | none => none
          | some mn => some (radix_tree_iter.mk3 mn.m_first mn.m_last mn.m_count)
        else some (radix_tree_iter.mk3 none none 0)

/-- The three algorithms of `<algorithm>` that the tree calls on a `std::vector<V>`, each taking
the comparator and the whole range `[begin, end)`.  They are library code, so the tree is
modelled over any implementation of them. -/
structure StdHeap (V : Type) where
  push_heap : (V → V → Bool) → List V → List V
  pop_heap : (V → V → Bool) → List V → List V
  sort_heap : (V → V → Bool) → List V → List V

/-- Model of `radix_tree::heap_insert(result, item, compfunc, recall_limit)` for a non-null
`result` and `recall_limit >= 0`; `none` when `result->at(0)` throws. -/
def heap_insert {V : Type} (H : StdHeap V) (result : List V) (item : V) (compfunc : V → V → Bool)
    (recall_limit : Nat) : Option (List V) :=
  if result.length < recall_limit then some (H.push_heap compfunc (result ++ [item]))
  else
    match result with
    | [] => none
    | r0 :: _ =>
      if compfunc item r0 then
        some (H.push_heap compfunc ((H.pop_heap compfunc result).dropLast ++ [item]))
      else some result

/-- The loop `for (V p : values) { if (item_set.count(p) > 0) continue; item_set.insert(p);
heap_insert(heap, p, compfunc, recall_limit); }` used by the ranked `match` and by `finish`;
the state is the heap buffer and the `item_set`. -/
def feed {V : Type} [DecidableEq V] (H : StdHeap V) (compfunc : V → V → Bool) (recall_limit : Nat) :
    List V → List V × List V → Option (List V × List V)
  | [], st => some st
  | p :: ps, (heap, item_set) =>
    if p ∈ item_set then feed H compfunc recall_limit ps (heap, item_set)
    else
      match heap_insert H heap p compfunc recall_limit with
      | none => none
      | some heap1 => feed H compfunc recall_limit ps (heap1, p :: item_set)

/-- The `while (temp != nullptr)` walk of the ranked `match`. -/
def ranked_walk {V : Type} [DecidableEq V] (H : StdHeap V) (compfunc : V → V → Bool)
    (recall_limit : Nat) (ns : List (radix_tree_node V)) (last : Option Nat) :
    Nat → Option Nat → List V × List V → Option (List V × List V)
  | _, none, st => some st
  | 0, some _, _ => none
  | fuel + 1, some temp, st =>
    match ns[temp]? with
    | none => none
    | some n =>
      let fed := match n.m_value with
        | none => some st
        | some vs => feed H compfunc recall_limit vs st
      match fed with
      | none => none
      | some st1 =>
        if some temp = last then some st1
        else ranked_walk H compfunc recall_limit ns last fuel n.m_last st1

/-- Model of the ranked `radix_tree::match(key, vec, compfunc, recall_limit)`: the final
contents of `vec`. -/
def match_ranked {V : Type} [DecidableEq V] (H : StdHeap V) (t : radix_tree V) (key : List Nat)
    (vec : List V) (compfunc : V → V → Bool) (recall_limit : Nat) : Option (List V) :=
  match UTF8Decode key with
  | none => some vec
  | some uchars =>
    if uchars = [] then some vec
    else
      match find_node t uchars with
      | none => none
      | some (match_node, _, match_depth) =>
        if match_depth = uchars.length then
          match t.nodes[match_node]? with
          | none => none
          | some mn =>
            match mn.m_heap with
            | some heap =>
              some (vec ++ heap.take (if recall_limit < heap.length then recall_limit
                else heap.length))
            | none =>
              match ranked_walk H compfunc recall_limit t.nodes mn.m_last t.nodes.length
                  mn.m_first (vec, []) with
              | none => none
              | some st => some (H.sort_heap compfunc st.1)
        else some vec

/-- The `for` loop over `current->m_children` inside the first `while` of `finish`: the children
whose `m_count` exceeds `nodes_threshold`, in map order. -/
def big_children {V : Type} (ns : List (radix_tree_node V)) :
    List (Slice × Nat) → Option (List Nat)
  | [] => some []
  | (_, c) :: rest =>
    match ns[c]?, big_children ns rest with
    | some cn, some l => some (if cn.m_count > nodes_threshold then c :: l else l)
    | _, _ => none

/-- The first `while (index < process_nodes.size())` loop of `finish`.  In an arena whose child
maps form a tree every node enters `process_nodes` at most once, which bounds the iterations. -/
def collect_nodes {V : Type} (ns : List (radix_tree_node V)) :
    Nat → Nat → List Nat → Option (List Nat)
  | 0, _, _ => none
  | fuel + 1, index, process_nodes =>
    match process_nodes[index]? with
    | none => some process_nodes
    | some current =>
      match ns[current]? with
      | none => none
      | some cn =>
        match big_children ns cn.m_children with
        | none => none
        | some l => collect_nodes ns fuel (index + 1) (process_nodes ++ l)

/-- The loop over `current->m_children` in the second phase of `finish`: merge the heaps of the
children that have one and record their leaf ranges in `heap_range`. -/
def merge_children {V : Type} [DecidableEq V] (H : StdHeap V) (compfunc : V → V → Bool)
    (recall_limit : Nat) (ns : List (radix_tree_node V)) :
    List (Slice × Nat) → List V × List V → List (Option Nat × Option Nat) →
      Option ((List V × List V) × List (Option Nat × Option Nat))
  | [], st, heap_range => some (st, heap_range)
  | (_, c) :: rest, st, heap_range =>
    match ns[c]? with
    | none => none
    | some cn =>
      match cn.m_heap with
      | none => merge_children H compfunc recall_limit ns rest st heap_range
      | some h =>
        match feed H compfunc recall_limit h st with
        | none => none
        | some st1 =>
          merge_children H compfunc recall_limit ns rest st1
            (heap_range ++ [(cn.m_first, cn.m_last)])

/-- The leaf walk `while (temp != nullptr)` of `finish` with its skip ranges. -/
def finish_walk {V : Type} [DecidableEq V] (H : StdHeap V) (compfunc : V → V → Bool)
    (recall_limit : Nat) (ns : List (radix_tree_node V)) (last : Option Nat)
    (heap_range : List (Option Nat × Option Nat)) :
    Nat → Option Nat → Nat → Bool → List V × List V → Option (List V × List V)
  | _, none, _, _, st => some st
  | 0, some _, _, _, _ => none
  | fuel + 1, some temp, range_index, skip_range, st =>
    match ns[temp]? with
    | none => none
    | some n =>
      let skip1 :=
        match heap_range[range_index]? with
        | none => skip_range
        | some r => if !skip_range ∧ some temp = r.1 then true else skip_range
      let fed : Option (Bool × (List V × List V)) :=
        if skip1 then some (false, st)
        else
          match (match n.m_value with
            | none => some st
            | some vs => feed H compfunc recall_limit vs st) with
          | none => none
          | some st1 => some (decide (some temp = last), st1)
      match fed with
      | none => none
      | some (true, st1) => some st1
      | some (false, st1) =>
        match heap_range[range_index]? with
        | none => finish_walk H compfunc recall_limit ns last heap_range fuel n.m_last
            range_index skip1 st1
        | some r =>
          if skip1 ∧ some temp = r.2 then
            finish_walk H compfunc recall_limit ns last heap_range fuel n.m_last
              (range_index + 1) false st1
          else
            finish_walk H compfunc recall_limit ns last heap_range fuel n.m_last
              range_index skip1 st1

/-- One iteration of the second loop of `finish`: build and store the heap of `current`. -/
def finish_node {V : Type} [DecidableEq V] (H : StdHeap V) (compfunc : V → V → Bool)
    (recall_limit : Nat) (ns : List (radix_tree_node V)) (current : Nat) :
    Option (List (radix_tree_node V)) :=
  match ns[current]? with
  | none => none
  | some _ =>
    let ns1 := upd ns current (fun n => { n with m_heap := some [] })
    match ns1[current]? with
    | none => none
    | some cn =>
      match merge_children H compfunc recall_limit ns1 cn.m_children ([], []) [] with
      | none => none
      | some (st, heap_range) =>
        match finish_walk H compfunc recall_limit ns1 cn.m_last heap_range
            (2 * ns1.length * (heap_range.length + 1)) cn.m_first 0 false st with
        | none => none
        | some st1 =>
          some (upd ns1 current (fun n => { n with m_heap := some (H.sort_heap compfunc st1.1) }))

/-- The second loop of `finish`, over `process_nodes` from its last entry to its first; the
argument is `process_nodes` reversed. -/
def finish_nodes {V : Type} [DecidableEq V] (H : StdHeap V) (compfunc : V → V → Bool)
    (recall_limit : Nat) : List Nat → List (radix_tree_node V) → Option (List (radix_tree_node V))
  | [], ns => some ns
  | current :: rest, ns =>
    match finish_node H compfunc recall_limit ns current with
    | none => none
    | some ns1 => finish_nodes H compfunc recall_limit rest ns1

/-- Model of `radix_tree::finish(compfunc, recall_limit)`. -/
def finish {V : Type} [DecidableEq V] (H : StdHeap V) (t : radix_tree V)
    (compfunc : V → V → Bool) (recall_limit : Nat) : Option (radix_tree V) :=
  match t.nodes[t.m_root]? with
  | none => none
  | some root =>
    if root.m_count < nodes_threshold then some t
    else
      match collect_nodes t.nodes (t.nodes.length + 1) 0 [t.m_root] with
      | none => none
      | some process_nodes =>
        match finish_nodes H compfunc recall_limit process_nodes.reverse t.nodes with
        | none => none
        | some ns => some { t with nodes := ns }

/-- Model of `radix_tree::size()`. -/
def radix_tree.size {V : Type} (t : radix_tree V) : Nat := t.m_size

/-- Model of `radix_tree::empty()`. -/
def radix_tree.empty {V : Type} (t : radix_tree V) : Bool := decide (t.m_size = 0)

/-- Model of `radix_tree::clear()`: every node is deleted, a new root is allocated (the arena
starts over with it) and `m_size` is set to 0; `m_patterns` is not touched. -/
def radix_tree.clear {V : Type} (t : radix_tree V) : radix_tree V :=
  { t with nodes := [{}], m_root := 0, m_size := 0 }

/-- A call of one of the three members `insert`, `finish` and `clear`. -/
inductive Call (V : Type) where
  | insert (pattern : List Nat) (value : V)
  | finish (compfunc : V → V → Bool) (recall_limit : Nat)
  | clear

/-- Run a sequence of calls of `insert`, `finish` and `clear`. -/
def run_calls {V : Type} [DecidableEq V] (H : StdHeap V) (t : radix_tree V) :
    List (Call V) → Option (radix_tree V)
  | [] => some t
  | Call.insert pattern value :: rest =>
    match insert t pattern value with
    | none => none
    | some t1 => run_calls H t1 rest
  | Call.finish compfunc recall_limit :: rest =>
    match finish H t compfunc recall_limit with
    | none => none
    | some t1 => run_calls H t1 rest
  | Call.clear :: rest => run_calls H t.clear rest

/-! ## Ghost definitions used by the proofs -/

/-- Ghost: length of the codepoint slice that one iteration of the decoding loop emits at the
head of `s`; `none` when the iteration returns `false`. -/
def first_len (s : List Nat) : Option Nat :=
  if byteAt s 0 &&& 0x80 = 0 then some 1
  else
    match code_len_loop s 0 6 (byteAt s 0) 1 with
    | none => none
    | some code_len => if code_len = 1 then none else some code_len

/-- Ghost: `UTF8Decode` as a recursion on the bytes still to be read. -/
def decode_from : Nat → List Nat → Option (List Slice)
  | 0, _ => some []
  | fuel + 1, s =>
    if s = [] then some []
    else if byteAt s 0 = 0 then some []
    else
      match first_len s with
      | none => none
      | some cl => (decode_from fuel (s.drop cl)).map (fun d => s.take cl :: d)

/-- A slice that the decoder emits as one codepoint. -/
def IsCp (u : Slice) : Prop := u ≠ [] ∧ byteAt u 0 ≠ 0 ∧ first_len u = some u.length


/-- Whether `insert` accepts the pattern: it is non-empty and decodes to a non-empty list of
codepoints. -/
def accepted (p : List Nat) : Bool :=
  match UTF8Decode p with
  | none => false
  | some d => decide (p ≠ [] ∧ d ≠ [])

/-- The specification's answer to `match(q)` after the inserts `ops`: the values of the accepted
inserts whose pattern has `decode(q)` as a prefix of its codepoint list, in insertion order. -/
def prefix_values {V : Type} (ops : List (List Nat × V)) (q : List Nat) : List V :=
  match UTF8Decode q with
  | none => []
  | some dq =>
    (ops.filter (fun pv =>
      match UTF8Decode pv.1 with
      | none => false
      | some d => decide (pv.1 ≠ [] ∧ d ≠ [] ∧ dq <+: d))).map Prod.snd

/-- A reference implementation of the three heap algorithms, used to run the model: a list
sorted from most to least preferred under `¬ cmp a b` is a heap. -/
def refHeap (V : Type) : StdHeap V where
  push_heap := fun cmp l => l.insertionSort (fun a b => ¬ cmp a b)
  pop_heap := fun cmp l =>
    match l with
    | [] => []
    | x :: xs => xs.insertionSort (fun a b => ¬ cmp a b) ++ [x]
  sort_heap := fun cmp l => l.insertionSort (fun a b => ¬ cmp b a)

/-- Ghost: the leaf chain `chain` with the new leaf `b` linked in directly after `a`. -/
def ins_after (a b : Nat) : List Nat → List Nat
  | [] => []
  | x :: rest => if x = a then x :: b :: rest else x :: ins_after a b rest

/-- Ghost: in `chain`, every tail that contains `o` (or every tail at all when `o` is null, on a
non-empty chain) contains `n`. -/
def After (chain : List Nat) (o : Option Nat) (n : Nat) : Prop :=
  match o with
  | none => chain ≠ []
  | some a => ∀ A R, chain = A ++ R → a ∈ R → n ∈ R

/-- Representation invariant of the arena of a tree built by `insert`, over ghost data: the
global leaf chain `chain` (in link order), the byte label `lab` spelled from the root to each
interior node, the parent `par` of each interior node, and the accepted patterns `P`. -/
structure WF {V : Type} (ns : List (radix_tree_node V)) (chain : List Nat)
    (lab : Nat → List Nat) (par : Nat → Nat) (P : List (List Nat)) : Prop where
  root : ∃ r : radix_tree_node V, ns[0]? = some r ∧ r.m_value = none ∧ r.m_key = []
  root_first : ∀ r : radix_tree_node V, ns[0]? = some r → r.m_first = chain.head?
  lab_root : lab 0 = []
  child : ∀ (i : Nat) (n : radix_tree_node V) (k : Slice) (c : Nat), ns[i]? = some n → n.m_value = none → (k, c) ∈ n.m_children →
    ∃ cn, ns[c]? = some cn ∧ cn.m_value = none ∧ k ≠ [] ∧ k <+: cn.m_key ∧ par c = i ∧
      lab c = lab i ++ cn.m_key
  child_nodup : ∀ (i : Nat) (n : radix_tree_node V), ns[i]? = some n → n.m_value = none →
    (n.m_children.map Prod.snd).Nodup
  range : ∀ (i : Nat) (n : radix_tree_node V), ns[i]? = some n → n.m_value = none →
    (i = 0 ∧ chain = [] ∧ n.m_first = none ∧ n.m_last = none) ∨
      ∃ f l A R, n.m_first = some f ∧ n.m_last = some l ∧ chain = A ++ f :: R ∧ l ∈ f :: R
  chain_nodup : chain.Nodup
  chain_leaf : ∀ a : Nat, a ∈ chain ↔ ∃ n : radix_tree_node V, ns[a]? = some n ∧ n.m_value ≠ none
  chain_link : chain.Chain' (fun a b => ∃ na nb : radix_tree_node V, ns[a]? = some na ∧ ns[b]? = some nb ∧
    na.m_last = some b ∧ nb.m_first = some a)
  chain_end : ∀ a : Nat, chain.getLast? = some a → ∃ na : radix_tree_node V, ns[a]? = some na ∧ na.m_last = none
  label : ∀ (i : Nat) (n : radix_tree_node V), ns[i]? = some n → n.m_value = none → i ≠ 0 → ∃ p ∈ P, lab i <+: p

/-- What `find_node` returns on a well-formed arena for the codepoints `q`. -/
structure FindOK {V : Type} (ns : List (radix_tree_node V)) (lab : Nat → List Nat)
    (q : List Slice) (r : Nat × Nat × Nat) : Prop where
  node : ∃ n : radix_tree_node V, ns[r.1]? = some n ∧ n.m_value = none ∧ r.2.1 ≤ n.m_key.length ∧
    lab r.1 = (q.take r.2.2).flatten ++ n.m_key.drop r.2.1
  first : ∀ (i : Nat) (ni : radix_tree_node V) (k : Slice), ns[i]? = some ni → ni.m_value = none → (k, r.1) ∈ ni.m_children →
    k.length ≤ r.2.1
  depth_le : r.2.2 ≤ q.length
  stop : r.2.2 = q.length ∨ ∀ n : radix_tree_node V, ns[r.1]? = some n → r.2.1 < n.m_key.length ∨
    map_find n.m_children (q.getD r.2.2 []) = none

/-- The arena `ns1` arises from `ns` by the updates `update_node` makes: interior nodes may
have their `m_count` changed and their `m_last` moved from `old_last` to `new_last`. -/
def Bumped {V : Type} (old_last : Option Nat) (new_last : Nat)
    (ns ns1 : List (radix_tree_node V)) : Prop :=
  ns1.length = ns.length ∧
    ∀ (i : Nat) (n : radix_tree_node V), ns[i]? = some n → ∃ n1 : radix_tree_node V, ns1[i]? = some n1 ∧ n1.m_first = n.m_first ∧
      n1.m_key = n.m_key ∧ n1.m_children = n.m_children ∧ n1.m_heap = n.m_heap ∧
      n1.m_value = n.m_value ∧ (n.m_value ≠ none → n1 = n) ∧
      (n1.m_last = n.m_last ∨ (n.m_last = old_last ∧ n1.m_last = some new_last))

/-- Ghost: the chained leaf `n` at address `a` after the leaf `L` has been linked in behind
`tl`, whose old successor is `hd`. -/
def leaf_relinked {V : Type} (n : radix_tree_node V) (a tl L : Nat) (hd : Option Nat) :
    radix_tree_node V :=
  { n with m_last := (if a = tl then some L else n.m_last),
           m_first := (if some a = hd then some L else n.m_first) }

/-- Ghost: `match_node` after the attach branch has entered the node of the residual. -/
def attach_m {V : Type} (mn : radix_tree_node V) (q : List Slice) (key : Slice)
    (depth L : Nat) : radix_tree_node V :=
  { mn with m_children := (if depth ≠ q.length then
      map_assign mn.m_children (residual_child_key q key depth) (L + 1) else mn.m_children) }

/-- Ghost: the node `new_node1` of the residual, hosting the leaf `L`. -/
def residual_node {V : Type} (q : List Slice) (key : Slice) (depth L : Nat) :
    radix_tree_node V :=
  { m_key := residual_key q key depth, m_first := some L, m_last := some L }

/-- Ghost: the arena of the attach branch before the new leaf is linked in. -/
def attach_base {V : Type} (ns : List (radix_tree_node V)) (pats : List (List Nat))
    (q : List Slice) (key : Slice) (v : V) (m depth : Nat) (mn : radix_tree_node V) :
    List (radix_tree_node V) :=
  (if depth ≠ q.length then
      attach_residual (ns ++ [{ m_key := mn.m_key, m_value := some [v] }]) pats q key m
        ns.length depth
    else (ns ++ [{ m_key := mn.m_key, m_value := some [v] }], pats)).1

/-- Ghost: the new leaf of the attach branch before it is linked in. -/
def attach_leaf {V : Type} (mn : radix_tree_node V) (q : List Slice) (key : Slice) (v : V)
    (depth : Nat) : radix_tree_node V :=
  { m_key := (if depth ≠ q.length then residual_key q key depth else mn.m_key),
    m_value := some [v] }

/-- Ghost: `match_node` after the split branch: it keeps the matched prefix of its key and
gets the child `new_node` (at `L + 1`) and, when the pattern goes on, `new_node1` (at `L + 2`). -/
def split_m {V : Type} (mn : radix_tree_node V) (count : Nat) (q : List Slice) (key : Slice)
    (depth : Nat) (new_key : Slice) (L : Nat) : radix_tree_node V :=
  { mn with
    m_last := some L
    m_key := radix_substr mn.m_key 0 count
    m_children := (if depth ≠ q.length then
      map_assign (map_assign [] new_key (L + 1)) (residual_child_key q key depth) (L + 2)
      else map_assign [] new_key (L + 1))
    m_heap := none }

/-- Ghost: `new_node` of the split branch, the former `match_node` below the split point. -/
def split_node {V : Type} (mn : radix_tree_node V) (count : Nat) : radix_tree_node V :=
  { m_first := mn.m_first, m_last := mn.m_last, m_key := mn.m_key.drop count,
    m_children := mn.m_children, m_heap := mn.m_heap, m_count := mn.m_count }

/-- Ghost: the new leaf of the split branch, linked in behind `tl`. -/
def split_leaf {V : Type} (mn : radix_tree_node V) (count : Nat) (q : List Slice) (key : Slice)
    (v : V) (depth tl : Nat) (nxt : Option Nat) : radix_tree_node V :=
  { m_key := (if depth ≠ q.length then residual_key q key depth
      else radix_substr mn.m_key 0 count),
    m_value := some [v], m_first := some tl, m_last := nxt }

/-- Ghost: `match_node` right after `new_node->swap(*match_node)` and the assignment of its
shortened key. -/
def split_cleared {V : Type} (mn : radix_tree_node V) (count : Nat) : radix_tree_node V :=
  { mn with
    m_first := none
    m_last := none
    m_key := radix_substr mn.m_key 0 count
    m_children := []
    m_heap := none }

/-- No node of the arena carries a precomputed heap: `finish` has not run. -/
def NoHeap {V : Type} (ns : List (radix_tree_node V)) : Prop :=
  ∀ (j : Nat) (n : radix_tree_node V), ns[j]? = some n → n.m_heap = none

/-- The arenas `ns` and `ns1` have the same nodes up to their values, heaps and counts. -/
def SameShape {V : Type} (ns ns1 : List (radix_tree_node V)) : Prop :=
  ns1.length = ns.length ∧
    ∀ (i : Nat) (n : radix_tree_node V), ns[i]? = some n →
      ∃ n1 : radix_tree_node V, ns1[i]? = some n1 ∧ n1.m_first = n.m_first ∧
        n1.m_last = n.m_last ∧ n1.m_key = n.m_key ∧ n1.m_children = n.m_children ∧
        (n1.m_value = none ↔ n.m_value = none)

/-- What one call of `insert` does to the leaf chain `chain` of the tree `t`: nothing, or the
new leaf (at address `t.nodes.length`) becomes the whole chain of a tree without leaves, or it
is linked in directly behind `tl`, the last leaf of the node at which `find_node` stopped. -/
def ChainStep {V : Type} (t : radix_tree V) (p : List Nat) (chain chain1 : List Nat) : Prop :=
  chain1 = chain ∨ (chain = [] ∧ chain1 = [t.nodes.length]) ∨
    ∃ (l1 l2 : List Nat) (tl m cnt d : Nat) (mn : radix_tree_node V) (q : List Slice),
      UTF8Decode p = some q ∧ find_node t q = some (m, cnt, d) ∧ t.nodes[m]? = some mn ∧
        mn.m_last = some tl ∧ chain = l1 ++ tl :: l2 ∧
        chain1 = l1 ++ tl :: t.nodes.length :: l2

/-- The values stored in the leaf at address `a`. -/
def leaf_values {V : Type} (ns : List (radix_tree_node V)) (a : Nat) : List V :=
  match ns[a]? with
  | none => []
  | some n =>
    match n.m_value with
    | none => []
    | some vs => vs

/-- The clauses of the invariant at an interior node `i` with contents `n`. -/
structure NodeOK {V : Type} (ns : List (radix_tree_node V)) (chain : List Nat)
    (lab : Nat → List Nat) (par : Nat → Nat) (P : List (List Nat)) (i : Nat)
    (n : radix_tree_node V) : Prop where
  child : ∀ (k : Slice) (c : Nat), (k, c) ∈ n.m_children →
    ∃ cn : radix_tree_node V, ns[c]? = some cn ∧ cn.m_value = none ∧ k ≠ [] ∧
      k <+: cn.m_key ∧ par c = i ∧ lab c = lab i ++ cn.m_key
  child_nodup : (n.m_children.map Prod.snd).Nodup
  range : (i = 0 ∧ chain = [] ∧ n.m_first = none ∧ n.m_last = none) ∨
    ∃ f l A R, n.m_first = some f ∧ n.m_last = some l ∧ chain = A ++ f :: R ∧ l ∈ f :: R
  label : i ≠ 0 → ∃ p ∈ P, lab i <+: p

/-- Follow the `m_last` links of chained leaves from `cur` to the null pointer, collecting the
addresses visited. -/
def chain_walk {V : Type} (ns : List (radix_tree_node V)) : Nat → Option Nat → Option (List Nat)
  | _, none => some []
  | 0, some _ => none
  | fuel + 1, some a =>
    match ns[a]? with
    | none => none
    | some n => (chain_walk ns fuel n.m_last).map (fun r => a :: r)

/-- The leaf chain of a tree, read off the arena: the addresses reached from `m_root->m_first`
along the next-links. -/
def leaf_chain {V : Type} (t : radix_tree V) : Option (List Nat) :=
  match t.nodes[t.m_root]? with
  | none => none
  | some r => chain_walk t.nodes t.nodes.length r.m_first

/-- The comparator is a strict total order on the values. -/
structure StrictTotal {V : Type} (cmp : V → V → Bool) : Prop where
  irrefl : ∀ a : V, cmp a a = false
  trans : ∀ a b c : V, cmp a b = true → cmp b c = true → cmp a c = true
  total : ∀ a b : V, a ≠ b → cmp a b = true ∨ cmp b a = true

/-- The range is a heap with respect to `cmp` in the sense of `std::is_heap`: no element is
`cmp`-less than its child, the parent of position `i` being position `(i - 1) / 2`. -/
def IsHeap {V : Type} (cmp : V → V → Bool) (l : List V) : Prop :=
  ∀ (i : Nat) (a b : V), 0 < i → l[(i - 1) / 2]? = some a → l[i]? = some b → cmp a b = false

/-- The contract of the three heap algorithms for the comparator `cmp`, on ranges that meet
their preconditions: `push_heap` makes a heap out of a heap followed by one element,
`pop_heap` moves the first element of a heap to the end and leaves a heap in front of it,
`sort_heap` turns a heap into an ascending range, and each of them only rearranges. -/
structure StdHeap.Conforms {V : Type} (H : StdHeap V) (cmp : V → V → Bool) : Prop where
  push_perm : ∀ (l : List V) (x : V), IsHeap cmp l →
    (H.push_heap cmp (l ++ [x])).Perm (l ++ [x])
  push_heap : ∀ (l : List V) (x : V), IsHeap cmp l → IsHeap cmp (H.push_heap cmp (l ++ [x]))
  pop : ∀ (x : V) (l : List V), IsHeap cmp (x :: l) →
    ∃ l1, H.pop_heap cmp (x :: l) = l1 ++ [x] ∧ l1.Perm l ∧ IsHeap cmp l1
  sort_perm : ∀ l : List V, IsHeap cmp l → (H.sort_heap cmp l).Perm l
  sort_sorted : ∀ l : List V, IsHeap cmp l →
    (H.sort_heap cmp l).Pairwise (fun a b => cmp b a = false)

/-- The heap algorithms only rearrange the range they are given, whatever the comparator and
the range. -/
structure StdHeap.Permutes {V : Type} (H : StdHeap V) : Prop where
  push : ∀ (cmp : V → V → Bool) (l : List V), (H.push_heap cmp l).Perm l
  pop : ∀ (cmp : V → V → Bool) (l : List V), (H.pop_heap cmp l).Perm l
  sort : ∀ (cmp : V → V → Bool) (l : List V), (H.sort_heap cmp l).Perm l

/-- The specification's answer to the ranked `match`: the first `K` elements of the exhaustive
result `all` after removing duplicates and sorting `cmp`-preferred values first. -/
def ranked_spec {V : Type} [DecidableEq V] (cmp : V → V → Bool) (K : Nat) (all : List V) :
    List V :=
  ((all.dedup).insertionSort (fun a b => cmp b a = false)).take K

/-- Ghost invariant of the bounded heap: `heap` and the dropped values `dropped` together are
the distinct values `xs` fed so far, every kept value is preferred to every dropped one, and
values are dropped only from a full heap. -/
structure TopK {V : Type} (cmp : V → V → Bool) (K : Nat) (xs heap dropped : List V) : Prop where
  perm : (heap ++ dropped).Perm xs
  beats : ∀ a ∈ heap, ∀ b ∈ dropped, cmp a b = true
  is_heap : IsHeap cmp heap
  len : heap.length ≤ K
  full : dropped ≠ [] → heap.length = K

/-- Every precomputed heap of the arena is free of duplicates. -/
def HeapsNodup {V : Type} (ns : List (radix_tree_node V)) : Prop :=
  ∀ (j : Nat) (n : radix_tree_node V) (heap : List V), ns[j]? = some n →
    n.m_heap = some heap → heap.Nodup

/-- Invariant of the heap buffer and the `item_set` while values are fed: the buffer has no
duplicates and holds only values recorded in the set. -/
def HeapInv {V : Type} (st : List V × List V) : Prop :=
  st.1.Nodup ∧ ∀ x ∈ st.1, x ∈ st.2

/-- The comparator is a strict weak order: irreflexive, transitive, and "not preferred" is
transitive. -/
structure StrictWeak {V : Type} (cmp : V → V → Bool) : Prop where
  irrefl : ∀ a : V, cmp a a = false
  trans : ∀ a b c : V, cmp a b = true → cmp b c = true → cmp a c = true
  neg_trans : ∀ a b c : V, cmp a b = false → cmp b c = false → cmp a c = false

/-- The string truncated at its first NUL byte. -/
def until_nul (s : List Nat) : List Nat := s.takeWhile (fun b => b ≠ 0)

/-- The client loop `while (it.valid()) { emit it.value(); it.next(); }`, with the values
emitted so far in `acc`; `none` when a call does not return or the fuel runs out. -/
def drain {V : Type} (ns : List (radix_tree_node V)) :
    Nat → radix_tree_iter → List V → Option (List V)
  | 0, _, _ => none
  | fuel + 1, it, acc =>
    match it.valid ns with
    | none => none
    | some false => some acc
    | some true =>
      match it.value ns, it.next ns with
      | some v, some it1 => drain ns fuel it1 (acc ++ [v])
      | _, _ => none

/-- Ghost: the walk shared by `find_node` and `update_node` over the codepoints `q`, started at
node `x` (whose edge is consumed) with `dx` codepoints consumed: it visits the nodes `path`
(from `x` on) and stops at node `m` with `cnt` bytes of its edge and `d` codepoints consumed. -/
inductive Steps {V : Type} (ns : List (radix_tree_node V)) (q : List Slice) :
    Nat → Nat → List Nat → Nat → Nat → Nat → Prop
  | exhausted (x dx : Nat) (n : radix_tree_node V) : ns[x]? = some n → q.length ≤ dx →
      Steps ns q x dx [x] x n.m_key.length dx
  | nochild (x dx : Nat) (n : radix_tree_node V) : ns[x]? = some n → dx < q.length →
      map_find n.m_children (q.getD dx []) = none → Steps ns q x dx [x] x n.m_key.length dx
  | midedge (x dx : Nat) (n : radix_tree_node V) (c : Nat) (cn : radix_tree_node V) :
      ns[x]? = some n → dx < q.length → map_find n.m_children (q.getD dx []) = some c →
      ns[c]? = some cn → (match_edge cn.m_key (q.drop dx) 0 dx).1 < cn.m_key.length →
      Steps ns q x dx [x, c] c (match_edge cn.m_key (q.drop dx) 0 dx).1
        (match_edge cn.m_key (q.drop dx) 0 dx).2
  | step (x dx : Nat) (n : radix_tree_node V) (c : Nat) (cn : radix_tree_node V)
      (path : List Nat) (m cnt d : Nat) :
      ns[x]? = some n → dx < q.length → map_find n.m_children (q.getD dx []) = some c →
      ns[c]? = some cn → (match_edge cn.m_key (q.drop dx) 0 dx).1 = cn.m_key.length →
      dx < (match_edge cn.m_key (q.drop dx) 0 dx).2 →
      Steps ns q c (match_edge cn.m_key (q.drop dx) 0 dx).2 path m cnt d →
      Steps ns q x dx (x :: path) m cnt d

/-- The arena `ns1` has the nodes of `ns` with the same edge labels and child maps. -/
def KeyEq {V : Type} (ns ns1 : List (radix_tree_node V)) : Prop :=
  ∀ (j : Nat) (n : radix_tree_node V), ns[j]? = some n →
    ∃ n1 : radix_tree_node V, ns1[j]? = some n1 ∧ n1.m_key = n.m_key ∧
      n1.m_children = n.m_children

/-- The node after `++m_count; if (old_last == m_last) m_last = new_last;`. -/
def bumped {V : Type} (old_last : Option Nat) (new_last : Nat) (n : radix_tree_node V) :
    radix_tree_node V :=
  { n with m_count := n.m_count + 1,
           m_last := if old_last = n.m_last then some new_last else n.m_last }

/-- Ghost: the leaves of `chain` that have the interior node `x` among their ancestors, in
chain order. -/
def run_of (anc : Nat → List Nat) (chain : List Nat) (x : Nat) : List Nat :=
  chain.filter (fun a => decide (x ∈ anc a))

/-- The address `i` holds an interior node. -/
def Interior {V : Type} (ns : List (radix_tree_node V)) (i : Nat) : Prop :=
  ∃ n : radix_tree_node V, ns[i]? = some n ∧ n.m_value = none

/-- Second part of the representation invariant, over the ghost ancestor lists `anc`: for an
interior node `anc` lists the interior nodes from the root down to the node itself, for a leaf
down to the node that hosts it.  The run of a node is the set of leaves below it; it is a
contiguous piece of the chain, delimited by `m_first` and `m_last` and counted by `m_count`. -/
structure WF2 {V : Type} (ns : List (radix_tree_node V)) (chain : List Nat)
    (anc : Nat → List Nat) : Prop where
  anc_root : anc 0 = [0]
  anc_child : ∀ (i : Nat) (n : radix_tree_node V) (k : Slice) (c : Nat), ns[i]? = some n →
    n.m_value = none → (k, c) ∈ n.m_children → anc c = anc i ++ [c]
  anc_self : ∀ (i : Nat) (n : radix_tree_node V), ns[i]? = some n → n.m_value = none →
    (anc i).getLast? = some i
  anc_pref : ∀ (z y : Nat), (z ∈ chain ∨ Interior ns z) → y ∈ anc z →
    Interior ns y ∧ anc y <+: anc z
  anc_nodup : ∀ z : Nat, (z ∈ chain ∨ Interior ns z) → (anc z).Nodup
  run : ∀ (i : Nat) (n : radix_tree_node V), ns[i]? = some n → n.m_value = none →
    n.m_count = (run_of anc chain i).length ∧ n.m_first = (run_of anc chain i).head? ∧
      n.m_last = (run_of anc chain i).getLast? ∧ run_of anc chain i <:+: chain
  host : ∀ (i : Nat) (n : radix_tree_node V), ns[i]? = some n → n.m_value = none → i ≠ 0 →
    n.m_children.length ≤ 1 → ∃ a ∈ chain, anc a = anc i
  key : ∀ (i : Nat) (n : radix_tree_node V) (k : Slice) (c : Nat), ns[i]? = some n →
    n.m_value = none → (k, c) ∈ n.m_children →
    ∃ cn : radix_tree_node V, ns[c]? = some cn ∧ SliceDecode cn.m_key = some k
  keys : ∀ (i : Nat) (n : radix_tree_node V), ns[i]? = some n → n.m_value = none →
    (n.m_children.map Prod.fst).Nodup

/-- Ghost: the ancestor lists after the split branch has split the edge into `m`: the new leaf
`L` hangs below `m` (through `new_node1` at `L + 2` when the pattern goes on), and whatever was
below `m` is now below `new_node` at `L + 1`. -/
def split_anc (anc : Nat → List Nat) (m L : Nat) (res : Prop) [Decidable res] (z : Nat) :
    List Nat :=
  if z = L then (if res then anc m ++ [L + 2] else anc m)
  else if z = L + 1 then anc m ++ [L + 1]
  else if z = L + 2 then anc m ++ [L + 2]
  else if z ≠ m ∧ m ∈ anc z then anc m ++ (L + 1) :: (anc z).drop (anc m).length
  else anc z

/-- Ghost: the ancestor lists after the attach branch has hung the leaf `L` below `m` through
`new_node1` at `L + 1`. -/
def attach_anc (anc : Nat → List Nat) (m L : Nat) (z : Nat) : List Nat :=
  if z = L ∨ z = L + 1 then anc m ++ [L + 1] else anc z

/-- Every child-map entry of an interior node `i` of `ns` is an entry of an interior node of
`ns1`: of the node at the same address, or of the node at the address `ns.length + 1`, which is
the `new_node` that takes over the child map of `match_node` in the split branch of `insert` and
is then a child of `i`. -/
def Survive {V : Type} (ns ns1 : List (radix_tree_node V)) : Prop :=
  ∀ (i : Nat) (n : radix_tree_node V) (k : Slice) (c : Nat), ns[i]? = some n →
    n.m_value = none → (k, c) ∈ n.m_children →
    ∃ (j : Nat) (n1 : radix_tree_node V),
      (j = i ∨ (j = ns.length + 1 ∧ ∃ (ni : radix_tree_node V) (kj : Slice),
        ns1[i]? = some ni ∧ (kj, j) ∈ ni.m_children)) ∧
      ns1[j]? = some n1 ∧ n1.m_value = none ∧ (k, c) ∈ n1.m_children

/-- No node of the arena carries an empty vector of values. -/
def LeafNE {V : Type} (ns : List (radix_tree_node V)) : Prop :=
  ∀ (a : Nat) (n : radix_tree_node V), ns[a]? = some n → n.m_value ≠ some []

/-- The client loop `while (it.valid()) { emit it.value(); it.next(); }`, recording with every
emitted value the leaf `m_current` it was read from; `none` when a call does not return or the
fuel runs out. -/
def drain_trace {V : Type} (ns : List (radix_tree_node V)) :
    Nat → radix_tree_iter → List (Nat × V) → Option (List (Nat × V))
  | 0, _, _ => none
  | fuel + 1, it, acc =>
    match it.valid ns with
    | none => none
    | some false => some acc
    | some true =>
      match it.m_current, it.value ns, it.next ns with
      | some cur, some v, some it1 => drain_trace ns fuel it1 (acc ++ [(cur, v)])
      | _, _, _ => none

/-- The nodes reachable from `root` through child maps, `root` included. -/
inductive Reach {V : Type} (ns : List (radix_tree_node V)) (root : Nat) : Nat → Prop
  | root : Reach ns root root
  | child (i c : Nat) (n : radix_tree_node V) (k : Slice) : Reach ns root i →
      ns[i]? = some n → (k, c) ∈ n.m_children → Reach ns root c

/-- Walk the leaf chain from `cur` through the next-links up to and including `last`,
collecting the addresses of the leaves visited (none when `cur` is null); `none` when a link
leaves the arena or the fuel runs out before `last` or the null pointer is reached. -/
def range_walk {V : Type} (ns : List (radix_tree_node V)) (last : Option Nat) :
    Nat → Option Nat → Option (List Nat)
  | _, none => some []
  | 0, some _ => none
  | fuel + 1, some a =>
    match ns[a]? with
    | none => none
    | some n =>
      if some a = last then some [a]
      else (range_walk ns last fuel n.m_last).map (fun r => a :: r)

/-! ## The codepoint segmenter -/

theorem byteAt_of_le {s : List Nat} {i : Nat} (h : s.length ≤ i) : byteAt s i = 0 := by
  simp [byteAt, List.getD_eq_getElem?_getD, List.getElem?_eq_none h]

theorem byteAt_drop (s : List Nat) (i k : Nat) : byteAt s (i + k) = byteAt (s.drop i) k := by
  simp [byteAt, List.getD_eq_getElem?_getD, List.getElem?_drop]

theorem cont_lt {s : List Nat} {k : Nat} (h : ¬ (byteAt s k &&& 0xC0 ≠ 0x80)) : k < s.length := by
  by_contra hk
  rw [byteAt_of_le (not_lt.mp hk)] at h
  exact h (by decide)

theorem code_len_loop_drop (str : List Nat) (i : Nat) (n c k : Nat) :
    code_len_loop str i n c k = code_len_loop (str.drop i) 0 n c k := by
  induction n generalizing c k with
  | zero => rfl
  | succ n ih =>
    simp only [code_len_loop, byteAt_drop, Nat.zero_add]
    split_ifs <;> first | rfl | exact ih _ _

theorem code_len_loop_ge {s : List Nat} {n c k cl : Nat}
    (h : code_len_loop s 0 n c k = some cl) : k ≤ cl := by
  induction n generalizing c k with
  | zero => simp [code_len_loop] at h; omega
  | succ n ih =>
    simp only [code_len_loop] at h
    split_ifs at h with h1 h2
    · have := ih h; omega
    · simp at h; omega

theorem code_len_loop_le {s : List Nat} {n c k cl : Nat}
    (h : code_len_loop s 0 n c k = some cl) (hk : k ≤ s.length) : cl ≤ s.length := by
  induction n generalizing c k with
  | zero => simp [code_len_loop] at h; omega
  | succ n ih =>
    simp only [code_len_loop] at h
    split_ifs at h with h1 h2
    · have := cont_lt h2
      simp only [Nat.zero_add] at this
      exact ih h (by omega)
    · simp at h; omega

/-- The scan reads only the bytes of the slice it delimits. -/
theorem code_len_loop_congr {s s' : List Nat} {n c k cl : Nat}
    (h : code_len_loop s 0 n c k = some cl) (hs : ∀ j, j < cl → byteAt s' j = byteAt s j) :
    code_len_loop s' 0 n c k = some cl := by
  induction n generalizing c k with
  | zero => simpa [code_len_loop] using h
  | succ n ih =>
    simp only [code_len_loop] at h ⊢
    split_ifs at h with h1 h2
    · have hge := code_len_loop_ge h
      rw [if_pos h1, hs _ (by omega : 0 + k < cl), if_neg h2]
      exact ih h
    · rw [if_neg h1]; exact h

/-- The length found by the scan is a function of the lead byte alone. -/
theorem code_len_loop_det {s s' : List Nat} {n c k a b : Nat}
    (h : code_len_loop s 0 n c k = some a) (h' : code_len_loop s' 0 n c k = some b) : a = b := by
  induction n generalizing c k with
  | zero => simp [code_len_loop] at h h'; omega
  | succ n ih =>
    simp only [code_len_loop] at h h'
    split_ifs at h h' with h1 h2 h3
    · exact ih h h'
    · simp at h h'; omega

/-- A scan that would run past the end of a truncated slice fails on the terminator. -/
theorem code_len_loop_trunc {s s' : List Nat} {n c k cl m : Nat}
    (h : code_len_loop s 0 n c k = some cl) (hk : k ≤ m) (hm : m < cl)
    (hs : ∀ j, j < m → byteAt s' j = byteAt s j) (hm0 : byteAt s' m = 0) :
    code_len_loop s' 0 n c k = none := by
  induction n generalizing c k with
  | zero => simp [code_len_loop] at h; omega
  | succ n ih =>
    simp only [code_len_loop] at h ⊢
    split_ifs at h with h1 h2
    · rw [if_pos h1]
      by_cases hkm : k = m
      · subst hkm
        simp only [Nat.zero_add, hm0]
        rw [if_pos (by decide)]
      · rw [hs _ (by omega : 0 + k < m), if_neg h2]
        exact ih h (by omega)
    · simp at h; omega

theorem first_len_pos {s : List Nat} {cl : Nat} (h : first_len s = some cl) : 1 ≤ cl := by
  unfold first_len at h
  split_ifs at h
  · simp at h; omega
  · split at h
    · simp at h
    · rename_i c hc
      have := code_len_loop_ge hc
      split_ifs at h
      simp at h; omega

theorem first_len_le {s : List Nat} {cl : Nat} (h : first_len s = some cl) (hs : s ≠ []) :
    cl ≤ s.length := by
  have hl : 1 ≤ s.length := by
    cases s with
    | nil => exact absurd rfl hs
    | cons a t => simp
  unfold first_len at h
  split_ifs at h
  · simp at h; omega
  · split at h
    · simp at h
    · rename_i c hc
      have := code_len_loop_le hc hl
      split_ifs at h
      simp at h; omega

theorem first_len_congr {s s' : List Nat} {cl : Nat} (h : first_len s = some cl)
    (hs : ∀ j, j < cl → byteAt s' j = byteAt s j) : first_len s' = some cl := by
  have h0 : byteAt s' 0 = byteAt s 0 := hs 0 (first_len_pos h)
  unfold first_len at h ⊢
  rw [h0]
  split_ifs at h with h1
  · rw [if_pos h1]; exact h
  · rw [if_neg h1]
    split at h
    · simp at h
    · rename_i c hc
      split_ifs at h with h2
      simp only [Option.some.injEq] at h
      subst h
      rw [code_len_loop_congr hc hs]
      simp [h2]

theorem first_len_det {s s' : List Nat} {a b : Nat} (h : first_len s = some a)
    (h' : first_len s' = some b) (h0 : byteAt s' 0 = byteAt s 0) : a = b := by
  unfold first_len at h h'
  rw [h0] at h'
  split_ifs at h h' with h1
  · simp at h h'; omega
  · split at h
    · simp at h
    · rename_i c hc
      split at h'
      · simp at h'
      · rename_i c' hc'
        have := code_len_loop_det hc hc'
        split_ifs at h h'
        simp at h h'; omega

theorem byteAt_take {s : List Nat} {j m : Nat} (h : j < m) : byteAt (s.take m) j = byteAt s j := by
  simp [byteAt, List.getD_eq_getElem?_getD, List.getElem?_take, h]

theorem byteAt_append_left {s x : List Nat} {j : Nat} (h : j < s.length) :
    byteAt (s ++ x) j = byteAt s j := by
  simp [byteAt, List.getD_eq_getElem?_getD, List.getElem?_append_left h]

theorem UTF8Decode_loop_eq (key : List Nat) (fuel i : Nat) (acc : List Slice) :
    UTF8Decode_loop key fuel i acc = (decode_from fuel (key.drop i)).map (fun d => acc ++ d) := by
  induction fuel generalizing i acc with
  | zero => simp [UTF8Decode_loop, decode_from]
  | succ fuel ih =>
    unfold UTF8Decode_loop decode_from
    by_cases hi : i < key.length
    · have hne : key.drop i ≠ [] := by simp; omega
      have hb : byteAt (key.drop i) 0 = byteAt key i := by
        have := byteAt_drop key i 0
        simpa using this.symm
      rw [if_pos hi, if_neg hne, hb]
      by_cases h0 : byteAt key i = 0
      · simp [h0]
      · rw [if_neg h0, if_neg h0]
        by_cases ha : byteAt key i &&& 0x80 = 0
        · have hf : first_len (key.drop i) = some 1 := by
            unfold first_len; rw [hb, if_pos ha]
          rw [if_pos ha, hf, ih]
          simp only [List.drop_drop, Nat.add_comm, Option.map_map]
          congr 1; funext d; simp
        · rw [if_neg ha]
          have hf : first_len (key.drop i) =
              match code_len_loop key i 6 (byteAt key i) 1 with
              | none => none
              | some code_len => if code_len = 1 then none else some code_len := by
            unfold first_len; rw [hb, if_neg ha, ← code_len_loop_drop]
          rw [hf]
          cases hc : code_len_loop key i 6 (byteAt key i) 1 with
          | none => simp
          | some cl =>
            by_cases h1 : cl = 1
            · simp [h1]
            · simp only [h1, if_false, ih]
              simp only [List.drop_drop, Nat.add_comm, Option.map_map]
              congr 1; funext d; simp
    · have he : key.drop i = [] := by simp; omega
      rw [if_neg hi, if_pos he]; simp

theorem UTF8Decode_eq (key : List Nat) : UTF8Decode key = decode_from key.length key := by
  simp [UTF8Decode, UTF8Decode_loop_eq]

theorem decode_from_fuel {s : List Nat} {f g : Nat} (hf : s.length ≤ f) (hg : s.length ≤ g) :
    decode_from f s = decode_from g s := by
  induction f generalizing s g with
  | zero =>
    have : s = [] := List.length_eq_zero.mp (by omega)
    subst this
    cases g <;> simp [decode_from]
  | succ f ih =>
    cases g with
    | zero =>
      have : s = [] := List.length_eq_zero.mp (by omega)
      subst this
      simp [decode_from]
    | succ g =>
      unfold decode_from
      by_cases hs : s = []
      · simp [hs]
      · rw [if_neg hs, if_neg hs]
        by_cases h0 : byteAt s 0 = 0
        · simp [h0]
        · rw [if_neg h0, if_neg h0]
          cases hc : first_len s with
          | none => rfl
          | some cl =>
            have h1 := first_len_pos hc
            have hl : 0 < s.length := List.length_pos.mpr hs
            simp only
            rw [ih (g := g) (by simp; omega) (by simp; omega)]

theorem UTF8Decode_nil : UTF8Decode [] = some [] := by
  simp [UTF8Decode, UTF8Decode_loop]

theorem UTF8Decode_nul (rest : List Nat) : UTF8Decode (0 :: rest) = some [] := by
  simp [UTF8Decode, UTF8Decode_loop, byteAt]

theorem isCp_take {s : List Nat} {cl : Nat} (hs : s ≠ []) (h0 : byteAt s 0 ≠ 0)
    (h : first_len s = some cl) : IsCp (s.take cl) := by
  have h1 := first_len_pos h
  have h2 := first_len_le h hs
  have hlen : (s.take cl).length = cl := by simp; omega
  refine ⟨?_, ?_, ?_⟩
  · intro he; rw [he] at hlen; simp at hlen; omega
  · rw [byteAt_take (by omega)]; exact h0
  · rw [hlen]
    exact first_len_congr h (fun j hj => byteAt_take hj)

theorem decode_from_spec {fuel : Nat} {s : List Nat} {d : List Slice}
    (h : decode_from fuel s = some d) (hf : s.length ≤ fuel) :
    ∃ z, s = d.flatten ++ z ∧ (z = [] ∨ z.head? = some 0) ∧ ∀ u ∈ d, IsCp u := by
  induction fuel generalizing s d with
  | zero =>
    have : s = [] := List.length_eq_zero.mp (by omega)
    subst this
    simp [decode_from] at h; subst h
    exact ⟨[], by simp⟩
  | succ fuel ih =>
    unfold decode_from at h
    by_cases hs : s = []
    · subst hs; simp at h; subst h; exact ⟨[], by simp⟩
    · rw [if_neg hs] at h
      by_cases h0 : byteAt s 0 = 0
      · rw [if_pos h0] at h
        simp at h; subst h
        refine ⟨s, by simp, Or.inr ?_, by simp⟩
        cases s with
        | nil => exact absurd rfl hs
        | cons a t => simpa [byteAt] using h0
      · rw [if_neg h0] at h
        cases hc : first_len s with
        | none => simp [hc] at h
        | some cl =>
          rw [hc] at h
          simp only [Option.map_eq_some'] at h
          obtain ⟨d', hd', rfl⟩ := h
          have h1 := first_len_pos hc
          have hl : 0 < s.length := List.length_pos.mpr hs
          obtain ⟨z, hz, hz0, hcp⟩ := ih hd' (by simp; omega)
          refine ⟨z, ?_, hz0, ?_⟩
          · rw [List.flatten_cons, List.append_assoc, ← hz, List.take_append_drop]
          · intro u hu
            rcases List.mem_cons.mp hu with rfl | hu
            · exact isCp_take hs h0 hc
            · exact hcp u hu

/-- A successful decode splits the string into codepoint slices followed by nothing or by a
NUL byte and whatever follows it. -/
theorem UTF8Decode_spec {p : List Nat} {d : List Slice} (h : UTF8Decode p = some d) :
    ∃ z, p = d.flatten ++ z ∧ (z = [] ∨ z.head? = some 0) ∧ ∀ u ∈ d, IsCp u := by
  rw [UTF8Decode_eq] at h
  exact decode_from_spec h le_rfl

theorem first_len_append {u x : List Nat} (h : IsCp u) : first_len (u ++ x) = some u.length :=
  first_len_congr h.2.2 (fun _ hj => byteAt_append_left hj)

theorem UTF8Decode_append {d : List Slice} (hd : ∀ u ∈ d, IsCp u) (rest : List Nat) :
    UTF8Decode (d.flatten ++ rest) = (UTF8Decode rest).map (fun r => d ++ r) := by
  induction d with
  | nil => simp
  | cons u d ih =>
    have hu := hd u (List.mem_cons_self _ _)
    have ih' := ih (fun v hv => hd v (List.mem_cons_of_mem _ hv))
    rw [UTF8Decode_eq] at ih' ⊢
    have hne : u ++ d.flatten ++ rest ≠ [] := by
      intro he
      have := hu.1
      simp at he; exact this he.1
    have hul : 0 < u.length := List.length_pos.mpr hu.1
    rw [List.flatten_cons]
    obtain ⟨n, hn⟩ : ∃ n, (u ++ d.flatten ++ rest).length = n + 1 :=
      ⟨(u ++ d.flatten ++ rest).length - 1, by simp; omega⟩
    rw [hn]
    unfold decode_from
    rw [if_neg hne]
    have hb : byteAt (u ++ d.flatten ++ rest) 0 = byteAt u 0 := by
      rw [List.append_assoc]; exact byteAt_append_left hul
    rw [hb, if_neg hu.2.1]
    have hf : first_len (u ++ d.flatten ++ rest) = some u.length := by
      rw [List.append_assoc]; exact first_len_append hu
    rw [hf]
    simp only [List.append_assoc, List.drop_left', List.take_left']
    rw [decode_from_fuel (g := (d.flatten ++ rest).length) (by simp at hn ⊢; omega) le_rfl, ih']
    rw [UTF8Decode_eq]
    cases decode_from rest.length rest <;> simp

/-- The decoder's slices form a prefix code: a byte prefix made of whole codepoints is a prefix
of the codepoint list. -/
theorem prefix_code {q d : List Slice} {z : List Nat} (hq : ∀ u ∈ q, IsCp u)
    (hd : ∀ u ∈ d, IsCp u) (hz : z = [] ∨ z.head? = some 0) (h : q.flatten <+: d.flatten ++ z) :
    q <+: d := by
  induction q generalizing d with
  | nil => exact List.nil_prefix
  | cons u q ih =>
    have hu := hq u (List.mem_cons_self _ _)
    have hul : 0 < u.length := List.length_pos.mpr hu.1
    obtain ⟨w, hw⟩ := h
    rw [List.flatten_cons, List.append_assoc] at hw
    cases d with
    | nil =>
      exfalso
      simp only [List.flatten_nil, List.nil_append] at hw
      rcases hz with rfl | hz
      · exact hu.1 (List.append_eq_nil.mp hw).1
      · have hb : byteAt z 0 = byteAt u 0 := by
          rw [← hw]; exact byteAt_append_left hul
        apply hu.2.1
        rw [← hb]
        cases z with
        | nil => simp at hz
        | cons a t => simpa [byteAt] using hz
    | cons e d =>
      have he := hd e (List.mem_cons_self _ _)
      have hel : 0 < e.length := List.length_pos.mpr he.1
      rw [List.flatten_cons, List.append_assoc] at hw
      have hb : byteAt e 0 = byteAt u 0 := by
        have h1 : byteAt (u ++ (q.flatten ++ w)) 0 = byteAt u 0 := byteAt_append_left hul
        have h2 : byteAt (e ++ (d.flatten ++ z)) 0 = byteAt e 0 := byteAt_append_left hel
        rw [← h1, ← h2, hw]
      have hlen : u.length = e.length := by
        have h1 := first_len_append (x := q.flatten ++ w) hu
        have h2 := first_len_append (x := d.flatten ++ z) he
        rw [hw] at h1
        rw [h1] at h2
        exact Option.some.inj h2
      have hue : u = e := by
        have := List.append_inj_left hw hlen
        exact this
      subst hue
      have hw' := List.append_cancel_left hw
      have := ih (fun v hv => hq v (List.mem_cons_of_mem _ hv))
        (fun v hv => hd v (List.mem_cons_of_mem _ hv)) ⟨w, hw'⟩
      exact (List.prefix_cons_inj u).mpr this

/-- A key that stops inside a multi-byte codepoint does not decode. -/
theorem UTF8Decode_truncated {u : Slice} (hu : IsCp u) {k : Nat} (hk : 0 < k)
    (hku : k < u.length) : UTF8Decode (u.take k) = none := by
  rw [UTF8Decode_eq]
  have hlen : (u.take k).length = (k - 1) + 1 := by simp; omega
  rw [hlen]
  unfold decode_from
  have hne : u.take k ≠ [] := by
    intro he; rw [he] at hlen; simp at hlen
  have hb : byteAt (u.take k) 0 = byteAt u 0 := byteAt_take hk
  rw [if_neg hne, hb, if_neg hu.2.1]
  have hf : first_len (u.take k) = none := by
    have h := hu.2.2
    unfold first_len at h ⊢
    rw [hb]
    split_ifs at h with h1
    · simp at h; omega
    · rw [if_neg h1]
      split at h
      · simp at h
      · rename_i c hc
        split_ifs at h with h2
        simp only [Option.some.injEq] at h
        subst h
        rw [code_len_loop_trunc hc (m := k) (by omega) hku (fun j hj => byteAt_take hj)
          (byteAt_of_le (by simp))]
  rw [hf]

/-! ## Arena updates -/

theorem length_upd {V : Type} (ns : List (radix_tree_node V)) (i : Nat)
    (f : radix_tree_node V → radix_tree_node V) : (upd ns i f).length = ns.length := by
  unfold upd; split <;> simp

theorem getElem?_upd {V : Type} (ns : List (radix_tree_node V)) (i j : Nat)
    (f : radix_tree_node V → radix_tree_node V) :
    (upd ns i f)[j]? = if j = i then (ns[i]?).map f else ns[j]? := by
  unfold upd
  split
  · rename_i h
    split_ifs with hj
    · subst hj; simp [h]
    · rfl
  · rename_i n h
    have hi : i < ns.length := (List.getElem?_eq_some.mp h).1
    rw [List.getElem?_set]
    split_ifs with h1 h2 h3
    · simp [h]
    · exact absurd h1.symm h2
    · exact absurd h3.symm h1
    · rfl

theorem getElem?_upd_self {V : Type} (ns : List (radix_tree_node V)) (i : Nat)
    (f : radix_tree_node V → radix_tree_node V) : (upd ns i f)[i]? = (ns[i]?).map f := by
  rw [getElem?_upd, if_pos rfl]

theorem getElem?_upd_ne {V : Type} (ns : List (radix_tree_node V)) {i j : Nat}
    (f : radix_tree_node V → radix_tree_node V) (h : j ≠ i) : (upd ns i f)[j]? = ns[j]? := by
  rw [getElem?_upd, if_neg h]

theorem lt_of_getElem? {V : Type} {ns : List (radix_tree_node V)} {i : Nat}
    {n : radix_tree_node V} (h : ns[i]? = some n) : i < ns.length :=
  (List.getElem?_eq_some.mp h).1

/-! ## The child map -/

theorem map_find_mem {l : List (Slice × Nat)} {k : Slice} {c : Nat}
    (h : map_find l k = some c) : (k, c) ∈ l := by
  induction l with
  | nil => simp [map_find] at h
  | cons e rest ih =>
    obtain ⟨k1, v1⟩ := e
    simp only [map_find] at h
    split_ifs at h with hk
    · simp only [Option.some.injEq] at h
      subst hk; subst h
      exact List.mem_cons_self _ _
    · exact List.mem_cons_of_mem _ (ih h)

theorem mem_map_assign {l : List (Slice × Nat)} {k : Slice} {v : Nat} {e : Slice × Nat}
    (h : e ∈ map_assign l k v) : e = (k, v) ∨ e ∈ l := by
  induction l with
  | nil => simp [map_assign] at h; exact Or.inl h
  | cons e1 rest ih =>
    obtain ⟨k1, v1⟩ := e1
    simp only [map_assign] at h
    split_ifs at h with h1 h2
    · rcases List.mem_cons.mp h with h | h
      · exact Or.inl h
      · exact Or.inr (List.mem_cons_of_mem _ h)
    · rcases List.mem_cons.mp h with h | h
      · exact Or.inl h
      · exact Or.inr h
    · rcases List.mem_cons.mp h with h | h
      · exact Or.inr (h ▸ List.mem_cons_self _ _)
      · rcases ih h with h | h
        · exact Or.inl h
        · exact Or.inr (List.mem_cons_of_mem _ h)

theorem map_assign_nodup {l : List (Slice × Nat)} {k : Slice} {v : Nat}
    (h : (l.map Prod.snd).Nodup) (hv : v ∉ l.map Prod.snd) :
    ((map_assign l k v).map Prod.snd).Nodup := by
  induction l with
  | nil => simp [map_assign]
  | cons e1 rest ih =>
    obtain ⟨k1, v1⟩ := e1
    simp only [List.map_cons, List.nodup_cons, List.mem_cons, not_or] at h hv
    simp only [map_assign]
    split_ifs with h1 h2
    · simp only [List.map_cons, List.nodup_cons]
      exact ⟨hv.2, h.2⟩
    · simp only [List.map_cons, List.nodup_cons, List.mem_cons, not_or]
      exact ⟨⟨hv.1, hv.2⟩, h.1, h.2⟩
    · simp only [List.map_cons, List.nodup_cons]
      refine ⟨?_, ih h.2 hv.2⟩
      intro hm
      obtain ⟨e, he, hev⟩ := List.mem_map.mp hm
      rcases mem_map_assign he with rfl | he
      · exact hv.1 hev
      · exact h.1 (hev ▸ List.mem_map_of_mem _ he)

theorem snd_nodup_key_eq {l : List (Slice × Nat)} {k k1 : Slice} {c : Nat}
    (h : (l.map Prod.snd).Nodup) (h1 : (k, c) ∈ l) (h2 : (k1, c) ∈ l) : k = k1 := by
  induction l with
  | nil => simp at h1
  | cons e rest ih =>
    simp only [List.map_cons, List.nodup_cons] at h
    rcases List.mem_cons.mp h1 with a1 | a1 <;> rcases List.mem_cons.mp h2 with a2 | a2
    · rw [← a1] at a2; exact (Prod.mk.inj a2).1.symm
    · have := List.mem_map_of_mem Prod.snd a2
      rw [← a1] at h
      exact absurd this h.1
    · have := List.mem_map_of_mem Prod.snd a1
      rw [← a2] at h
      exact absurd this h.1
    · exact ih h.2 a1 a2

/-! ## Matching a query against an edge label -/

theorem radix_substr_eq {key : Slice} {b num : Nat} (h : b + num ≤ key.length) :
    radix_substr key b num = (key.drop b).take num := by
  unfold radix_substr; rw [if_neg (by omega)]

theorem match_edge_spec (m_key : Slice) (us : List Slice) (count depth : Nat)
    (hc : count ≤ m_key.length) :
    count ≤ (match_edge m_key us count depth).1 ∧
      (match_edge m_key us count depth).1 ≤ m_key.length ∧
      ∃ j, (match_edge m_key us count depth).2 = depth + j ∧ j ≤ us.length ∧
        m_key.take (match_edge m_key us count depth).1 =
          m_key.take count ++ (us.take j).flatten := by
  induction us generalizing count depth with
  | nil => exact ⟨le_rfl, hc, 0, by simp [match_edge]⟩
  | cons u us ih =>
    unfold match_edge
    split_ifs with h1 h2
    · exact ⟨le_rfl, hc, 0, by simp⟩
    · push_neg at h2
      obtain ⟨h2, h3⟩ := h2
      have hle : count + u.length ≤ m_key.length := by omega
      obtain ⟨ha, hb, j, hj, hjl, hjt⟩ := ih (count + u.length) (depth + 1) hle
      refine ⟨by omega, hb, j + 1, by omega, by simp; omega, ?_⟩
      have hu : (m_key.drop count).take u.length = u := by
        rw [← radix_substr_eq hle]; exact h3.symm
      rw [hjt, List.take_succ_cons, List.flatten_cons, ← List.append_assoc]
      congr 1
      rw [List.take_add, hu]
    · exact ⟨le_rfl, hc, 0, by simp⟩

theorem match_edge_first {m_key u : Slice} (us : List Slice) (depth : Nat) (hu : u ≠ [])
    (hp : u <+: m_key) :
    u.length ≤ (match_edge m_key (u :: us) 0 depth).1 ∧
      depth + 1 ≤ (match_edge m_key (u :: us) 0 depth).2 := by
  have hul : 0 < u.length := List.length_pos.mpr hu
  have hle : u.length ≤ m_key.length := hp.length_le
  have hsub : radix_substr m_key 0 u.length = u := by
    rw [radix_substr_eq (by omega)]
    simpa using (List.prefix_iff_eq_take.mp hp).symm
  unfold match_edge
  rw [if_pos (by omega), if_neg (by rw [hsub]; simp; omega)]
  obtain ⟨ha, -, j, hj, -, -⟩ := match_edge_spec m_key us (0 + u.length) (depth + 1) (by omega)
  exact ⟨by omega, by omega⟩

theorem getElem?_append_two {V : Type} (ns : List (radix_tree_node V))
    (a b : radix_tree_node V) (j : Nat) :
    (ns ++ [a, b])[j]? =
      if j < ns.length then ns[j]? else if j = ns.length then some a
      else if j = ns.length + 1 then some b else none := by
  split_ifs with h1 h2 h3
  · rw [List.getElem?_append_left h1]
  · subst h2; rw [List.getElem?_append_right le_rfl]; simp
  · subst h3; rw [List.getElem?_append_right (by omega)]; simp
  · rw [List.getElem?_eq_none (by simp; omega)]

/-! ## `find_node` on a well-formed arena -/

theorem WF.child_ne_root {V : Type} {ns : List (radix_tree_node V)} {chain : List Nat}
    {lab : Nat → List Nat} {par : Nat → Nat} {P : List (List Nat)} (h : WF ns chain lab par P)
    {i : Nat} {n : radix_tree_node V} {k : Slice} {c : Nat} (hi : ns[i]? = some n)
    (hv : n.m_value = none) (hk : (k, c) ∈ n.m_children) : c ≠ 0 := by
  rintro rfl
  obtain ⟨cn, -, -, hk0, hpre, -, hl⟩ := h.child i n k 0 hi hv hk
  rw [h.lab_root] at hl
  have := List.append_eq_nil.mp hl.symm
  rw [this.2] at hpre
  exact hk0 (List.prefix_nil.mp hpre)

theorem WF.child_ne_self {V : Type} {ns : List (radix_tree_node V)} {chain : List Nat}
    {lab : Nat → List Nat} {par : Nat → Nat} {P : List (List Nat)} (h : WF ns chain lab par P)
    {i : Nat} {n : radix_tree_node V} {k : Slice} {c : Nat} (hi : ns[i]? = some n)
    (hv : n.m_value = none) (hk : (k, c) ∈ n.m_children) : c ≠ i := by
  rintro rfl
  obtain ⟨cn, -, -, hk0, hpre, -, hl⟩ := h.child c n k c hi hv hk
  have hlen := congrArg List.length hl
  simp only [List.length_append] at hlen
  have : cn.m_key.length = 0 := by omega
  rw [List.length_eq_zero.mp this] at hpre
  exact hk0 (List.prefix_nil.mp hpre)

/-- On a well-formed arena an entry of a child map determines its key: a node is entered in one
map only, and once. -/
theorem WF.entry_unique {V : Type} {ns : List (radix_tree_node V)} {chain : List Nat}
    {lab : Nat → List Nat} {par : Nat → Nat} {P : List (List Nat)} (h : WF ns chain lab par P)
    {i i1 : Nat} {n n1 : radix_tree_node V} {k k1 : Slice} {c : Nat} (hi : ns[i]? = some n)
    (hv : n.m_value = none) (hk : (k, c) ∈ n.m_children) (hi1 : ns[i1]? = some n1)
    (hv1 : n1.m_value = none) (hk1 : (k1, c) ∈ n1.m_children) : i1 = i ∧ k1 = k := by
  obtain ⟨_, -, -, -, -, hp, -⟩ := h.child i n k c hi hv hk
  obtain ⟨_, -, -, -, -, hp1, -⟩ := h.child i1 n1 k1 c hi1 hv1 hk1
  have hii : i1 = i := by rw [← hp, ← hp1]
  subst hii
  rw [hi] at hi1
  cases hi1
  exact ⟨rfl, snd_nodup_key_eq (h.child_nodup _ _ hi hv) hk1 hk⟩

theorem take_flatten_add (q : List Slice) (depth j : Nat) :
    (q.take depth).flatten ++ ((q.drop depth).take j).flatten = (q.take (depth + j)).flatten := by
  rw [List.take_add, List.flatten_append]

theorem find_loop_ok {V : Type} {ns : List (radix_tree_node V)} {chain : List Nat}
    {lab : Nat → List Nat} {par : Nat → Nat} {P : List (List Nat)} (h : WF ns chain lab par P)
    (q : List Slice) (fuel : Nat) :
    ∀ (result count depth : Nat) (n : radix_tree_node V), ns[result]? = some n →
      n.m_value = none → count = n.m_key.length → lab result = (q.take depth).flatten →
      depth ≤ q.length →
      (∀ (i : Nat) (ni : radix_tree_node V) (k : Slice), ns[i]? = some ni → ni.m_value = none →
        (k, result) ∈ ni.m_children → k.length ≤ count) →
      q.length - depth < fuel →
      ∃ r, find_loop ns q fuel result count depth = some r ∧ FindOK ns lab q r := by
  induction fuel with
  | zero => intro _ _ _ _ _ _ _ _ _ _ hf; omega
  | succ fuel ih =>
    intro result count depth n hn hv hcount hlab hdepth hfirst hfuel
    unfold find_loop
    by_cases hlen : q.length - depth > 0
    · rw [if_pos hlen]
      simp only [hn]
      cases hfind : map_find n.m_children (q.getD depth []) with
      | none =>
        refine ⟨_, rfl, ⟨n, hn, hv, le_of_eq hcount, ?_⟩, hfirst, hdepth, Or.inr ?_⟩
        · simp [hlab, hcount]
        · intro n1 hn1
          rw [hn] at hn1; cases hn1
          exact Or.inr hfind
      | some child =>
        have hmem := map_find_mem hfind
        obtain ⟨cn, hcn, hcv, hk0, hpre, hpar, hcl⟩ := h.child result n _ child hn hv hmem
        simp only [hcn]
        have hq : q.drop depth = q.getD depth [] :: q.drop (depth + 1) := by
          have hd : depth < q.length := by omega
          rw [List.getD_eq_getElem?_getD, List.getElem?_eq_getElem hd]
          simp
        obtain ⟨hf1, hf2⟩ := match_edge_first (q.drop (depth + 1)) depth hk0 hpre
        obtain ⟨-, hs2, j, hj, hjl, hjt⟩ := match_edge_spec cn.m_key (q.drop depth) 0 depth
          (Nat.zero_le _)
        rw [← hq] at hf1 hf2
        have hjl' : depth + j ≤ q.length := by
          simp only [List.length_drop] at hjl; omega
        have hlabc : lab child = (q.take (match_edge cn.m_key (q.drop depth) 0 depth).2).flatten ++
            cn.m_key.drop (match_edge cn.m_key (q.drop depth) 0 depth).1 := by
          rw [hcl, hlab, hj, ← take_flatten_add, List.append_assoc]
          congr 1
          have := hjt
          simp only [List.take_zero, List.nil_append] at this
          rw [← this, List.take_append_drop]
        have hfirstc : ∀ (i : Nat) (ni : radix_tree_node V) (k : Slice), ns[i]? = some ni →
            ni.m_value = none → (k, child) ∈ ni.m_children →
            k.length ≤ (match_edge cn.m_key (q.drop depth) 0 depth).1 := by
          intro i ni k hi hiv hik
          obtain ⟨-, rfl⟩ := h.entry_unique hn hv hmem hi hiv hik
          exact hf1
        by_cases hlt : (match_edge cn.m_key (q.drop depth) 0 depth).1 < cn.m_key.length
        · rw [if_pos hlt]
          refine ⟨_, rfl, ⟨cn, hcn, hcv, hs2, hlabc⟩, hfirstc, by simp only; omega, Or.inr ?_⟩
          intro n1 hn1
          simp only at hn1
          rw [hcn] at hn1; cases hn1
          exact Or.inl hlt
        · rw [if_neg hlt]
          have heq : (match_edge cn.m_key (q.drop depth) 0 depth).1 = cn.m_key.length := by omega
          apply ih child _ _ cn hcn hcv heq _ (by omega) hfirstc (by omega)
          rw [hlabc, heq]; simp
    · rw [if_neg hlen]
      refine ⟨_, rfl, ⟨n, hn, hv, le_of_eq hcount, ?_⟩, hfirst, hdepth, Or.inl ?_⟩
      · simp [hlab, hcount]
      · simp only; omega

theorem find_node_ok {V : Type} {t : radix_tree V} {chain : List Nat}
    {lab : Nat → List Nat} {par : Nat → Nat} {P : List (List Nat)} (hr : t.m_root = 0)
    (h : WF t.nodes chain lab par P) (q : List Slice) :
    ∃ r, find_node t q = some r ∧ FindOK t.nodes lab q r := by
  obtain ⟨r, hr0, hrv, hrk⟩ := h.root
  unfold find_node
  split_ifs with hq
  · subst hq
    refine ⟨_, rfl, ⟨r, by rw [hr]; exact hr0, hrv, by simp, ?_⟩, ?_, by simp, Or.inl (by simp)⟩
    · simp [hr, h.lab_root, hrk]
    · intro i ni k hi hiv hik
      simp only [hr] at hik
      exact absurd rfl (h.child_ne_root hi hiv hik)
  · rw [hr]
    apply find_loop_ok h q _ 0 0 0 r hr0 hrv (by simp [hrk]) (by simp [h.lab_root]) (Nat.zero_le _)
    · intro i ni k hi hiv hik
      exact absurd rfl (h.child_ne_root hi hiv hik)
    · have := lt_of_getElem? hr0
      unfold walk_fuel
      have : q.length + 1 ≤ (q.length + 1) * t.nodes.length := Nat.le_mul_of_pos_right _ this
      omega

/-! ## `update_node` on a well-formed arena -/

theorem Bumped.refl {V : Type} (o : Option Nat) (nl : Nat) (ns : List (radix_tree_node V)) :
    Bumped o nl ns ns :=
  ⟨rfl, fun _ n h => ⟨n, h, rfl, rfl, rfl, rfl, rfl, fun _ => rfl, Or.inl rfl⟩⟩

theorem Bumped.trans {V : Type} {o : Option Nat} {nl : Nat} {a b c : List (radix_tree_node V)}
    (h1 : Bumped o nl a b) (h2 : Bumped o nl b c) : Bumped o nl a c := by
  refine ⟨h2.1.trans h1.1, fun i n hn => ?_⟩
  obtain ⟨n1, hn1, e1, e2, e3, e4, e5, e6, e7⟩ := h1.2 i n hn
  obtain ⟨n2, hn2, f1, f2, f3, f4, f5, f6, f7⟩ := h2.2 i n1 hn1
  refine ⟨n2, hn2, f1.trans e1, f2.trans e2, f3.trans e3, f4.trans e4, f5.trans e5, ?_, ?_⟩
  · intro hv
    rw [f6 (by rw [e5]; exact hv), e6 hv]
  · rcases f7 with f7 | f7
    · rcases e7 with e7 | e7
      · exact Or.inl (f7.trans e7)
      · exact Or.inr ⟨e7.1, f7.trans e7.2⟩
    · rcases e7 with e7 | e7
      · exact Or.inr ⟨e7 ▸ f7.1, f7.2⟩
      · exact Or.inr ⟨e7.1, f7.2⟩

theorem Bumped.back {V : Type} {o : Option Nat} {nl : Nat} {a b : List (radix_tree_node V)}
    (h : Bumped o nl a b) {i : Nat} {n1 : radix_tree_node V} (hn1 : b[i]? = some n1) :
    ∃ n, a[i]? = some n ∧ n1.m_first = n.m_first ∧ n1.m_key = n.m_key ∧
      n1.m_children = n.m_children ∧ n1.m_heap = n.m_heap ∧ n1.m_value = n.m_value ∧
      (n.m_value ≠ none → n1 = n) ∧
      (n1.m_last = n.m_last ∨ (n.m_last = o ∧ n1.m_last = some nl)) := by
  have hi : i < a.length := h.1 ▸ lt_of_getElem? hn1
  obtain ⟨n1', hn1', e⟩ := h.2 i a[i] (List.getElem?_eq_getElem hi)
  rw [hn1] at hn1'
  cases hn1'
  exact ⟨a[i], List.getElem?_eq_getElem hi, e⟩

theorem bump_Bumped {V : Type} (o : Option Nat) (nl : Nat) {ns : List (radix_tree_node V)}
    {i : Nat} {n : radix_tree_node V} (hn : ns[i]? = some n) (hv : n.m_value = none) :
    Bumped o nl ns (bump ns i o nl) := by
  refine ⟨length_upd _ _ _, fun j m hm => ?_⟩
  unfold bump
  rw [getElem?_upd]
  split_ifs with hj
  · subst hj
    rw [hn] at hm
    cases hm
    refine ⟨{ n with m_count := n.m_count + 1,
                     m_last := if o = n.m_last then some nl else n.m_last },
      by rw [hn]; rfl, rfl, rfl, rfl, rfl, rfl, fun h => absurd hv h, ?_⟩
    simp only
    split_ifs with h1
    · exact Or.inr ⟨h1.symm, rfl⟩
    · exact Or.inl rfl
  · exact ⟨m, hm, rfl, rfl, rfl, rfl, rfl, fun _ => rfl, Or.inl rfl⟩

theorem WF_of_Bumped {V : Type} {ns ns1 : List (radix_tree_node V)} {chain : List Nat}
    {lab : Nat → List Nat} {par : Nat → Nat} {P : List (List Nat)} {o : Option Nat} {nl : Nat}
    (h : WF ns chain lab par P) (ha : After chain o nl) (hb : Bumped o nl ns ns1) :
    WF ns1 chain lab par P := by
  constructor
  · obtain ⟨r, hr, hrv, hrk⟩ := h.root
    obtain ⟨r1, hr1, -, e2, -, -, e5, -, -⟩ := hb.2 0 r hr
    exact ⟨r1, hr1, e5.trans hrv, e2.trans hrk⟩
  · intro r1 hr1
    obtain ⟨r, hr, e1, -⟩ := hb.back hr1
    rw [e1]; exact h.root_first r hr
  · exact h.lab_root
  · intro i n1 k c hi hv hk
    obtain ⟨n, hn, -, -, e3, -, e5, -, -⟩ := hb.back hi
    obtain ⟨cn, hcn, hcv, hk0, hpre, hpar, hl⟩ := h.child i n k c hn (e5 ▸ hv) (e3 ▸ hk)
    obtain ⟨cn1, hcn1, -, f2, -, -, f5, -, -⟩ := hb.2 c cn hcn
    exact ⟨cn1, hcn1, f5.trans hcv, hk0, f2 ▸ hpre, hpar, f2 ▸ hl⟩
  · intro i n1 hi hv
    obtain ⟨n, hn, -, -, e3, -, e5, -, -⟩ := hb.back hi
    rw [e3]
    exact h.child_nodup i n hn (e5 ▸ hv)
  · intro i n1 hi hv
    obtain ⟨n, hn, e1, -, -, -, e5, -, e7⟩ := hb.back hi
    rcases h.range i n hn (e5 ▸ hv) with ⟨hi0, hc, hf, hl⟩ | ⟨f, l, A, R, hf, hl, hc, hm⟩
    · rcases e7 with e7 | e7
      · exact Or.inl ⟨hi0, hc, e1.trans hf, e7.trans hl⟩
      · exfalso
        rw [hl] at e7
        rw [← e7.1] at ha
        exact ha hc
    · right
      rcases e7 with e7 | e7
      · exact ⟨f, l, A, R, e1.trans hf, e7.trans hl, hc, hm⟩
      · refine ⟨f, nl, A, R, e1.trans hf, e7.2, hc, ?_⟩
        rw [hl] at e7
        rw [← e7.1] at ha
        exact ha A (f :: R) hc hm
  · exact h.chain_nodup
  · intro a
    rw [h.chain_leaf]
    constructor
    · rintro ⟨n, hn, hv⟩
      obtain ⟨n1, hn1, -, -, -, -, e5, -, -⟩ := hb.2 a n hn
      exact ⟨n1, hn1, e5 ▸ hv⟩
    · rintro ⟨n1, hn1, hv⟩
      obtain ⟨n, hn, -, -, -, -, e5, -, -⟩ := hb.back hn1
      exact ⟨n, hn, e5 ▸ hv⟩
  · refine (List.Chain'.iff_mem.mp h.chain_link).imp (fun a b hab => ?_)
    obtain ⟨ha', hb', na, nb, hna, hnb, h1, h2⟩ := hab
    obtain ⟨n, hn, hva⟩ := (h.chain_leaf a).mp ha'
    rw [hna] at hn; cases hn
    obtain ⟨n, hn, hvb⟩ := (h.chain_leaf b).mp hb'
    rw [hnb] at hn; cases hn
    obtain ⟨na1, hna1, -, -, -, -, -, ea, -⟩ := hb.2 a na hna
    obtain ⟨nb1, hnb1, -, -, -, -, -, eb, -⟩ := hb.2 b nb hnb
    exact ⟨na1, nb1, hna1, hnb1, by rw [ea hva]; exact h1, by rw [eb hvb]; exact h2⟩
  · intro a hlast
    obtain ⟨na, hna, hl⟩ := h.chain_end a hlast
    have hmem : a ∈ chain := List.mem_of_getLast?_eq_some hlast
    obtain ⟨n, hn, hv⟩ := (h.chain_leaf a).mp hmem
    rw [hna] at hn; cases hn
    obtain ⟨n1, hn1, -, -, -, -, -, e6, -⟩ := hb.2 a na hna
    exact ⟨n1, hn1, by rw [e6 hv]; exact hl⟩
  · intro i n1 hi hv hi0
    obtain ⟨n, hn, -, -, -, -, e5, -, -⟩ := hb.back hi
    exact h.label i n hn (e5 ▸ hv) hi0

theorem update_loop_ok {V : Type} {ns0 : List (radix_tree_node V)} {chain : List Nat}
    {lab : Nat → List Nat} {par : Nat → Nat} {P : List (List Nat)} (h : WF ns0 chain lab par P)
    (q : List Slice) (o : Option Nat) (nl : Nat) (fuel : Nat) :
    ∀ (ns : List (radix_tree_node V)) (result depth : Nat) (n : radix_tree_node V),
      Bumped o nl ns0 ns → ns0[result]? = some n → n.m_value = none →
      q.length - depth < fuel →
      ∃ ns1, update_loop q o nl fuel ns result depth = some ns1 ∧ Bumped o nl ns0 ns1 := by
  induction fuel with
  | zero => intro _ _ _ _ _ _ _ hf; omega
  | succ fuel ih =>
    intro ns result depth n hb hn hv hfuel
    obtain ⟨r, hr, -, -, e3, -, e5, -, -⟩ := hb.2 result n hn
    have hbump : Bumped o nl ns0 (bump ns result o nl) :=
      hb.trans (bump_Bumped o nl hr (e5.trans hv))
    unfold update_loop
    by_cases hlen : q.length - depth > 0
    · rw [if_pos hlen]
      simp only [hr, e3]
      cases hfind : map_find n.m_children (q.getD depth []) with
      | none => exact ⟨_, rfl, hbump⟩
      | some child =>
        have hmem := map_find_mem hfind
        obtain ⟨cn, hcn, hcv, hk0, hpre, -, -⟩ := h.child result n _ child hn hv hmem
        obtain ⟨c1, hc1, -, f2, -, -, f5, -, -⟩ := hbump.2 child cn hcn
        simp only [hc1, f2]
        have hq : q.drop depth = q.getD depth [] :: q.drop (depth + 1) := by
          have hd : depth < q.length := by omega
          rw [List.getD_eq_getElem?_getD, List.getElem?_eq_getElem hd]
          simp
        obtain ⟨-, hf2⟩ := match_edge_first (q.drop (depth + 1)) depth hk0 hpre
        rw [← hq] at hf2
        split_ifs with hlt
        · exact ⟨_, rfl, hbump.trans (bump_Bumped o nl hc1 (f5.trans hcv))⟩
        · exact ih _ child _ cn hbump hcn hcv (by omega)
    · rw [if_neg hlen]
      simp only [hr]
      exact ⟨_, rfl, hbump⟩

theorem update_node_ok {V : Type} {ns : List (radix_tree_node V)} {chain : List Nat}
    {lab : Nat → List Nat} {par : Nat → Nat} {P : List (List Nat)} (h : WF ns chain lab par P)
    (q : List Slice) (o : Option Nat) (nl : Nat) :
    ∃ ns1, update_node ns 0 q o nl = some ns1 ∧ Bumped o nl ns ns1 := by
  obtain ⟨r, hr0, hrv, -⟩ := h.root
  unfold update_node
  split_ifs with hq
  · exact ⟨ns, rfl, Bumped.refl _ _ _⟩
  · apply update_loop_ok h q o nl _ ns 0 0 r (Bumped.refl _ _ _) hr0 hrv
    have := lt_of_getElem? hr0
    unfold walk_fuel
    have : q.length + 1 ≤ (q.length + 1) * ns.length := Nat.le_mul_of_pos_right _ this
    omega

/-! ## Linking a new leaf into the chain -/

theorem chain'_fst_mem {R : Nat → Nat → Prop} {l : List Nat} {a : Nat}
    (h : List.Chain' R (l ++ [a])) :
    List.Chain' (fun x y => (x ∈ l ∧ y ∈ l ++ [a]) ∧ R x y) (l ++ [a]) := by
  induction l with
  | nil => simp
  | cons b l ih =>
    cases l with
    | nil =>
      simp only [List.cons_append, List.nil_append, List.chain'_cons, List.chain'_singleton,
        and_true] at h ⊢
      exact ⟨by simp, h⟩
    | cons c l =>
      simp only [List.cons_append, List.chain'_cons] at h ih ⊢
      refine ⟨⟨by simp, h.1⟩, (ih h.2).imp ?_⟩
      rintro x y ⟨⟨hx, hy⟩, hr⟩
      exact ⟨⟨List.mem_cons_of_mem _ hx, List.mem_cons_of_mem _ hy⟩, hr⟩

theorem chain'_snd_mem {R : Nat → Nat → Prop} {l : List Nat} {a : Nat}
    (h : List.Chain' R (a :: l)) :
    List.Chain' (fun x y => (x ∈ a :: l ∧ y ∈ l) ∧ R x y) (a :: l) := by
  induction l generalizing a with
  | nil => simp
  | cons b l ih =>
    simp only [List.chain'_cons] at h ⊢
    refine ⟨⟨by simp, h.1⟩, (ih h.2).imp ?_⟩
    rintro x y ⟨⟨hx, hy⟩, hr⟩
    exact ⟨⟨List.mem_cons_of_mem _ hx, List.mem_cons_of_mem _ hy⟩, hr⟩

theorem After_ins {l1 l2 : List Nat} {tl L : Nat} (hnd : (l1 ++ tl :: L :: l2).Nodup) :
    After (l1 ++ tl :: L :: l2) (some tl) L := by
  intro A R hAR htl
  rcases List.append_eq_append_iff.mp hAR with ⟨a', h1, h2⟩ | ⟨c', h1, h2⟩
  · cases a' with
    | nil =>
      simp only [List.nil_append] at h2
      rw [← h2]; simp
    | cons x a'' =>
      exfalso
      simp only [List.cons_append, List.cons.injEq] at h2
      have hmem : tl ∈ L :: l2 := by rw [h2.2]; exact List.mem_append_right _ htl
      have := (List.nodup_append.mp hnd).2.1
      exact (List.nodup_cons.mp this).1 hmem
  · rw [h2]; simp

/-- Ranges of the old chain stay ranges when `L` is linked in after `tl`. -/
theorem range_ins {A R l1 l2 : List Nat} {f tl : Nat} (L : Nat)
    (h : A ++ f :: R = l1 ++ tl :: l2) (hnd : (l1 ++ tl :: l2).Nodup) :
    ∃ A1 R1, l1 ++ tl :: L :: l2 = A1 ++ f :: R1 ∧ (∀ x, x ∈ f :: R → x ∈ f :: R1) ∧
      (tl ∈ f :: R → L ∈ f :: R1) := by
  rcases List.append_eq_append_iff.mp h with ⟨a', h1, h2⟩ | ⟨c', h1, h2⟩
  · -- l1 = A ++ a', f :: R = a' ++ tl :: l2
    cases a' with
    | nil =>
      simp only [List.nil_append, List.cons.injEq] at h2
      obtain ⟨rfl, rfl⟩ := h2
      simp only [List.append_nil] at h1
      subst h1
      exact ⟨l1, L :: R, rfl, fun x hx => by simp at hx ⊢; tauto, fun _ => by simp⟩
    | cons x a'' =>
      simp only [List.cons_append, List.cons.injEq] at h2
      obtain ⟨rfl, rfl⟩ := h2
      subst h1
      refine ⟨A, a'' ++ tl :: L :: l2, by simp, fun x hx => ?_, fun _ => by simp⟩
      simp at hx ⊢; tauto
  · -- A = l1 ++ c', tl :: l2 = c' ++ f :: R
    cases c' with
    | nil =>
      simp only [List.nil_append, List.cons.injEq] at h2
      obtain ⟨rfl, rfl⟩ := h2
      simp only [List.append_nil] at h1
      subst h1
      exact ⟨A, L :: l2, rfl, fun x hx => by simp at hx ⊢; tauto, fun _ => by simp⟩
    | cons x c'' =>
      simp only [List.cons_append, List.cons.injEq] at h2
      obtain ⟨rfl, rfl⟩ := h2
      subst h1
      refine ⟨l1 ++ tl :: L :: c'', R, by simp, fun x hx => hx, fun htl => ?_⟩
      exfalso
      have := (List.nodup_append.mp hnd).2.1
      have h3 := (List.nodup_cons.mp this).1
      exact h3 (List.mem_append_right _ htl)

theorem nodup_ins {l1 l2 : List Nat} {tl L : Nat} (hnd : (l1 ++ tl :: l2).Nodup)
    (hL : L ∉ l1 ++ tl :: l2) : (l1 ++ tl :: L :: l2).Nodup := by
  have : (l1 ++ tl :: L :: l2).Perm (L :: (l1 ++ tl :: l2)) := by
    have h1 : (tl :: L :: l2).Perm (L :: tl :: l2) := List.Perm.swap _ _ _
    exact ((List.Perm.append_left l1 h1).trans List.perm_middle)
  rw [this.nodup_iff]
  exact List.nodup_cons.mpr ⟨hL, hnd⟩

/-- On a well-formed arena the next-link of a chained leaf is its successor in the chain. -/
theorem WF.next_eq {V : Type} {ns : List (radix_tree_node V)} {chain : List Nat}
    {lab : Nat → List Nat} {par : Nat → Nat} {P : List (List Nat)} (h : WF ns chain lab par P)
    {l1 l2 : List Nat} {tl : Nat} (hc : chain = l1 ++ tl :: l2) {tln : radix_tree_node V}
    (htl : ns[tl]? = some tln) : tln.m_last = l2.head? := by
  cases l2 with
  | nil =>
    obtain ⟨na, hna, hl⟩ := h.chain_end tl (by rw [hc]; simp)
    rw [htl] at hna; cases hna
    simpa using hl
  | cons b l2 =>
    have := h.chain_link
    rw [hc, List.chain'_split, List.chain'_cons] at this
    obtain ⟨na, nb, hna, -, hl, -⟩ := this.2.1
    rw [htl] at hna; cases hna
    simpa using hl

/-- The chain clauses of the invariant after a new leaf `L` has been linked in behind `tl`. -/
theorem chain_splice {V : Type} {ns ns1 : List (radix_tree_node V)} {chain : List Nat}
    {lab : Nat → List Nat} {par : Nat → Nat} {P : List (List Nat)} (h : WF ns chain lab par P)
    {l1 l2 : List Nat} {tl L : Nat} (hc : chain = l1 ++ tl :: l2) (hL : L ∉ chain)
    (hnew : ∃ nL : radix_tree_node V, ns1[L]? = some nL ∧ nL.m_value ≠ none ∧
      nL.m_first = some tl ∧ nL.m_last = l2.head?)
    (hold : ∀ (a : Nat) (n : radix_tree_node V), a ∈ chain → ns[a]? = some n →
      ∃ n1 : radix_tree_node V, ns1[a]? = some n1 ∧ n1.m_value ≠ none ∧
        n1.m_last = (if a = tl then some L else n.m_last) ∧
        n1.m_first = (if some a = l2.head? then some L else n.m_first))
    (hleaf : ∀ (a : Nat) (n1 : radix_tree_node V), ns1[a]? = some n1 → n1.m_value ≠ none →
      a = L ∨ a ∈ chain) :
    (l1 ++ tl :: L :: l2).Nodup ∧
      (∀ a : Nat, a ∈ l1 ++ tl :: L :: l2 ↔
        ∃ n : radix_tree_node V, ns1[a]? = some n ∧ n.m_value ≠ none) ∧
      (l1 ++ tl :: L :: l2).Chain' (fun a b => ∃ na nb : radix_tree_node V,
        ns1[a]? = some na ∧ ns1[b]? = some nb ∧ na.m_last = some b ∧ nb.m_first = some a) ∧
      (∀ a : Nat, (l1 ++ tl :: L :: l2).getLast? = some a →
        ∃ na : radix_tree_node V, ns1[a]? = some na ∧ na.m_last = none) := by
  have hnd : (l1 ++ tl :: l2).Nodup := hc ▸ h.chain_nodup
  have hnd1 := nodup_ins hnd (hc ▸ hL)
  obtain ⟨nL, hnL, hLv, hLf, hLl⟩ := hnew
  have hget : ∀ a ∈ chain, ∃ n : radix_tree_node V, ns[a]? = some n := fun a ha => by
    obtain ⟨n, hn, -⟩ := (h.chain_leaf a).mp ha
    exact ⟨n, hn⟩
  have htl1 : tl ∉ l1 := fun hm =>
    (List.nodup_append.mp hnd).2.2 hm (List.mem_cons_self _ _)
  have htl2 : tl ∉ l2 := (List.nodup_cons.mp (List.nodup_append.mp hnd).2.1).1
  -- an old link survives when its source is not `tl` and its target is not the head of `l2`
  have hlink : ∀ x y : Nat, x ∈ chain → y ∈ chain → x ≠ tl → some y ≠ l2.head? →
      (∃ na nb : radix_tree_node V, ns[x]? = some na ∧ ns[y]? = some nb ∧
        na.m_last = some y ∧ nb.m_first = some x) →
      ∃ na nb : radix_tree_node V, ns1[x]? = some na ∧ ns1[y]? = some nb ∧
        na.m_last = some y ∧ nb.m_first = some x := by
    rintro x y hx hy hxt hyh ⟨na, nb, hna, hnb, hl, hf⟩
    obtain ⟨na1, hna1, -, el, -⟩ := hold x na hx hna
    obtain ⟨nb1, hnb1, -, -, ef⟩ := hold y nb hy hnb
    exact ⟨na1, nb1, hna1, hnb1, by rw [el, if_neg hxt]; exact hl,
      by rw [ef, if_neg hyh]; exact hf⟩
  refine ⟨hnd1, ?_, ?_, ?_⟩
  · intro a
    constructor
    · intro ha
      by_cases haL : a = L
      · subst haL; exact ⟨nL, hnL, hLv⟩
      · have hac : a ∈ chain := by
          rw [hc]; simp at ha ⊢; tauto
        obtain ⟨n, hn⟩ := hget a hac
        obtain ⟨n1, hn1, hv, -⟩ := hold a n hac hn
        exact ⟨n1, hn1, hv⟩
    · rintro ⟨n1, hn1, hv⟩
      rcases hleaf a n1 hn1 hv with rfl | hac
      · simp
      · rw [hc] at hac; simp at hac ⊢; tauto
  · have hold_link := h.chain_link
    rw [hc, List.chain'_split] at hold_link
    obtain ⟨hA, hB⟩ := hold_link
    rw [List.chain'_split, List.chain'_cons]
    refine ⟨(chain'_fst_mem hA).imp ?_, ?_, ?_⟩
    · rintro x y ⟨⟨hx, hy⟩, hr⟩
      refine hlink x y (by rw [hc]; simp; tauto) (by rw [hc]; simp at hy ⊢; tauto)
        (fun e => htl1 (e ▸ hx)) ?_ hr
      intro e
      have hy2 : y ∈ l2 := List.mem_of_mem_head? e.symm
      rcases List.mem_append.mp hy with hy1 | hy1
      · exact (List.nodup_append.mp hnd).2.2 hy1 (List.mem_cons_of_mem _ hy2)
      · simp only [List.mem_singleton] at hy1
        exact htl2 (hy1 ▸ hy2)
    · have htlc : tl ∈ chain := by rw [hc]; simp
      obtain ⟨n, hn⟩ := hget tl htlc
      obtain ⟨n1, hn1, -, el, -⟩ := hold tl n htlc hn
      exact ⟨n1, nL, hn1, hnL, by rw [el, if_pos rfl], hLf⟩
    · cases l2 with
      | nil => simp
      | cons b l2 =>
        rw [List.chain'_cons] at hB ⊢
        have hbc : b ∈ chain := by rw [hc]; simp
        obtain ⟨n, hn⟩ := hget b hbc
        obtain ⟨n1, hn1, -, -, ef⟩ := hold b n hbc hn
        refine ⟨⟨nL, n1, hnL, hn1, by simpa using hLl, by rw [ef, if_pos (by simp)]⟩,
          (chain'_snd_mem hB.2).imp ?_⟩
        rintro x y ⟨⟨hx, hy⟩, hr⟩
        have hnd2 : (b :: l2).Nodup := (List.nodup_cons.mp (List.nodup_append.mp hnd).2.1).2
        refine hlink x y (by rw [hc]; simp at hx ⊢; tauto) (by rw [hc]; simp; tauto)
          (fun e => htl2 (e ▸ hx)) ?_ hr
        intro e
        simp only [List.head?_cons, Option.some.injEq] at e
        exact (List.nodup_cons.mp hnd2).1 (e ▸ hy)
  · intro a ha
    cases l2 with
    | nil =>
      have : a = L := by
        simp [List.getLast?_append] at ha
        exact ha.symm
      subst this
      exact ⟨nL, hnL, by simpa using hLl⟩
    | cons b l2 =>
      have hlast : chain.getLast? = some a := by
        rw [hc]
        simp only [List.getLast?_append, List.getLast?_cons_cons] at ha ⊢
        exact ha
      obtain ⟨na, hna, hl⟩ := h.chain_end a hlast
      have hac : a ∈ chain := List.mem_of_getLast?_eq_some hlast
      obtain ⟨n1, hn1, -, el, -⟩ := hold a na hac hna
      refine ⟨n1, hn1, ?_⟩
      rw [el, if_neg, hl]
      rintro rfl
      -- `tl` is not the last leaf of a chain that continues behind it
      have h2 : (b :: l2).getLast? = some a := by
        rw [hc] at hlast
        simpa [List.getLast?_append] using hlast
      exact htl2 (List.mem_of_getLast?_eq_some h2)

/-! ## The arena after the pointer surgery of `insert` -/

theorem getElem?_attach_residual {V : Type} (b : List (radix_tree_node V))
    (pats : List (List Nat)) (q : List Slice) (key : Slice) (m L depth j : Nat)
    (hmL : m ≠ L) (hm : m < b.length) (hL : L < b.length) :
    (attach_residual b pats q key m L depth).1[j]? =
      if j = m then (b[m]?).map (fun n =>
        { n with m_children := map_assign n.m_children (residual_child_key q key depth) b.length })
      else if j = L then (b[L]?).map (fun n => { n with m_key := residual_key q key depth })
      else if j = b.length then
        some { m_key := residual_key q key depth, m_first := some L, m_last := some L }
      else b[j]? := by
  simp only [attach_residual, getElem?_upd]
  split_ifs with h1 h2 h3
  · subst h1
    rw [List.getElem?_append_left hm]
  · subst h2
    rw [List.getElem?_append_left hL]
  · subst h3
    simp
  · rcases Nat.lt_or_gt_of_ne h3 with h | h
    · rw [List.getElem?_append_left h]
    · rw [List.getElem?_eq_none (by simp; omega), List.getElem?_eq_none (by omega)]

theorem length_attach_residual {V : Type} (b : List (radix_tree_node V))
    (pats : List (List Nat)) (q : List Slice) (key : Slice) (m L depth : Nat) :
    (attach_residual b pats q key m L depth).1.length = b.length + 1 := by
  simp [attach_residual, length_upd]

theorem splice_after_eq {V : Type} (b : List (radix_tree_node V)) (tl L : Nat)
    (tln lf : radix_tree_node V) (htl : b[tl]? = some tln) (hL : b[L]? = some lf)
    (htlL : tl ≠ L) (hlf : lf.m_last = none)
    (hnx : ∀ nx, tln.m_last = some nx → nx ≠ L ∧ nx ≠ tl ∧ nx < b.length) :
    ∃ b1, splice_after b tl L = some b1 ∧ b1.length = b.length ∧
      ∀ j, b1[j]? =
        if j = tl then some { tln with m_last := some L }
        else if j = L then some { lf with m_first := some tl, m_last := tln.m_last }
        else if some j = tln.m_last then (b[j]?).map (fun n => { n with m_first := some L })
        else b[j]? := by
  unfold splice_after
  simp only [htl]
  cases hl : tln.m_last with
  | none =>
    refine ⟨_, rfl, by simp [length_upd], fun j => ?_⟩
    simp only [getElem?_upd]
    split_ifs with h1 h2
    · subst h1
      rw [htl]; simp [hl]
    · subst h2
      rw [hL]; simp [hlf]
    · rename_i hf; exact absurd hf (by simp)
    · rfl
  | some nx =>
    obtain ⟨h1, h2, h3⟩ := hnx nx hl
    obtain ⟨nxn, hnxn⟩ : ∃ nxn, b[nx]? = some nxn := ⟨b[nx], List.getElem?_eq_getElem h3⟩
    simp only [hnxn]
    refine ⟨_, rfl, by simp [length_upd], fun j => ?_⟩
    simp only [getElem?_upd]
    split_ifs with e1 e2 e3 e4 e5 <;> simp_all

theorem sum_length_take (q : List Slice) (depth : Nat) :
    ((q.take depth).map List.length).sum = (q.take depth).flatten.length := by
  rw [List.length_flatten]

/-- The residual of an accepted pattern behind its first `depth` codepoints. -/
theorem residual_spec {pattern : List Nat} {q : List Slice} (hp : UTF8Decode pattern = some q)
    (depth : Nat) (hd : depth < q.length) :
    (q.take depth).flatten ++ residual_key q pattern depth = pattern ∧
      residual_child_key q pattern depth = q.getD depth [] ∧
      q.getD depth [] ≠ [] ∧ q.getD depth [] <+: residual_key q pattern depth := by
  obtain ⟨z, hz, -, hcp⟩ := UTF8Decode_spec hp
  have hsplit : pattern = (q.take depth).flatten ++ ((q.drop depth).flatten ++ z) := by
    rw [← List.append_assoc, ← List.flatten_append, List.take_append_drop]; exact hz
  have hres : residual_key q pattern depth = (q.drop depth).flatten ++ z := by
    unfold residual_key
    simp only [sum_length_take]
    rw [radix_substr_eq (by rw [hsplit]; simp)]
    conv_lhs => rw [hsplit]
    simp
  have hq : q.drop depth = q.getD depth [] :: q.drop (depth + 1) := by
    rw [List.getD_eq_getElem?_getD, List.getElem?_eq_getElem hd]
    simp
  have hne : q.getD depth [] ≠ [] := by
    apply (hcp _ _).1
    rw [List.getD_eq_getElem?_getD, List.getElem?_eq_getElem hd]
    exact List.getElem_mem _
  have hpre : q.getD depth [] <+: residual_key q pattern depth := by
    rw [hres, hq, List.flatten_cons, List.append_assoc]
    exact List.prefix_append _ _
  refine ⟨?_, ?_, hne, hpre⟩
  · rw [hres]; exact hsplit.symm
  · unfold residual_child_key
    rw [radix_substr_eq (by simpa using hpre.length_le)]
    simpa using (List.prefix_iff_eq_take.mp hpre).symm

theorem radix_substr_zero {key : Slice} {n : Nat} (h : n ≤ key.length) :
    radix_substr key 0 n = key.take n := by
  rw [radix_substr_eq (by omega)]; simp

/-- A node of a well-formed arena is not both an interior node and a chained leaf. -/
theorem WF.not_leaf {V : Type} {ns : List (radix_tree_node V)} {chain : List Nat}
    {lab : Nat → List Nat} {par : Nat → Nat} {P : List (List Nat)} (h : WF ns chain lab par P)
    {i : Nat} {n : radix_tree_node V} (hi : ns[i]? = some n) (hv : n.m_value = none) :
    i ∉ chain := by
  intro hc
  obtain ⟨n1, hn1, hv1⟩ := (h.chain_leaf i).mp hc
  rw [hi] at hn1; cases hn1
  exact hv1 hv

theorem WF.chain_lt {V : Type} {ns : List (radix_tree_node V)} {chain : List Nat}
    {lab : Nat → List Nat} {par : Nat → Nat} {P : List (List Nat)} (h : WF ns chain lab par P)
    {a : Nat} (ha : a ∈ chain) : a < ns.length := by
  obtain ⟨n, hn, -⟩ := (h.chain_leaf a).mp ha
  exact lt_of_getElem? hn

theorem WF.mono {V : Type} {ns : List (radix_tree_node V)} {chain : List Nat}
    {lab : Nat → List Nat} {par : Nat → Nat} {P P1 : List (List Nat)}
    (h : WF ns chain lab par P) (hP : ∀ p ∈ P, p ∈ P1) : WF ns chain lab par P1 :=
  ⟨h.root, h.root_first, h.lab_root, h.child, h.child_nodup, h.range, h.chain_nodup,
    h.chain_leaf, h.chain_link, h.chain_end, fun i n hi hv h0 =>
      let ⟨p, hp, hl⟩ := h.label i n hi hv h0
      ⟨p, hP p hp, hl⟩⟩

/-! ## Interior nodes that the surgery leaves alone -/

theorem WF.nodeOK {V : Type} {ns : List (radix_tree_node V)} {chain : List Nat}
    {lab : Nat → List Nat} {par : Nat → Nat} {P : List (List Nat)} (h : WF ns chain lab par P)
    {i : Nat} {n : radix_tree_node V} (hi : ns[i]? = some n) (hv : n.m_value = none) :
    NodeOK ns chain lab par P i n :=
  ⟨fun k c hk => h.child i n k c hi hv hk, h.child_nodup i n hi hv, h.range i n hi hv,
    h.label i n hi hv⟩

/-- An interior node other than `m` keeps satisfying its clauses when a leaf `L` is linked in
behind `tl`, `m` is relabelled compatibly with its parent, and the ghost data of the other old
nodes is kept. -/
theorem old_node_ok {V : Type} {ns mid : List (radix_tree_node V)} {chain : List Nat}
    {lab lab1 : Nat → List Nat} {par par1 : Nat → Nat} {P P1 : List (List Nat)}
    (h : WF ns chain lab par P) {l1 l2 : List Nat} {tl : Nat} (L : Nat)
    (hc : chain = l1 ++ tl :: l2) (hP : ∀ p ∈ P, p ∈ P1) (m : Nat)
    (hsame : ∀ (c : Nat) (cn : radix_tree_node V), ns[c]? = some cn → cn.m_value = none →
      c ≠ m → mid[c]? = some cn)
    (hm : ∃ mB : radix_tree_node V, mid[m]? = some mB ∧ mB.m_value = none ∧
      ∀ (i : Nat) (ni : radix_tree_node V) (k : Slice), ns[i]? = some ni → ni.m_value = none →
        (k, m) ∈ ni.m_children → k <+: mB.m_key ∧ lab1 m = lab i ++ mB.m_key ∧ par1 m = i)
    (hlab : ∀ (j : Nat) (n : radix_tree_node V), ns[j]? = some n → j ≠ m → lab1 j = lab j)
    (hpar : ∀ (c : Nat) (n : radix_tree_node V), ns[c]? = some n → par c ≠ m → par1 c = par c)
    {i : Nat} {n : radix_tree_node V} (hi : ns[i]? = some n) (hv : n.m_value = none)
    (him : i ≠ m) : NodeOK mid (l1 ++ tl :: L :: l2) lab1 par1 P1 i n := by
  have hnd : (l1 ++ tl :: l2).Nodup := hc ▸ h.chain_nodup
  constructor
  · intro k c hk
    obtain ⟨cn, hcn, hcv, hk0, hpre, hpc, hl⟩ := h.child i n k c hi hv hk
    by_cases hcm : c = m
    · subst hcm
      obtain ⟨mB, hmB, hmBv, hmB2⟩ := hm
      obtain ⟨e1, e2, e3⟩ := hmB2 i n k hi hv hk
      exact ⟨mB, hmB, hmBv, hk0, e1, e3, by rw [e2, hlab i n hi him]⟩
    · refine ⟨cn, hsame c cn hcn hcv hcm, hcv, hk0, hpre, ?_, ?_⟩
      · rw [hpar c cn hcn (by rw [hpc]; exact him), hpc]
      · rw [hlab c cn hcn hcm, hlab i n hi him, hl]
  · exact h.child_nodup i n hi hv
  · rcases h.range i n hi hv with ⟨-, hce, -, -⟩ | ⟨f, l, A, R, hf, hl, hAR, hm⟩
    · rw [hc] at hce; simp at hce
    · obtain ⟨A1, R1, e, hsub, -⟩ := range_ins L (hAR.symm.trans hc) hnd
      exact Or.inr ⟨f, l, A1, R1, hf, hl, e, hsub l hm⟩
  · intro h0
    obtain ⟨p, hp, hl⟩ := h.label i n hi hv h0
    exact ⟨p, hP p hp, by rw [hlab i n hi him]; exact hl⟩

/-! ## The branch of `insert` that hangs a leaf below the matched node -/

theorem getElem?_attach_base {V : Type} (ns : List (radix_tree_node V))
    (pats : List (List Nat)) (q : List Slice) (key : Slice) (v : V) (m depth j : Nat)
    {mn : radix_tree_node V} (hmn : ns[m]? = some mn) :
    (attach_base ns pats q key v m depth mn)[j]? =
      if j = m then some (attach_m mn q key depth ns.length)
      else if j = ns.length then some (attach_leaf mn q key v depth)
      else if j = ns.length + 1 then
        (if depth ≠ q.length then some (residual_node q key depth ns.length) else none)
      else ns[j]? := by
  have hm : m < ns.length := lt_of_getElem? hmn
  unfold attach_base attach_m attach_leaf residual_node
  by_cases hres : depth ≠ q.length
  · simp only [if_pos hres]
    rw [getElem?_attach_residual _ _ _ _ _ _ _ _ (by omega) (by simp; omega) (by simp)]
    simp only [List.length_append, List.length_singleton]
    split_ifs with h1 h2 h3
    · rw [List.getElem?_append_left hm, hmn]; rfl
    · simp
    · rfl
    · rcases Nat.lt_or_gt_of_ne h2 with h | h
      · rw [List.getElem?_append_left h]
      · rw [List.getElem?_eq_none (by simp; omega), List.getElem?_eq_none (by omega)]
  · simp only [if_neg hres]
    split_ifs with h1 h2 h3
    · subst h1; rw [List.getElem?_append_left hm, hmn]
    · subst h2; simp
    · subst h3; simp
    · rcases Nat.lt_or_gt_of_ne h2 with h | h
      · rw [List.getElem?_append_left h]
      · rw [List.getElem?_eq_none (by simp; omega), List.getElem?_eq_none (by omega)]

theorem length_attach_base {V : Type} (ns : List (radix_tree_node V))
    (pats : List (List Nat)) (q : List Slice) (key : Slice) (v : V) (m depth : Nat)
    (mn : radix_tree_node V) : ns.length < (attach_base ns pats q key v m depth mn).length := by
  unfold attach_base
  split_ifs
  · rw [length_attach_residual]; simp; omega
  · simp

/-- The invariant from its clauses at every interior node and its chain clauses. -/
theorem WF.of_nodeOK {V : Type} {ns : List (radix_tree_node V)} {chain : List Nat}
    {lab : Nat → List Nat} {par : Nat → Nat} {P : List (List Nat)}
    (hroot : ∃ r : radix_tree_node V, ns[0]? = some r ∧ r.m_value = none ∧ r.m_key = [] ∧
      r.m_first = chain.head?)
    (hlab : lab 0 = [])
    (hnode : ∀ (i : Nat) (n : radix_tree_node V), ns[i]? = some n → n.m_value = none →
      NodeOK ns chain lab par P i n)
    (hchain : chain.Nodup ∧
      (∀ a : Nat, a ∈ chain ↔ ∃ n : radix_tree_node V, ns[a]? = some n ∧ n.m_value ≠ none) ∧
      chain.Chain' (fun a b => ∃ na nb : radix_tree_node V,
        ns[a]? = some na ∧ ns[b]? = some nb ∧ na.m_last = some b ∧ nb.m_first = some a) ∧
      (∀ a : Nat, chain.getLast? = some a →
        ∃ na : radix_tree_node V, ns[a]? = some na ∧ na.m_last = none)) :
    WF ns chain lab par P := by
  obtain ⟨r, hr, hrv, hrk, hrf⟩ := hroot
  exact ⟨⟨r, hr, hrv, hrk⟩, fun r1 hr1 => by rw [hr] at hr1; cases hr1; exact hrf, hlab,
    fun i n k c hi hv hk => (hnode i n hi hv).child k c hk,
    fun i n hi hv => (hnode i n hi hv).child_nodup,
    fun i n hi hv => (hnode i n hi hv).range, hchain.1, hchain.2.1, hchain.2.2.1,
    hchain.2.2.2, fun i n hi hv => (hnode i n hi hv).label⟩

/-- Well-formedness of the arena after the pointer surgery of the attach branch, on a tree that
already has leaves. -/
theorem attach_rewire_WF {V : Type} {t : radix_tree V} {chain : List Nat}
    {lab : Nat → List Nat} {par : Nat → Nat} {P : List (List Nat)}
    (h : WF t.nodes chain lab par P) {pattern : List Nat} {q : List Slice}
    (hp : UTF8Decode pattern = some q) (v : V) {m depth : Nat} {mn : radix_tree_node V}
    (hmn : t.nodes[m]? = some mn) (hmv : mn.m_value = none) (hdepth : depth ≤ q.length)
    (hlab : lab m = (q.take depth).flatten) {tl : Nat} (hlast : mn.m_last = some tl) :
    ∃ mid pats l1 l2 lab1 par1,
      attach_rewire t q pattern v m depth = some (mid, pats, some tl) ∧
      chain = l1 ++ tl :: l2 ∧
      WF mid (l1 ++ tl :: t.nodes.length :: l2) lab1 par1 (pattern :: P) ∧
      ((∀ (j : Nat) (n : radix_tree_node V), t.nodes[j]? = some n → n.m_heap = none) →
        ∀ (j : Nat) (n : radix_tree_node V), mid[j]? = some n → n.m_heap = none) ∧
      (∀ (a : Nat) (n : radix_tree_node V), t.nodes[a]? = some n → n.m_value ≠ none →
        ∃ n1 : radix_tree_node V, mid[a]? = some n1 ∧ n1.m_value = n.m_value) ∧
      (∃ nL : radix_tree_node V, mid[t.nodes.length]? = some nL ∧ nL.m_value = some [v]) := by
  have hmL : m < t.nodes.length := lt_of_getElem? hmn
  -- the last leaf of `m` and its place in the chain
  obtain ⟨f, l, A, R, hfirst, hl, hAR, hlR⟩ : ∃ f l A R, mn.m_first = some f ∧
      mn.m_last = some l ∧ chain = A ++ f :: R ∧ l ∈ f :: R := by
    rcases h.range m mn hmn hmv with ⟨-, -, -, hn⟩ | hr
    · rw [hlast] at hn; cases hn
    · exact hr
  rw [hlast] at hl
  cases hl
  have htlc : tl ∈ chain := by rw [hAR]; exact List.mem_append_right _ hlR
  obtain ⟨l1, l2, hc⟩ := List.append_of_mem htlc
  obtain ⟨tln, htln, htlv⟩ := (h.chain_leaf tl).mp htlc
  have htlL : tl < t.nodes.length := lt_of_getElem? htln
  have htlm : tl ≠ m := fun e => h.not_leaf hmn hmv (e ▸ htlc)
  have hnext := h.next_eq hc htln
  have hnd : (l1 ++ tl :: l2).Nodup := hc ▸ h.chain_nodup
  have hLc : t.nodes.length ∉ chain := fun hm => absurd (h.chain_lt hm) (lt_irrefl _)
  have hl2 : ∀ x : Nat, some x = l2.head? → x ∈ chain ∧ x ≠ tl := by
    intro x e
    have hx : x ∈ l2 := List.mem_of_mem_head? e.symm
    refine ⟨by rw [hc]; simp [hx], ?_⟩
    rintro rfl
    exact (List.nodup_cons.mp (List.nodup_append.mp hnd).2.1).1 hx
  -- the arena before the leaf is linked in
  have hbase := fun j => getElem?_attach_base t.nodes t.m_patterns q pattern v m depth j hmn
  obtain ⟨mid, hsplice, -, hmid⟩ := splice_after_eq
    (attach_base t.nodes t.m_patterns q pattern v m depth mn)
    tl t.nodes.length tln (attach_leaf mn q pattern v depth)
    (by rw [hbase, if_neg htlm, if_neg (by omega), if_neg (by omega)]; exact htln)
    (by rw [hbase, if_neg (by omega), if_pos rfl])
    (by omega) rfl
    (by
      intro nx hnx
      obtain ⟨hxc, hxt⟩ := hl2 nx (by rw [← hnext, hnx])
      have := h.chain_lt hxc
      exact ⟨by omega, hxt, lt_trans this (length_attach_base _ _ _ _ _ _ _ _)⟩)
  -- lookups in the final arena
  have hmid_old : ∀ (c : Nat) (cn : radix_tree_node V), t.nodes[c]? = some cn →
      cn.m_value = none → c ≠ m → mid[c]? = some cn := by
    intro c cn hcn hcv hcm
    have hcL := lt_of_getElem? hcn
    have hcc := h.not_leaf hcn hcv
    rw [hmid, if_neg (fun e : c = tl => hcc (e ▸ htlc)), if_neg (by omega), if_neg, hbase,
      if_neg hcm, if_neg (by omega), if_neg (by omega)]
    · exact hcn
    · intro e
      exact hcc (hl2 c (by rw [← hnext, e])).1
  have hmid_m : mid[m]? = some (attach_m mn q pattern depth t.nodes.length) := by
    have hmc := h.not_leaf hmn hmv
    rw [hmid, if_neg (Ne.symm htlm), if_neg (by omega), if_neg, hbase, if_pos rfl]
    intro e
    exact hmc (hl2 m (by rw [← hnext, e])).1
  have hmid_L : mid[t.nodes.length]? = some
      { attach_leaf mn q pattern v depth with m_first := some tl, m_last := tln.m_last } := by
    rw [hmid, if_neg (by omega), if_pos rfl]
  have hmid_L1 : mid[t.nodes.length + 1]? = if depth ≠ q.length then
      some (residual_node q pattern depth t.nodes.length) else none := by
    rw [hmid, if_neg (by omega), if_neg (by omega), if_neg, hbase, if_neg (by omega),
      if_neg (by omega), if_pos rfl]
    intro e
    have := h.chain_lt (hl2 _ (by rw [← hnext, e])).1
    omega
  have hmid_leaf : ∀ (a : Nat) (n : radix_tree_node V), a ∈ chain → t.nodes[a]? = some n →
      mid[a]? = some (leaf_relinked n a tl t.nodes.length l2.head?) := by
    intro a n hac hn
    have haL := h.chain_lt hac
    have ham : a ≠ m := fun e => h.not_leaf hmn hmv (e ▸ hac)
    have hb : (attach_base t.nodes t.m_patterns q pattern v m depth mn)[a]? = some n := by
      rw [hbase, if_neg ham, if_neg (by omega), if_neg (by omega)]; exact hn
    rw [hmid]
    unfold leaf_relinked
    by_cases hat : a = tl
    · subst hat
      rw [htln] at hn; cases hn
      rw [if_pos rfl, if_pos rfl, if_neg]
      intro e
      exact (hl2 a e).2 rfl
    · rw [if_neg hat, if_neg (by omega), if_neg hat, hnext]
      split_ifs with e
      · rw [hb]; rfl
      · rw [hb]
  have hclass : ∀ (i : Nat) (n1 : radix_tree_node V), mid[i]? = some n1 → n1.m_value = none →
      (i = m ∧ n1 = attach_m mn q pattern depth t.nodes.length) ∨
      (i = t.nodes.length + 1 ∧ depth ≠ q.length ∧
        n1 = residual_node q pattern depth t.nodes.length) ∨
      (i ≠ m ∧ t.nodes[i]? = some n1) := by
    intro i n1 hi hv
    by_cases him : i = m
    · subst him
      rw [hmid_m] at hi
      exact Or.inl ⟨rfl, (Option.some.inj hi).symm⟩
    · by_cases hiL : i < t.nodes.length
      · obtain ⟨n, hn⟩ : ∃ n, t.nodes[i]? = some n := ⟨_, List.getElem?_eq_getElem hiL⟩
        by_cases hnv : n.m_value = none
        · rw [hmid_old i n hn hnv him] at hi
          cases hi
          exact Or.inr (Or.inr ⟨him, hn⟩)
        · exfalso
          have hic : i ∈ chain := (h.chain_leaf i).mpr ⟨n, hn, hnv⟩
          rw [hmid_leaf i n hic hn] at hi
          cases hi
          exact hnv hv
      · by_cases hiL0 : i = t.nodes.length
        · subst hiL0
          rw [hmid_L] at hi
          cases hi
          simp [attach_leaf] at hv
        · by_cases hiL1 : i = t.nodes.length + 1
          · subst hiL1
            rw [hmid_L1] at hi
            split_ifs at hi with hres
            cases hi
            exact Or.inr (Or.inl ⟨rfl, hres, rfl⟩)
          · exfalso
            rw [hmid, if_neg (by omega), if_neg hiL0, if_neg, hbase, if_neg him, if_neg hiL0,
              if_neg hiL1, List.getElem?_eq_none (by omega)] at hi
            · cases hi
            · intro e
              have := h.chain_lt (hl2 _ (by rw [← hnext, e])).1
              omega
  have hupd_lab : ∀ (j : Nat) (n : radix_tree_node V), t.nodes[j]? = some n →
      Function.update lab (t.nodes.length + 1) (lab m ++ residual_key q pattern depth) j =
        lab j := by
    intro j n hj
    have := lt_of_getElem? hj
    rw [Function.update_noteq (by omega)]
  have hupd_par : ∀ (j : Nat) (n : radix_tree_node V), t.nodes[j]? = some n →
      Function.update par (t.nodes.length + 1) m j = par j := by
    intro j n hj
    have := lt_of_getElem? hj
    rw [Function.update_noteq (by omega)]
  refine ⟨mid, (if depth ≠ q.length then
        attach_residual (t.nodes ++ [{ m_key := mn.m_key, m_value := some [v] }]) t.m_patterns
          q pattern m t.nodes.length depth
      else (t.nodes ++ [{ m_key := mn.m_key, m_value := some [v] }], t.m_patterns)).2, l1, l2,
    Function.update lab (t.nodes.length + 1) (lab m ++ residual_key q pattern depth),
    Function.update par (t.nodes.length + 1) m, ?_, hc, ?_, ?_, ?_, ?_⟩
  · unfold attach_rewire
    simp only [hmn, hlast]
    unfold attach_base at hsplice
    simp only [hsplice]
  · apply WF.of_nodeOK
    · -- the root
      obtain ⟨r, hr, hrv, hrk⟩ := h.root
      have hrf := h.root_first r hr
      have hhead : (l1 ++ tl :: t.nodes.length :: l2).head? = chain.head? := by
        rw [hc]; cases l1 <;> simp
      by_cases h0 : (0 : Nat) = m
      · subst h0
        rw [hmn] at hr; cases hr
        exact ⟨_, hmid_m, hrv, hrk, by rw [hhead]; exact hrf⟩
      · exact ⟨r, hmid_old 0 r hr hrv h0, hrv, hrk, by rw [hhead]; exact hrf⟩
    · obtain ⟨r, hr, -⟩ := h.root
      rw [hupd_lab 0 r hr]; exact h.lab_root
    · intro i n1 hi hv
      rcases hclass i n1 hi hv with ⟨rfl, rfl⟩ | ⟨rfl, hres, rfl⟩ | ⟨him, hn⟩
      · -- the matched node
        have hok := h.nodeOK hmn hmv
        constructor
        · intro k c hk
          have hkc : (depth ≠ q.length ∧ (k, c) =
              (residual_child_key q pattern depth, t.nodes.length + 1)) ∨
              (k, c) ∈ mn.m_children := by
            unfold attach_m at hk
            simp only at hk
            split_ifs at hk with hres
            · rcases mem_map_assign hk with e | e
              · exact Or.inl ⟨hres, e⟩
              · exact Or.inr e
            · exact Or.inr hk
          rcases hkc with ⟨hres, e⟩ | hk
          · cases e
            obtain ⟨-, e2, e3, e4⟩ := residual_spec hp depth (by omega)
            refine ⟨_, by rw [hmid_L1, if_pos hres], rfl, by rw [e2]; exact e3,
              by rw [e2]; exact e4, by simp, ?_⟩
            rw [Function.update_same, hupd_lab i mn hmn]
            rfl
          · obtain ⟨cn, hcn, hcv, hk0, hpre, hpc, hl⟩ := hok.child k c hk
            have hci : c ≠ i := h.child_ne_self hmn hmv hk
            refine ⟨cn, hmid_old c cn hcn hcv hci, hcv, hk0, hpre, ?_, ?_⟩
            · rw [hupd_par c cn hcn, hpc]
            · rw [hupd_lab c cn hcn, hupd_lab i mn hmn, hl]
        · unfold attach_m
          simp only
          split_ifs with hres
          · apply map_assign_nodup hok.child_nodup
            intro hmem
            obtain ⟨e, he, hev⟩ := List.mem_map.mp hmem
            obtain ⟨cn, hcn, -⟩ := hok.child e.1 e.2 he
            have := lt_of_getElem? hcn
            omega
          · exact hok.child_nodup
        · obtain ⟨A1, R1, e, hsub, -⟩ := range_ins t.nodes.length (hAR.symm.trans hc) hnd
          exact Or.inr ⟨f, tl, A1, R1, hfirst, hlast, e, hsub tl hlR⟩
        · intro h0
          obtain ⟨p, hp1, hl⟩ := hok.label h0
          exact ⟨p, List.mem_cons_of_mem _ hp1, by rw [hupd_lab i mn hmn]; exact hl⟩
      · -- the node of the residual
        constructor
        · intro k c hk
          simp [residual_node] at hk
        · simp [residual_node]
        · exact Or.inr ⟨t.nodes.length, t.nodes.length, l1 ++ [tl], l2, rfl, rfl, by simp,
            by simp⟩
        · intro _
          obtain ⟨e1, -⟩ := residual_spec hp depth (by omega)
          refine ⟨pattern, List.mem_cons_self _ _, ?_⟩
          rw [Function.update_same, hlab, e1]
      · -- the other interior nodes
        have hnv : n1.m_value = none := hv
        refine old_node_ok h t.nodes.length hc (fun p hp1 => List.mem_cons_of_mem _ hp1) m
          hmid_old ⟨_, hmid_m, hmv, ?_⟩ (fun j n hj _ => hupd_lab j n hj)
          (fun c n hcn _ => hupd_par c n hcn) hn hnv him
        intro i2 ni k hi2 hiv hk
        obtain ⟨cn, hcn, -, -, hpre, hpc, hl⟩ := h.child i2 ni k m hi2 hiv hk
        rw [hmn] at hcn; cases hcn
        exact ⟨hpre, by rw [hupd_lab m mn hmn]; exact hl, by rw [hupd_par m mn hmn]; exact hpc⟩
    · -- the chain
      apply chain_splice h hc hLc
      · exact ⟨_, hmid_L, by simp [attach_leaf], rfl, hnext⟩
      · intro a n hac hn
        obtain ⟨n0, hn0, hnv⟩ := (h.chain_leaf a).mp hac
        rw [hn] at hn0; cases hn0
        exact ⟨_, hmid_leaf a n hac hn, hnv, rfl, rfl⟩
      · intro a n1 hn1 hv1
        by_contra hcon
        push_neg at hcon
        by_cases ham : a = m
        · subst ham
          rw [hmid_m] at hn1; cases hn1
          exact hv1 hmv
        · by_cases haL : a < t.nodes.length
          · obtain ⟨n, hn⟩ : ∃ n, t.nodes[a]? = some n := ⟨_, List.getElem?_eq_getElem haL⟩
            by_cases hnv : n.m_value = none
            · rw [hmid_old a n hn hnv ham] at hn1
              cases hn1
              exact hv1 hnv
            · exact hcon.2 ((h.chain_leaf a).mpr ⟨n, hn, hnv⟩)
          · by_cases haL1 : a = t.nodes.length + 1
            · subst haL1
              rw [hmid_L1] at hn1
              split_ifs at hn1
              cases hn1
              exact hv1 rfl
            · rw [hmid, if_neg (by omega), if_neg hcon.1, if_neg, hbase, if_neg ham,
                if_neg hcon.1, if_neg haL1, List.getElem?_eq_none (by omega)] at hn1
              · cases hn1
              · intro e
                have := h.chain_lt (hl2 _ (by rw [← hnext, e])).1
                omega
  · -- no heap appears
    intro hnh j n hj
    by_cases hjm : j = m
    · subst hjm
      rw [hmid_m] at hj; cases hj
      exact hnh j mn hmn
    · by_cases hjL : j < t.nodes.length
      · obtain ⟨n0, hn0⟩ : ∃ n, t.nodes[j]? = some n := ⟨_, List.getElem?_eq_getElem hjL⟩
        by_cases hnv : n0.m_value = none
        · rw [hmid_old j n0 hn0 hnv hjm] at hj
          cases hj
          exact hnh j _ hn0
        · rw [hmid_leaf j n0 ((h.chain_leaf j).mpr ⟨n0, hn0, hnv⟩) hn0] at hj
          cases hj
          exact hnh j n0 hn0
      · by_cases hjL0 : j = t.nodes.length
        · subst hjL0
          rw [hmid_L] at hj; cases hj; rfl
        · by_cases hjL1 : j = t.nodes.length + 1
          · subst hjL1
            rw [hmid_L1] at hj
            split_ifs at hj
            cases hj; rfl
          · rw [hmid, if_neg (by omega), if_neg hjL0, if_neg, hbase, if_neg hjm,
              if_neg hjL0, if_neg hjL1, List.getElem?_eq_none (by omega)] at hj
            · cases hj
            · intro e
              have := h.chain_lt (hl2 _ (by rw [← hnext, e])).1
              omega
  · intro a n hn hnv
    exact ⟨_, hmid_leaf a n ((h.chain_leaf a).mpr ⟨n, hn, hnv⟩) hn, rfl⟩
  · exact ⟨_, hmid_L, rfl⟩

/-- Well-formedness of the arena after the pointer surgery of the attach branch on a tree
without leaves: the new leaf becomes the whole chain. -/
theorem attach_rewire_WF_empty {V : Type} {t : radix_tree V} {chain : List Nat}
    {lab : Nat → List Nat} {par : Nat → Nat} {P : List (List Nat)}
    (h : WF t.nodes chain lab par P) {pattern : List Nat} {q : List Slice}
    (hp : UTF8Decode pattern = some q) (v : V) {m depth : Nat} {mn : radix_tree_node V}
    (hmn : t.nodes[m]? = some mn) (hmv : mn.m_value = none) (hdepth : depth ≤ q.length)
    (hlab : lab m = (q.take depth).flatten) (hlast : mn.m_last = none) :
    ∃ mid pats lab1 par1,
      attach_rewire t q pattern v m depth = some (mid, pats, none) ∧ chain = [] ∧
      WF mid [t.nodes.length] lab1 par1 (pattern :: P) ∧
      ((∀ (j : Nat) (n : radix_tree_node V), t.nodes[j]? = some n → n.m_heap = none) →
        ∀ (j : Nat) (n : radix_tree_node V), mid[j]? = some n → n.m_heap = none) ∧
      (∃ nL : radix_tree_node V, mid[t.nodes.length]? = some nL ∧ nL.m_value = some [v]) := by
  have hmL : m < t.nodes.length := lt_of_getElem? hmn
  obtain ⟨hm0, hce, hfirst⟩ : m = 0 ∧ chain = [] ∧ mn.m_first = none := by
    rcases h.range m mn hmn hmv with ⟨h1, h2, h3, -⟩ | ⟨f, l, A, R, -, hl, -, -⟩
    · exact ⟨h1, h2, h3⟩
    · rw [hlast] at hl; cases hl
  subst hm0
  subst hce
  -- without leaves the root is the only node
  have honly : ∀ (i : Nat) (n : radix_tree_node V), t.nodes[i]? = some n → i = 0 := by
    intro i n hn
    by_cases hnv : n.m_value = none
    · rcases h.range i n hn hnv with ⟨h1, -⟩ | ⟨f, l, A, R, -, -, hAR, -⟩
      · exact h1
      · simp at hAR
    · have := (h.chain_leaf i).mpr ⟨n, hn, hnv⟩
      simp at this
  have hlen : t.nodes.length = 1 := by
    by_contra hne
    have h1 : 1 < t.nodes.length := by omega
    have := honly 1 _ (List.getElem?_eq_getElem h1)
    omega
  have hbase := fun j => getElem?_attach_base t.nodes t.m_patterns q pattern v 0 depth j hmn
  have hmid : ∀ j, (upd (attach_base t.nodes t.m_patterns q pattern v 0 depth mn) 0
      (fun n => { n with m_first := some t.nodes.length, m_last := some t.nodes.length }))[j]? =
      if j = 0 then some { attach_m mn q pattern depth t.nodes.length with
          m_first := some t.nodes.length, m_last := some t.nodes.length }
      else if j = t.nodes.length then some (attach_leaf mn q pattern v depth)
      else if j = t.nodes.length + 1 then
        (if depth ≠ q.length then some (residual_node q pattern depth t.nodes.length) else none)
      else none := by
    intro j
    rw [getElem?_upd]
    split_ifs with h1 h2 h3 h4
    · rw [hbase, if_pos rfl]; rfl
    · rw [hbase, if_neg h1, if_pos h2]
    · rw [hbase, if_neg h1, if_neg h2, if_pos h3, if_pos h4]
    · rw [hbase, if_neg h1, if_neg h2, if_pos h3, if_neg h4]
    · rw [hbase, if_neg h1, if_neg h2, if_neg h3, List.getElem?_eq_none (by omega)]
  have hchild : mn.m_children = [] := by
    cases hch : mn.m_children with
    | nil => rfl
    | cons e rest =>
      exfalso
      have hmem : (e.1, e.2) ∈ mn.m_children := by rw [hch]; exact List.mem_cons_self _ _
      obtain ⟨cn, hcn, -⟩ := h.child 0 mn e.1 e.2 hmn hmv hmem
      exact h.child_ne_root hmn hmv hmem (honly _ _ hcn)
  refine ⟨upd (attach_base t.nodes t.m_patterns q pattern v 0 depth mn) 0
      (fun n => { n with m_first := some t.nodes.length, m_last := some t.nodes.length }),
    (if depth ≠ q.length then
        attach_residual (t.nodes ++ [{ m_key := mn.m_key, m_value := some [v] }]) t.m_patterns
          q pattern 0 t.nodes.length depth
      else (t.nodes ++ [{ m_key := mn.m_key, m_value := some [v] }], t.m_patterns)).2,
    Function.update lab (t.nodes.length + 1) (lab 0 ++ residual_key q pattern depth),
    Function.update par (t.nodes.length + 1) 0, ?_, rfl, ?_, ?_, ?_⟩
  · unfold attach_rewire
    simp only [hmn, hlast]
    rfl
  · obtain ⟨r, hr, hrv, hrk⟩ := h.root
    rw [hmn] at hr; cases hr
    apply WF.of_nodeOK
    · exact ⟨{ attach_m mn q pattern depth t.nodes.length with
          m_first := some t.nodes.length, m_last := some t.nodes.length },
        by rw [hmid, if_pos rfl], hrv, hrk, rfl⟩
    · rw [Function.update_noteq (by omega)]; exact h.lab_root
    · intro i n1 hi hv
      rw [hmid] at hi
      split_ifs at hi with h1 h2 h3 h4
      · subst h1
        cases hi
        constructor
        · intro k c hk
          have hkc : depth ≠ q.length ∧ (k, c) =
              (residual_child_key q pattern depth, t.nodes.length + 1) := by
            unfold attach_m at hk
            simp only [hchild] at hk
            split_ifs at hk with hres
            · simp [map_assign] at hk
              exact ⟨hres, by rw [hk.1, hk.2]⟩
            · simp at hk
          obtain ⟨hres, e⟩ := hkc
          cases e
          obtain ⟨-, e2, e3, e4⟩ := residual_spec hp depth (by omega)
          refine ⟨_, by rw [hmid, if_neg (by omega), if_neg (by omega), if_pos rfl, if_pos hres],
            rfl, by rw [e2]; exact e3, by rw [e2]; exact e4, by simp, ?_⟩
          rw [Function.update_same, Function.update_noteq (by omega)]
          rfl
        · unfold attach_m
          simp only [hchild]
          split_ifs <;> simp [map_assign]
        · exact Or.inr ⟨t.nodes.length, t.nodes.length, [], [], rfl, rfl, rfl, by simp⟩
        · intro h0; exact absurd rfl h0
      · cases hi
        simp [attach_leaf] at hv
      · cases hi
        subst h3
        constructor
        · intro k c hk
          simp [residual_node] at hk
        · simp [residual_node]
        · exact Or.inr ⟨t.nodes.length, t.nodes.length, [], [], rfl, rfl, rfl, by simp⟩
        · intro _
          obtain ⟨e1, -⟩ := residual_spec hp depth (by omega)
          refine ⟨pattern, List.mem_cons_self _ _, ?_⟩
          rw [Function.update_same, hlab, e1]
    · refine ⟨by simp, ?_, by simp, ?_⟩
      · intro a
        constructor
        · intro ha
          simp only [List.mem_singleton] at ha
          subst ha
          exact ⟨_, by rw [hmid, if_neg (by omega), if_pos rfl], by simp [attach_leaf]⟩
        · rintro ⟨n, hn, hnv⟩
          rw [hmid] at hn
          split_ifs at hn with h1 h2 h3 h4
          · cases hn
            exact absurd hrv hnv
          · simp [h2]
          · cases hn
            exact absurd rfl hnv
      · intro a ha
        simp only [List.getLast?_singleton, Option.some.injEq] at ha
        subst ha
        exact ⟨_, by rw [hmid, if_neg (by omega), if_pos rfl], rfl⟩
  · intro hnh j n hj
    rw [hmid] at hj
    split_ifs at hj with h1 h2 h3 h4
    · cases hj
      exact hnh 0 mn hmn
    · cases hj; rfl
    · cases hj; rfl
  · exact ⟨_, by rw [hmid, if_neg (by omega), if_pos rfl], rfl⟩

/-! ## The branch of `insert` that splits an edge -/

theorem split_rewire_eq {V : Type} (t : radix_tree V) (q : List Slice) (key : Slice) (v : V)
    (m count depth : Nat) (new_key : Slice) {mn tln : radix_tree_node V} {tl : Nat}
    (hmn : t.nodes[m]? = some mn) (hlast : mn.m_last = some tl)
    (htln : t.nodes[tl]? = some tln) (htlm : tl ≠ m)
    (hnx : ∀ nx, tln.m_last = some nx → nx < t.nodes.length ∧ nx ≠ tl ∧ nx ≠ m) :
    ∃ mid pats, split_rewire t q key v m count depth new_key = some (mid, pats, tl) ∧
      ∀ j, mid[j]? =
        if j = m then some (split_m mn count q key depth new_key t.nodes.length)
        else if j = tl then some { tln with m_last := some t.nodes.length }
        else if j = t.nodes.length then
          some (split_leaf mn count q key v depth tl tln.m_last)
        else if j = t.nodes.length + 1 then some (split_node mn count)
        else if j = t.nodes.length + 2 then
          (if depth ≠ q.length then some (residual_node q key depth t.nodes.length) else none)
        else if some j = tln.m_last then
          (t.nodes[j]?).map (fun n => { n with m_first := some t.nodes.length })
        else t.nodes[j]? := by
  have hmL : m < t.nodes.length := lt_of_getElem? hmn
  have htlL : tl < t.nodes.length := lt_of_getElem? htln
  -- the arena after the two allocations and the swap
  have hns2 : ∀ j, (upd (t.nodes ++
      [{ m_key := radix_substr mn.m_key 0 count, m_value := some [v] },
       { m_first := mn.m_first, m_last := some tl, m_key := mn.m_key.drop count,
         m_children := mn.m_children, m_heap := mn.m_heap, m_count := mn.m_count }]) m
      (fun n => { n with m_first := none, m_last := none,
                         m_key := radix_substr mn.m_key 0 count, m_children := [],
                         m_heap := none }))[j]? =
      if j = m then some (split_cleared mn count)
      else if j = t.nodes.length then
        some { m_key := radix_substr mn.m_key 0 count, m_value := some [v] }
      else if j = t.nodes.length + 1 then some (split_node mn count)
      else t.nodes[j]? := by
    intro j
    rw [getElem?_upd, getElem?_append_two, getElem?_append_two]
    unfold split_cleared split_node
    rw [hlast]
    split_ifs with h1 h2 h3 h4 h5 h6
    all_goals first
      | omega
      | rw [hmn]; rfl
      | rfl
      | (rw [List.getElem?_eq_none (by omega)])
  obtain ⟨ns3, hsplice, hlen3, hns3⟩ := splice_after_eq _ tl t.nodes.length tln
    { m_key := radix_substr mn.m_key 0 count, m_value := some [v] }
    (by rw [hns2, if_neg htlm, if_neg (by omega), if_neg (by omega)]; exact htln)
    (by rw [hns2, if_neg (by omega), if_pos rfl])
    (by omega) rfl
    (by
      intro nx hx
      obtain ⟨h1, h2, h3⟩ := hnx nx hx
      exact ⟨by omega, h2, by simp [length_upd]; omega⟩)
  -- the arena after the leaf is linked in and `match_node` has got its range and first child
  have hns4 : ∀ j, (upd ns3 m (fun n =>
      { n with m_first := mn.m_first,
               m_last := some t.nodes.length,
               m_children := map_assign n.m_children new_key (t.nodes.length + 1) }))[j]? =
      if j = m then
        some { split_cleared mn count with
               m_first := mn.m_first,
               m_last := some t.nodes.length,
               m_children := map_assign [] new_key (t.nodes.length + 1) }
      else if j = tl then some { tln with m_last := some t.nodes.length }
      else if j = t.nodes.length then
        some { m_key := radix_substr mn.m_key 0 count, m_value := some [v],
               m_first := some tl, m_last := tln.m_last }
      else if j = t.nodes.length + 1 then some (split_node mn count)
      else if some j = tln.m_last then
        (t.nodes[j]?).map (fun n => { n with m_first := some t.nodes.length })
      else t.nodes[j]? := by
    intro j
    rw [getElem?_upd]
    by_cases h1 : j = m
    · subst h1
      have hm3 : ns3[j]? = some (split_cleared mn count) := by
        rw [hns3, if_neg (Ne.symm htlm), if_neg (by omega), if_neg, hns2, if_pos rfl]
        intro e
        exact (hnx j e.symm).2.2 rfl
      rw [if_pos rfl, if_pos rfl, hm3]
      rfl
    · rw [if_neg h1, if_neg h1, hns3]
      by_cases h2 : j = tl
      · rw [if_pos h2, if_pos h2]
      · rw [if_neg h2, if_neg h2]
        by_cases h3 : j = t.nodes.length
        · rw [if_pos h3, if_pos h3]
        · rw [if_neg h3, if_neg h3]
          by_cases h4 : some j = tln.m_last
          · have := hnx j h4.symm
            rw [if_pos h4, if_neg (by omega), if_pos h4, hns2, if_neg h1, if_neg h3,
              if_neg (by omega)]
          · rw [if_neg h4, if_neg h4, hns2, if_neg h1, if_neg h3]
  have hlen4 : (upd ns3 m (fun n =>
      { n with m_first := mn.m_first,
               m_last := some t.nodes.length,
               m_children := map_assign n.m_children new_key (t.nodes.length + 1) })).length =
      t.nodes.length + 2 := by
    rw [length_upd, hlen3, length_upd]; simp
  unfold split_rewire
  simp only [hmn, hlast, hsplice]
  refine ⟨_, _, rfl, ?_⟩
  intro j
  by_cases hres : depth ≠ q.length
  · simp only [if_pos hres]
    rw [getElem?_attach_residual _ _ _ _ _ _ _ _ (by omega) (by rw [hlen4]; omega)
      (by rw [hlen4]; omega), hlen4]
    by_cases h1 : j = m
    · rw [if_pos h1, if_pos h1, hns4, if_pos rfl]
      unfold split_m split_cleared
      simp only [Option.map_some', if_pos hres]
    · rw [if_neg h1, if_neg h1]
      by_cases h2 : j = tl
      · rw [if_pos h2, if_neg (by omega), if_neg (by omega), hns4, if_neg h1, if_pos h2]
      · rw [if_neg h2]
        by_cases h3 : j = t.nodes.length
        · rw [if_pos h3, if_pos h3, hns4, if_neg (by omega), if_neg (by omega), if_pos rfl]
          unfold split_leaf
          simp only [Option.map_some', if_pos hres]
        · rw [if_neg h3, if_neg h3]
          by_cases h4 : j = t.nodes.length + 1
          · rw [if_pos h4, if_neg (by omega), hns4, if_neg h1, if_neg h2, if_neg h3, if_pos h4]
          · rw [if_neg h4]
            by_cases h5 : j = t.nodes.length + 2
            · rw [if_pos h5, if_pos h5]
              rfl
            · rw [if_neg h5, if_neg h5, hns4, if_neg h1, if_neg h2, if_neg h3, if_neg h4]
  · simp only [if_neg hres]
    rw [hns4]
    by_cases h1 : j = m
    · rw [if_pos h1, if_pos h1]
      unfold split_m split_cleared
      simp only [if_neg hres]
    · rw [if_neg h1, if_neg h1]
      by_cases h2 : j = tl
      · rw [if_pos h2, if_pos h2]
      · rw [if_neg h2, if_neg h2]
        by_cases h3 : j = t.nodes.length
        · rw [if_pos h3, if_pos h3]
          unfold split_leaf
          simp only [if_neg hres]
        · rw [if_neg h3, if_neg h3]
          by_cases h4 : j = t.nodes.length + 1
          · rw [if_pos h4, if_pos h4]
          · rw [if_neg h4, if_neg h4]
            by_cases h5 : j = t.nodes.length + 2
            · rw [if_pos h5]
              subst h5
              rw [if_neg, List.getElem?_eq_none (by omega)]
              intro e
              have := hnx _ e.symm
              omega
            · rw [if_neg h5]

theorem SliceDecode_spec {s k : Slice} (h : SliceDecode s = some k) : k ≠ [] ∧ k <+: s := by
  unfold SliceDecode at h
  split_ifs at h with h1 h2 h3
  · simp only [Option.some.injEq] at h
    subst h
    refine ⟨?_, List.take_prefix _ _⟩
    intro e
    have hl : (List.take 1 s).length = 1 := by rw [List.length_take]; omega
    rw [e] at hl
    simp at hl
  · have hs : s ≠ [] := List.length_pos.mp h1
    have hf : first_len s = match code_len_loop s 0 6 (byteAt s 0) 1 with
        | none => none
        | some code_len => if code_len = 1 then none else some code_len := by
      unfold first_len; rw [if_neg h3]
    cases hc : code_len_loop s 0 6 (byteAt s 0) 1 with
    | none => rw [hc] at h; simp at h
    | some cl =>
      rw [hc] at h hf
      simp only at h hf
      split_ifs at h hf with h4
      simp only [Option.some.injEq] at h
      subst h
      have hpos := first_len_pos hf
      have hle := first_len_le hf hs
      refine ⟨?_, List.take_prefix _ _⟩
      intro e
      have hl : (List.take cl s).length = cl := by rw [List.length_take]; omega
      rw [e] at hl
      simp at hl
      omega

theorem prefix_take_of_le {k key : Slice} {count : Nat} (h : k <+: key) (hk : k.length ≤ count) :
    k <+: key.take count := by
  apply List.prefix_of_prefix_length_le h (List.take_prefix _ _)
  rw [List.length_take]
  have := h.length_le
  omega

/-- Well-formedness of the arena after the pointer surgery of the split branch. -/
theorem split_rewire_WF {V : Type} {t : radix_tree V} {chain : List Nat}
    {lab : Nat → List Nat} {par : Nat → Nat} {P : List (List Nat)}
    (h : WF t.nodes chain lab par P) {pattern : List Nat} {q : List Slice}
    (hp : UTF8Decode pattern = some q) (v : V) {m count depth : Nat}
    {mn : radix_tree_node V} (hmn : t.nodes[m]? = some mn) (hmv : mn.m_value = none)
    (hdepth : depth ≤ q.length) (hlt : count < mn.m_key.length)
    (hlab : lab m = (q.take depth).flatten ++ mn.m_key.drop count)
    (hfirst : ∀ (i : Nat) (ni : radix_tree_node V) (k : Slice), t.nodes[i]? = some ni →
      ni.m_value = none → (k, m) ∈ ni.m_children → k.length ≤ count)
    {new_key : Slice} (hnk : new_key ≠ [] ∧ new_key <+: mn.m_key.drop count) :
    ∃ mid pats l1 l2 tl lab1 par1,
      split_rewire t q pattern v m count depth new_key = some (mid, pats, tl) ∧
      mn.m_last = some tl ∧ chain = l1 ++ tl :: l2 ∧
      WF mid (l1 ++ tl :: t.nodes.length :: l2) lab1 par1 (pattern :: P) ∧
      ((∀ (j : Nat) (n : radix_tree_node V), t.nodes[j]? = some n → n.m_heap = none) →
        ∀ (j : Nat) (n : radix_tree_node V), mid[j]? = some n → n.m_heap = none) ∧
      (∀ (a : Nat) (n : radix_tree_node V), t.nodes[a]? = some n → n.m_value ≠ none →
        ∃ n1 : radix_tree_node V, mid[a]? = some n1 ∧ n1.m_value = n.m_value) ∧
      (∃ nL : radix_tree_node V, mid[t.nodes.length]? = some nL ∧ nL.m_value = some [v]) := by
  have hmL : m < t.nodes.length := lt_of_getElem? hmn
  have hm0 : m ≠ 0 := by
    rintro rfl
    obtain ⟨r, hr, -, hrk⟩ := h.root
    rw [hmn] at hr; cases hr
    rw [hrk] at hlt; simp at hlt
  -- the last leaf of `m` and its place in the chain
  obtain ⟨f, tl, A, R, hfirstl, hlast, hAR, hlR⟩ : ∃ f l A R, mn.m_first = some f ∧
      mn.m_last = some l ∧ chain = A ++ f :: R ∧ l ∈ f :: R := by
    rcases h.range m mn hmn hmv with ⟨h0, -⟩ | hr
    · exact absurd h0 hm0
    · exact hr
  have htlc : tl ∈ chain := by rw [hAR]; exact List.mem_append_right _ hlR
  obtain ⟨l1, l2, hc⟩ := List.append_of_mem htlc
  obtain ⟨tln, htln, htlv⟩ := (h.chain_leaf tl).mp htlc
  have htlL : tl < t.nodes.length := lt_of_getElem? htln
  have htlm : tl ≠ m := fun e => h.not_leaf hmn hmv (e ▸ htlc)
  have hnext := h.next_eq hc htln
  have hnd : (l1 ++ tl :: l2).Nodup := hc ▸ h.chain_nodup
  have hLc : t.nodes.length ∉ chain := fun hm => absurd (h.chain_lt hm) (lt_irrefl _)
  have hl2 : ∀ x : Nat, some x = l2.head? → x ∈ chain ∧ x ≠ tl := by
    intro x e
    have hx : x ∈ l2 := List.mem_of_mem_head? e.symm
    refine ⟨by rw [hc]; simp [hx], ?_⟩
    rintro rfl
    exact (List.nodup_cons.mp (List.nodup_append.mp hnd).2.1).1 hx
  obtain ⟨mid, pats, hrew, hmid⟩ := split_rewire_eq t q pattern v m count depth new_key hmn
    hlast htln htlm (by
      intro nx hnx
      obtain ⟨hxc, hxt⟩ := hl2 nx (by rw [← hnext, hnx])
      exact ⟨h.chain_lt hxc, hxt, fun e => h.not_leaf hmn hmv (e ▸ hxc)⟩)
  -- lookups in the final arena
  have hnx_lt : ∀ j : Nat, some j = tln.m_last → j ∈ chain := fun j e =>
    (hl2 j (by rw [← hnext, e])).1
  have hmid_old : ∀ (c : Nat) (cn : radix_tree_node V), t.nodes[c]? = some cn →
      cn.m_value = none → c ≠ m → mid[c]? = some cn := by
    intro c cn hcn hcv hcm
    have hcL := lt_of_getElem? hcn
    have hcc := h.not_leaf hcn hcv
    rw [hmid, if_neg hcm, if_neg (fun e : c = tl => hcc (e ▸ htlc)), if_neg (by omega),
      if_neg (by omega), if_neg (by omega), if_neg (fun e => hcc (hnx_lt c e))]
    exact hcn
  have hmid_m : mid[m]? = some (split_m mn count q pattern depth new_key t.nodes.length) := by
    rw [hmid, if_pos rfl]
  have hmid_L : mid[t.nodes.length]? =
      some (split_leaf mn count q pattern v depth tl tln.m_last) := by
    rw [hmid, if_neg (by omega), if_neg (by omega), if_pos rfl]
  have hmid_L1 : mid[t.nodes.length + 1]? = some (split_node mn count) := by
    rw [hmid, if_neg (by omega), if_neg (by omega), if_neg (by omega), if_pos rfl]
  have hmid_L2 : mid[t.nodes.length + 2]? = if depth ≠ q.length then
      some (residual_node q pattern depth t.nodes.length) else none := by
    rw [hmid, if_neg (by omega), if_neg (by omega), if_neg (by omega), if_neg (by omega),
      if_pos rfl]
  have hmid_big : ∀ j : Nat, t.nodes.length + 2 < j → mid[j]? = none := by
    intro j hj
    rw [hmid, if_neg (by omega), if_neg (by omega), if_neg (by omega), if_neg (by omega),
      if_neg (by omega), if_neg, List.getElem?_eq_none (by omega)]
    intro e
    have := h.chain_lt (hnx_lt j e)
    omega
  have hmid_leaf : ∀ (a : Nat) (n : radix_tree_node V), a ∈ chain → t.nodes[a]? = some n →
      mid[a]? = some (leaf_relinked n a tl t.nodes.length l2.head?) := by
    intro a n hac hn
    have haL := h.chain_lt hac
    have ham : a ≠ m := fun e => h.not_leaf hmn hmv (e ▸ hac)
    rw [hmid, if_neg ham]
    unfold leaf_relinked
    by_cases hat : a = tl
    · subst hat
      rw [htln] at hn; cases hn
      rw [if_pos rfl, if_pos rfl, if_neg]
      intro e
      exact (hl2 a e).2 rfl
    · rw [if_neg hat, if_neg (by omega), if_neg (by omega), if_neg (by omega), if_neg hat,
        hnext]
      split_ifs with e
      · rw [hn]; rfl
      · rw [hn]
  have hclass : ∀ (i : Nat) (n1 : radix_tree_node V), mid[i]? = some n1 → n1.m_value = none →
      (i = m ∧ n1 = split_m mn count q pattern depth new_key t.nodes.length) ∨
      (i = t.nodes.length + 1 ∧ n1 = split_node mn count) ∨
      (i = t.nodes.length + 2 ∧ depth ≠ q.length ∧
        n1 = residual_node q pattern depth t.nodes.length) ∨
      (i ≠ m ∧ t.nodes[i]? = some n1) := by
    intro i n1 hi hv
    by_cases him : i = m
    · subst him
      rw [hmid_m] at hi
      exact Or.inl ⟨rfl, (Option.some.inj hi).symm⟩
    · by_cases hiL : i < t.nodes.length
      · obtain ⟨n, hn⟩ : ∃ n, t.nodes[i]? = some n := ⟨_, List.getElem?_eq_getElem hiL⟩
        by_cases hnv : n.m_value = none
        · rw [hmid_old i n hn hnv him] at hi
          cases hi
          exact Or.inr (Or.inr (Or.inr ⟨him, hn⟩))
        · exfalso
          have hic : i ∈ chain := (h.chain_leaf i).mpr ⟨n, hn, hnv⟩
          rw [hmid_leaf i n hic hn] at hi
          cases hi
          exact hnv hv
      · by_cases hiL0 : i = t.nodes.length
        · subst hiL0
          rw [hmid_L] at hi
          cases hi
          simp [split_leaf] at hv
        · by_cases hiL1 : i = t.nodes.length + 1
          · subst hiL1
            rw [hmid_L1] at hi
            cases hi
            exact Or.inr (Or.inl ⟨rfl, rfl⟩)
          · by_cases hiL2 : i = t.nodes.length + 2
            · subst hiL2
              rw [hmid_L2] at hi
              split_ifs at hi with hres
              cases hi
              exact Or.inr (Or.inr (Or.inl ⟨rfl, hres, rfl⟩))
            · rw [hmid_big i (by omega)] at hi
              cases hi
  -- the ghost labels and parents of the new arena
  obtain ⟨lab1, hlab_m, hlab_L1, hlab_L2, hlab_old⟩ : ∃ lab1 : Nat → List Nat,
      lab1 m = (q.take depth).flatten ∧ lab1 (t.nodes.length + 1) = lab m ∧
      lab1 (t.nodes.length + 2) = (q.take depth).flatten ++ residual_key q pattern depth ∧
      ∀ (j : Nat) (n : radix_tree_node V), t.nodes[j]? = some n → j ≠ m → lab1 j = lab j := by
    refine ⟨fun j => if j = m then (q.take depth).flatten
      else if j = t.nodes.length + 1 then lab m
      else if j = t.nodes.length + 2 then
        (q.take depth).flatten ++ residual_key q pattern depth
      else lab j, by simp, ?_, ?_, ?_⟩
    · have e1 : t.nodes.length + 1 ≠ m := by omega
      simp [e1]
    · have e1 : t.nodes.length + 2 ≠ m := by omega
      simp [e1]
    · intro j n hj hjm
      have := lt_of_getElem? hj
      have e1 : j ≠ t.nodes.length + 1 := by omega
      have e2 : j ≠ t.nodes.length + 2 := by omega
      simp [hjm, e1, e2]
  obtain ⟨par1, hpar_L1, hpar_L2, hpar_child, hpar_old⟩ : ∃ par1 : Nat → Nat,
      par1 (t.nodes.length + 1) = m ∧ par1 (t.nodes.length + 2) = m ∧
      (∀ (c : Nat) (n : radix_tree_node V), t.nodes[c]? = some n → par c = m →
        par1 c = t.nodes.length + 1) ∧
      ∀ (c : Nat) (n : radix_tree_node V), t.nodes[c]? = some n → par c ≠ m →
        par1 c = par c := by
    refine ⟨fun j => if j = t.nodes.length + 1 then m
      else if j = t.nodes.length + 2 then m
      else if par j = m then t.nodes.length + 1 else par j, by simp, ?_, ?_, ?_⟩
    · simp
    · intro c n hc hpc
      have := lt_of_getElem? hc
      have e1 : c ≠ t.nodes.length + 1 := by omega
      have e2 : c ≠ t.nodes.length + 2 := by omega
      simp [hpc, e1, e2]
    · intro c n hc hpc
      have := lt_of_getElem? hc
      have e1 : c ≠ t.nodes.length + 1 := by omega
      have e2 : c ≠ t.nodes.length + 2 := by omega
      simp [hpc, e1, e2]
  have hkey1 : radix_substr mn.m_key 0 count = mn.m_key.take count :=
    radix_substr_zero (by omega)
  have hok := h.nodeOK hmn hmv
  refine ⟨mid, pats, l1, l2, tl, lab1, par1, hrew, hlast, hc, ?_, ?_, ?_, ?_⟩
  · apply WF.of_nodeOK
    · -- the root
      obtain ⟨r, hr, hrv, hrk⟩ := h.root
      have hrf := h.root_first r hr
      have hhead : (l1 ++ tl :: t.nodes.length :: l2).head? = chain.head? := by
        rw [hc]; cases l1 <;> simp
      exact ⟨r, hmid_old 0 r hr hrv (Ne.symm hm0), hrv, hrk, by rw [hhead]; exact hrf⟩
    · obtain ⟨r, hr, -⟩ := h.root
      rw [hlab_old 0 r hr (Ne.symm hm0)]; exact h.lab_root
    · intro i n1 hi hv
      rcases hclass i n1 hi hv with ⟨rfl, rfl⟩ | ⟨rfl, rfl⟩ | ⟨rfl, hres, rfl⟩ | ⟨him, hn⟩
      · -- the matched node, now ending at the split point
        constructor
        · intro k c hk
          have hkc : (k, c) = (new_key, t.nodes.length + 1) ∨ (depth ≠ q.length ∧
              (k, c) = (residual_child_key q pattern depth, t.nodes.length + 2)) := by
            unfold split_m at hk
            simp only at hk
            split_ifs at hk with hres
            · rcases mem_map_assign hk with e | e
              · exact Or.inr ⟨hres, e⟩
              · simp [map_assign] at e
                exact Or.inl (by rw [e.1, e.2])
            · simp [map_assign] at hk
              exact Or.inl (by rw [hk.1, hk.2])
          rcases hkc with e | ⟨hres, e⟩
          · cases e
            refine ⟨_, hmid_L1, rfl, hnk.1, hnk.2, hpar_L1, ?_⟩
            rw [hlab_L1, hlab_m, hlab]
            rfl
          · cases e
            obtain ⟨-, e2, e3, e4⟩ := residual_spec hp depth (by omega)
            refine ⟨_, by rw [hmid_L2, if_pos hres], rfl, by rw [e2]; exact e3,
              by rw [e2]; exact e4, hpar_L2, ?_⟩
            rw [hlab_L2, hlab_m]
            rfl
        · unfold split_m
          simp only
          split_ifs with hres
          · apply map_assign_nodup
            · simp [map_assign]
            · simp [map_assign]
          · simp [map_assign]
        · obtain ⟨A1, R1, e, -, hin⟩ := range_ins t.nodes.length (hAR.symm.trans hc) hnd
          exact Or.inr ⟨f, t.nodes.length, A1, R1, hfirstl, rfl, e, hin hlR⟩
        · intro _
          obtain ⟨z, hz, -⟩ := UTF8Decode_spec hp
          refine ⟨pattern, List.mem_cons_self _ _, ?_⟩
          rw [hlab_m]
          conv_rhs => rw [hz, ← List.take_append_drop depth q, List.flatten_append,
            List.append_assoc]
          exact List.prefix_append _ _
      · -- the node that takes over the old contents
        constructor
        · intro k c hk
          obtain ⟨cn, hcn, hcv, hk0, hpre, hpc, hl⟩ := hok.child k c hk
          have hci : c ≠ m := h.child_ne_self hmn hmv hk
          refine ⟨cn, hmid_old c cn hcn hcv hci, hcv, hk0, hpre, hpar_child c cn hcn hpc, ?_⟩
          rw [hlab_old c cn hcn hci, hlab_L1, hl]
        · exact hok.child_nodup
        · obtain ⟨A1, R1, e, hsub, -⟩ := range_ins t.nodes.length (hAR.symm.trans hc) hnd
          exact Or.inr ⟨f, tl, A1, R1, hfirstl, hlast, e, hsub tl hlR⟩
        · intro _
          obtain ⟨p, hp1, hl⟩ := hok.label hm0
          exact ⟨p, List.mem_cons_of_mem _ hp1, by rw [hlab_L1]; exact hl⟩
      · -- the node of the residual
        constructor
        · intro k c hk
          simp [residual_node] at hk
        · simp [residual_node]
        · exact Or.inr ⟨t.nodes.length, t.nodes.length, l1 ++ [tl], l2, rfl, rfl, by simp,
            by simp⟩
        · intro _
          obtain ⟨e1, -⟩ := residual_spec hp depth (by omega)
          refine ⟨pattern, List.mem_cons_self _ _, ?_⟩
          rw [hlab_L2, e1]
      · -- the other interior nodes
        have hnv : n1.m_value = none := hv
        refine old_node_ok h t.nodes.length hc (fun p hp1 => List.mem_cons_of_mem _ hp1) m
          hmid_old ⟨_, hmid_m, hmv, ?_⟩ hlab_old hpar_old hn hnv him
        intro i2 ni k hi2 hiv hk
        obtain ⟨cn, hcn, -, -, hpre, hpc, hl⟩ := h.child i2 ni k m hi2 hiv hk
        rw [hmn] at hcn; cases hcn
        have hi2m : i2 ≠ m := fun e => h.child_ne_self hi2 hiv hk e.symm
        refine ⟨?_, ?_, ?_⟩
        · show k <+: radix_substr mn.m_key 0 count
          rw [hkey1]
          exact prefix_take_of_le hpre (hfirst i2 ni k hi2 hiv hk)
        · show lab1 m = lab i2 ++ radix_substr mn.m_key 0 count
          rw [hlab_m, hkey1]
          have e1 : lab i2 ++ mn.m_key.take count ++ mn.m_key.drop count =
              (q.take depth).flatten ++ mn.m_key.drop count := by
            rw [List.append_assoc, List.take_append_drop, ← hl, hlab]
          exact (List.append_cancel_right e1).symm
        · rw [hpar_old m mn hmn (by rw [hpc]; exact hi2m), hpc]
    · -- the chain
      apply chain_splice h hc hLc
      · exact ⟨_, hmid_L, by simp [split_leaf], rfl, hnext⟩
      · intro a n hac hn
        obtain ⟨n0, hn0, hnv⟩ := (h.chain_leaf a).mp hac
        rw [hn] at hn0; cases hn0
        exact ⟨_, hmid_leaf a n hac hn, hnv, rfl, rfl⟩
      · intro a n1 hn1 hv1
        by_contra hcon
        push_neg at hcon
        by_cases haL : a < t.nodes.length
        · obtain ⟨n, hn⟩ : ∃ n, t.nodes[a]? = some n := ⟨_, List.getElem?_eq_getElem haL⟩
          by_cases hnv : n.m_value = none
          · rcases hclass a n1 hn1 (by
              by_cases ham : a = m
              · subst ham
                rw [hmid_m] at hn1; cases hn1; exact hmv
              · rw [hmid_old a n hn hnv ham] at hn1; cases hn1; exact hnv) with
              ⟨-, rfl⟩ | ⟨-, rfl⟩ | ⟨-, -, rfl⟩ | ⟨-, hn2⟩
            · exact hv1 hmv
            · exact hv1 rfl
            · exact hv1 rfl
            · rw [hn] at hn2; cases hn2; exact hv1 hnv
          · exact hcon.2 ((h.chain_leaf a).mpr ⟨n, hn, hnv⟩)
        · by_cases haL1 : a = t.nodes.length + 1
          · subst haL1
            rw [hmid_L1] at hn1; cases hn1
            exact hv1 rfl
          · by_cases haL2 : a = t.nodes.length + 2
            · subst haL2
              rw [hmid_L2] at hn1
              split_ifs at hn1
              cases hn1
              exact hv1 rfl
            · rw [hmid_big a (by omega)] at hn1
              cases hn1
  · -- no heap appears
    intro hnh j n hj
    by_cases hjL : j < t.nodes.length
    · obtain ⟨n0, hn0⟩ : ∃ n, t.nodes[j]? = some n := ⟨_, List.getElem?_eq_getElem hjL⟩
      by_cases hjm : j = m
      · subst hjm
        rw [hmid_m] at hj; cases hj; rfl
      · by_cases hnv : n0.m_value = none
        · rw [hmid_old j n0 hn0 hnv hjm] at hj
          cases hj
          exact hnh j _ hn0
        · rw [hmid_leaf j n0 ((h.chain_leaf j).mpr ⟨n0, hn0, hnv⟩) hn0] at hj
          cases hj
          exact hnh j n0 hn0
    · by_cases hjL0 : j = t.nodes.length
      · subst hjL0
        rw [hmid_L] at hj; cases hj; rfl
      · by_cases hjL1 : j = t.nodes.length + 1
        · subst hjL1
          rw [hmid_L1] at hj; cases hj
          exact hnh m mn hmn
        · by_cases hjL2 : j = t.nodes.length + 2
          · subst hjL2
            rw [hmid_L2] at hj
            split_ifs at hj
            cases hj; rfl
          · rw [hmid_big j (by omega)] at hj
            cases hj
  · intro a n hn hnv
    exact ⟨_, hmid_leaf a n ((h.chain_leaf a).mpr ⟨n, hn, hnv⟩) hn, rfl⟩
  · exact ⟨_, hmid_L, rfl⟩

/-! ## `insert` preserves the invariant -/

theorem SameShape.back_shape {V : Type} {a b : List (radix_tree_node V)} (h : SameShape a b)
    {i : Nat} {n1 : radix_tree_node V} (hn1 : b[i]? = some n1) :
    ∃ n : radix_tree_node V, a[i]? = some n ∧ n1.m_first = n.m_first ∧
      n1.m_last = n.m_last ∧ n1.m_key = n.m_key ∧ n1.m_children = n.m_children ∧
      (n1.m_value = none ↔ n.m_value = none) := by
  have hi : i < a.length := h.1 ▸ lt_of_getElem? hn1
  obtain ⟨n1', hn1', e⟩ := h.2 i a[i] (List.getElem?_eq_getElem hi)
  rw [hn1] at hn1'
  cases hn1'
  exact ⟨a[i], List.getElem?_eq_getElem hi, e⟩

theorem WF_of_SameShape {V : Type} {ns ns1 : List (radix_tree_node V)} {chain : List Nat}
    {lab : Nat → List Nat} {par : Nat → Nat} {P : List (List Nat)}
    (h : WF ns chain lab par P) (hs : SameShape ns ns1) : WF ns1 chain lab par P := by
  constructor
  · obtain ⟨r, hr, hrv, hrk⟩ := h.root
    obtain ⟨r1, hr1, -, -, e3, -, e5⟩ := hs.2 0 r hr
    exact ⟨r1, hr1, e5.mpr hrv, e3.trans hrk⟩
  · intro r1 hr1
    obtain ⟨r, hr, e1, -⟩ := hs.back_shape hr1
    rw [e1]; exact h.root_first r hr
  · exact h.lab_root
  · intro i n1 k c hi hv hk
    obtain ⟨n, hn, -, -, -, e4, e5⟩ := hs.back_shape hi
    obtain ⟨cn, hcn, hcv, hk0, hpre, hpar, hl⟩ := h.child i n k c hn (e5.mp hv) (e4 ▸ hk)
    obtain ⟨cn1, hcn1, -, -, f3, -, f5⟩ := hs.2 c cn hcn
    exact ⟨cn1, hcn1, f5.mpr hcv, hk0, f3 ▸ hpre, hpar, f3 ▸ hl⟩
  · intro i n1 hi hv
    obtain ⟨n, hn, -, -, -, e4, e5⟩ := hs.back_shape hi
    rw [e4]
    exact h.child_nodup i n hn (e5.mp hv)
  · intro i n1 hi hv
    obtain ⟨n, hn, e1, e2, -, -, e5⟩ := hs.back_shape hi
    rw [e1, e2]
    exact h.range i n hn (e5.mp hv)
  · exact h.chain_nodup
  · intro a
    rw [h.chain_leaf]
    constructor
    · rintro ⟨n, hn, hv⟩
      obtain ⟨n1, hn1, -, -, -, -, e5⟩ := hs.2 a n hn
      exact ⟨n1, hn1, fun e => hv (e5.mp e)⟩
    · rintro ⟨n1, hn1, hv⟩
      obtain ⟨n, hn, -, -, -, -, e5⟩ := hs.back_shape hn1
      exact ⟨n, hn, fun e => hv (e5.mpr e)⟩
  · refine h.chain_link.imp (fun a b hab => ?_)
    obtain ⟨na, nb, hna, hnb, h1, h2⟩ := hab
    obtain ⟨na1, hna1, -, ea, -⟩ := hs.2 a na hna
    obtain ⟨nb1, hnb1, eb, -⟩ := hs.2 b nb hnb
    exact ⟨na1, nb1, hna1, hnb1, ea.trans h1, eb.trans h2⟩
  · intro a hlast
    obtain ⟨na, hna, hl⟩ := h.chain_end a hlast
    obtain ⟨n1, hn1, -, e2, -⟩ := hs.2 a na hna
    exact ⟨n1, hn1, e2.trans hl⟩
  · intro i n1 hi hv hi0
    obtain ⟨n, hn, -, -, -, -, e5⟩ := hs.back_shape hi
    exact h.label i n hn (e5.mp hv) hi0

theorem SameShape_upd {V : Type} (ns : List (radix_tree_node V)) (i : Nat)
    (f : radix_tree_node V → radix_tree_node V)
    (hf : ∀ n, ns[i]? = some n → (f n).m_first = n.m_first ∧ (f n).m_last = n.m_last ∧
      (f n).m_key = n.m_key ∧ (f n).m_children = n.m_children ∧
      ((f n).m_value = none ↔ n.m_value = none)) :
    SameShape ns (upd ns i f) := by
  refine ⟨length_upd _ _ _, fun j n hn => ?_⟩
  rw [getElem?_upd]
  split_ifs with hj
  · subst hj
    rw [hn]
    exact ⟨f n, rfl, hf n hn⟩
  · exact ⟨n, hn, rfl, rfl, rfl, rfl, Iff.rfl⟩

theorem NoHeap_of_Bumped {V : Type} {o : Option Nat} {nl : Nat}
    {ns ns1 : List (radix_tree_node V)} (hb : Bumped o nl ns ns1) (h : NoHeap ns) :
    NoHeap ns1 := by
  intro j n1 hj
  obtain ⟨n, hn, -, -, -, e4, -⟩ := hb.back hj
  rw [e4]; exact h j n hn

/-- One call of `insert` on a well-formed tree returns a well-formed tree. -/
theorem insert_ok {V : Type} {t : radix_tree V} {chain : List Nat} {lab : Nat → List Nat}
    {par : Nat → Nat} {P : List (List Nat)} (hr : t.m_root = 0)
    (h : WF t.nodes chain lab par P) (p : List Nat) (v : V) :
    ∃ t1 chain1 lab1 par1, insert t p v = some t1 ∧ t1.m_root = 0 ∧
      WF t1.nodes chain1 lab1 par1 (if accepted p = true then p :: P else P) ∧
      (NoHeap t.nodes → NoHeap t1.nodes) ∧ ChainStep t p chain chain1 ∧
      (chain1 ≠ chain →
        (∀ (a : Nat) (n : radix_tree_node V), t.nodes[a]? = some n → n.m_value ≠ none →
          ∃ n1 : radix_tree_node V, t1.nodes[a]? = some n1 ∧ n1.m_value = n.m_value) ∧
        ∃ nL : radix_tree_node V, t1.nodes[t.nodes.length]? = some nL ∧
          nL.m_value = some [v]) := by
  have hmono : WF t.nodes chain lab par (if accepted p = true then p :: P else P) :=
    h.mono (fun x hx => by split_ifs <;> simp [hx])
  have hsame : ∃ t1 chain1 lab1 par1, some t = some t1 ∧ t1.m_root = 0 ∧
      WF t1.nodes chain1 lab1 par1 (if accepted p = true then p :: P else P) ∧
      (NoHeap t.nodes → NoHeap t1.nodes) ∧ ChainStep t p chain chain1 ∧
      (chain1 ≠ chain →
        (∀ (a : Nat) (n : radix_tree_node V), t.nodes[a]? = some n → n.m_value ≠ none →
          ∃ n1 : radix_tree_node V, t1.nodes[a]? = some n1 ∧ n1.m_value = n.m_value) ∧
        ∃ nL : radix_tree_node V, t1.nodes[t.nodes.length]? = some nL ∧
          nL.m_value = some [v]) :=
    ⟨t, chain, lab, par, rfl, hr, hmono, id, Or.inl rfl, fun hne => absurd rfl hne⟩
  unfold insert
  by_cases hp0 : p = []
  · rw [if_pos hp0]; exact hsame
  rw [if_neg hp0]
  cases hdec : UTF8Decode p with
  | none => exact hsame
  | some q =>
    simp only
    by_cases hq0 : q = []
    · rw [if_pos hq0]; exact hsame
    rw [if_neg hq0]
    have hacc : accepted p = true := by
      unfold accepted; rw [hdec]; simp [hp0, hq0]
    rw [hacc] at hmono hsame ⊢
    simp only [if_true] at hmono hsame ⊢
    obtain ⟨⟨m, count, depth⟩, hfind, hf⟩ := find_node_ok hr h q
    obtain ⟨mn, hmn, hmv, hcle, hlab⟩ := hf.node
    simp only at hmn hcle hlab
    simp only [hfind, hmn]
    -- the two branches that create a leaf
    have hstruct : ∃ t1 chain1 lab1 par1,
        (if count < mn.m_key.length then
            match SliceDecode (radix_substr mn.m_key count (mn.m_key.length - count)) with
            | none => some t
            | some new_key => insert_split t q p v m count depth new_key
          else if count = mn.m_key.length then insert_attach t q p v m depth else some t) =
          some t1 ∧
        t1.m_root = 0 ∧ WF t1.nodes chain1 lab1 par1 (p :: P) ∧
        (NoHeap t.nodes → NoHeap t1.nodes) ∧ ChainStep t p chain chain1 ∧
        (chain1 ≠ chain →
          (∀ (a : Nat) (n : radix_tree_node V), t.nodes[a]? = some n → n.m_value ≠ none →
            ∃ n1 : radix_tree_node V, t1.nodes[a]? = some n1 ∧ n1.m_value = n.m_value) ∧
          ∃ nL : radix_tree_node V, t1.nodes[t.nodes.length]? = some nL ∧
            nL.m_value = some [v]) := by
      by_cases hlt : count < mn.m_key.length
      · rw [if_pos hlt]
        cases hsd : SliceDecode (radix_substr mn.m_key count (mn.m_key.length - count)) with
        | none => exact hsame
        | some new_key =>
          simp only
          have hnk := SliceDecode_spec hsd
          rw [radix_substr_eq (by omega), List.take_of_length_le (by simp)] at hnk
          obtain ⟨mid, pats, l1, l2, tl, lab1, par1, hrew, hlast, hc, hwf, hnh, hval, hL⟩ :=
            split_rewire_WF h hdec v hmn hmv hf.depth_le hlt hlab hf.first hnk
          obtain ⟨ns5, hupd, hb⟩ := update_node_ok hwf q (some tl) t.nodes.length
          refine ⟨{ t with nodes := ns5, m_patterns := pats }, _, lab1, par1, ?_, hr,
            WF_of_Bumped hwf (After_ins hwf.chain_nodup) hb, ?_, ?_, ?_⟩
          · unfold insert_split
            simp only [hrew, hr, hupd]
          · intro hh
            exact NoHeap_of_Bumped hb (hnh hh)
          · exact Or.inr (Or.inr ⟨l1, l2, tl, m, count, depth, mn, q, hdec, hfind, hmn, hlast,
              hc, rfl⟩)
          · intro _
            constructor
            · intro a n hn hnv
              obtain ⟨n1, hn1, e1⟩ := hval a n hn hnv
              obtain ⟨n2, hn2, -, -, -, -, e5, -⟩ := hb.2 a n1 hn1
              exact ⟨n2, hn2, e5.trans e1⟩
            · obtain ⟨nL, hnL, e1⟩ := hL
              obtain ⟨n2, hn2, -, -, -, -, e5, -⟩ := hb.2 _ nL hnL
              exact ⟨n2, hn2, e5.trans e1⟩
      · rw [if_neg hlt, if_pos (by omega)]
        have hlab' : lab m = (q.take depth).flatten := by
          rw [hlab, List.drop_of_length_le (by omega), List.append_nil]
        cases hl : mn.m_last with
        | none =>
          obtain ⟨mid, pats, lab1, par1, hrew, hc, hwf, hnh, hL⟩ :=
            attach_rewire_WF_empty h hdec v hmn hmv hf.depth_le hlab' hl
          obtain ⟨ns5, hupd, hb⟩ := update_node_ok hwf q none t.nodes.length
          refine ⟨{ t with nodes := ns5, m_patterns := pats }, _, lab1, par1, ?_, hr,
            WF_of_Bumped hwf (by simp [After]) hb, ?_, ?_, ?_⟩
          · unfold insert_attach
            simp only [hrew, hr, hupd]
          · intro hh
            exact NoHeap_of_Bumped hb (hnh hh)
          · exact Or.inr (Or.inl ⟨hc, rfl⟩)
          · intro _
            constructor
            · intro a n hn hnv
              exfalso
              have := (h.chain_leaf a).mpr ⟨n, hn, hnv⟩
              rw [hc] at this
              simp at this
            · obtain ⟨nL, hnL, e1⟩ := hL
              obtain ⟨n2, hn2, -, -, -, -, e5, -⟩ := hb.2 _ nL hnL
              exact ⟨n2, hn2, e5.trans e1⟩
        | some tl =>
          obtain ⟨mid, pats, l1, l2, lab1, par1, hrew, hc, hwf, hnh, hval, hL⟩ :=
            attach_rewire_WF h hdec v hmn hmv hf.depth_le hlab' hl
          obtain ⟨ns5, hupd, hb⟩ := update_node_ok hwf q (some tl) t.nodes.length
          refine ⟨{ t with nodes := ns5, m_patterns := pats }, _, lab1, par1, ?_, hr,
            WF_of_Bumped hwf (After_ins hwf.chain_nodup) hb, ?_, ?_, ?_⟩
          · unfold insert_attach
            simp only [hrew, hr, hupd]
          · intro hh
            exact NoHeap_of_Bumped hb (hnh hh)
          · exact Or.inr (Or.inr ⟨l1, l2, tl, m, count, depth, mn, q, hdec, hfind, hmn, hl,
              hc, rfl⟩)
          · intro _
            constructor
            · intro a n hn hnv
              obtain ⟨n1, hn1, e1⟩ := hval a n hn hnv
              obtain ⟨n2, hn2, -, -, -, -, e5, -⟩ := hb.2 a n1 hn1
              exact ⟨n2, hn2, e5.trans e1⟩
            · obtain ⟨nL, hnL, e1⟩ := hL
              obtain ⟨n2, hn2, -, -, -, -, e5, -⟩ := hb.2 _ nL hnL
              exact ⟨n2, hn2, e5.trans e1⟩
    -- the exact-key test
    by_cases hex : depth = q.length ∧ count = mn.m_key.length
    · rw [if_pos hex]
      rcases h.range m mn hmn hmv with ⟨-, -, hf0, -⟩ | ⟨f, l, A, R, hf1, -, hAR, -⟩
      · simp only [hf0]
        exact hstruct
      · have hfc : f ∈ chain := by rw [hAR]; simp
        obtain ⟨fn, hfn, hfv⟩ := (h.chain_leaf f).mp hfc
        obtain ⟨vs, hvs⟩ : ∃ vs, fn.m_value = some vs := Option.ne_none_iff_exists'.mp hfv
        simp only [hf1, hfn, hvs]
        refine ⟨_, chain, lab, par, rfl, hr, WF_of_SameShape hmono (SameShape_upd _ _ _ ?_), ?_,
          Or.inl rfl, fun hne => absurd rfl hne⟩
        · intro n hn
          rw [hfn] at hn; cases hn
          refine ⟨rfl, rfl, rfl, rfl, ?_⟩
          simp [hvs]
        · intro hh j n hj
          simp only at hj
          rw [getElem?_upd] at hj
          split_ifs at hj with hjf
          · subst hjf
            rw [hfn] at hj
            cases hj
            exact hh j fn hfn
          · exact hh j n hj
    · rw [if_neg hex]
      exact hstruct

theorem WF_fresh (V : Type) :
    WF (radix_tree.fresh V).nodes [] (fun _ => []) (fun _ => 0) [] := by
  constructor
  · exact ⟨{}, rfl, rfl, rfl⟩
  · intro r hr
    simp [radix_tree.fresh] at hr
    subst hr; rfl
  · rfl
  · intro i n k c hi hv hk
    cases i with
    | zero =>
      simp [radix_tree.fresh] at hi
      subst hi
      simp at hk
    | succ i => simp [radix_tree.fresh] at hi
  · intro i n hi hv
    cases i with
    | zero =>
      simp [radix_tree.fresh] at hi
      subst hi
      simp
    | succ i => simp [radix_tree.fresh] at hi
  · intro i n hi hv
    cases i with
    | zero =>
      simp [radix_tree.fresh] at hi
      subst hi
      exact Or.inl ⟨rfl, rfl, rfl, rfl⟩
    | succ i => simp [radix_tree.fresh] at hi
  · simp
  · intro a
    constructor
    · intro ha; simp at ha
    · rintro ⟨n, hn, hv⟩
      cases a with
      | zero =>
        simp [radix_tree.fresh] at hn
        subst hn
        exact absurd rfl hv
      | succ a => simp [radix_tree.fresh] at hn
  · simp
  · intro a ha; simp at ha
  · intro i n hi hv h0
    cases i with
    | zero => exact absurd rfl h0
    | succ i => simp [radix_tree.fresh] at hi

theorem insert_list_ok {V : Type} (ops : List (List Nat × V)) :
    ∀ {t : radix_tree V} {chain : List Nat} {lab : Nat → List Nat} {par : Nat → Nat}
      {P : List (List Nat)}, t.m_root = 0 → WF t.nodes chain lab par P →
      ∃ t1 chain1 lab1 par1 P1, insert_list t ops = some t1 ∧ t1.m_root = 0 ∧
        WF t1.nodes chain1 lab1 par1 P1 ∧
        (∀ p ∈ P1, p ∈ P ∨ (p ∈ ops.map Prod.fst ∧ accepted p = true)) ∧
        (NoHeap t.nodes → NoHeap t1.nodes) := by
  induction ops with
  | nil =>
    intro t chain lab par P hr h
    exact ⟨t, chain, lab, par, P, rfl, hr, h, fun p hp => Or.inl hp, id⟩
  | cons op ops ih =>
    intro t chain lab par P hr h
    obtain ⟨p, v⟩ := op
    obtain ⟨t1, chain1, lab1, par1, hins, hr1, h1, hnh1, -, -⟩ := insert_ok hr h p v
    obtain ⟨t2, chain2, lab2, par2, P2, hl, hr2, h2, hP2, hnh2⟩ := ih hr1 h1
    refine ⟨t2, chain2, lab2, par2, P2, ?_, hr2, h2, ?_, fun hh => hnh2 (hnh1 hh)⟩
    · simp only [insert_list, hins, hl]
    · intro x hx
      rcases hP2 x hx with hx1 | ⟨hx1, hx2⟩
      · split_ifs at hx1 with hacc
        · rcases List.mem_cons.mp hx1 with rfl | hx1
          · exact Or.inr ⟨by simp, hacc⟩
          · exact Or.inl hx1
        · exact Or.inl hx1
      · exact Or.inr ⟨List.mem_cons_of_mem _ hx1, hx2⟩

/-- Every sequence of `insert` calls on a fresh tree returns, with a well-formed tree without
heaps whose labels are prefixes of accepted patterns of the sequence. -/
theorem build_ok {V : Type} (ops : List (List Nat × V)) :
    ∃ t chain lab par P, build ops = some t ∧ t.m_root = 0 ∧ WF t.nodes chain lab par P ∧
      (∀ p ∈ P, p ∈ ops.map Prod.fst ∧ accepted p = true) ∧ NoHeap t.nodes := by
  obtain ⟨t, chain, lab, par, P, hb, hr, h, hP, hnh⟩ :=
    insert_list_ok ops (t := radix_tree.fresh V) rfl (WF_fresh V)
  refine ⟨t, chain, lab, par, P, hb, hr, h, ?_, hnh ?_⟩
  · intro p hp
    rcases hP p hp with h1 | h1
    · simp at h1
    · exact h1
  · intro j n hj
    cases j with
    | zero =>
      simp [radix_tree.fresh] at hj
      subst hj; rfl
    | succ j => simp [radix_tree.fresh] at hj

/-! ## Walking a run of the leaf chain -/

theorem WF.chain_length_le {V : Type} {ns : List (radix_tree_node V)} {chain : List Nat}
    {lab : Nat → List Nat} {par : Nat → Nat} {P : List (List Nat)} (h : WF ns chain lab par P) :
    chain.length ≤ ns.length := by
  have hsub : chain ⊆ List.range ns.length := fun a ha =>
    List.mem_range.mpr (h.chain_lt ha)
  have := (List.subperm_of_subset h.chain_nodup hsub).length_le
  simpa using this

/-- The walk of the exhaustive `match` over a linked run `S ++ [l]` pushes the values of its
leaves in order and stops at `l`. -/
theorem collect_walk_run {V : Type} (ns : List (radix_tree_node V)) (l : Nat) (T : List Nat) :
    ∀ (S : List Nat) (fuel : Nat) (vec : List V),
      (S ++ l :: T).Chain' (fun a b => ∃ na nb : radix_tree_node V,
        ns[a]? = some na ∧ ns[b]? = some nb ∧ na.m_last = some b ∧ nb.m_first = some a) →
      (∃ nl : radix_tree_node V, ns[l]? = some nl) → l ∉ S → S.length < fuel →
      collect_walk ns (some l) fuel ((S ++ [l]).head?) vec =
        some (vec ++ ((S ++ [l]).map (leaf_values ns)).flatten) := by
  intro S
  induction S with
  | nil =>
    intro fuel vec _ hl _ hfuel
    obtain ⟨nl, hnl⟩ := hl
    obtain ⟨fuel, rfl⟩ : ∃ f, fuel = f + 1 := ⟨fuel - 1, by omega⟩
    simp only [List.nil_append, List.head?_cons, collect_walk, hnl, if_true, List.map_cons,
      List.map_nil, List.flatten_cons, List.flatten_nil, List.append_nil, leaf_values]
    cases nl.m_value <;> simp
  | cons a S ih =>
    intro fuel vec hch hl hlS hfuel
    obtain ⟨fuel, rfl⟩ : ∃ f, fuel = f + 1 := ⟨fuel - 1, by omega⟩
    have hal : a ≠ l := fun e => hlS (e ▸ List.mem_cons_self _ _)
    have hlS' : l ∉ S := fun e => hlS (List.mem_cons_of_mem _ e)
    -- the link from `a` to the next leaf of the run
    obtain ⟨b, hb⟩ : ∃ b, (S ++ [l]).head? = some b := by
      cases S <;> simp
    have hb' : (S ++ l :: T).head? = some b := by
      cases S with
      | nil => simpa using hb
      | cons c S => simpa using hb
    have hch' : (S ++ l :: T).Chain' (fun a b => ∃ na nb : radix_tree_node V,
        ns[a]? = some na ∧ ns[b]? = some nb ∧ na.m_last = some b ∧ nb.m_first = some a) := by
      rw [List.cons_append] at hch
      exact hch.tail
    obtain ⟨na, -, hna, -, hnal, -⟩ : ∃ na nb : radix_tree_node V,
        ns[a]? = some na ∧ ns[b]? = some nb ∧ na.m_last = some b ∧ nb.m_first = some a := by
      rw [List.cons_append] at hch
      exact (List.chain'_cons'.mp hch).1 b hb'
    have hstep : collect_walk ns (some l) (fuel + 1) (some a) vec =
        collect_walk ns (some l) fuel (some b) (vec ++ leaf_values ns a) := by
      simp only [collect_walk, hna, hnal, leaf_values]
      rw [if_neg (by simpa using hal)]
      cases na.m_value <;> simp
    rw [List.cons_append, List.head?_cons, hstep, ← hb, ih fuel _ hch' hl hlS'
      (by simp at hfuel; omega)]
    simp [List.append_assoc]

/-- The ranked walk feeds the heap with exactly the values that the exhaustive walk pushes, in
the same order. -/
theorem feed_append {V : Type} [DecidableEq V] (H : StdHeap V) (cmp : V → V → Bool) (K : Nat)
    (a b : List V) (st : List V × List V) :
    feed H cmp K (a ++ b) st = (feed H cmp K a st).bind (feed H cmp K b) := by
  induction a generalizing st with
  | nil => simp [feed]
  | cons x a ih =>
    obtain ⟨heap, item_set⟩ := st
    simp only [List.cons_append, feed]
    split_ifs
    · exact ih _
    · cases heap_insert H heap x cmp K with
      | none => rfl
      | some heap1 => exact ih _

theorem ranked_walk_eq_feed {V : Type} [DecidableEq V] (H : StdHeap V) (cmp : V → V → Bool)
    (K : Nat) (ns : List (radix_tree_node V)) (last : Option Nat) (fuel : Nat) :
    ∀ (temp : Option Nat) (vec r : List V), collect_walk ns last fuel temp vec = some r →
      ∃ vals, r = vec ++ vals ∧
        ∀ st, ranked_walk H cmp K ns last fuel temp st = feed H cmp K vals st := by
  induction fuel with
  | zero =>
    intro temp vec r h
    cases temp with
    | none =>
      simp only [collect_walk, Option.some.injEq] at h
      exact ⟨[], by simp [h], fun st => by simp [ranked_walk, feed]⟩
    | some a => simp [collect_walk] at h
  | succ fuel ih =>
    intro temp vec r h
    cases temp with
    | none =>
      simp only [collect_walk, Option.some.injEq] at h
      exact ⟨[], by simp [h], fun st => by simp [ranked_walk, feed]⟩
    | some a =>
      simp only [collect_walk] at h
      cases hn : ns[a]? with
      | none => rw [hn] at h; simp at h
      | some n =>
        rw [hn] at h
        simp only at h
        have hvals : (match n.m_value with
            | none => vec
            | some vs => vec ++ vs) = vec ++ leaf_values ns a := by
          simp only [leaf_values, hn]
          cases n.m_value <;> simp
        have hfed : ∀ st : List V × List V, (match n.m_value with
            | none => some st
            | some vs => feed H cmp K vs st) = feed H cmp K (leaf_values ns a) st := by
          intro st
          simp only [leaf_values, hn]
          cases n.m_value <;> simp [feed]
        rw [hvals] at h
        by_cases hlast : some a = last
        · rw [if_pos hlast] at h
          simp only [Option.some.injEq] at h
          refine ⟨leaf_values ns a, h.symm, fun st => ?_⟩
          simp only [ranked_walk, hn, hfed, if_pos hlast]
          cases feed H cmp K (leaf_values ns a) st <;> rfl
        · rw [if_neg hlast] at h
          obtain ⟨vals, hr, hw⟩ := ih _ _ _ h
          refine ⟨leaf_values ns a ++ vals, by rw [hr, List.append_assoc], fun st => ?_⟩
          simp only [ranked_walk, hn, hfed, if_neg hlast, feed_append]
          cases feed H cmp K (leaf_values ns a) st with
          | none => rfl
          | some st1 => exact hw st1

/-- The walk of `match` over the range of an interior node of a well-formed arena returns the
values of a contiguous run of the leaf chain, in chain order. -/
theorem node_walk_ok {V : Type} {ns : List (radix_tree_node V)} {chain : List Nat}
    {lab : Nat → List Nat} {par : Nat → Nat} {P : List (List Nat)} (h : WF ns chain lab par P)
    {m : Nat} {mn : radix_tree_node V} (hm : ns[m]? = some mn) (hv : mn.m_value = none)
    (vec : List V) :
    ∃ run, run <:+: chain ∧ collect_walk ns mn.m_last ns.length mn.m_first vec =
      some (vec ++ (run.map (leaf_values ns)).flatten) := by
  rcases h.range m mn hm hv with ⟨-, -, hf, -⟩ | ⟨f, l, A, R, hf, hl, hc, hmem⟩
  · refine ⟨[], List.nil_infix, ?_⟩
    rw [hf]
    cases hlen : ns.length <;> simp [collect_walk]
  · obtain ⟨S, T, hST⟩ := List.append_of_mem hmem
    have hc1 : chain = A ++ (S ++ l :: T) := by rw [hc, hST]
    have hnd : (S ++ l :: T).Nodup := by
      have := h.chain_nodup
      rw [hc1] at this
      exact (List.nodup_append.mp this).2.1
    have hlS : l ∉ S := by
      intro hin
      have := (List.nodup_append.mp hnd).2.2
      exact this hin (List.mem_cons_self _ _)
    have hhead : (S ++ [l]).head? = some f := by
      cases S with
      | nil => simp at hST ⊢; exact hST.1.symm
      | cons c S => simp at hST ⊢; exact hST.1.symm
    have hch : (S ++ l :: T).Chain' (fun a b => ∃ na nb : radix_tree_node V,
        ns[a]? = some na ∧ ns[b]? = some nb ∧ na.m_last = some b ∧ nb.m_first = some a) := by
      have := h.chain_link
      rw [hc1] at this
      exact this.right_of_append
    have hlc : l ∈ chain := by rw [hc1]; simp
    obtain ⟨nl, hnl, -⟩ := (h.chain_leaf l).mp hlc
    have hlen : S.length < ns.length := by
      have := h.chain_length_le
      rw [hc1] at this
      simp at this
      omega
    refine ⟨S ++ [l], ⟨A, T, by rw [hc1]; simp⟩, ?_⟩
    rw [hf, hl, ← hhead]
    exact collect_walk_run ns l T S ns.length vec hch ⟨nl, hnl⟩ hlS hlen

/-- On a well-formed tree the exhaustive `match` returns, and what it pushes are the values of
a contiguous run of the leaf chain in chain order. -/
theorem match_all_ok {V : Type} {t : radix_tree V} {chain : List Nat} {lab : Nat → List Nat}
    {par : Nat → Nat} {P : List (List Nat)} (hr : t.m_root = 0)
    (h : WF t.nodes chain lab par P) (key : List Nat) (vec : List V) :
    ∃ run, run <:+: chain ∧
      match_all t key vec = some (vec ++ (run.map (leaf_values t.nodes)).flatten) := by
  unfold match_all
  cases hd : UTF8Decode key with
  | none => exact ⟨[], List.nil_infix, by simp⟩
  | some uchars =>
    simp only
    by_cases he : uchars = []
    · rw [if_pos he]; exact ⟨[], List.nil_infix, by simp⟩
    · rw [if_neg he]
      obtain ⟨r, hfind, hok⟩ := find_node_ok hr h uchars
      obtain ⟨m, cnt, d⟩ := r
      rw [hfind]
      simp only
      by_cases hdep : d = uchars.length
      · rw [if_pos hdep]
        obtain ⟨mn, hmn, hv, -⟩ := hok.node
        simp only at hmn
        rw [hmn]
        exact node_walk_ok h hmn hv vec
      · rw [if_neg hdep]; exact ⟨[], List.nil_infix, by simp⟩

theorem chain_walk_run {V : Type} (ns : List (radix_tree_node V)) :
    ∀ (S : List Nat) (fuel : Nat),
      S.Chain' (fun a b => ∃ na nb : radix_tree_node V,
        ns[a]? = some na ∧ ns[b]? = some nb ∧ na.m_last = some b ∧ nb.m_first = some a) →
      (∀ a : Nat, S.getLast? = some a →
        ∃ na : radix_tree_node V, ns[a]? = some na ∧ na.m_last = none) →
      S.length ≤ fuel → chain_walk ns fuel S.head? = some S := by
  intro S
  induction S with
  | nil => intro fuel _ _ _; cases fuel <;> simp [chain_walk]
  | cons a S ih =>
    intro fuel hch hend hfuel
    obtain ⟨fuel, rfl⟩ : ∃ f, fuel = f + 1 := ⟨fuel - 1, by simp at hfuel; omega⟩
    have hna : ∃ na : radix_tree_node V, ns[a]? = some na ∧ na.m_last = S.head? := by
      cases S with
      | nil => simpa using hend a (by simp)
      | cons b S =>
        obtain ⟨na, -, hna, -, hl, -⟩ := (List.chain'_cons.mp hch).1
        exact ⟨na, hna, by simpa using hl⟩
    obtain ⟨na, hna, hl⟩ := hna
    have hend1 : ∀ b : Nat, S.getLast? = some b →
        ∃ nb : radix_tree_node V, ns[b]? = some nb ∧ nb.m_last = none := by
      intro b hb
      apply hend b
      cases S with
      | nil => simp at hb
      | cons c S => simpa [List.getLast?_cons_cons] using hb
    simp only [List.head?_cons, chain_walk, hna, hl]
    rw [ih fuel hch.tail hend1 (by simp at hfuel; omega)]
    rfl

/-- The leaf chain read off a well-formed arena is the ghost chain of the invariant. -/
theorem leaf_chain_ok {V : Type} {t : radix_tree V} {chain : List Nat} {lab : Nat → List Nat}
    {par : Nat → Nat} {P : List (List Nat)} (hr : t.m_root = 0)
    (h : WF t.nodes chain lab par P) : leaf_chain t = some chain := by
  obtain ⟨r, hr0, -, -⟩ := h.root
  unfold leaf_chain
  rw [hr, hr0]
  simp only
  rw [h.root_first r hr0]
  exact chain_walk_run t.nodes chain _ h.chain_link h.chain_end h.chain_length_le

/-! ## The bounded heap keeps the `K` most preferred distinct values -/

theorem StrictTotal.neg_trans {V : Type} {cmp : V → V → Bool} (h : StrictTotal cmp) {a b c : V}
    (hab : cmp a b = false) (hbc : cmp b c = false) : cmp a c = false := by
  by_contra hac
  have hac : cmp a c = true := by simpa using hac
  by_cases e1 : a = b
  · subst e1; rw [hac] at hbc; exact Bool.noConfusion hbc
  by_cases e2 : b = c
  · subst e2; rw [hac] at hab; exact Bool.noConfusion hab
  have h1 : cmp b a = true := by
    rcases h.total a b e1 with h1 | h1
    · rw [h1] at hab; exact Bool.noConfusion hab
    · exact h1
  have h2 : cmp c b = true := by
    rcases h.total b c e2 with h2 | h2
    · rw [h2] at hbc; exact Bool.noConfusion hbc
    · exact h2
  have := h.trans _ _ _ (h.trans _ _ _ hac h2) h1
  rw [h.irrefl] at this
  exact Bool.noConfusion this

theorem StrictTotal.asymm {V : Type} {cmp : V → V → Bool} (h : StrictTotal cmp) {a b : V}
    (hab : cmp a b = true) : cmp b a = false := by
  by_contra hba
  have hba : cmp b a = true := by simpa using hba
  have := h.trans _ _ _ hab hba
  rw [h.irrefl] at this
  exact Bool.noConfusion this

theorem StrictTotal.of_not {V : Type} {cmp : V → V → Bool} (h : StrictTotal cmp) {a b : V}
    (hne : a ≠ b) (hab : cmp a b = false) : cmp b a = true := by
  rcases h.total a b hne with h1 | h1
  · rw [h1] at hab; exact Bool.noConfusion hab
  · exact h1

theorem isHeap_nil {V : Type} (cmp : V → V → Bool) : IsHeap cmp ([] : List V) := by
  intro i a b _ _ hb
  simp at hb

/-- The first element of a heap is `cmp`-less than no element of the heap. -/
theorem IsHeap.root_max {V : Type} {cmp : V → V → Bool} (hc : StrictTotal cmp) {r : V}
    {l : List V} (h : IsHeap cmp (r :: l)) : ∀ y ∈ r :: l, cmp r y = false := by
  have key : ∀ (n i : Nat) (y : V), i ≤ n → (r :: l)[i]? = some y → cmp r y = false := by
    intro n
    induction n with
    | zero =>
      intro i y hi hy
      obtain rfl : i = 0 := by omega
      simp at hy
      subst hy
      exact hc.irrefl _
    | succ n ih =>
      intro i y hi hy
      by_cases h0 : i = 0
      · subst h0
        simp at hy
        subst hy
        exact hc.irrefl _
      · have hlt : i < (r :: l).length := (List.getElem?_eq_some_iff.mp hy).1
        have hp : (i - 1) / 2 < (r :: l).length := by omega
        obtain ⟨a, ha⟩ : ∃ a, (r :: l)[(i - 1) / 2]? = some a :=
          ⟨_, List.getElem?_eq_getElem hp⟩
        exact hc.neg_trans (ih _ a (by omega) ha) (h i a y (by omega) ha hy)
  intro y hy
  obtain ⟨i, hi⟩ := List.getElem?_of_mem hy
  exact key i i y le_rfl hi

/-- One `heap_insert` of a value not seen before keeps the invariant of the bounded heap. -/
theorem heap_insert_topk {V : Type} {H : StdHeap V} {cmp : V → V → Bool} {K : Nat}
    (hH : H.Conforms cmp) (hc : StrictTotal cmp) (hK : 1 ≤ K) {xs heap dropped : List V}
    (h : TopK cmp K xs heap dropped) (hnd : xs.Nodup) {x : V} (hx : x ∉ xs) :
    ∃ heap1 dropped1, heap_insert H heap x cmp K = some heap1 ∧
      TopK cmp K (x :: xs) heap1 dropped1 := by
  have hmem : ∀ a, a ∈ heap ∨ a ∈ dropped → a ∈ xs := fun a ha =>
    h.perm.subset (List.mem_append.mpr ha)
  have hnd2 : (heap ++ dropped).Nodup := h.perm.nodup_iff.mpr hnd
  unfold heap_insert
  by_cases hlt : heap.length < K
  · rw [if_pos hlt]
    have hd : dropped = [] := by
      by_contra hne
      have := h.full hne
      omega
    subst hd
    have hp := hH.push_perm heap x h.is_heap
    refine ⟨_, [], rfl, ⟨?_, ?_, hH.push_heap heap x h.is_heap, ?_, fun e => absurd rfl e⟩⟩
    · rw [List.append_nil]
      refine hp.trans ?_
      have := h.perm
      rw [List.append_nil] at this
      exact (List.perm_append_singleton x heap).trans (this.cons x)
    · intro a _ b hb; simp at hb
    · rw [hp.length_eq]; simp; omega
  · rw [if_neg hlt]
    have hlen : heap.length = K := le_antisymm h.len (by omega)
    cases heap with
    | nil => simp at hlen; omega
    | cons r0 rest =>
      simp only
      have hroot := h.is_heap.root_max hc
      have hxr : x ≠ r0 := fun e => hx (e ▸ hmem r0 (Or.inl (List.mem_cons_self _ _)))
      by_cases hcx : cmp x r0 = true
      · rw [if_pos hcx]
        obtain ⟨l1, hpop, hl1, hheap1⟩ := hH.pop r0 rest h.is_heap
        have hdl : (H.pop_heap cmp (r0 :: rest)).dropLast = l1 := by
          rw [hpop]; simp
        rw [hdl]
        have hp := hH.push_perm l1 x hheap1
        have hr0rest : r0 ∉ rest := by
          have := (List.nodup_append.mp hnd2).1
          exact (List.nodup_cons.mp this).1
        refine ⟨_, r0 :: dropped, rfl, ⟨?_, ?_, hH.push_heap l1 x hheap1, ?_, ?_⟩⟩
        · have e1 : (H.push_heap cmp (l1 ++ [x]) ++ r0 :: dropped).Perm
              ((l1 ++ [x]) ++ r0 :: dropped) := hp.append_right _
          refine e1.trans ?_
          have e2 : ((l1 ++ [x]) ++ r0 :: dropped).Perm (x :: (r0 :: (l1 ++ dropped))) := by
            rw [List.append_assoc]
            exact (List.perm_middle).trans (List.Perm.cons x List.perm_middle)
          refine e2.trans (List.Perm.cons x ?_)
          refine (List.Perm.cons r0 (hl1.append_right dropped)).trans ?_
          exact h.perm
        · intro a ha b hb
          have ha1 : a ∈ rest ∨ a = x := by
            have := hp.subset ha
            rcases List.mem_append.mp this with h1 | h1
            · exact Or.inl (hl1.subset h1)
            · exact Or.inr (by simpa using h1)
          rcases List.mem_cons.mp hb with rfl | hb
          · rcases ha1 with h1 | rfl
            · have hne : b ≠ a := fun e => hr0rest (e ▸ h1)
              exact hc.of_not hne (hroot a (List.mem_cons_of_mem _ h1))
            · exact hcx
          · rcases ha1 with h1 | rfl
            · exact h.beats a (List.mem_cons_of_mem _ h1) b hb
            · exact hc.trans _ _ _ hcx (h.beats r0 (List.mem_cons_self _ _) b hb)
        · rw [hp.length_eq]
          simp only [List.length_append, List.length_singleton, hl1.length_eq]
          simp at hlen
          omega
        · intro _
          rw [hp.length_eq]
          simp only [List.length_append, List.length_singleton, hl1.length_eq]
          simp at hlen
          omega
      · rw [if_neg hcx]
        have hcx : cmp x r0 = false := by simpa using hcx
        have hr0x : cmp r0 x = true := hc.of_not hxr hcx
        refine ⟨_, x :: dropped, rfl, ⟨?_, ?_, h.is_heap, h.len, fun _ => hlen⟩⟩
        · exact (List.perm_middle).trans (h.perm.cons x)
        · intro a ha b hb
          rcases List.mem_cons.mp hb with rfl | hb
          · by_cases e : a = r0
            · subst e; exact hr0x
            · exact hc.trans _ _ _ (hc.of_not (fun e1 => e e1.symm) (hroot a ha)) hr0x
          · exact h.beats a ha b hb

/-- Feeding a list of values keeps the invariant; the `item_set` afterwards holds what it held
before and the values fed. -/
theorem feed_topk {V : Type} [DecidableEq V] {H : StdHeap V} {cmp : V → V → Bool} {K : Nat}
    (hH : H.Conforms cmp) (hc : StrictTotal cmp) (hK : 1 ≤ K) (vals : List V) :
    ∀ (heap item_set dropped : List V), TopK cmp K item_set heap dropped → item_set.Nodup →
      ∃ heap1 set1 dropped1, feed H cmp K vals (heap, item_set) = some (heap1, set1) ∧
        TopK cmp K set1 heap1 dropped1 ∧ set1.Nodup ∧
        ∀ x, x ∈ set1 ↔ x ∈ item_set ∨ x ∈ vals := by
  induction vals with
  | nil =>
    intro heap item_set dropped h hnd
    exact ⟨heap, item_set, dropped, rfl, h, hnd, fun x => by simp⟩
  | cons p ps ih =>
    intro heap item_set dropped h hnd
    simp only [feed]
    by_cases hp : p ∈ item_set
    · rw [if_pos hp]
      obtain ⟨heap1, set1, dropped1, e, h1, hnd1, hm⟩ := ih heap item_set dropped h hnd
      refine ⟨heap1, set1, dropped1, e, h1, hnd1, fun x => ?_⟩
      rw [hm x, List.mem_cons]
      constructor
      · rintro (h2 | h2)
        · exact Or.inl h2
        · exact Or.inr (Or.inr h2)
      · rintro (h2 | rfl | h2)
        · exact Or.inl h2
        · exact Or.inl hp
        · exact Or.inr h2
    · rw [if_neg hp]
      obtain ⟨heapa, droppeda, e0, ha⟩ := heap_insert_topk hH hc hK h hnd hp
      rw [e0]
      simp only
      obtain ⟨heap1, set1, dropped1, e, h1, hnd1, hm⟩ :=
        ih heapa (p :: item_set) droppeda ha (List.nodup_cons.mpr ⟨hp, hnd⟩)
      refine ⟨heap1, set1, dropped1, e, h1, hnd1, fun x => ?_⟩
      rw [hm x, List.mem_cons, List.mem_cons]
      tauto

/-- Sorting the bounded heap gives the first `K` of the sorted distinct values. -/
theorem topk_sorted {V : Type} [DecidableEq V] {H : StdHeap V} {cmp : V → V → Bool} {K : Nat}
    (hH : H.Conforms cmp) (hc : StrictTotal cmp) {xs heap dropped : List V}
    (h : TopK cmp K xs heap dropped) (hnd : xs.Nodup) (all : List V)
    (hall : ∀ x, x ∈ xs ↔ x ∈ all) :
    H.sort_heap cmp heap = ranked_spec cmp K all := by
  haveI : IsTotal V (fun a b => cmp b a = false) := ⟨fun a b => by
    by_cases e : cmp b a = true
    · exact Or.inr (hc.asymm e)
    · exact Or.inl (by simpa using e)⟩
  haveI : IsTrans V (fun a b => cmp b a = false) := ⟨fun a b c hab hbc => hc.neg_trans hbc hab⟩
  haveI : IsAntisymm V (fun a b => cmp b a = false) := ⟨fun a b hab hba => by
    by_contra hne
    have := hc.of_not hne hba
    rw [this] at hab
    exact Bool.noConfusion hab⟩
  have hT := hH.sort_sorted heap h.is_heap
  have hTp := hH.sort_perm heap h.is_heap
  -- the sorted heap followed by the sorted dropped values is the sorted list of all values
  have hD : (dropped.insertionSort (fun a b => cmp b a = false)).Sorted
      (fun a b => cmp b a = false) := List.sorted_insertionSort _ _
  have hDp := List.perm_insertionSort (fun a b => cmp b a = false) dropped
  have hcat : (H.sort_heap cmp heap ++ dropped.insertionSort (fun a b => cmp b a = false)).Sorted
      (fun a b => cmp b a = false) := by
    refine List.pairwise_append.mpr ⟨hT, hD, fun a ha b hb => ?_⟩
    exact hc.asymm (h.beats a (hTp.subset ha) b (hDp.subset hb))
  have hperm : (H.sort_heap cmp heap ++ dropped.insertionSort (fun a b => cmp b a = false)).Perm
      (all.dedup.insertionSort (fun a b => cmp b a = false)) := by
    refine (hTp.append hDp).trans (h.perm.trans ?_)
    refine List.Perm.trans ?_ (List.perm_insertionSort _ _).symm
    refine (List.perm_ext_iff_of_nodup hnd (List.nodup_dedup all)).mpr (fun x => ?_)
    rw [hall x, List.mem_dedup]
  have heq := List.eq_of_perm_of_sorted hperm hcat (List.sorted_insertionSort _ _)
  unfold ranked_spec
  rw [← heq]
  by_cases hd : dropped = []
  · subst hd
    simp only [List.insertionSort, List.append_nil]
    rw [List.take_of_length_le]
    rw [hTp.length_eq]
    exact h.len
  · have hl : (H.sort_heap cmp heap).length = K := by rw [hTp.length_eq]; exact h.full hd
    rw [List.take_append_of_le_length (le_of_eq hl.symm), List.take_of_length_le (le_of_eq hl)]

theorem topk_nil {V : Type} (cmp : V → V → Bool) (K : Nat) : TopK cmp K [] [] [] :=
  ⟨List.Perm.refl _, fun _ ha => by simp at ha, isHeap_nil cmp, Nat.zero_le _,
    fun e => absurd rfl e⟩

/-- On a well-formed tree without precomputed heaps the ranked `match` returns the first `K`
of the sorted distinct values that the exhaustive `match` returns. -/
theorem match_ranked_noheap {V : Type} [DecidableEq V] {t : radix_tree V} {chain : List Nat}
    {lab : Nat → List Nat} {par : Nat → Nat} {P : List (List Nat)} (hr : t.m_root = 0)
    (h : WF t.nodes chain lab par P) (hno : NoHeap t.nodes) {H : StdHeap V}
    {cmp : V → V → Bool} {K : Nat} (hH : H.Conforms cmp) (hc : StrictTotal cmp) (hK : 1 ≤ K)
    (q : List Nat) :
    ∃ all, match_all t q [] = some all ∧
      match_ranked H t q [] cmp K = some (ranked_spec cmp K all) := by
  have hnil : ranked_spec cmp K ([] : List V) = [] := by simp [ranked_spec]
  unfold match_all match_ranked
  cases hd : UTF8Decode q with
  | none => exact ⟨[], rfl, by rw [hnil]⟩
  | some uchars =>
    simp only
    by_cases he : uchars = []
    · rw [if_pos he, if_pos he]; exact ⟨[], rfl, by rw [hnil]⟩
    · rw [if_neg he, if_neg he]
      obtain ⟨r, hfind, hok⟩ := find_node_ok hr h uchars
      obtain ⟨m, cnt, d⟩ := r
      rw [hfind]
      simp only
      by_cases hdep : d = uchars.length
      · rw [if_pos hdep, if_pos hdep]
        obtain ⟨mn, hmn, hv, -⟩ := hok.node
        simp only at hmn
        rw [hmn]
        simp only [hno m mn hmn]
        obtain ⟨run, -, hwalk⟩ := node_walk_ok h hmn hv ([] : List V)
        obtain ⟨vals, hvals, hfeed⟩ := ranked_walk_eq_feed H cmp K _ _ _ _ _ _ hwalk
        obtain ⟨heap1, set1, dropped1, hf, htop, hnd, hm⟩ :=
          feed_topk hH hc hK vals [] [] [] (topk_nil cmp K) List.nodup_nil
        refine ⟨vals, by rw [hwalk, hvals]; rfl, ?_⟩
        rw [hfeed, hf]
        simp only
        rw [topk_sorted hH hc htop hnd vals (fun x => by rw [hm x]; simp)]
      · rw [if_neg hdep, if_neg hdep]; exact ⟨[], rfl, by rw [hnil]⟩

/-! ### The reference heap algorithms meet the contract -/

theorem isHeap_of_pairwise {V : Type} {cmp : V → V → Bool} {l : List V}
    (h : l.Pairwise (fun a b => cmp a b = false)) : IsHeap cmp l := by
  intro i a b hi ha hb
  obtain ⟨h1, e1⟩ := List.getElem?_eq_some_iff.mp ha
  obtain ⟨h2, e2⟩ := List.getElem?_eq_some_iff.mp hb
  rw [← e1, ← e2]
  exact List.pairwise_iff_getElem.mp h _ _ h1 h2 (by omega)

theorem sorted_desc {V : Type} {cmp : V → V → Bool} (hc : StrictTotal cmp) (l : List V) :
    (l.insertionSort (fun a b => ¬ cmp a b)).Pairwise (fun a b => cmp a b = false) := by
  haveI : IsTotal V (fun a b => ¬ cmp a b = true) := ⟨fun a b => by
    by_cases e : cmp a b = true
    · exact Or.inr (by rw [hc.asymm e]; simp)
    · exact Or.inl e⟩
  haveI : IsTrans V (fun a b => ¬ cmp a b = true) := ⟨fun a b c hab hbc => by
    have := hc.neg_trans (by simpa using hab) (by simpa using hbc : cmp b c = false)
    simp [this]⟩
  have := List.sorted_insertionSort (fun a b => ¬ cmp a b = true) l
  exact List.Pairwise.imp (fun hab => by simpa using hab) this

theorem sorted_asc {V : Type} {cmp : V → V → Bool} (hc : StrictTotal cmp) (l : List V) :
    (l.insertionSort (fun a b => ¬ cmp b a)).Pairwise (fun a b => cmp b a = false) := by
  haveI : IsTotal V (fun a b => ¬ cmp b a = true) := ⟨fun a b => by
    by_cases e : cmp b a = true
    · exact Or.inr (by rw [hc.asymm e]; simp)
    · exact Or.inl e⟩
  haveI : IsTrans V (fun a b => ¬ cmp b a = true) := ⟨fun a b c hab hbc => by
    have := hc.neg_trans (by simpa using hbc : cmp c b = false) (by simpa using hab)
    simp [this]⟩
  have := List.sorted_insertionSort (fun a b => ¬ cmp b a = true) l
  exact List.Pairwise.imp (fun hab => by simpa using hab) this

theorem refHeap_conforms {V : Type} {cmp : V → V → Bool} (hc : StrictTotal cmp) :
    (refHeap V).Conforms cmp where
  push_perm := fun _ _ _ => List.perm_insertionSort _ _
  push_heap := fun _ _ _ => isHeap_of_pairwise (sorted_desc hc _)
  pop := fun _ l _ => ⟨l.insertionSort (fun a b => ¬ cmp a b), rfl,
    List.perm_insertionSort _ _, isHeap_of_pairwise (sorted_desc hc _)⟩
  sort_perm := fun _ _ => List.perm_insertionSort _ _
  sort_sorted := fun l _ => sorted_asc hc l

theorem refHeap_permutes (V : Type) : (refHeap V).Permutes where
  push := fun _ _ => List.perm_insertionSort _ _
  pop := fun _ l => by
    cases l with
    | nil => exact List.Perm.refl _
    | cons x xs =>
      exact ((List.perm_insertionSort _ xs).append_right [x]).trans
        (List.perm_append_singleton x xs)
  sort := fun _ _ => List.perm_insertionSort _ _

theorem nat_lt_strictTotal : StrictTotal (fun a b : Nat => decide (a < b)) where
  irrefl := fun a => by simp
  trans := fun a b c hab hbc => by simp at hab hbc ⊢; omega
  total := fun a b hne => by simp; omega

/-! ## Ranked results are free of duplicates; `finish` returns -/

theorem heap_insert_nodup {V : Type} {H : StdHeap V} (hH : H.Permutes) (cmp : V → V → Bool)
    {K : Nat} (hK : 1 ≤ K) {heap : List V} (hnd : heap.Nodup) {x : V} (hx : x ∉ heap) :
    ∃ heap1, heap_insert H heap x cmp K = some heap1 ∧ heap1.Nodup ∧
      ∀ y ∈ heap1, y ∈ heap ∨ y = x := by
  unfold heap_insert
  by_cases hlt : heap.length < K
  · rw [if_pos hlt]
    have hp := hH.push cmp (heap ++ [x])
    refine ⟨_, rfl, hp.nodup_iff.mpr ?_, fun y hy => ?_⟩
    · exact List.nodup_append.mpr ⟨hnd, List.nodup_singleton x, fun a ha hb => by
        simp at hb; exact hx (hb ▸ ha)⟩
    · simpa using hp.subset hy
  · rw [if_neg hlt]
    cases heap with
    | nil => simp at hlt; omega
    | cons r0 rest =>
      simp only
      by_cases hcx : cmp x r0 = true
      · rw [if_pos hcx]
        have hpop := hH.pop cmp (r0 :: rest)
        have hsub : (H.pop_heap cmp (r0 :: rest)).dropLast.Sublist (H.pop_heap cmp (r0 :: rest)) :=
          List.dropLast_sublist _
        have hnd1 : (H.pop_heap cmp (r0 :: rest)).dropLast.Nodup :=
          (hpop.nodup_iff.mpr hnd).sublist hsub
        have hmem : ∀ y ∈ (H.pop_heap cmp (r0 :: rest)).dropLast, y ∈ r0 :: rest :=
          fun y hy => hpop.subset (hsub.subset hy)
        have hp := hH.push cmp ((H.pop_heap cmp (r0 :: rest)).dropLast ++ [x])
        refine ⟨_, rfl, hp.nodup_iff.mpr ?_, fun y hy => ?_⟩
        · exact List.nodup_append.mpr ⟨hnd1, List.nodup_singleton x, fun a ha hb => by
            simp at hb; exact hx (hb ▸ hmem a ha)⟩
        · rcases List.mem_append.mp (hp.subset hy) with h1 | h1
          · exact Or.inl (hmem y h1)
          · exact Or.inr (by simpa using h1)
      · rw [if_neg hcx]
        exact ⟨_, rfl, hnd, fun y hy => Or.inl hy⟩

/-- Feeding values never fails for `K >= 1` and keeps the heap buffer free of duplicates. -/
theorem feed_inv {V : Type} [DecidableEq V] {H : StdHeap V} (hH : H.Permutes)
    (cmp : V → V → Bool) {K : Nat} (hK : 1 ≤ K) (vals : List V) :
    ∀ st : List V × List V, HeapInv st →
      ∃ st1, feed H cmp K vals st = some st1 ∧ HeapInv st1 := by
  induction vals with
  | nil => intro st h; exact ⟨st, rfl, h⟩
  | cons p ps ih =>
    rintro ⟨heap, item_set⟩ ⟨hnd, hsub⟩
    simp only [feed]
    by_cases hp : p ∈ item_set
    · rw [if_pos hp]; exact ih _ ⟨hnd, hsub⟩
    · rw [if_neg hp]
      obtain ⟨heap1, e, hnd1, hm⟩ := heap_insert_nodup hH cmp hK hnd (fun hx => hp (hsub p hx))
      rw [e]
      simp only
      refine ih _ ⟨hnd1, fun y hy => ?_⟩
      rcases hm y hy with h1 | rfl
      · exact List.mem_cons_of_mem _ (hsub y h1)
      · exact List.mem_cons_self _ _

theorem heapInv_nil {V : Type} : HeapInv (([], []) : List V × List V) :=
  ⟨List.nodup_nil, fun _ hx => by simp at hx⟩

/-- On a well-formed tree whose precomputed heaps have no duplicates the ranked `match`
returns a list without duplicates. -/
theorem match_ranked_nodup {V : Type} [DecidableEq V] {t : radix_tree V} {chain : List Nat}
    {lab : Nat → List Nat} {par : Nat → Nat} {P : List (List Nat)} (hr : t.m_root = 0)
    (h : WF t.nodes chain lab par P) (hhn : HeapsNodup t.nodes) {H : StdHeap V}
    (hH : H.Permutes) (cmp : V → V → Bool) {K : Nat} (hK : 1 ≤ K) (q : List Nat) :
    ∃ r, match_ranked H t q [] cmp K = some r ∧ r.Nodup := by
  unfold match_ranked
  cases hd : UTF8Decode q with
  | none => exact ⟨[], rfl, List.nodup_nil⟩
  | some uchars =>
    simp only
    by_cases he : uchars = []
    · rw [if_pos he]; exact ⟨[], rfl, List.nodup_nil⟩
    · rw [if_neg he]
      obtain ⟨r, hfind, hok⟩ := find_node_ok hr h uchars
      obtain ⟨m, cnt, d⟩ := r
      rw [hfind]
      simp only
      by_cases hdep : d = uchars.length
      · rw [if_pos hdep]
        obtain ⟨mn, hmn, hv, -⟩ := hok.node
        simp only at hmn
        rw [hmn]
        simp only
        cases hheap : mn.m_heap with
        | some heap =>
          simp only
          refine ⟨_, rfl, ?_⟩
          rw [List.nil_append]
          exact (hhn m mn heap hmn hheap).sublist (List.take_sublist _ _)
        | none =>
          simp only
          obtain ⟨run, -, hwalk⟩ := node_walk_ok h hmn hv ([] : List V)
          obtain ⟨vals, -, hfeed⟩ := ranked_walk_eq_feed H cmp K _ _ _ _ _ _ hwalk
          obtain ⟨st1, hf, hinv⟩ := feed_inv hH cmp hK vals ([], []) heapInv_nil
          rw [hfeed, hf]
          exact ⟨_, rfl, (hH.sort cmp st1.1).nodup_iff.mpr hinv.1⟩
      · rw [if_neg hdep]; exact ⟨[], rfl, List.nodup_nil⟩

theorem SameShape.refl_shape {V : Type} (ns : List (radix_tree_node V)) : SameShape ns ns :=
  ⟨rfl, fun _ n hn => ⟨n, hn, rfl, rfl, rfl, rfl, Iff.rfl⟩⟩

theorem SameShape.trans_shape {V : Type} {a b c : List (radix_tree_node V)}
    (h1 : SameShape a b) (h2 : SameShape b c) : SameShape a c := by
  refine ⟨h2.1.trans h1.1, fun i n hn => ?_⟩
  obtain ⟨n1, hn1, e1, e2, e3, e4, e5⟩ := h1.2 i n hn
  obtain ⟨n2, hn2, f1, f2, f3, f4, f5⟩ := h2.2 i n1 hn1
  exact ⟨n2, hn2, f1.trans e1, f2.trans e2, f3.trans e3, f4.trans e4, f5.trans e5⟩

/-- The inner loop of the first phase of `finish` returns a sublist of the children. -/
theorem big_children_ok {V : Type} (ns : List (radix_tree_node V)) :
    ∀ L : List (Slice × Nat), (∀ kc ∈ L, ∃ cn : radix_tree_node V, ns[kc.2]? = some cn) →
      ∃ l, big_children ns L = some l ∧ l.Sublist (L.map Prod.snd) := by
  intro L
  induction L with
  | nil => intro _; exact ⟨[], rfl, List.Sublist.refl _⟩
  | cons kc rest ih =>
    intro hL
    obtain ⟨k, c⟩ := kc
    obtain ⟨cn, hcn⟩ := hL (k, c) (List.mem_cons_self _ _)
    obtain ⟨l, hl, hsub⟩ := ih (fun kc hkc => hL kc (List.mem_cons_of_mem _ hkc))
    simp only at hcn
    simp only [big_children, hcn, hl, List.map_cons]
    refine ⟨_, rfl, ?_⟩
    split_ifs
    · exact hsub.cons₂ c
    · exact hsub.cons c

theorem nodup_length_le {l : List Nat} {n : Nat} (hnd : l.Nodup) (hlt : ∀ a ∈ l, a < n) :
    l.length ≤ n := by
  have hsub : l ⊆ List.range n := fun a ha => List.mem_range.mpr (hlt a ha)
  simpa using (List.subperm_of_subset hnd hsub).length_le

/-- The first loop of `finish` returns on a well-formed arena, with interior nodes only. -/
theorem collect_nodes_ok {V : Type} {ns : List (radix_tree_node V)} {chain : List Nat}
    {lab : Nat → List Nat} {par : Nat → Nat} {P : List (List Nat)}
    (h : WF ns chain lab par P) :
    ∀ (fuel index : Nat) (pn : List Nat), pn.Nodup →
      (∀ c ∈ pn, ∃ n : radix_tree_node V, ns[c]? = some n ∧ n.m_value = none) →
      (∀ c ∈ pn, c ≠ 0 → ∃ i, i < index ∧ pn[i]? = some (par c)) →
      index ≤ pn.length → ns.length + 1 ≤ fuel + index →
      ∃ r, collect_nodes ns fuel index pn = some r ∧
        ∀ c ∈ r, ∃ n : radix_tree_node V, ns[c]? = some n ∧ n.m_value = none := by
  intro fuel
  induction fuel with
  | zero =>
    intro index pn hnd hint _ hidx hfuel
    have := nodup_length_le hnd (fun a ha => by
      obtain ⟨n, hn, -⟩ := hint a ha
      exact lt_of_getElem? hn)
    omega
  | succ fuel ih =>
    intro index pn hnd hint hpar hidx hfuel
    simp only [collect_nodes]
    cases hcur : pn[index]? with
    | none => exact ⟨pn, rfl, hint⟩
    | some current =>
      simp only
      have hilt : index < pn.length := (List.getElem?_eq_some_iff.mp hcur).1
      have hcmem : current ∈ pn := List.mem_iff_getElem?.mpr ⟨index, hcur⟩
      obtain ⟨cn, hcn, hcv⟩ := hint current hcmem
      rw [hcn]
      simp only
      obtain ⟨l, hl, hsub⟩ := big_children_ok ns cn.m_children (fun kc hkc => by
        obtain ⟨n1, hn1, -⟩ := h.child current cn kc.1 kc.2 hcn hcv hkc
        exact ⟨n1, hn1⟩)
      rw [hl]
      simp only
      have hlmem : ∀ c ∈ l, ∃ k, (k, c) ∈ cn.m_children := by
        intro c hc
        have := hsub.subset hc
        obtain ⟨kc, hkc, rfl⟩ := List.mem_map.mp this
        exact ⟨kc.1, hkc⟩
      have hlpar : ∀ c ∈ l, par c = current ∧ c ≠ 0 ∧
          ∃ n : radix_tree_node V, ns[c]? = some n ∧ n.m_value = none := by
        intro c hc
        obtain ⟨k, hk⟩ := hlmem c hc
        obtain ⟨n1, hn1, hv1, -, -, hp, -⟩ := h.child current cn k c hcn hcv hk
        exact ⟨hp, h.child_ne_root hcn hcv hk, n1, hn1, hv1⟩
      apply ih (index + 1) (pn ++ l)
      · refine List.nodup_append.mpr ⟨hnd, (h.child_nodup current cn hcn hcv).sublist hsub,
          fun c hc1 hc2 => ?_⟩
        obtain ⟨hp, hc0, -⟩ := hlpar c hc2
        obtain ⟨i, hi, hpi⟩ := hpar c hc1 hc0
        rw [hp] at hpi
        have hii : i < pn.length := (List.getElem?_eq_some_iff.mp hpi).1
        have e1 : pn[i] = current := (List.getElem?_eq_some_iff.mp hpi).2
        have e2 : pn[index] = current := (List.getElem?_eq_some_iff.mp hcur).2
        have := (List.Nodup.getElem_inj_iff hnd).mp (e1.trans e2.symm)
        omega
      · intro c hc
        rcases List.mem_append.mp hc with h1 | h1
        · exact hint c h1
        · exact (hlpar c h1).2.2
      · intro c hc hc0
        rcases List.mem_append.mp hc with h1 | h1
        · obtain ⟨i, hi, hpi⟩ := hpar c h1 hc0
          have hii : i < pn.length := (List.getElem?_eq_some_iff.mp hpi).1
          exact ⟨i, by omega, by rw [List.getElem?_append_left hii]; exact hpi⟩
        · refine ⟨index, by omega, ?_⟩
          rw [List.getElem?_append_left hilt, (hlpar c h1).1]
          exact hcur
      · simp only [List.length_append]; omega
      · omega

/-- The loop over the children in the second phase of `finish` returns and keeps the heap
buffer free of duplicates. -/
theorem merge_children_ok {V : Type} [DecidableEq V] {H : StdHeap V} (hH : H.Permutes)
    (cmp : V → V → Bool) {K : Nat} (hK : 1 ≤ K) (ns : List (radix_tree_node V)) :
    ∀ (L : List (Slice × Nat)), (∀ kc ∈ L, ∃ cn : radix_tree_node V, ns[kc.2]? = some cn) →
      ∀ (st : List V × List V) (heap_range : List (Option Nat × Option Nat)), HeapInv st →
        ∃ st1 hr1, merge_children H cmp K ns L st heap_range = some (st1, hr1) ∧
          HeapInv st1 := by
  intro L
  induction L with
  | nil => intro _ st hr hst; exact ⟨st, hr, rfl, hst⟩
  | cons kc rest ih =>
    intro hL st hr hst
    obtain ⟨k, c⟩ := kc
    obtain ⟨cn, hcn⟩ := hL (k, c) (List.mem_cons_self _ _)
    simp only at hcn
    simp only [merge_children, hcn]
    have hrest := ih (fun kc hkc => hL kc (List.mem_cons_of_mem _ hkc))
    cases hh : cn.m_heap with
    | none => exact hrest st hr hst
    | some heap =>
      simp only
      obtain ⟨st1, hf, hinv⟩ := feed_inv hH cmp hK heap st hst
      rw [hf]
      exact hrest st1 _ hinv

/-- The leaf walk of `finish` returns when started inside a null-terminated run of linked
nodes, and keeps the heap buffer free of duplicates. -/
theorem finish_walk_ok {V : Type} [DecidableEq V] {H : StdHeap V} (hH : H.Permutes)
    (cmp : V → V → Bool) {K : Nat} (hK : 1 ≤ K) (ns : List (radix_tree_node V))
    (last : Option Nat) (heap_range : List (Option Nat × Option Nat)) :
    ∀ (S : List Nat) (fuel range_index : Nat) (skip_range : Bool) (st : List V × List V),
      S.Chain' (fun a b => ∃ na nb : radix_tree_node V,
        ns[a]? = some na ∧ ns[b]? = some nb ∧ na.m_last = some b ∧ nb.m_first = some a) →
      (∀ a : Nat, S.getLast? = some a →
        ∃ na : radix_tree_node V, ns[a]? = some na ∧ na.m_last = none) →
      S.length ≤ fuel → HeapInv st →
      ∃ st1, finish_walk H cmp K ns last heap_range fuel S.head? range_index skip_range st =
        some st1 ∧ HeapInv st1 := by
  intro S
  induction S with
  | nil =>
    intro fuel ri sk st _ _ _ hst
    refine ⟨st, ?_, hst⟩
    cases fuel <;> simp [finish_walk]
  | cons a S ih =>
    intro fuel ri sk st hch hend hfuel hst
    obtain ⟨fuel, rfl⟩ : ∃ f, fuel = f + 1 := ⟨fuel - 1, by simp at hfuel; omega⟩
    have hna : ∃ na : radix_tree_node V, ns[a]? = some na ∧ na.m_last = S.head? := by
      cases S with
      | nil => simpa using hend a (by simp)
      | cons b S =>
        obtain ⟨na, -, hna, -, hl, -⟩ := (List.chain'_cons.mp hch).1
        exact ⟨na, hna, by simpa using hl⟩
    obtain ⟨na, hna, hl⟩ := hna
    have hend1 : ∀ b : Nat, S.getLast? = some b →
        ∃ nb : radix_tree_node V, ns[b]? = some nb ∧ nb.m_last = none := by
      intro b hb
      apply hend b
      cases S with
      | nil => simp at hb
      | cons c S => simpa [List.getLast?_cons_cons] using hb
    have hrec := fun (ri1 : Nat) (sk1 : Bool) (st1 : List V × List V) (h1 : HeapInv st1) =>
      ih fuel ri1 sk1 st1 hch.tail hend1 (by simp at hfuel; omega) h1
    obtain ⟨stv, hfv, hinvv⟩ : ∃ stv, (match na.m_value with
        | none => some st
        | some vs => feed H cmp K vs st) = some stv ∧ HeapInv stv := by
      cases na.m_value with
      | none => exact ⟨st, rfl, hst⟩
      | some vs => exact feed_inv hH cmp hK vs st hst
    simp only [List.head?_cons, finish_walk, hna, hl, hfv]
    split
    · rename_i hfed
      split at hfed <;> simp at hfed
    · rename_i st1 hfed
      split at hfed
      · simp at hfed
      · simp only [Option.some.injEq, Prod.mk.injEq] at hfed
        exact ⟨st1, rfl, hfed.2 ▸ hinvv⟩
    · rename_i st1 hfed
      have hst1 : HeapInv st1 := by
        split at hfed
        · simp only [Option.some.injEq, Prod.mk.injEq] at hfed
          exact hfed.2 ▸ hst
        · simp only [Option.some.injEq, Prod.mk.injEq] at hfed
          exact hfed.2 ▸ hinvv
      split
      · exact hrec _ _ _ hst1
      · split_ifs
        · exact hrec _ _ _ hst1
        · exact hrec _ _ _ hst1

theorem HeapsNodup_upd {V : Type} {ns : List (radix_tree_node V)} (hhn : HeapsNodup ns)
    (i : Nat) (f : radix_tree_node V → radix_tree_node V)
    (hf : ∀ n, ns[i]? = some n → ∀ heap, (f n).m_heap = some heap → heap.Nodup) :
    HeapsNodup (upd ns i f) := by
  intro j n heap hj hh
  rw [getElem?_upd] at hj
  split_ifs at hj with hji
  · cases hn : ns[i]? with
    | none => rw [hn] at hj; simp at hj
    | some n0 =>
      rw [hn] at hj
      simp only [Option.map_some', Option.some.injEq] at hj
      subst hj
      exact hf n0 hn heap hh
  · exact hhn j n heap hj hh

/-- One iteration of the second loop of `finish` returns on a well-formed arena; it changes
heaps only, and the heap it stores has no duplicates. -/
theorem finish_node_ok {V : Type} [DecidableEq V] {H : StdHeap V} (hH : H.Permutes)
    (cmp : V → V → Bool) {K : Nat} (hK : 1 ≤ K) {ns : List (radix_tree_node V)}
    {chain : List Nat} {lab : Nat → List Nat} {par : Nat → Nat} {P : List (List Nat)}
    (h : WF ns chain lab par P) (hhn : HeapsNodup ns) {current : Nat}
    {cn0 : radix_tree_node V} (hc : ns[current]? = some cn0) (hv : cn0.m_value = none) :
    ∃ ns2, finish_node H cmp K ns current = some ns2 ∧ SameShape ns ns2 ∧ HeapsNodup ns2 := by
  have hs1 : SameShape ns (upd ns current (fun n => { n with m_heap := some [] })) :=
    SameShape_upd ns current _ (fun n _ => ⟨rfl, rfl, rfl, rfl, Iff.rfl⟩)
  have h1 := WF_of_SameShape h hs1
  have hhn1 : HeapsNodup (upd ns current (fun n => { n with m_heap := some [] })) :=
    HeapsNodup_upd hhn current _ (fun n _ heap hh => by
      simp only [Option.some.injEq] at hh
      subst hh
      exact List.nodup_nil)
  have hcn : (upd ns current (fun n => { n with m_heap := some [] }))[current]? =
      some { cn0 with m_heap := some [] } := by
    rw [getElem?_upd_self, hc]; rfl
  unfold finish_node
  simp only [hc, hcn]
  obtain ⟨st, hr, hmerge, hst⟩ := merge_children_ok hH cmp hK
    (upd ns current (fun n => { n with m_heap := some [] })) cn0.m_children
    (fun kc hkc => by
      obtain ⟨n1, hn1, -⟩ := h1.child current _ kc.1 kc.2 hcn hv hkc
      exact ⟨n1, hn1⟩) ([], []) [] heapInv_nil
  rw [hmerge]
  simp only
  have hlen := h1.chain_length_le
  have hfuel : chain.length ≤
      2 * (upd ns current (fun n => { n with m_heap := some [] })).length * (hr.length + 1) := by
    refine hlen.trans ?_
    have : (upd ns current (fun n => { n with m_heap := some [] })).length ≤
        2 * (upd ns current (fun n => { n with m_heap := some [] })).length := by omega
    exact this.trans (Nat.le_mul_of_pos_right _ (by omega))
  obtain ⟨st1, hwalk, hst1⟩ : ∃ st1, finish_walk H cmp K
      (upd ns current (fun n => { n with m_heap := some [] })) cn0.m_last hr
      (2 * (upd ns current (fun n => { n with m_heap := some [] })).length * (hr.length + 1))
      cn0.m_first 0 false st = some st1 ∧ HeapInv st1 := by
    rcases h1.range current _ hcn hv with ⟨-, -, hf, -⟩ | ⟨f, l, A, R, hf, -, hch, -⟩
    · simp only at hf
      rw [hf]
      exact finish_walk_ok hH cmp hK _ cn0.m_last hr [] _ 0 false st List.chain'_nil
        (fun a ha => by simp at ha) (Nat.zero_le _) hst
    · simp only at hf
      rw [hf]
      have hlink : (f :: R).Chain' (fun a b => ∃ na nb : radix_tree_node V,
          (upd ns current (fun n => { n with m_heap := some [] }))[a]? = some na ∧
          (upd ns current (fun n => { n with m_heap := some [] }))[b]? = some nb ∧
          na.m_last = some b ∧ nb.m_first = some a) := by
        have := h1.chain_link
        rw [hch] at this
        exact this.right_of_append
      have hend : ∀ a : Nat, (f :: R).getLast? = some a → ∃ na : radix_tree_node V,
          (upd ns current (fun n => { n with m_heap := some [] }))[a]? = some na ∧
          na.m_last = none := by
        intro a ha
        apply h1.chain_end a
        rw [hch, List.getLast?_append_of_ne_nil _ (List.cons_ne_nil _ _)]
        exact ha
      have hlen2 : (f :: R).length ≤ chain.length := by
        rw [hch]; simp
      exact finish_walk_ok hH cmp hK _ cn0.m_last hr (f :: R) _ 0 false st hlink hend
        (hlen2.trans hfuel) hst
  rw [hwalk]
  simp only
  refine ⟨_, rfl, hs1.trans_shape (SameShape_upd _ current _
    (fun n _ => ⟨rfl, rfl, rfl, rfl, Iff.rfl⟩)), ?_⟩
  exact HeapsNodup_upd hhn1 current _ (fun n _ heap hh => by
    simp only [Option.some.injEq] at hh
    subst hh
    exact (hH.sort cmp st1.1).nodup_iff.mpr hst1.1)

/-- The second loop of `finish` returns on a well-formed arena, over any list of interior
nodes. -/
theorem finish_nodes_ok {V : Type} [DecidableEq V] {H : StdHeap V} (hH : H.Permutes)
    (cmp : V → V → Bool) {K : Nat} (hK : 1 ≤ K) {chain : List Nat} {lab : Nat → List Nat}
    {par : Nat → Nat} {P : List (List Nat)} :
    ∀ (l : List Nat) (ns : List (radix_tree_node V)), WF ns chain lab par P → HeapsNodup ns →
      (∀ c ∈ l, ∃ n : radix_tree_node V, ns[c]? = some n ∧ n.m_value = none) →
      ∃ ns2, finish_nodes H cmp K l ns = some ns2 ∧ SameShape ns ns2 ∧ HeapsNodup ns2 := by
  intro l
  induction l with
  | nil => intro ns _ hhn _; exact ⟨ns, rfl, SameShape.refl_shape ns, hhn⟩
  | cons current rest ih =>
    intro ns h hhn hint
    obtain ⟨cn0, hc, hv⟩ := hint current (List.mem_cons_self _ _)
    obtain ⟨ns1, hf, hs1, hhn1⟩ := finish_node_ok hH cmp hK h hhn hc hv
    simp only [finish_nodes, hf]
    obtain ⟨ns2, hf2, hs2, hhn2⟩ := ih ns1 (WF_of_SameShape h hs1) hhn1 (fun c hcm => by
      obtain ⟨n, hn, hnv⟩ := hint c (List.mem_cons_of_mem _ hcm)
      obtain ⟨n1, hn1, -, -, -, -, e⟩ := hs1.2 c n hn
      exact ⟨n1, hn1, e.mpr hnv⟩)
    exact ⟨ns2, hf2, hs1.trans_shape hs2, hhn2⟩

/-- On a well-formed tree `finish` returns; the tree keeps its shape and every heap it stores
is free of duplicates. -/
theorem finish_ok {V : Type} [DecidableEq V] {H : StdHeap V} (hH : H.Permutes)
    (cmp : V → V → Bool) {K : Nat} (hK : 1 ≤ K) {t : radix_tree V} {chain : List Nat}
    {lab : Nat → List Nat} {par : Nat → Nat} {P : List (List Nat)} (hr : t.m_root = 0)
    (h : WF t.nodes chain lab par P) (hhn : HeapsNodup t.nodes) :
    ∃ t1, finish H t cmp K = some t1 ∧ t1.m_root = 0 ∧ WF t1.nodes chain lab par P ∧
      HeapsNodup t1.nodes := by
  obtain ⟨root, hroot, hrv, -⟩ := h.root
  unfold finish
  rw [hr, hroot]
  simp only
  by_cases hcount : root.m_count < nodes_threshold
  · rw [if_pos hcount]; exact ⟨t, rfl, hr, h, hhn⟩
  · rw [if_neg hcount]
    obtain ⟨pn, hpn, hint⟩ := collect_nodes_ok h (t.nodes.length + 1) 0 [0]
      (List.nodup_singleton 0)
      (fun c hc => by
        simp only [List.mem_singleton] at hc
        subst hc
        exact ⟨root, hroot, hrv⟩)
      (fun c hc hc0 => by
        simp only [List.mem_singleton] at hc
        exact absurd hc hc0)
      (Nat.zero_le _) (by omega)
    rw [hpn]
    simp only
    obtain ⟨ns2, hf, hs, hhn2⟩ := finish_nodes_ok hH cmp hK pn.reverse t.nodes h hhn
      (fun c hc => hint c (List.mem_reverse.mp hc))
    rw [hf]
    exact ⟨_, rfl, rfl, WF_of_SameShape h hs, hhn2⟩

theorem HeapsNodup_of_NoHeap {V : Type} {ns : List (radix_tree_node V)} (h : NoHeap ns) :
    HeapsNodup ns := by
  intro j n heap hj hh
  rw [h j n hj] at hh
  exact Option.noConfusion hh

/-! ## Lemmas for the heap, decoder and iterator claims -/

theorem StrictTotal.weak {V : Type} {cmp : V → V → Bool} (h : StrictTotal cmp) :
    StrictWeak cmp :=
  ⟨h.irrefl, h.trans, fun _ _ _ hab hbc => h.neg_trans hab hbc⟩

theorem IsHeap.root_max_weak {V : Type} {cmp : V → V → Bool} (hc : StrictWeak cmp) {r : V}
    {l : List V} (h : IsHeap cmp (r :: l)) : ∀ y ∈ r :: l, cmp r y = false := by
  have key : ∀ (n i : Nat) (y : V), i ≤ n → (r :: l)[i]? = some y → cmp r y = false := by
    intro n
    induction n with
    | zero =>
      intro i y hi hy
      obtain rfl : i = 0 := by omega
      simp at hy
      subst hy
      exact hc.irrefl _
    | succ n ih =>
      intro i y hi hy
      by_cases h0 : i = 0
      · subst h0
        simp at hy
        subst hy
        exact hc.irrefl _
      · have hlt : i < (r :: l).length := (List.getElem?_eq_some_iff.mp hy).1
        have hp : (i - 1) / 2 < (r :: l).length := by omega
        obtain ⟨a, ha⟩ : ∃ a, (r :: l)[(i - 1) / 2]? = some a :=
          ⟨_, List.getElem?_eq_getElem hp⟩
        exact hc.neg_trans _ _ _ (ih _ a (by omega) ha) (h i a y (by omega) ha hy)
  intro y hy
  obtain ⟨i, hi⟩ := List.getElem?_of_mem hy
  exact key i i y le_rfl hi

theorem isHeap_pair : IsHeap (fun a b : Nat => decide (a < b)) [5, 3] := by
  intro i a b hi ha hb
  match i, hi with
  | 1, _ =>
    simp at ha hb
    subst ha hb
    decide
  | i + 2, _ => simp at hb

theorem IsCp.no_nul {u : Slice} (h : IsCp u) : ∀ b ∈ u, b ≠ 0 := by
  obtain ⟨hne, h0, hfl⟩ := h
  intro b hb hb0
  subst hb0
  obtain ⟨m, hm⟩ := List.getElem?_of_mem hb
  have hml : m < u.length := (List.getElem?_eq_some_iff.mp hm).1
  have hbm : byteAt u m = 0 := by
    simp [byteAt, List.getD_eq_getElem?_getD, hm]
  by_cases hm0 : m = 0
  · subst hm0; exact h0 hbm
  · unfold first_len at hfl
    split_ifs at hfl with h1
    · simp only [Option.some.injEq] at hfl
      omega
    · split at hfl
      · simp at hfl
      · rename_i cl hcl
        split_ifs at hfl with h2
        simp only [Option.some.injEq] at hfl
        subst hfl
        have := @code_len_loop_trunc u u _ _ _ _ m hcl (by omega) hml (fun _ _ => rfl) hbm
        rw [this] at hcl
        exact Option.noConfusion hcl

theorem takeWhile_append_nul {a z : List Nat} (ha : ∀ b ∈ a, b ≠ 0)
    (hz : z = [] ∨ z.head? = some 0) : (a ++ z).takeWhile (fun b => decide (b ≠ 0)) = a := by
  induction a with
  | nil =>
    rcases hz with rfl | hz
    · rfl
    · cases z with
      | nil => rfl
      | cons x z =>
        simp only [List.head?_cons, Option.some.injEq] at hz
        subst hz
        simp
  | cons x a ih =>
    have hx := ha x (List.mem_cons_self _ _)
    simp only [List.cons_append, List.takeWhile_cons, hx, ne_eq, not_false_eq_true,
      decide_True, if_true]
    rw [ih (fun b hb => ha b (List.mem_cons_of_mem _ hb))]


theorem bump_eq {V : Type} (ns : List (radix_tree_node V)) (x : Nat) (o : Option Nat)
    (nl : Nat) : bump ns x o nl = upd ns x (bumped o nl) := rfl

theorem getElem?_bump {V : Type} (ns : List (radix_tree_node V)) (x j : Nat) (o : Option Nat)
    (nl : Nat) : (bump ns x o nl)[j]? = if j = x then (ns[x]?).map (bumped o nl) else ns[j]? := by
  rw [bump_eq, getElem?_upd]

theorem KeyEq.refl_key {V : Type} (ns : List (radix_tree_node V)) : KeyEq ns ns :=
  fun _ n hn => ⟨n, hn, rfl, rfl⟩

theorem KeyEq.bump_key {V : Type} {ns ns1 : List (radix_tree_node V)} (h : KeyEq ns ns1)
    (x : Nat) (o : Option Nat) (nl : Nat) : KeyEq ns (bump ns1 x o nl) := by
  intro j n hn
  obtain ⟨n1, hn1, e1, e2⟩ := h j n hn
  rw [getElem?_bump]
  split_ifs with hj
  · subst hj
    rw [hn1]
    exact ⟨_, rfl, e1, e2⟩
  · exact ⟨n1, hn1, e1, e2⟩

/-- A returning `find_loop` follows a walk. -/
theorem find_steps {V : Type} {ns : List (radix_tree_node V)} {chain : List Nat}
    {lab : Nat → List Nat} {par : Nat → Nat} {P : List (List Nat)} (h : WF ns chain lab par P)
    (q : List Slice) (fuel : Nat) :
    ∀ (x count dx : Nat) (n : radix_tree_node V) (r : Nat × Nat × Nat), ns[x]? = some n →
      n.m_value = none → count = n.m_key.length →
      find_loop ns q fuel x count dx = some r →
      ∃ path, Steps ns q x dx path r.1 r.2.1 r.2.2 := by
  induction fuel with
  | zero => intro x count dx n r _ _ _ hf; simp [find_loop] at hf
  | succ fuel ih =>
    intro x count dx n r hn hv hcount hf
    unfold find_loop at hf
    by_cases hlen : q.length - dx > 0
    · rw [if_pos hlen] at hf
      simp only [hn] at hf
      cases hfind : map_find n.m_children (q.getD dx []) with
      | none =>
        rw [hfind] at hf
        simp only [Option.some.injEq] at hf
        subst hf
        rw [hcount]
        exact ⟨_, Steps.nochild x dx n hn (by omega) hfind⟩
      | some c =>
        rw [hfind] at hf
        simp only at hf
        have hmem := map_find_mem hfind
        obtain ⟨cn, hcn, hcv, hk0, hpre, -, -⟩ := h.child x n _ c hn hv hmem
        simp only [hcn] at hf
        have hq : q.drop dx = q.getD dx [] :: q.drop (dx + 1) := by
          have hd : dx < q.length := by omega
          rw [List.getD_eq_getElem?_getD, List.getElem?_eq_getElem hd]
          simp
        obtain ⟨-, hf2⟩ := match_edge_first (q.drop (dx + 1)) dx hk0 hpre
        rw [← hq] at hf2
        obtain ⟨-, hs2, -⟩ := match_edge_spec cn.m_key (q.drop dx) 0 dx (Nat.zero_le _)
        by_cases hlt : (match_edge cn.m_key (q.drop dx) 0 dx).1 < cn.m_key.length
        · rw [if_pos hlt] at hf
          simp only [Option.some.injEq] at hf
          subst hf
          exact ⟨_, Steps.midedge x dx n c cn hn (by omega) hfind hcn hlt⟩
        · rw [if_neg hlt] at hf
          have heq : (match_edge cn.m_key (q.drop dx) 0 dx).1 = cn.m_key.length := by omega
          obtain ⟨path, hp⟩ := ih c _ _ cn r hcn hcv heq hf
          exact ⟨_, Steps.step x dx n c cn path _ _ _ hn (by omega) hfind hcn heq
            (by omega) hp⟩
    · rw [if_neg hlen] at hf
      simp only [Option.some.injEq] at hf
      subst hf
      rw [hcount]
      exact ⟨_, Steps.exhausted x dx n hn (by omega)⟩

/-- Along a walk `update_node` bumps the visited nodes, one after the other. -/
theorem update_of_steps {V : Type} {ns : List (radix_tree_node V)} {q : List Slice}
    (o : Option Nat) (nl : Nat) {x dx : Nat} {path : List Nat} {m cnt d : Nat}
    (hs : Steps ns q x dx path m cnt d) :
    ∀ (fuel : Nat) (ns1 : List (radix_tree_node V)), KeyEq ns ns1 → q.length - dx < fuel →
      update_loop q o nl fuel ns1 x dx = some (path.foldl (fun a y => bump a y o nl) ns1) := by
  induction hs with
  | exhausted x dx n hn hdx =>
    intro fuel ns1 hk hfuel
    obtain ⟨fuel, rfl⟩ : ∃ f, fuel = f + 1 := ⟨fuel - 1, by omega⟩
    obtain ⟨n1, hn1, -, -⟩ := hk x n hn
    unfold update_loop
    rw [if_neg (by omega)]
    simp only [hn1, List.foldl_cons, List.foldl_nil]
  | nochild x dx n hn hdx hfind =>
    intro fuel ns1 hk hfuel
    obtain ⟨fuel, rfl⟩ : ∃ f, fuel = f + 1 := ⟨fuel - 1, by omega⟩
    obtain ⟨n1, hn1, -, e2⟩ := hk x n hn
    unfold update_loop
    rw [if_pos (by omega)]
    simp only [hn1, e2, hfind, List.foldl_cons, List.foldl_nil]
  | midedge x dx n c cn hn hdx hfind hcn hlt =>
    intro fuel ns1 hk hfuel
    obtain ⟨fuel, rfl⟩ : ∃ f, fuel = f + 1 := ⟨fuel - 1, by omega⟩
    obtain ⟨n1, hn1, -, e2⟩ := hk x n hn
    obtain ⟨c1, hc1, f1, -⟩ := (hk.bump_key x o nl) c cn hcn
    unfold update_loop
    rw [if_pos (by omega)]
    simp only [hn1, e2, hfind, hc1, f1, if_pos hlt, List.foldl_cons, List.foldl_nil]
  | step x dx n c cn path m cnt d hn hdx hfind hcn heq hlt _ ih =>
    intro fuel ns1 hk hfuel
    obtain ⟨fuel, rfl⟩ : ∃ f, fuel = f + 1 := ⟨fuel - 1, by omega⟩
    obtain ⟨n1, hn1, -, e2⟩ := hk x n hn
    obtain ⟨c1, hc1, f1, -⟩ := (hk.bump_key x o nl) c cn hcn
    unfold update_loop
    rw [if_pos (by omega)]
    have hnl : ¬ (match_edge cn.m_key (q.drop dx) 0 dx).1 < cn.m_key.length := by omega
    simp only [hn1, e2, hfind, hc1, f1, if_neg hnl, List.foldl_cons]
    exact ih fuel _ (hk.bump_key x o nl) (by omega)

/-- Bumping the nodes of a duplicate-free list bumps each of them once. -/
theorem getElem?_foldl_bump {V : Type} (o : Option Nat) (nl : Nat) (path : List Nat) :
    ∀ (ns : List (radix_tree_node V)) (j : Nat), path.Nodup →
      (path.foldl (fun a y => bump a y o nl) ns)[j]? =
        if j ∈ path then (ns[j]?).map (bumped o nl) else ns[j]? := by
  induction path with
  | nil => intro ns j _; simp
  | cons x path ih =>
    intro ns j hnd
    obtain ⟨hx, hnd1⟩ := List.nodup_cons.mp hnd
    rw [List.foldl_cons, ih _ j hnd1, getElem?_bump]
    by_cases hjx : j = x
    · subst hjx
      simp [hx]
    · simp [hjx]

theorem length_foldl_bump {V : Type} (o : Option Nat) (nl : Nat) (path : List Nat) :
    ∀ (ns : List (radix_tree_node V)),
      (path.foldl (fun a y => bump a y o nl) ns).length = ns.length := by
  induction path with
  | nil => intro ns; rfl
  | cons x path ih =>
    intro ns
    rw [List.foldl_cons, ih, bump_eq, length_upd]

/-! ## Inserting one element behind another in a list -/

theorem ins_after_of_not_mem {a b : Nat} {l : List Nat} (h : a ∉ l) : ins_after a b l = l := by
  induction l with
  | nil => rfl
  | cons x rest ih =>
    simp only [List.mem_cons, not_or] at h
    simp only [ins_after, if_neg (Ne.symm h.1), ih h.2]

theorem ins_after_split {a b : Nat} {l1 l2 : List Nat} (h : a ∉ l1) :
    ins_after a b (l1 ++ a :: l2) = l1 ++ a :: b :: l2 := by
  induction l1 with
  | nil => simp [ins_after]
  | cons x rest ih =>
    simp only [List.mem_cons, not_or] at h
    rw [List.cons_append, ins_after, if_neg (Ne.symm h.1), ih h.2, List.cons_append]

theorem ins_after_append_left {a b : Nat} {x y : List Nat} (h : a ∈ x) :
    ins_after a b (x ++ y) = ins_after a b x ++ y := by
  induction x with
  | nil => simp at h
  | cons z rest ih =>
    rw [List.cons_append, ins_after, ins_after]
    split_ifs with hz
    · rfl
    · have : a ∈ rest := by
        rcases List.mem_cons.mp h with h1 | h1
        · exact absurd h1.symm hz
        · exact h1
      rw [ih this]; rfl

theorem ins_after_append_right {a b : Nat} {x y : List Nat} (h : a ∉ x) :
    ins_after a b (x ++ y) = x ++ ins_after a b y := by
  induction x with
  | nil => rfl
  | cons z rest ih =>
    simp only [List.mem_cons, not_or] at h
    rw [List.cons_append, ins_after, if_neg (Ne.symm h.1), ih h.2, List.cons_append]

theorem ins_after_last {a b : Nat} {l : List Nat} (hnd : l.Nodup) (h : l.getLast? = some a) :
    ins_after a b l = l ++ [b] := by
  obtain ⟨l0, rfl⟩ : ∃ l0, l = l0 ++ [a] := by
    have hne : l ≠ [] := by rintro rfl; simp at h
    refine ⟨l.dropLast, ?_⟩
    have := List.dropLast_append_getLast? a h
    exact this.symm
  have hnot : a ∉ l0 := by
    intro hm
    have := (List.nodup_append.mp hnd).2.2
    exact this hm (List.mem_singleton_self a)
  rw [ins_after_split hnot]
  simp

theorem filter_ins_after_true {a b : Nat} {p : Nat → Bool} (ha : p a = true)
    (hb : p b = true) (l : List Nat) :
    (ins_after a b l).filter p = ins_after a b (l.filter p) := by
  induction l with
  | nil => rfl
  | cons x rest ih =>
    simp only [ins_after]
    split_ifs with hx
    · subst hx
      simp [List.filter_cons, ha, hb, ins_after]
    · by_cases hpx : p x = true
      · simp only [List.filter_cons, hpx, if_true, ins_after, if_neg hx, ih]
      · simp only [List.filter_cons, hpx, ih]
        rfl

theorem filter_ins_after_false {a b : Nat} {p : Nat → Bool} (hb : p b = false)
    (l : List Nat) : (ins_after a b l).filter p = l.filter p := by
  induction l with
  | nil => rfl
  | cons x rest ih =>
    simp only [ins_after]
    split_ifs with hx
    · simp [List.filter_cons, hb]
    · simp only [List.filter_cons, ih]

theorem length_ins_after {a b : Nat} {l : List Nat} (h : a ∈ l) :
    (ins_after a b l).length = l.length + 1 := by
  induction l with
  | nil => simp at h
  | cons x rest ih =>
    simp only [ins_after]
    split_ifs with hx
    · simp
    · have : a ∈ rest := by
        rcases List.mem_cons.mp h with h1 | h1
        · exact absurd h1.symm hx
        · exact h1
      simp [ih this]

theorem head?_ins_after (a b : Nat) (l : List Nat) : (ins_after a b l).head? = l.head? := by
  cases l with
  | nil => rfl
  | cons x rest =>
    simp only [ins_after]
    split_ifs <;> rfl

theorem getLast?_ins_after {a b : Nat} {l : List Nat} (hnd : l.Nodup) (h : a ∈ l) :
    (ins_after a b l).getLast? = if l.getLast? = some a then some b else l.getLast? := by
  obtain ⟨l1, l2, rfl⟩ := List.append_of_mem h
  have hnot : a ∉ l1 := by
    intro hm
    have := (List.nodup_append.mp hnd).2.2
    exact this hm (List.mem_cons_self _ _)
  rw [ins_after_split hnot]
  cases l2 with
  | nil => simp
  | cons y l2 =>
    have hne : (l1 ++ a :: y :: l2).getLast? ≠ some a := by
      intro e
      have h1 : (l1 ++ a :: y :: l2).getLast? = (y :: l2).getLast? := by
        rw [show l1 ++ a :: y :: l2 = (l1 ++ [a]) ++ (y :: l2) by simp]
        exact List.getLast?_append_of_ne_nil _ (List.cons_ne_nil _ _)
      rw [h1] at e
      have hm : a ∈ y :: l2 := List.mem_of_getLast?_eq_some e
      have hnd2 := (List.nodup_append.mp hnd).2.1
      exact (List.nodup_cons.mp hnd2).1 hm
    rw [if_neg hne]
    rw [show l1 ++ a :: b :: y :: l2 = (l1 ++ [a, b]) ++ (y :: l2) by simp,
      show l1 ++ a :: y :: l2 = (l1 ++ [a]) ++ (y :: l2) by simp,
      List.getLast?_append_of_ne_nil _ (List.cons_ne_nil _ _),
      List.getLast?_append_of_ne_nil _ (List.cons_ne_nil _ _)]

/-- A filtered list that sits in the list as one piece has nothing of it before or behind. -/
theorem filter_infix_parts {p : Nat → Bool} {l A B : List Nat}
    (h : A ++ l.filter p ++ B = l) : A.filter p = [] ∧ B.filter p = [] := by
  have e : (l.filter p).filter p = l.filter p := by
    rw [List.filter_filter]; simp
  have h1 := congrArg (List.filter p) h
  rw [List.filter_append, List.filter_append, e] at h1
  have h2 := congrArg List.length h1
  simp only [List.length_append] at h2
  constructor
  · exact List.length_eq_zero.mp (by omega)
  · exact List.length_eq_zero.mp (by omega)

/-- A run that does not go on behind `a` stays one piece of the list when `b` is put behind
`a`. -/
theorem infix_ins_after_kept {a b : Nat} {l R : List Nat} (hnd : l.Nodup) (hR : R <:+: l)
    (hlast : a ∈ R → R.getLast? = some a) : R <:+: ins_after a b l := by
  obtain ⟨A, B, hAB⟩ := hR
  subst hAB
  have hndR : R.Nodup := by
    have := (List.nodup_append.mp hnd).1
    exact (List.nodup_append.mp this).2.1
  by_cases hA : a ∈ A
  · rw [List.append_assoc, ins_after_append_left hA]
    exact ⟨ins_after a b A, B, by simp⟩
  · rw [List.append_assoc, ins_after_append_right hA]
    by_cases hR : a ∈ R
    · rw [ins_after_append_left hR, ins_after_last hndR (hlast hR)]
      exact ⟨A, b :: B, by simp⟩
    · rw [ins_after_append_right hR]
      exact ⟨A, ins_after a b B, by simp⟩

/-- A run that holds `a` stays one piece of the list when `b` is put behind `a` in both. -/
theorem infix_ins_after_grown {a b : Nat} {l R : List Nat} (hnd : l.Nodup) (hR : R <:+: l)
    (ha : a ∈ R) : ins_after a b R <:+: ins_after a b l := by
  obtain ⟨A, B, hAB⟩ := hR
  subst hAB
  have hA : a ∉ A := by
    intro hm
    have h1 := (List.nodup_append.mp hnd).1
    exact (List.nodup_append.mp h1).2.2 hm ha
  rw [List.append_assoc, ins_after_append_right hA, ins_after_append_left ha]
  exact ⟨A, B, by simp⟩


/-! ## Consequences of the second invariant -/

theorem mem_run_of {anc : Nat → List Nat} {chain : List Nat} {x a : Nat} :
    a ∈ run_of anc chain x ↔ a ∈ chain ∧ x ∈ anc a := by
  simp [run_of, List.mem_filter]

theorem nodup_run_of {anc : Nat → List Nat} {chain : List Nat} (h : chain.Nodup) (x : Nat) :
    (run_of anc chain x).Nodup := h.filter _

theorem split_unique {a : Nat} {x y x1 y1 : List Nat} (hnd : (x ++ a :: y).Nodup)
    (h : x ++ a :: y = x1 ++ a :: y1) : x = x1 ∧ y = y1 := by
  induction x generalizing x1 with
  | nil =>
    cases x1 with
    | nil => simpa using h
    | cons b x1 =>
      simp only [List.nil_append, List.cons_append, List.cons.injEq] at h
      obtain ⟨rfl, h2⟩ := h
      simp only [List.nil_append, List.nodup_cons] at hnd
      exact absurd (by rw [h2]; simp) hnd.1
  | cons b x ih =>
    cases x1 with
    | nil =>
      simp only [List.nil_append, List.cons_append, List.cons.injEq] at h
      obtain ⟨rfl, h2⟩ := h
      simp only [List.cons_append, List.nodup_cons] at hnd
      exact absurd (by simp) hnd.1
    | cons c x1 =>
      simp only [List.cons_append, List.cons.injEq] at h
      obtain ⟨rfl, h2⟩ := h
      simp only [List.cons_append, List.nodup_cons] at hnd
      obtain ⟨e1, e2⟩ := ih hnd.2 h2
      exact ⟨by rw [e1], e2⟩

theorem WF2.self_mem {V : Type} {ns : List (radix_tree_node V)} {chain : List Nat}
    {anc : Nat → List Nat} (h2 : WF2 ns chain anc) {i : Nat} {n : radix_tree_node V}
    (hi : ns[i]? = some n) (hv : n.m_value = none) : i ∈ anc i :=
  List.mem_of_getLast?_eq_some (h2.anc_self i n hi hv)

theorem WF2.last_mem {V : Type} {ns : List (radix_tree_node V)} {chain : List Nat}
    {anc : Nat → List Nat} (h2 : WF2 ns chain anc) {m : Nat} {mn : radix_tree_node V}
    (hm : ns[m]? = some mn) (hv : mn.m_value = none) {tl : Nat} (hl : mn.m_last = some tl) :
    tl ∈ chain ∧ m ∈ anc tl ∧ (run_of anc chain m).getLast? = some tl := by
  obtain ⟨-, -, h3, -⟩ := h2.run m mn hm hv
  rw [hl] at h3
  have := List.mem_of_getLast?_eq_some h3.symm
  exact ⟨(mem_run_of.mp this).1, (mem_run_of.mp this).2, h3.symm⟩

/-- Ancestors of an ancestor are ancestors. -/
theorem WF2.anc_trans {V : Type} {ns : List (radix_tree_node V)} {chain : List Nat}
    {anc : Nat → List Nat} (h2 : WF2 ns chain anc) {x y z : Nat}
    (hz : z ∈ chain ∨ Interior ns z) (hy : y ∈ anc z) (hx : x ∈ anc y) : x ∈ anc z :=
  (h2.anc_pref z y hz hy).2.subset hx

/-- Two ancestors of one node are comparable. -/
theorem WF2.anc_cmp {V : Type} {ns : List (radix_tree_node V)} {chain : List Nat}
    {anc : Nat → List Nat} (h2 : WF2 ns chain anc) {x y z : Nat}
    (hz : z ∈ chain ∨ Interior ns z) (hx : x ∈ anc z) (hy : y ∈ anc z) :
    x ∈ anc y ∨ y ∈ anc x := by
  obtain ⟨⟨nx, hnx, hvx⟩, px⟩ := h2.anc_pref z x hz hx
  obtain ⟨⟨ny, hny, hvy⟩, py⟩ := h2.anc_pref z y hz hy
  rcases Nat.le_total (anc x).length (anc y).length with hle | hle
  · exact Or.inl ((List.prefix_of_prefix_length_le px py hle).subset (h2.self_mem hnx hvx))
  · exact Or.inr ((List.prefix_of_prefix_length_le py px hle).subset (h2.self_mem hny hvy))

/-- An interior node that does not lie above `m` has a run that does not go on behind the
last leaf of `m`. -/
theorem WF2.kept_last {V : Type} {ns : List (radix_tree_node V)} {chain : List Nat}
    {anc : Nat → List Nat} (h2 : WF2 ns chain anc) (hnd : chain.Nodup) {m : Nat}
    {mn : radix_tree_node V} (hm : ns[m]? = some mn) (hv : mn.m_value = none) {tl : Nat}
    (hl : mn.m_last = some tl) {i : Nat} {n : radix_tree_node V} (hi : ns[i]? = some n)
    (hiv : n.m_value = none) (him : i ∉ anc m) (htl : tl ∈ run_of anc chain i) :
    (run_of anc chain i).getLast? = some tl := by
  obtain ⟨htlc, hmtl, hlastm⟩ := h2.last_mem hm hv hl
  have hitl := (mem_run_of.mp htl).2
  -- `m` lies above `i`
  have hmi : m ∈ anc i := by
    rcases h2.anc_cmp (Or.inl htlc) hitl hmtl with h | h
    · exact absurd h him
    · exact h
  obtain ⟨-, -, -, A, B, hAB⟩ := h2.run i n hi hiv
  obtain ⟨-, -, -, Am, Bm, hABm⟩ := h2.run m mn hm hv
  obtain ⟨R1, R2, hR⟩ := List.append_of_mem htl
  cases R2 with
  | nil => rw [hR]; simp
  | cons s R2 =>
    exfalso
    have hs : s ∈ run_of anc chain i := by rw [hR]; simp
    have hsc := (mem_run_of.mp hs).1
    have hms : m ∈ anc s := h2.anc_trans (Or.inl hsc) (mem_run_of.mp hs).2 hmi
    have hsm : s ∈ run_of anc chain m := mem_run_of.mpr ⟨hsc, hms⟩
    obtain ⟨Rm0, hRm⟩ : ∃ Rm0, run_of anc chain m = Rm0 ++ [tl] :=
      ⟨_, (List.dropLast_append_getLast? tl hlastm).symm⟩
    have e1 : chain = (A ++ R1) ++ tl :: (s :: R2 ++ B) := by
      rw [← hAB, hR]; simp
    have e2 : chain = (Am ++ Rm0) ++ tl :: Bm := by
      rw [← hABm, hRm]; simp
    have hnd1 : ((A ++ R1) ++ tl :: (s :: R2 ++ B)).Nodup := e1 ▸ hnd
    obtain ⟨e3, e4⟩ := split_unique hnd1 (e1.symm.trans e2)
    have hsB : s ∈ Bm := by rw [← e4]; simp
    have hnd2 : (Am ++ run_of anc chain m ++ Bm).Nodup := hABm.symm ▸ hnd
    exact (List.nodup_append.mp hnd2).2.2 (List.mem_append_right _ hsm) hsB

/-- The nodes a walk visits are the ancestors of the node where it stops. -/
theorem steps_anc {V : Type} {ns : List (radix_tree_node V)} {chain : List Nat}
    {lab : Nat → List Nat} {par : Nat → Nat} {P : List (List Nat)} {anc : Nat → List Nat}
    (h : WF ns chain lab par P) (h2 : WF2 ns chain anc) {q : List Slice} {x dx : Nat}
    {path : List Nat} {m cnt d : Nat} (hs : Steps ns q x dx path m cnt d) :
    Interior ns x → Interior ns m ∧ ∃ rest, path = x :: rest ∧ anc m = anc x ++ rest := by
  induction hs with
  | exhausted x dx n hn hdx => intro hx; exact ⟨hx, [], rfl, by simp⟩
  | nochild x dx n hn hdx hfind => intro hx; exact ⟨hx, [], rfl, by simp⟩
  | midedge x dx n c cn hn hdx hfind hcn hlt =>
    intro hx
    obtain ⟨n1, hn1, hv1⟩ := hx
    rw [hn] at hn1; cases hn1
    have hmem := map_find_mem hfind
    obtain ⟨cn1, hcn1, hcv, -⟩ := h.child x n _ c hn hv1 hmem
    exact ⟨⟨cn1, hcn1, hcv⟩, [c], rfl, h2.anc_child x n _ c hn hv1 hmem⟩
  | step x dx n c cn path m cnt d hn hdx hfind hcn heq hlt _ ih =>
    intro hx
    obtain ⟨n1, hn1, hv1⟩ := hx
    rw [hn] at hn1; cases hn1
    have hmem := map_find_mem hfind
    obtain ⟨cn1, hcn1, hcv, -⟩ := h.child x n _ c hn hv1 hmem
    obtain ⟨hm, rest, hp, ha⟩ := ih ⟨cn1, hcn1, hcv⟩
    refine ⟨hm, c :: rest, by rw [hp], ?_⟩
    rw [ha, h2.anc_child x n _ c hn hv1 hmem]
    simp


/-! ## The walk of `update_node` after the surgery of `insert` -/

theorem match_edge_take (key : Slice) (us : List Slice) (hne : ∀ u ∈ us, u ≠ []) :
    ∀ (count depth cnt d : Nat), match_edge key us count depth = (cnt, d) →
      count ≤ key.length → match_edge (key.take cnt) us count depth = (cnt, d) := by
  induction us with
  | nil =>
    intro count depth cnt d h _
    simpa [match_edge] using h
  | cons u us ih =>
    intro count depth cnt d h hc
    have hul : 0 < u.length := List.length_pos.mpr (hne u (List.mem_cons_self _ _))
    have hspec := match_edge_spec key (u :: us) count depth hc
    rw [h] at hspec
    obtain ⟨hge, hle, -⟩ := hspec
    simp only at hge hle
    unfold match_edge at h ⊢
    by_cases h1 : count < key.length
    · rw [if_pos h1] at h
      by_cases h2 : key.length - count < u.length ∨ u ≠ radix_substr key count u.length
      · rw [if_pos h2] at h
        simp only [Prod.mk.injEq] at h
        obtain ⟨rfl, rfl⟩ := h
        rw [if_neg (by simp)]
      · rw [if_neg h2] at h
        push_neg at h2
        obtain ⟨h2a, h2b⟩ := h2
        have hspec2 := match_edge_spec key us (count + u.length) (depth + 1) (by omega)
        rw [h] at hspec2
        have hge2 : count + u.length ≤ cnt := hspec2.1
        have hlen : (key.take cnt).length = cnt := by
          rw [List.length_take]; omega
        rw [if_pos (by rw [hlen]; omega), if_neg]
        · exact ih (fun w hw => hne w (List.mem_cons_of_mem _ hw)) _ _ _ _ h (by omega)
        · push_neg
          refine ⟨by rw [hlen]; omega, ?_⟩
          have e1 : radix_substr (key.take cnt) count u.length =
              radix_substr key count u.length := by
            rw [radix_substr_eq (by rw [hlen]; omega), radix_substr_eq (by omega),
              List.drop_take, List.take_take, Nat.min_eq_left (by omega)]
          rw [e1]
          exact h2b
    · rw [if_neg h1] at h
      simp only [Prod.mk.injEq] at h
      obtain ⟨rfl, rfl⟩ := h
      rw [if_neg (by simp)]

theorem match_edge_flatten (us : List Slice) (hne : ∀ u ∈ us, u ≠ []) :
    ∀ (pre z : List Nat) (depth : Nat),
      match_edge (pre ++ us.flatten ++ z) us pre.length depth =
        (pre.length + us.flatten.length, depth + us.length) := by
  induction us with
  | nil => intro pre z depth; simp [match_edge]
  | cons u us ih =>
    intro pre z depth
    have hul : 0 < u.length := List.length_pos.mpr (hne u (List.mem_cons_self _ _))
    unfold match_edge
    have hlen : (pre ++ (u :: us).flatten ++ z).length =
        pre.length + u.length + us.flatten.length + z.length := by
      simp only [List.flatten_cons, List.length_append]; omega
    rw [if_pos (by rw [hlen]; omega), if_neg]
    · have := ih (fun w hw => hne w (List.mem_cons_of_mem _ hw)) (pre ++ u) z (depth + 1)
      simp only [List.length_append, List.flatten_cons, List.append_assoc, List.length_cons]
        at this ⊢
      rw [this]
      simp only [Prod.mk.injEq]
      omega
    · push_neg
      refine ⟨by rw [hlen]; omega, ?_⟩
      rw [radix_substr_eq (by rw [hlen]; omega)]
      simp [List.flatten_cons, List.append_assoc]

/-- The walk on the arena of the attach branch: it follows the walk of `find_node` to the
matched node `m` and goes on into the node `N` of the residual. -/
theorem steps_attach {V : Type} {ns mid : List (radix_tree_node V)} {chain : List Nat}
    {lab : Nat → List Nat} {par : Nat → Nat} {P : List (List Nat)} {anc : Nat → List Nat}
    (h : WF ns chain lab par P) (h2 : WF2 ns chain anc) {q : List Slice} {x dx : Nat}
    {path : List Nat} {m cnt d : Nat} (hs : Steps ns q x dx path m cnt d) :
    ∀ (mn mm nn : radix_tree_node V) (N : Nat), ns[m]? = some mn → cnt = mn.m_key.length →
      d < q.length →
      (∀ (c : Nat) (cn : radix_tree_node V), ns[c]? = some cn → cn.m_value = none → c ≠ m →
        mid[c]? = some cn) →
      mid[m]? = some mm → mm.m_key = mn.m_key →
      map_find mm.m_children (q.getD d []) = some N → mid[N]? = some nn →
      (match_edge nn.m_key (q.drop d) 0 d).2 = q.length →
      Interior ns x → ∃ cnt1, Steps mid q x dx (path ++ [N]) N cnt1 q.length := by
  induction hs with
  | exhausted x dx n hn hdx =>
    intro mn mm nn N _ _ hd _ _ _ _ _ _ _
    omega
  | nochild x dx n hn hdx hfind =>
    intro mn mm nn N hmn hcnt hd hold hmm hkey hfindN hnn hedge hx
    obtain ⟨-, hs2, -⟩ := match_edge_spec nn.m_key (q.drop dx) 0 dx (Nat.zero_le _)
    by_cases hlt : (match_edge nn.m_key (q.drop dx) 0 dx).1 < nn.m_key.length
    · have := Steps.midedge x dx mm N nn hmm hdx hfindN hnn hlt
      rw [hedge] at this
      exact ⟨_, this⟩
    · have hst := @Steps.exhausted V mid q N q.length nn hnn le_rfl
      have := Steps.step x dx mm N nn [N] N _ _ hmm hdx hfindN hnn (by omega)
        (by rw [hedge]; exact hdx) (by rw [hedge]; exact hst)
      exact ⟨_, this⟩
  | midedge x dx n c cn hn hdx hfind hcn hlt =>
    intro mn mm nn N hmn hcnt _ _ _ _ _ _ _ _
    have e := Option.some.inj (hcn.symm.trans hmn)
    rw [← e] at hcnt
    omega
  | step x dx n c cn path m cnt d hn hdx hfind hcn heq hlt hsub ih =>
    intro mn mm nn N hmn hcnt hd hold hmm hkey hfindN hnn hedge hx
    obtain ⟨n1, hn1, hv1⟩ := hx
    rw [hn] at hn1; cases hn1
    have hmem := map_find_mem hfind
    obtain ⟨cn1, hcn1, hcv, -⟩ := h.child x n _ c hn hv1 hmem
    rw [hcn] at hcn1; cases hcn1
    obtain ⟨-, rest, -, hanc⟩ := steps_anc h h2 hsub ⟨cn, hcn, hcv⟩
    have hxm : x ≠ m := by
      rintro rfl
      have e1 := h2.anc_child x n _ c hn hv1 hmem
      rw [e1] at hanc
      have := congrArg List.length hanc
      simp at this
    obtain ⟨cnt1, hrec⟩ := ih mn mm nn N hmn hcnt hd hold hmm hkey hfindN hnn hedge
      ⟨cn, hcn, hcv⟩
    have hmx : mid[x]? = some n := hold x n hn hv1 hxm
    obtain ⟨cm, hcm, hck⟩ : ∃ cm : radix_tree_node V, mid[c]? = some cm ∧
        cm.m_key = cn.m_key := by
      by_cases hcm : c = m
      · subst hcm
        rw [hcn] at hmn; cases hmn
        exact ⟨mm, hmm, hkey⟩
      · exact ⟨cn, hold c cn hcn hcv hcm, rfl⟩
    refine ⟨cnt1, ?_⟩
    have := Steps.step x dx n c cm (path ++ [N]) N cnt1 q.length hmx hdx hfind hcm
      (by rw [hck]; exact heq) (by rw [hck]; exact hlt) (by rw [hck]; exact hrec)
    exact this

/-- A walk that ends where it starts has visited only that node and consumed its edge. -/
theorem steps_self {V : Type} {ns : List (radix_tree_node V)} {chain : List Nat}
    {lab : Nat → List Nat} {par : Nat → Nat} {P : List (List Nat)} {anc : Nat → List Nat}
    (h : WF ns chain lab par P) (h2 : WF2 ns chain anc) {q : List Slice} {x dx : Nat}
    {path : List Nat} {cnt d : Nat} (hs : Steps ns q x dx path x cnt d)
    (hx : Interior ns x) : ∀ n : radix_tree_node V, ns[x]? = some n → cnt = n.m_key.length := by
  obtain ⟨-, rest, hp, hanc⟩ := steps_anc h h2 hs hx
  have hrest : rest = [] := by
    have := congrArg List.length hanc
    simpa using this
  subst hrest
  intro n hn
  cases hs with
  | exhausted _ _ n1 hn1 _ => rw [hn] at hn1; cases hn1; rfl
  | nochild _ _ n1 hn1 _ _ => rw [hn] at hn1; cases hn1; rfl
  | midedge _ _ n1 c cn _ _ _ _ _ => simp at hp
  | step _ _ n1 c cn path1 _ _ _ _ _ _ _ _ _ hsub =>
    obtain ⟨n0, hn0, hv0⟩ := hx
    simp only [List.cons.injEq, true_and] at hp
    subst hp
    cases hsub

/-- The walk on the arena of the split branch: it follows the walk of `find_node` to the
matched node `m`, whose edge now ends at the split point, and goes on into the node `N` of
the residual when the pattern goes on. -/
theorem steps_split {V : Type} {ns mid : List (radix_tree_node V)} {chain : List Nat}
    {lab : Nat → List Nat} {par : Nat → Nat} {P : List (List Nat)} {anc : Nat → List Nat}
    (h : WF ns chain lab par P) (h2 : WF2 ns chain anc) {q : List Slice}
    (hq : ∀ u ∈ q, u ≠ []) {x dx : Nat}
    {path : List Nat} {m cnt d : Nat} (hs : Steps ns q x dx path m cnt d) :
    ∀ (mn mm nn : radix_tree_node V) (N : Nat), ns[m]? = some mn → cnt < mn.m_key.length →
      (∀ (c : Nat) (cn : radix_tree_node V), ns[c]? = some cn → cn.m_value = none → c ≠ m →
        mid[c]? = some cn) →
      mid[m]? = some mm → mm.m_key = mn.m_key.take cnt →
      (d < q.length → map_find mm.m_children (q.getD d []) = some N ∧ mid[N]? = some nn ∧
        (match_edge nn.m_key (q.drop d) 0 d).2 = q.length) →
      Interior ns x →
      ∃ cnt1, Steps mid q x dx (path ++ (if d < q.length then [N] else []))
        (if d < q.length then N else m) cnt1 (if d < q.length then q.length else d) := by
  induction hs with
  | exhausted x dx n hn hdx =>
    intro mn mm nn N hmn hcnt _ _ _ _ _
    rw [hn] at hmn; cases hmn
    omega
  | nochild x dx n hn hdx hfind =>
    intro mn mm nn N hmn hcnt _ _ _ _ _
    rw [hn] at hmn; cases hmn
    omega
  | midedge x dx n c cn hn hdx hfind hcn hlt =>
    intro mn mm nn N hmn hcnt hold hmm hkey hres hx
    rw [hcn] at hmn; cases hmn
    obtain ⟨n1, hn1, hv1⟩ := hx
    rw [hn] at hn1; cases hn1
    have hmem := map_find_mem hfind
    obtain ⟨cn1, hcn1, hcv, hk0, hpre, -, -⟩ := h.child x n _ c hn hv1 hmem
    rw [hcn] at hcn1; cases hcn1
    have hxc : x ≠ c := fun e => h.child_ne_self hn hv1 hmem e.symm
    have hmx : mid[x]? = some n := hold x n hn hv1 hxc
    have hq1 : q.drop dx = q.getD dx [] :: q.drop (dx + 1) := by
      rw [List.getD_eq_getElem?_getD, List.getElem?_eq_getElem hdx]
      simp
    obtain ⟨-, hf2⟩ := match_edge_first (q.drop (dx + 1)) dx hk0 hpre
    rw [← hq1] at hf2
    have hqd : ∀ u ∈ q.drop dx, u ≠ [] := fun u hu => hq u (List.mem_of_mem_drop hu)
    have htake := match_edge_take cn.m_key (q.drop dx) hqd 0 dx _ _ rfl (Nat.zero_le _)
    rw [← hkey] at htake
    have hmmlen : mm.m_key.length = (match_edge cn.m_key (q.drop dx) 0 dx).1 := by
      rw [hkey, List.length_take]; omega
    have hfull : (match_edge mm.m_key (q.drop dx) 0 dx).1 = mm.m_key.length := by
      rw [htake, hmmlen]
    have hdep : (match_edge mm.m_key (q.drop dx) 0 dx).2 =
        (match_edge cn.m_key (q.drop dx) 0 dx).2 := by rw [htake]
    by_cases hd : (match_edge cn.m_key (q.drop dx) 0 dx).2 < q.length
    · obtain ⟨hfindN, hnn, hedge⟩ := hres hd
      simp only [if_pos hd]
      obtain ⟨-, hs2, -⟩ := match_edge_spec nn.m_key
        (q.drop (match_edge cn.m_key (q.drop dx) 0 dx).2) 0
        (match_edge cn.m_key (q.drop dx) 0 dx).2 (Nat.zero_le _)
      by_cases hlt2 : (match_edge nn.m_key
          (q.drop (match_edge cn.m_key (q.drop dx) 0 dx).2) 0
          (match_edge cn.m_key (q.drop dx) 0 dx).2).1 < nn.m_key.length
      · have hin := Steps.midedge c (match_edge cn.m_key (q.drop dx) 0 dx).2 mm N nn hmm hd
          hfindN hnn hlt2
        rw [hedge] at hin
        have := Steps.step x dx n c mm _ _ _ _ hmx hdx hfind hmm hfull
          (by rw [hdep]; exact hf2) (by rw [hdep]; exact hin)
        exact ⟨_, this⟩
      · have hst := @Steps.exhausted V mid q N q.length nn hnn le_rfl
        have hin := Steps.step c (match_edge cn.m_key (q.drop dx) 0 dx).2 mm N nn [N] N _ _
          hmm hd hfindN hnn (by omega) (by rw [hedge]; exact hd) (by rw [hedge]; exact hst)
        have := Steps.step x dx n c mm _ _ _ _ hmx hdx hfind hmm hfull
          (by rw [hdep]; exact hf2) (by rw [hdep]; exact hin)
        exact ⟨_, this⟩
    · simp only [if_neg hd, List.append_nil]
      have hst := @Steps.exhausted V mid q c
        (match_edge cn.m_key (q.drop dx) 0 dx).2 mm hmm (by omega)
      have := Steps.step x dx n c mm _ _ _ _ hmx hdx hfind hmm hfull
        (by rw [hdep]; exact hf2) (by rw [hdep]; exact hst)
      exact ⟨_, this⟩
  | step x dx n c cn path m cnt d hn hdx hfind hcn heq hlt hsub ih =>
    intro mn mm nn N hmn hcnt hold hmm hkey hres hx
    obtain ⟨n1, hn1, hv1⟩ := hx
    rw [hn] at hn1; cases hn1
    have hmem := map_find_mem hfind
    obtain ⟨cn1, hcn1, hcv, -⟩ := h.child x n _ c hn hv1 hmem
    rw [hcn] at hcn1; cases hcn1
    obtain ⟨-, rest, -, hanc⟩ := steps_anc h h2 hsub ⟨cn, hcn, hcv⟩
    have hxm : x ≠ m := by
      rintro rfl
      have e1 := h2.anc_child x n _ c hn hv1 hmem
      rw [e1] at hanc
      have := congrArg List.length hanc
      simp at this
    have hcm : c ≠ m := by
      rintro rfl
      have := steps_self h h2 hsub ⟨cn, hcn, hcv⟩ mn hmn
      omega
    obtain ⟨cnt1, hrec⟩ := ih mn mm nn N hmn hcnt hold hmm hkey hres ⟨cn, hcn, hcv⟩
    have hmx : mid[x]? = some n := hold x n hn hv1 hxm
    have hmc : mid[c]? = some cn := hold c cn hcn hcv hcm
    exact ⟨cnt1, Steps.step x dx n c cn _ _ cnt1 _ hmx hdx hfind hmc heq hlt hrec⟩


/-- The interior nodes of the arena that the attach branch hands to `update_node`. -/
theorem attach_shape {V : Type} {t : radix_tree V} {chain : List Nat}
    {lab : Nat → List Nat} {par : Nat → Nat} {P : List (List Nat)}
    (h : WF t.nodes chain lab par P) (q : List Slice) (pattern : List Nat) (v : V)
    {m depth : Nat} {mn : radix_tree_node V}
    (hmn : t.nodes[m]? = some mn) (hmv : mn.m_value = none) {tl : Nat}
    (hlast : mn.m_last = some tl) :
    ∃ mid pats, attach_rewire t q pattern v m depth = some (mid, pats, some tl) ∧
      mid[m]? = some (attach_m mn q pattern depth t.nodes.length) ∧
      (mid[t.nodes.length + 1]? = if depth ≠ q.length then
        some (residual_node q pattern depth t.nodes.length) else none) ∧
      (∀ (c : Nat) (cn : radix_tree_node V), t.nodes[c]? = some cn → cn.m_value = none →
        c ≠ m → mid[c]? = some cn) ∧
      (∀ (i : Nat) (n1 : radix_tree_node V), mid[i]? = some n1 → n1.m_value = none →
        (i = m ∧ n1 = attach_m mn q pattern depth t.nodes.length) ∨
        (i = t.nodes.length + 1 ∧ depth ≠ q.length ∧
          n1 = residual_node q pattern depth t.nodes.length) ∨
        (i ≠ m ∧ t.nodes[i]? = some n1)) := by
  have hmL : m < t.nodes.length := lt_of_getElem? hmn
  -- the last leaf of `m` and its place in the chain
  obtain ⟨f, l, A, R, hfirst, hl, hAR, hlR⟩ : ∃ f l A R, mn.m_first = some f ∧
      mn.m_last = some l ∧ chain = A ++ f :: R ∧ l ∈ f :: R := by
    rcases h.range m mn hmn hmv with ⟨-, -, -, hn⟩ | hr
    · rw [hlast] at hn; cases hn
    · exact hr
  rw [hlast] at hl
  cases hl
  have htlc : tl ∈ chain := by rw [hAR]; exact List.mem_append_right _ hlR
  obtain ⟨l1, l2, hc⟩ := List.append_of_mem htlc
  obtain ⟨tln, htln, htlv⟩ := (h.chain_leaf tl).mp htlc
  have htlL : tl < t.nodes.length := lt_of_getElem? htln
  have htlm : tl ≠ m := fun e => h.not_leaf hmn hmv (e ▸ htlc)
  have hnext := h.next_eq hc htln
  have hnd : (l1 ++ tl :: l2).Nodup := hc ▸ h.chain_nodup
  have hLc : t.nodes.length ∉ chain := fun hm => absurd (h.chain_lt hm) (lt_irrefl _)
  have hl2 : ∀ x : Nat, some x = l2.head? → x ∈ chain ∧ x ≠ tl := by
    intro x e
    have hx : x ∈ l2 := List.mem_of_mem_head? e.symm
    refine ⟨by rw [hc]; simp [hx], ?_⟩
    rintro rfl
    exact (List.nodup_cons.mp (List.nodup_append.mp hnd).2.1).1 hx
  -- the arena before the leaf is linked in
  have hbase := fun j => getElem?_attach_base t.nodes t.m_patterns q pattern v m depth j hmn
  obtain ⟨mid, hsplice, -, hmid⟩ := splice_after_eq
    (attach_base t.nodes t.m_patterns q pattern v m depth mn)
    tl t.nodes.length tln (attach_leaf mn q pattern v depth)
    (by rw [hbase, if_neg htlm, if_neg (by omega), if_neg (by omega)]; exact htln)
    (by rw [hbase, if_neg (by omega), if_pos rfl])
    (by omega) rfl
    (by
      intro nx hnx
      obtain ⟨hxc, hxt⟩ := hl2 nx (by rw [← hnext, hnx])
      have := h.chain_lt hxc
      exact ⟨by omega, hxt, lt_trans this (length_attach_base _ _ _ _ _ _ _ _)⟩)
  -- lookups in the final arena
  have hmid_old : ∀ (c : Nat) (cn : radix_tree_node V), t.nodes[c]? = some cn →
      cn.m_value = none → c ≠ m → mid[c]? = some cn := by
    intro c cn hcn hcv hcm
    have hcL := lt_of_getElem? hcn
    have hcc := h.not_leaf hcn hcv
    rw [hmid, if_neg (fun e : c = tl => hcc (e ▸ htlc)), if_neg (by omega), if_neg, hbase,
      if_neg hcm, if_neg (by omega), if_neg (by omega)]
    · exact hcn
    · intro e
      exact hcc (hl2 c (by rw [← hnext, e])).1
  have hmid_m : mid[m]? = some (attach_m mn q pattern depth t.nodes.length) := by
    have hmc := h.not_leaf hmn hmv
    rw [hmid, if_neg (Ne.symm htlm), if_neg (by omega), if_neg, hbase, if_pos rfl]
    intro e
    exact hmc (hl2 m (by rw [← hnext, e])).1
  have hmid_L : mid[t.nodes.length]? = some
      { attach_leaf mn q pattern v depth with m_first := some tl, m_last := tln.m_last } := by
    rw [hmid, if_neg (by omega), if_pos rfl]
  have hmid_L1 : mid[t.nodes.length + 1]? = if depth ≠ q.length then
      some (residual_node q pattern depth t.nodes.length) else none := by
    rw [hmid, if_neg (by omega), if_neg (by omega), if_neg, hbase, if_neg (by omega),
      if_neg (by omega), if_pos rfl]
    intro e
    have := h.chain_lt (hl2 _ (by rw [← hnext, e])).1
    omega
  have hmid_leaf : ∀ (a : Nat) (n : radix_tree_node V), a ∈ chain → t.nodes[a]? = some n →
      mid[a]? = some (leaf_relinked n a tl t.nodes.length l2.head?) := by
    intro a n hac hn
    have haL := h.chain_lt hac
    have ham : a ≠ m := fun e => h.not_leaf hmn hmv (e ▸ hac)
    have hb : (attach_base t.nodes t.m_patterns q pattern v m depth mn)[a]? = some n := by
      rw [hbase, if_neg ham, if_neg (by omega), if_neg (by omega)]; exact hn
    rw [hmid]
    unfold leaf_relinked
    by_cases hat : a = tl
    · subst hat
      rw [htln] at hn; cases hn
      rw [if_pos rfl, if_pos rfl, if_neg]
      intro e
      exact (hl2 a e).2 rfl
    · rw [if_neg hat, if_neg (by omega), if_neg hat, hnext]
      split_ifs with e
      · rw [hb]; rfl
      · rw [hb]
  have hclass : ∀ (i : Nat) (n1 : radix_tree_node V), mid[i]? = some n1 → n1.m_value = none →
      (i = m ∧ n1 = attach_m mn q pattern depth t.nodes.length) ∨
      (i = t.nodes.length + 1 ∧ depth ≠ q.length ∧
        n1 = residual_node q pattern depth t.nodes.length) ∨
      (i ≠ m ∧ t.nodes[i]? = some n1) := by
    intro i n1 hi hv
    by_cases him : i = m
    · subst him
      rw [hmid_m] at hi
      exact Or.inl ⟨rfl, (Option.some.inj hi).symm⟩
    · by_cases hiL : i < t.nodes.length
      · obtain ⟨n, hn⟩ : ∃ n, t.nodes[i]? = some n := ⟨_, List.getElem?_eq_getElem hiL⟩
        by_cases hnv : n.m_value = none
        · rw [hmid_old i n hn hnv him] at hi
          cases hi
          exact Or.inr (Or.inr ⟨him, hn⟩)
        · exfalso
          have hic : i ∈ chain := (h.chain_leaf i).mpr ⟨n, hn, hnv⟩
          rw [hmid_leaf i n hic hn] at hi
          cases hi
          exact hnv hv
      · by_cases hiL0 : i = t.nodes.length
        · subst hiL0
          rw [hmid_L] at hi
          cases hi
          simp [attach_leaf] at hv
        · by_cases hiL1 : i = t.nodes.length + 1
          · subst hiL1
            rw [hmid_L1] at hi
            split_ifs at hi with hres
            cases hi
            exact Or.inr (Or.inl ⟨rfl, hres, rfl⟩)
          · exfalso
            rw [hmid, if_neg (by omega), if_neg hiL0, if_neg, hbase, if_neg him, if_neg hiL0,
              if_neg hiL1, List.getElem?_eq_none (by omega)] at hi
            · cases hi
            · intro e
              have := h.chain_lt (hl2 _ (by rw [← hnext, e])).1
              omega
  refine ⟨mid, (if depth ≠ q.length then
        attach_residual (t.nodes ++ [{ m_key := mn.m_key, m_value := some [v] }]) t.m_patterns
          q pattern m t.nodes.length depth
      else (t.nodes ++ [{ m_key := mn.m_key, m_value := some [v] }], t.m_patterns)).2,
    ?_, hmid_m, hmid_L1, hmid_old, hclass⟩
  unfold attach_rewire
  simp only [hmn, hlast]
  unfold attach_base at hsplice
  simp only [hsplice]

/-- The interior nodes of the arena that the split branch hands to `update_node`. -/
theorem split_shape {V : Type} {t : radix_tree V} {chain : List Nat}
    {lab : Nat → List Nat} {par : Nat → Nat} {P : List (List Nat)}
    (h : WF t.nodes chain lab par P) (q : List Slice) (pattern : List Nat) (v : V)
    {m count depth : Nat} {mn : radix_tree_node V}
    (hmn : t.nodes[m]? = some mn) (hmv : mn.m_value = none)
    (hlt : count < mn.m_key.length) (new_key : Slice) :
    ∃ mid pats tl, split_rewire t q pattern v m count depth new_key = some (mid, pats, tl) ∧
      mn.m_last = some tl ∧
      mid[m]? = some (split_m mn count q pattern depth new_key t.nodes.length) ∧
      mid[t.nodes.length + 1]? = some (split_node mn count) ∧
      (mid[t.nodes.length + 2]? = if depth ≠ q.length then
        some (residual_node q pattern depth t.nodes.length) else none) ∧
      (∀ (c : Nat) (cn : radix_tree_node V), t.nodes[c]? = some cn → cn.m_value = none →
        c ≠ m → mid[c]? = some cn) ∧
      (∀ (i : Nat) (n1 : radix_tree_node V), mid[i]? = some n1 → n1.m_value = none →
        (i = m ∧ n1 = split_m mn count q pattern depth new_key t.nodes.length) ∨
        (i = t.nodes.length + 1 ∧ n1 = split_node mn count) ∨
        (i = t.nodes.length + 2 ∧ depth ≠ q.length ∧
          n1 = residual_node q pattern depth t.nodes.length) ∨
        (i ≠ m ∧ t.nodes[i]? = some n1)) := by
  have hmL : m < t.nodes.length := lt_of_getElem? hmn
  have hm0 : m ≠ 0 := by
    rintro rfl
    obtain ⟨r, hr, -, hrk⟩ := h.root
    rw [hmn] at hr; cases hr
    rw [hrk] at hlt; simp at hlt
  -- the last leaf of `m` and its place in the chain
  obtain ⟨f, tl, A, R, hfirstl, hlast, hAR, hlR⟩ : ∃ f l A R, mn.m_first = some f ∧
      mn.m_last = some l ∧ chain = A ++ f :: R ∧ l ∈ f :: R := by
    rcases h.range m mn hmn hmv with ⟨h0, -⟩ | hr
    · exact absurd h0 hm0
    · exact hr
  have htlc : tl ∈ chain := by rw [hAR]; exact List.mem_append_right _ hlR
  obtain ⟨l1, l2, hc⟩ := List.append_of_mem htlc
  obtain ⟨tln, htln, htlv⟩ := (h.chain_leaf tl).mp htlc
  have htlL : tl < t.nodes.length := lt_of_getElem? htln
  have htlm : tl ≠ m := fun e => h.not_leaf hmn hmv (e ▸ htlc)
  have hnext := h.next_eq hc htln
  have hnd : (l1 ++ tl :: l2).Nodup := hc ▸ h.chain_nodup
  have hLc : t.nodes.length ∉ chain := fun hm => absurd (h.chain_lt hm) (lt_irrefl _)
  have hl2 : ∀ x : Nat, some x = l2.head? → x ∈ chain ∧ x ≠ tl := by
    intro x e
    have hx : x ∈ l2 := List.mem_of_mem_head? e.symm
    refine ⟨by rw [hc]; simp [hx], ?_⟩
    rintro rfl
    exact (List.nodup_cons.mp (List.nodup_append.mp hnd).2.1).1 hx
  obtain ⟨mid, pats, hrew, hmid⟩ := split_rewire_eq t q pattern v m count depth new_key hmn
    hlast htln htlm (by
      intro nx hnx
      obtain ⟨hxc, hxt⟩ := hl2 nx (by rw [← hnext, hnx])
      exact ⟨h.chain_lt hxc, hxt, fun e => h.not_leaf hmn hmv (e ▸ hxc)⟩)
  -- lookups in the final arena
  have hnx_lt : ∀ j : Nat, some j = tln.m_last → j ∈ chain := fun j e =>
    (hl2 j (by rw [← hnext, e])).1
  have hmid_old : ∀ (c : Nat) (cn : radix_tree_node V), t.nodes[c]? = some cn →
      cn.m_value = none → c ≠ m → mid[c]? = some cn := by
    intro c cn hcn hcv hcm
    have hcL := lt_of_getElem? hcn
    have hcc := h.not_leaf hcn hcv
    rw [hmid, if_neg hcm, if_neg (fun e : c = tl => hcc (e ▸ htlc)), if_neg (by omega),
      if_neg (by omega), if_neg (by omega), if_neg (fun e => hcc (hnx_lt c e))]
    exact hcn
  have hmid_m : mid[m]? = some (split_m mn count q pattern depth new_key t.nodes.length) := by
    rw [hmid, if_pos rfl]
  have hmid_L : mid[t.nodes.length]? =
      some (split_leaf mn count q pattern v depth tl tln.m_last) := by
    rw [hmid, if_neg (by omega), if_neg (by omega), if_pos rfl]
  have hmid_L1 : mid[t.nodes.length + 1]? = some (split_node mn count) := by
    rw [hmid, if_neg (by omega), if_neg (by omega), if_neg (by omega), if_pos rfl]
  have hmid_L2 : mid[t.nodes.length + 2]? = if depth ≠ q.length then
      some (residual_node q pattern depth t.nodes.length) else none := by
    rw [hmid, if_neg (by omega), if_neg (by omega), if_neg (by omega), if_neg (by omega),
      if_pos rfl]
  have hmid_big : ∀ j : Nat, t.nodes.length + 2 < j → mid[j]? = none := by
    intro j hj
    rw [hmid, if_neg (by omega), if_neg (by omega), if_neg (by omega), if_neg (by omega),
      if_neg (by omega), if_neg, List.getElem?_eq_none (by omega)]
    intro e
    have := h.chain_lt (hnx_lt j e)
    omega
  have hmid_leaf : ∀ (a : Nat) (n : radix_tree_node V), a ∈ chain → t.nodes[a]? = some n →
      mid[a]? = some (leaf_relinked n a tl t.nodes.length l2.head?) := by
    intro a n hac hn
    have haL := h.chain_lt hac
    have ham : a ≠ m := fun e => h.not_leaf hmn hmv (e ▸ hac)
    rw [hmid, if_neg ham]
    unfold leaf_relinked
    by_cases hat : a = tl
    · subst hat
      rw [htln] at hn; cases hn
      rw [if_pos rfl, if_pos rfl, if_neg]
      intro e
      exact (hl2 a e).2 rfl
    · rw [if_neg hat, if_neg (by omega), if_neg (by omega), if_neg (by omega), if_neg hat,
        hnext]
      split_ifs with e
      · rw [hn]; rfl
      · rw [hn]
  have hclass : ∀ (i : Nat) (n1 : radix_tree_node V), mid[i]? = some n1 → n1.m_value = none →
      (i = m ∧ n1 = split_m mn count q pattern depth new_key t.nodes.length) ∨
      (i = t.nodes.length + 1 ∧ n1 = split_node mn count) ∨
      (i = t.nodes.length + 2 ∧ depth ≠ q.length ∧
        n1 = residual_node q pattern depth t.nodes.length) ∨
      (i ≠ m ∧ t.nodes[i]? = some n1) := by
    intro i n1 hi hv
    by_cases him : i = m
    · subst him
      rw [hmid_m] at hi
      exact Or.inl ⟨rfl, (Option.some.inj hi).symm⟩
    · by_cases hiL : i < t.nodes.length
      · obtain ⟨n, hn⟩ : ∃ n, t.nodes[i]? = some n := ⟨_, List.getElem?_eq_getElem hiL⟩
        by_cases hnv : n.m_value = none
        · rw [hmid_old i n hn hnv him] at hi
          cases hi
          exact Or.inr (Or.inr (Or.inr ⟨him, hn⟩))
        · exfalso
          have hic : i ∈ chain := (h.chain_leaf i).mpr ⟨n, hn, hnv⟩
          rw [hmid_leaf i n hic hn] at hi
          cases hi
          exact hnv hv
      · by_cases hiL0 : i = t.nodes.length
        · subst hiL0
          rw [hmid_L] at hi
          cases hi
          simp [split_leaf] at hv
        · by_cases hiL1 : i = t.nodes.length + 1
          · subst hiL1
            rw [hmid_L1] at hi
            cases hi
            exact Or.inr (Or.inl ⟨rfl, rfl⟩)
          · by_cases hiL2 : i = t.nodes.length + 2
            · subst hiL2
              rw [hmid_L2] at hi
              split_ifs at hi with hres
              cases hi
              exact Or.inr (Or.inr (Or.inl ⟨rfl, hres, rfl⟩))
            · rw [hmid_big i (by omega)] at hi
              cases hi
  exact ⟨mid, pats, tl, hrew, hlast, hmid_m, hmid_L1, hmid_L2, hmid_old, hclass⟩


/-! ## How the runs change when a leaf is linked into the chain -/

theorem run_of_congr {anc anc1 : Nat → List Nat} {chain : List Nat} {x x0 : Nat}
    (h : ∀ a ∈ chain, x ∈ anc1 a ↔ x0 ∈ anc a) : run_of anc1 chain x = run_of anc chain x0 := by
  unfold run_of
  apply List.filter_congr
  intro a ha
  simp only [decide_eq_decide]
  exact h a ha

theorem run_of_ins_grown {anc anc1 : Nat → List Nat} {chain : List Nat} {x x0 tl L : Nat}
    (h : ∀ a ∈ chain, x ∈ anc1 a ↔ x0 ∈ anc a) (hL : x ∈ anc1 L) (htlc : tl ∈ chain)
    (htl : x0 ∈ anc tl) :
    run_of anc1 (ins_after tl L chain) x = ins_after tl L (run_of anc chain x0) := by
  rw [← run_of_congr h]
  unfold run_of
  exact filter_ins_after_true (by simpa using (h tl htlc).mpr htl) (by simpa using hL) chain

theorem run_of_ins_kept {anc anc1 : Nat → List Nat} {chain : List Nat} {x x0 tl L : Nat}
    (h : ∀ a ∈ chain, x ∈ anc1 a ↔ x0 ∈ anc a) (hL : x ∉ anc1 L) :
    run_of anc1 (ins_after tl L chain) x = run_of anc chain x0 := by
  rw [← run_of_congr h]
  unfold run_of
  exact filter_ins_after_false (by simpa using hL) chain

theorem filter_ins_after_single {a b : Nat} {p : Nat → Bool} {l : List Nat}
    (h : ∀ x ∈ l, p x = false) (hb : p b = true) (ha : a ∈ l) :
    (ins_after a b l).filter p = [b] := by
  induction l with
  | nil => simp at ha
  | cons x rest ih =>
    have hx := h x (List.mem_cons_self _ _)
    have hrest : rest.filter p = [] :=
      List.filter_eq_nil_iff.mpr (fun y hy => by
        rw [h y (List.mem_cons_of_mem _ hy)]; simp)
    simp only [ins_after]
    split_ifs with hxa
    · simp [List.filter_cons, hx, hb, hrest]
    · have : a ∈ rest := by
        rcases List.mem_cons.mp ha with h1 | h1
        · exact absurd h1.symm hxa
        · exact h1
      simp only [List.filter_cons, hx, Bool.false_eq_true, if_false]
      exact ih (fun y hy => h y (List.mem_cons_of_mem _ hy)) this

theorem run_of_ins_single {anc1 : Nat → List Nat} {chain : List Nat} {x tl L : Nat}
    (h : ∀ a ∈ chain, x ∉ anc1 a) (hL : x ∈ anc1 L) (htlc : tl ∈ chain) :
    run_of anc1 (ins_after tl L chain) x = [L] := by
  unfold run_of
  exact filter_ins_after_single (fun a ha => by simpa using h a ha) (by simpa using hL) htlc

theorem mem_ins_after {a b x : Nat} {l : List Nat} (ha : a ∈ l) :
    x ∈ ins_after a b l ↔ x = b ∨ x ∈ l := by
  induction l with
  | nil => simp at ha
  | cons y rest ih =>
    simp only [ins_after]
    split_ifs with hy
    · simp only [List.mem_cons]; tauto
    · have : a ∈ rest := by
        rcases List.mem_cons.mp ha with h1 | h1
        · exact absurd h1.symm hy
        · exact h1
      simp only [List.mem_cons, ih this]; tauto

theorem single_infix_ins_after {a b : Nat} {l : List Nat} (ha : a ∈ l) :
    [b] <:+: ins_after a b l := by
  have : b ∈ ins_after a b l := (mem_ins_after ha).mpr (Or.inl rfl)
  obtain ⟨s, t, e⟩ := List.append_of_mem this
  exact ⟨s, t, by rw [e]; simp⟩

/-- The clause of the invariant for a node whose run takes in the new leaf. -/
theorem run_clause_grown {V : Type} {n : radix_tree_node V} {R chain : List Nat} {tl L : Nat}
    (hnd : chain.Nodup) (hc : n.m_count = R.length) (hf : n.m_first = R.head?)
    (hl : n.m_last = R.getLast?) (hR : R <:+: chain) (htl : tl ∈ R) :
    (bumped (some tl) L n).m_count = (ins_after tl L R).length ∧
      (bumped (some tl) L n).m_first = (ins_after tl L R).head? ∧
      (bumped (some tl) L n).m_last = (ins_after tl L R).getLast? ∧
      ins_after tl L R <:+: ins_after tl L chain := by
  have hndR : R.Nodup := by
    obtain ⟨A, B, e⟩ := hR
    subst e
    exact (List.nodup_append.mp (List.nodup_append.mp hnd).1).2.1
  refine ⟨?_, ?_, ?_, infix_ins_after_grown hnd hR htl⟩
  · simp [bumped, hc, length_ins_after htl]
  · simp [bumped, hf, head?_ins_after]
  · rw [getLast?_ins_after hndR htl]
    simp only [bumped, hl]
    by_cases e : R.getLast? = some tl
    · rw [if_pos e.symm, if_pos e]
    · rw [if_neg (fun e1 => e e1.symm), if_neg e]

/-! ## The second invariant after the attach branch -/

theorem bumped_fields {V : Type} (o : Option Nat) (nl : Nat) (n : radix_tree_node V) :
    (bumped o nl n).m_value = n.m_value ∧ (bumped o nl n).m_children = n.m_children ∧
      (bumped o nl n).m_key = n.m_key ∧ (bumped o nl n).m_first = n.m_first ∧
      (bumped o nl n).m_heap = n.m_heap :=
  ⟨rfl, rfl, rfl, rfl, rfl⟩

theorem WF2_attach {V : Type} {ns nsF : List (radix_tree_node V)} {chain : List Nat}
    {lab : Nat → List Nat} {par : Nat → Nat} {P : List (List Nat)} {anc : Nat → List Nat}
    (h : WF ns chain lab par P) (h2 : WF2 ns chain anc) {m : Nat}
    {mn mm nn : radix_tree_node V} (hmn : ns[m]? = some mn) (hmv : mn.m_value = none)
    {tl : Nat} (hlast : mn.m_last = some tl) {ck : Slice}
    (hmm : mm.m_count = mn.m_count ∧ mm.m_first = mn.m_first ∧ mm.m_last = mn.m_last ∧
      mm.m_value = none ∧ mm.m_key = mn.m_key)
    (hch : ∀ e, e ∈ mm.m_children → e = (ck, ns.length + 1) ∨ e ∈ mn.m_children)
    (hchlen : mn.m_children.length ≤ mm.m_children.length)
    (hkeys : (mm.m_children.map Prod.fst).Nodup)
    (hnn : nn.m_count = 0 ∧ nn.m_first = some ns.length ∧ nn.m_last = some ns.length ∧
      nn.m_value = none ∧ nn.m_children = [])
    (hnnk : SliceDecode nn.m_key = some ck)
    (hFm : nsF[m]? = some (bumped (some tl) ns.length mm))
    (hFN : nsF[ns.length + 1]? = some (bumped (some tl) ns.length nn))
    (hFold : ∀ (c : Nat) (cn : radix_tree_node V), ns[c]? = some cn → cn.m_value = none →
      c ≠ m → nsF[c]? = some (if c ∈ anc m then bumped (some tl) ns.length cn else cn))
    (hFclass : ∀ (i : Nat) (n1 : radix_tree_node V), nsF[i]? = some n1 → n1.m_value = none →
      i = m ∨ i = ns.length + 1 ∨
        (i ≠ m ∧ ∃ cn : radix_tree_node V, ns[i]? = some cn ∧ cn.m_value = none)) :
    WF2 nsF (ins_after tl ns.length chain)
      (fun z => if z = ns.length ∨ z = ns.length + 1 then anc m ++ [ns.length + 1]
        else anc z) := by
  obtain ⟨hmm1, hmm2, hmm3, hmm4, hmm5⟩ := hmm
  obtain ⟨hnn1, hnn2, hnn3, hnn4, hnn5⟩ := hnn
  have hnd := h.chain_nodup
  obtain ⟨htlc, hmtl, hlastm⟩ := h2.last_mem hmn hmv hlast
  have hmL : m < ns.length := lt_of_getElem? hmn
  have hint_lt : ∀ z : Nat, Interior ns z → z < ns.length := fun z hz => by
    obtain ⟨n, hn, -⟩ := hz
    exact lt_of_getElem? hn
  have hnode_lt : ∀ z : Nat, (z ∈ chain ∨ Interior ns z) → z < ns.length := fun z hz => by
    rcases hz with hz | hz
    · exact h.chain_lt hz
    · exact hint_lt z hz
  have hanc_lt : ∀ z y : Nat, (z ∈ chain ∨ Interior ns z) → y ∈ anc z → y < ns.length :=
    fun z y hz hy => hint_lt y (h2.anc_pref z y hz hy).1
  have hLc : ns.length ∉ chain := fun hc => absurd (h.chain_lt hc) (lt_irrefl _)
  have hmem1 : ∀ x : Nat, x ∈ ins_after tl ns.length chain ↔ x = ns.length ∨ x ∈ chain :=
    fun x => mem_ins_after htlc
  have hnd1 : (ins_after tl ns.length chain).Nodup := by
    obtain ⟨l1, l2, hc⟩ := List.append_of_mem htlc
    have hnd' : (l1 ++ tl :: l2).Nodup := hc ▸ hnd
    have htl1 : tl ∉ l1 := fun hm =>
      (List.nodup_append.mp hnd').2.2 hm (List.mem_cons_self _ _)
    rw [hc, ins_after_split htl1]
    exact nodup_ins hnd' (by rw [← hc]; exact hLc)
  -- the ghost ancestors of old nodes are unchanged
  have hanc_old : ∀ z : Nat, z < ns.length →
      (if z = ns.length ∨ z = ns.length + 1 then anc m ++ [ns.length + 1] else anc z) =
        anc z := fun z hz => by rw [if_neg (by omega)]
  have hanc_L : (if ns.length = ns.length ∨ ns.length = ns.length + 1 then
      anc m ++ [ns.length + 1] else anc ns.length) = anc m ++ [ns.length + 1] := by simp
  have hanc_N : (if ns.length + 1 = ns.length ∨ ns.length + 1 = ns.length + 1 then
      anc m ++ [ns.length + 1] else anc (ns.length + 1)) = anc m ++ [ns.length + 1] := by simp
  -- interior nodes of the new arena
  have hFint_old : ∀ z : Nat, Interior ns z → Interior nsF z := by
    rintro z ⟨n, hn, hv⟩
    by_cases hzm : z = m
    · subst hzm
      exact ⟨_, hFm, hmm4⟩
    · refine ⟨_, hFold z n hn hv hzm, ?_⟩
      split_ifs
      · exact hv
      · exact hv
  have hFint_N : Interior nsF (ns.length + 1) := ⟨_, hFN, hnn4⟩
  have hnode1 : ∀ z : Nat, (z ∈ ins_after tl ns.length chain ∨ Interior nsF z) →
      z = ns.length ∨ z = ns.length + 1 ∨ (z ∈ chain ∨ Interior ns z) := by
    intro z hz
    rcases hz with hz | ⟨n1, hn1, hv1⟩
    · rcases (hmem1 z).mp hz with e | e
      · exact Or.inl e
      · exact Or.inr (Or.inr (Or.inl e))
    · rcases hFclass z n1 hn1 hv1 with e | e | ⟨-, cn, hcn, hcv⟩
      · exact Or.inr (Or.inr (Or.inr (e ▸ ⟨mn, hmn, hmv⟩)))
      · exact Or.inr (Or.inl e)
      · exact Or.inr (Or.inr (Or.inr ⟨cn, hcn, hcv⟩))
  have hNanc : ns.length + 1 ∉ anc m := fun hm =>
    absurd (hanc_lt m _ (Or.inr ⟨mn, hmn, hmv⟩) hm) (by omega)
  constructor
  · -- anc_root
    obtain ⟨r, hr, -⟩ := h.root
    have := lt_of_getElem? hr
    rw [hanc_old 0 this]
    exact h2.anc_root
  · -- anc_child
    intro i n1 k c hi hv hk
    rcases hFclass i n1 hi hv with e | e | ⟨him, cn, hcn, hcv⟩
    · subst e
      rw [hFm] at hi
      cases hi
      rw [hanc_old i hmL]
      rcases hch _ hk with e | e
      · cases e
        rw [hanc_N]
      · obtain ⟨cc, hcc, -⟩ := h.child i mn k c hmn hmv e
        rw [hanc_old c (lt_of_getElem? hcc)]
        exact h2.anc_child i mn k c hmn hmv e
    · subst e
      rw [hFN] at hi
      cases hi
      simp only [bumped, hnn5] at hk
      simp at hk
    · rw [hFold i cn hcn hcv him] at hi
      have hkc : (k, c) ∈ cn.m_children := by
        cases hi
        split_ifs at hk
        · exact hk
        · exact hk
      obtain ⟨cc, hcc, -⟩ := h.child i cn k c hcn hcv hkc
      rw [hanc_old c (lt_of_getElem? hcc), hanc_old i (lt_of_getElem? hcn)]
      exact h2.anc_child i cn k c hcn hcv hkc
  · -- anc_self
    intro i n1 hi hv
    rcases hFclass i n1 hi hv with e | e | ⟨him, cn, hcn, hcv⟩
    · subst e
      rw [hanc_old i hmL]
      exact h2.anc_self i mn hmn hmv
    · subst e
      rw [hanc_N]
      simp
    · rw [hanc_old i (lt_of_getElem? hcn)]
      exact h2.anc_self i cn hcn hcv
  · -- anc_pref
    intro z y hz hy
    have hnew : ∀ w : Nat, w ∈ anc m ++ [ns.length + 1] →
        Interior nsF w ∧
          (if w = ns.length ∨ w = ns.length + 1 then anc m ++ [ns.length + 1] else anc w) <+:
            anc m ++ [ns.length + 1] := by
      intro w hw
      rcases List.mem_append.mp hw with hw | hw
      · obtain ⟨hwi, hwp⟩ := h2.anc_pref m w (Or.inr ⟨mn, hmn, hmv⟩) hw
        rw [hanc_old w (hint_lt w hwi)]
        exact ⟨hFint_old w hwi, hwp.trans (List.prefix_append _ _)⟩
      · simp only [List.mem_singleton] at hw
        subst hw
        rw [hanc_N]
        exact ⟨hFint_N, List.prefix_refl _⟩
    rcases hnode1 z hz with e | e | hzo
    · subst e
      rw [hanc_L] at hy ⊢
      exact hnew y hy
    · subst e
      rw [hanc_N] at hy ⊢
      exact hnew y hy
    · have hzL := hnode_lt z hzo
      rw [hanc_old z hzL] at hy ⊢
      obtain ⟨hyi, hyp⟩ := h2.anc_pref z y hzo hy
      rw [hanc_old y (hint_lt y hyi)]
      exact ⟨hFint_old y hyi, hyp⟩
  · -- anc_nodup
    intro z hz
    have hnew : (anc m ++ [ns.length + 1]).Nodup :=
      List.nodup_append.mpr ⟨h2.anc_nodup m (Or.inr ⟨mn, hmn, hmv⟩), List.nodup_singleton _,
        fun a ha hb => by
          simp only [List.mem_singleton] at hb
          subst hb
          exact hNanc ha⟩
    rcases hnode1 z hz with e | e | hzo
    · subst e; rw [hanc_L]; exact hnew
    · subst e; rw [hanc_N]; exact hnew
    · rw [hanc_old z (hnode_lt z hzo)]
      exact h2.anc_nodup z hzo
  · -- run
    intro i n1 hi hv
    have hold_mem : ∀ (x : Nat), ∀ a ∈ chain,
        (x ∈ (if a = ns.length ∨ a = ns.length + 1 then anc m ++ [ns.length + 1]
          else anc a) ↔ x ∈ anc a) := by
      intro x a ha
      rw [hanc_old a (h.chain_lt ha)]
    have hgrown : ∀ (x : Nat) (n : radix_tree_node V), ns[x]? = some n → n.m_value = none →
        x ∈ anc m →
        (bumped (some tl) ns.length n).m_count =
            (run_of (fun z => if z = ns.length ∨ z = ns.length + 1 then
              anc m ++ [ns.length + 1] else anc z) (ins_after tl ns.length chain) x).length ∧
          (bumped (some tl) ns.length n).m_first =
            (run_of (fun z => if z = ns.length ∨ z = ns.length + 1 then
              anc m ++ [ns.length + 1] else anc z) (ins_after tl ns.length chain) x).head? ∧
          (bumped (some tl) ns.length n).m_last =
            (run_of (fun z => if z = ns.length ∨ z = ns.length + 1 then
              anc m ++ [ns.length + 1] else anc z)
              (ins_after tl ns.length chain) x).getLast? ∧
          run_of (fun z => if z = ns.length ∨ z = ns.length + 1 then
              anc m ++ [ns.length + 1] else anc z) (ins_after tl ns.length chain) x <:+:
            ins_after tl ns.length chain := by
      intro x n hn hnv hx
      have hxtl : x ∈ anc tl := h2.anc_trans (Or.inl htlc) hmtl hx
      obtain ⟨r1, r2, r3, r4⟩ := h2.run x n hn hnv
      rw [run_of_ins_grown (hold_mem x) (by simp [hx]) htlc hxtl]
      exact run_clause_grown hnd r1 r2 r3 r4 (mem_run_of.mpr ⟨htlc, hxtl⟩)
    rcases hFclass i n1 hi hv with e | e | ⟨him, cn, hcn, hcv⟩
    · subst e
      rw [hFm] at hi
      cases hi
      have := hgrown i mn hmn hmv (h2.self_mem hmn hmv)
      simp only [bumped, hmm1, hmm2, hmm3] at this ⊢
      exact this
    · subst e
      rw [hFN] at hi
      cases hi
      have hrun : run_of (fun z => if z = ns.length ∨ z = ns.length + 1 then
          anc m ++ [ns.length + 1] else anc z) (ins_after tl ns.length chain)
          (ns.length + 1) = [ns.length] := by
        apply run_of_ins_single _ _ htlc
        · intro a ha
          rw [hanc_old a (h.chain_lt ha)]
          intro hm
          exact absurd (hanc_lt a _ (Or.inl ha) hm) (by omega)
        · simp
      rw [hrun]
      refine ⟨by simp [bumped, hnn1], by simp [bumped, hnn2], ?_, single_infix_ins_after htlc⟩
      simp only [bumped, hnn3, List.getLast?_singleton]
      rw [if_neg]
      intro e
      simp only [Option.some.injEq] at e
      exact hLc (e ▸ htlc)
    · rw [hFold i cn hcn hcv him] at hi
      cases hi
      by_cases hia : i ∈ anc m
      · rw [if_pos hia]
        exact hgrown i cn hcn hcv hia
      · rw [if_neg hia]
        obtain ⟨r1, r2, r3, r4⟩ := h2.run i cn hcn hcv
        have hiL := lt_of_getElem? hcn
        have hkept : run_of (fun z => if z = ns.length ∨ z = ns.length + 1 then
            anc m ++ [ns.length + 1] else anc z) (ins_after tl ns.length chain) i =
            run_of anc chain i := by
          apply run_of_ins_kept (hold_mem i)
          rw [hanc_L]
          intro hm
          rcases List.mem_append.mp hm with hm | hm
          · exact hia hm
          · simp only [List.mem_singleton] at hm
            omega
        rw [hkept]
        exact ⟨r1, r2, r3, infix_ins_after_kept hnd r4
          (fun ht => h2.kept_last hnd hmn hmv hlast hcn hcv hia ht)⟩
  · -- host
    intro i n1 hi hv hi0 hlen
    have hold_host : ∀ (x : Nat) (n : radix_tree_node V), ns[x]? = some n → n.m_value = none →
        x ≠ 0 → n.m_children.length ≤ 1 →
        ∃ a ∈ ins_after tl ns.length chain,
          (if a = ns.length ∨ a = ns.length + 1 then anc m ++ [ns.length + 1] else anc a) =
            (if x = ns.length ∨ x = ns.length + 1 then anc m ++ [ns.length + 1]
              else anc x) := by
      intro x n hn hnv hx0 hl
      obtain ⟨a, ha, hax⟩ := h2.host x n hn hnv hx0 hl
      refine ⟨a, (hmem1 a).mpr (Or.inr ha), ?_⟩
      rw [hanc_old a (h.chain_lt ha), hanc_old x (lt_of_getElem? hn)]
      exact hax
    rcases hFclass i n1 hi hv with e | e | ⟨him, cn, hcn, hcv⟩
    · subst e
      rw [hFm] at hi
      cases hi
      exact hold_host i mn hmn hmv hi0 (le_trans hchlen hlen)
    · subst e
      refine ⟨ns.length, (hmem1 _).mpr (Or.inl rfl), ?_⟩
      rw [hanc_L, hanc_N]
    · rw [hFold i cn hcn hcv him] at hi
      cases hi
      refine hold_host i cn hcn hcv hi0 ?_
      split_ifs at hlen
      · exact hlen
      · exact hlen
  · -- key
    intro i n1 k c hi hv hk
    have hold_key : ∀ (x : Nat) (n : radix_tree_node V), ns[x]? = some n → n.m_value = none →
        (k, c) ∈ n.m_children →
        ∃ cn : radix_tree_node V, nsF[c]? = some cn ∧ SliceDecode cn.m_key = some k := by
      intro x n hn hnv hkc
      obtain ⟨cn, hcn, hsd⟩ := h2.key x n k c hn hnv hkc
      obtain ⟨cn', hcn', hcv, -⟩ := h.child x n k c hn hnv hkc
      rw [hcn] at hcn'; cases hcn'
      by_cases hcm : c = m
      · subst hcm
        rw [hmn] at hcn; cases hcn
        exact ⟨_, hFm, by simp only [bumped, hmm5]; exact hsd⟩
      · refine ⟨_, hFold c cn hcn hcv hcm, ?_⟩
        split_ifs
        · exact hsd
        · exact hsd
    rcases hFclass i n1 hi hv with e | e | ⟨him, cn, hcn, hcv⟩
    · subst e
      rw [hFm] at hi
      cases hi
      rcases hch _ hk with e | e
      · cases e
        exact ⟨_, hFN, hnnk⟩
      · exact hold_key i mn hmn hmv e
    · subst e
      rw [hFN] at hi
      cases hi
      simp only [bumped, hnn5] at hk
      simp at hk
    · rw [hFold i cn hcn hcv him] at hi
      cases hi
      refine hold_key i cn hcn hcv ?_
      split_ifs at hk
      · exact hk
      · exact hk
  · -- keys
    intro i n1 hi hv
    rcases hFclass i n1 hi hv with e | e | ⟨him, cn, hcn, hcv⟩
    · subst e
      rw [hFm] at hi
      cases hi
      exact hkeys
    · subst e
      rw [hFN] at hi
      cases hi
      simp [bumped, hnn5]
    · rw [hFold i cn hcn hcv him] at hi
      cases hi
      have := h2.keys i cn hcn hcv
      split_ifs
      · exact this
      · exact this

/-! ## Ancestor lists -/

theorem WF2.anc_split {V : Type} {ns : List (radix_tree_node V)} {chain : List Nat}
    {anc : Nat → List Nat} (h2 : WF2 ns chain anc) {z m : Nat}
    (hz : z ∈ chain ∨ Interior ns z) (hm : m ∈ anc z) :
    anc z = anc m ++ (anc z).drop (anc m).length :=
  (List.prefix_iff_eq_append.mp (h2.anc_pref z m hz hm).2).symm

theorem WF2.anc_antisymm {V : Type} {ns : List (radix_tree_node V)} {chain : List Nat}
    {anc : Nat → List Nat} (h2 : WF2 ns chain anc) {y z : Nat} (hz : Interior ns z)
    (hy : y ∈ anc z) (hzy : z ∈ anc y) : y = z := by
  obtain ⟨hyI, p1⟩ := h2.anc_pref z y (Or.inr hz) hy
  have p2 := (h2.anc_pref y z (Or.inr hyI) hzy).2
  have e : anc y = anc z := p1.eq_of_length (le_antisymm p1.length_le p2.length_le)
  obtain ⟨ny, hny, hnyv⟩ := hyI
  obtain ⟨nz, hnz, hnzv⟩ := hz
  have a := h2.anc_self y ny hny hnyv
  have b := h2.anc_self z nz hnz hnzv
  rw [e, b] at a
  exact (Option.some.inj a).symm

theorem split_anc_L (anc : Nat → List Nat) (m L : Nat) (res : Prop) [Decidable res] :
    split_anc anc m L res L = if res then anc m ++ [L + 2] else anc m := by
  simp [split_anc]

theorem split_anc_L1 (anc : Nat → List Nat) (m L : Nat) (res : Prop) [Decidable res] :
    split_anc anc m L res (L + 1) = anc m ++ [L + 1] := by
  simp [split_anc]

theorem split_anc_L2 (anc : Nat → List Nat) (m L : Nat) (res : Prop) [Decidable res] :
    split_anc anc m L res (L + 2) = anc m ++ [L + 2] := by
  simp [split_anc]

theorem split_anc_old (anc : Nat → List Nat) (m L : Nat) (res : Prop) [Decidable res]
    {z : Nat} (hz : z < L) :
    split_anc anc m L res z = if z ≠ m ∧ m ∈ anc z then
      anc m ++ (L + 1) :: (anc z).drop (anc m).length else anc z := by
  unfold split_anc
  rw [if_neg (by omega), if_neg (by omega), if_neg (by omega)]

/-- The old ancestors of an old node are its ancestors after the split. -/
theorem split_anc_mem {V : Type} {ns : List (radix_tree_node V)} {chain : List Nat}
    {anc : Nat → List Nat} (h2 : WF2 ns chain anc) (m : Nat) (res : Prop) [Decidable res]
    {z x : Nat} (hz : z ∈ chain ∨ Interior ns z) (hzL : z < ns.length)
    (hx : x ≠ ns.length + 1) : x ∈ split_anc anc m ns.length res z ↔ x ∈ anc z := by
  rw [split_anc_old anc m ns.length res hzL]
  split_ifs with hc
  · have e := h2.anc_split hz hc.2
    constructor
    · intro hm
      rw [e]
      rcases List.mem_append.mp hm with hm | hm
      · exact List.mem_append_left _ hm
      · rcases List.mem_cons.mp hm with hm | hm
        · exact absurd hm hx
        · exact List.mem_append_right _ hm
    · intro hm
      rw [e] at hm
      rcases List.mem_append.mp hm with hm | hm
      · exact List.mem_append_left _ hm
      · exact List.mem_append_right _ (List.mem_cons_of_mem _ hm)
  · exact Iff.rfl

/-- After the split, exactly the old nodes strictly below `m` are below `new_node`. -/
theorem split_anc_clone {V : Type} {ns : List (radix_tree_node V)} {chain : List Nat}
    {anc : Nat → List Nat} (h2 : WF2 ns chain anc) (m : Nat) (res : Prop) [Decidable res]
    {z : Nat} (hz : z ∈ chain ∨ Interior ns z) (hzL : z < ns.length) :
    ns.length + 1 ∈ split_anc anc m ns.length res z ↔ z ≠ m ∧ m ∈ anc z := by
  rw [split_anc_old anc m ns.length res hzL]
  split_ifs with hc
  · simp [hc]
  · constructor
    · intro hm
      obtain ⟨⟨n, hn, -⟩, -⟩ := h2.anc_pref z _ hz hm
      exact absurd (lt_of_getElem? hn) (by omega)
    · intro hm
      exact absurd hm hc


/-! ## The second invariant after the split branch -/

theorem WF2_split {V : Type} {ns nsF : List (radix_tree_node V)} {chain : List Nat}
    {lab : Nat → List Nat} {par : Nat → Nat} {P : List (List Nat)} {anc : Nat → List Nat}
    (h : WF ns chain lab par P) (h2 : WF2 ns chain anc) {m : Nat}
    {mn mF cl nn : radix_tree_node V} (hmn : ns[m]? = some mn) (hmv : mn.m_value = none)
    (hm0 : m ≠ 0) {tl : Nat} (hlast : mn.m_last = some tl)
    (res : Prop) [Decidable res] {nk rck : Slice}
    (hmF : mF.m_count = mn.m_count + 1 ∧ mF.m_first = mn.m_first ∧
      mF.m_last = some ns.length ∧ mF.m_value = none)
    (hmFk : ∀ (i : Nat) (n : radix_tree_node V) (k : Slice), ns[i]? = some n →
      n.m_value = none → (k, m) ∈ n.m_children → SliceDecode mn.m_key = some k →
      SliceDecode mF.m_key = some k)
    (hmFch : ∀ e, e ∈ mF.m_children →
      e = (nk, ns.length + 1) ∨ (res ∧ e = (rck, ns.length + 2)))
    (hmFlen : res → 2 ≤ mF.m_children.length)
    (hmFkeys : (mF.m_children.map Prod.fst).Nodup)
    (hcl : cl.m_count = mn.m_count ∧ cl.m_first = mn.m_first ∧ cl.m_last = mn.m_last ∧
      cl.m_value = none ∧ cl.m_children = mn.m_children)
    (hclk : SliceDecode cl.m_key = some nk)
    (hnn : nn.m_count = 0 ∧ nn.m_first = some ns.length ∧ nn.m_last = some ns.length ∧
      nn.m_value = none ∧ nn.m_children = [])
    (hnnk : res → SliceDecode nn.m_key = some rck)
    (hFm : nsF[m]? = some mF)
    (hFc : nsF[ns.length + 1]? = some cl)
    (hFN : res → nsF[ns.length + 2]? = some (bumped (some tl) ns.length nn))
    (hFold : ∀ (c : Nat) (cn : radix_tree_node V), ns[c]? = some cn → cn.m_value = none →
      c ≠ m → nsF[c]? = some (if c ∈ anc m then bumped (some tl) ns.length cn else cn))
    (hFclass : ∀ (i : Nat) (n1 : radix_tree_node V), nsF[i]? = some n1 → n1.m_value = none →
      i = m ∨ i = ns.length + 1 ∨ (res ∧ i = ns.length + 2) ∨
        (i ≠ m ∧ ∃ cn : radix_tree_node V, ns[i]? = some cn ∧ cn.m_value = none)) :
    WF2 nsF (ins_after tl ns.length chain) (split_anc anc m ns.length res) := by
  obtain ⟨hmF1, hmF2, hmF3, hmF4⟩ := hmF
  obtain ⟨hcl1, hcl2, hcl3, hcl4, hcl5⟩ := hcl
  obtain ⟨hnn1, hnn2, hnn3, hnn4, hnn5⟩ := hnn
  have hnd := h.chain_nodup
  obtain ⟨htlc, hmtl, hlastm⟩ := h2.last_mem hmn hmv hlast
  have hmI : Interior ns m := ⟨mn, hmn, hmv⟩
  have hmm : m ∈ anc m := h2.self_mem hmn hmv
  have hmL : m < ns.length := lt_of_getElem? hmn
  have hint_lt : ∀ z : Nat, Interior ns z → z < ns.length := fun z hz => by
    obtain ⟨n, hn, -⟩ := hz
    exact lt_of_getElem? hn
  have hnode_lt : ∀ z : Nat, (z ∈ chain ∨ Interior ns z) → z < ns.length := fun z hz => by
    rcases hz with hz | hz
    · exact h.chain_lt hz
    · exact hint_lt z hz
  have hanc_lt : ∀ z y : Nat, (z ∈ chain ∨ Interior ns z) → y ∈ anc z → y < ns.length :=
    fun z y hz hy => hint_lt y (h2.anc_pref z y hz hy).1
  have hLc : ns.length ∉ chain := fun hc => absurd (h.chain_lt hc) (lt_irrefl _)
  have hmem1 : ∀ x : Nat, x ∈ ins_after tl ns.length chain ↔ x = ns.length ∨ x ∈ chain :=
    fun x => mem_ins_after htlc
  have hleaf_ne : ∀ a : Nat, a ∈ chain → a ≠ m := fun a ha e =>
    h.not_leaf hmn hmv (e ▸ ha)
  -- the ghost ancestors of old nodes
  have hsame : ∀ z : Nat, z < ns.length → (z = m ∨ m ∉ anc z) →
      split_anc anc m ns.length res z = anc z := by
    intro z hz hc
    rw [split_anc_old anc m ns.length res hz, if_neg]
    rintro ⟨a, b⟩
    rcases hc with hc | hc
    · exact a hc
    · exact hc b
  have hbelow : ∀ z : Nat, z < ns.length → z ≠ m → m ∈ anc z →
      split_anc anc m ns.length res z =
        anc m ++ (ns.length + 1) :: (anc z).drop (anc m).length := by
    intro z hz a b
    rw [split_anc_old anc m ns.length res hz, if_pos ⟨a, b⟩]
  -- a strict ancestor of `m` is not below `m`
  have habove : ∀ y : Nat, y ∈ anc m → y ≠ m → m ∉ anc y := fun y hy hne hm =>
    hne (h2.anc_antisymm hmI hy hm)
  have hsame_anc : ∀ y : Nat, y ∈ anc m → split_anc anc m ns.length res y = anc y := by
    intro y hy
    apply hsame y (hanc_lt m y (Or.inr hmI) hy)
    by_cases e : y = m
    · exact Or.inl e
    · exact Or.inr (habove y hy e)
  -- interior nodes of the new arena
  have hFint_old : ∀ z : Nat, Interior ns z → Interior nsF z := by
    rintro z ⟨n, hn, hv⟩
    by_cases hzm : z = m
    · subst hzm
      exact ⟨_, hFm, hmF4⟩
    · refine ⟨_, hFold z n hn hv hzm, ?_⟩
      split_ifs
      · exact hv
      · exact hv
  have hFint_c : Interior nsF (ns.length + 1) := ⟨_, hFc, hcl4⟩
  have hnode1 : ∀ z : Nat, (z ∈ ins_after tl ns.length chain ∨ Interior nsF z) →
      z = ns.length ∨ z = ns.length + 1 ∨ (res ∧ z = ns.length + 2) ∨
        (z ∈ chain ∨ Interior ns z) := by
    intro z hz
    rcases hz with hz | ⟨n1, hn1, hv1⟩
    · rcases (hmem1 z).mp hz with e | e
      · exact Or.inl e
      · exact Or.inr (Or.inr (Or.inr (Or.inl e)))
    · rcases hFclass z n1 hn1 hv1 with e | e | e | ⟨-, cn, hcn, hcv⟩
      · exact Or.inr (Or.inr (Or.inr (Or.inr (e ▸ hmI))))
      · exact Or.inr (Or.inl e)
      · exact Or.inr (Or.inr (Or.inl e))
      · exact Or.inr (Or.inr (Or.inr (Or.inr ⟨cn, hcn, hcv⟩)))
  have hfresh : ∀ k : Nat, ns.length ≤ k → k ∉ anc m := fun k hk hm =>
    absurd (hanc_lt m _ (Or.inr hmI) hm) (by omega)
  -- prefixes of the new ancestor lists of the members of `anc m`
  have hpre_m : ∀ (w : Nat) (T : List Nat), w ∈ anc m →
      Interior nsF w ∧ split_anc anc m ns.length res w <+: anc m ++ T := by
    intro w T hw
    obtain ⟨hwi, hwp⟩ := h2.anc_pref m w (Or.inr hmI) hw
    rw [hsame_anc w hw]
    exact ⟨hFint_old w hwi, hwp.trans (List.prefix_append _ _)⟩
  have hnd_new : ∀ k : Nat, ns.length ≤ k → (anc m ++ [k]).Nodup := fun k hk =>
    List.nodup_append.mpr ⟨h2.anc_nodup m (Or.inr hmI), List.nodup_singleton _,
      fun a ha hb => by
        simp only [List.mem_singleton] at hb
        subst hb
        exact hfresh _ hk ha⟩
  constructor
  · -- anc_root
    obtain ⟨r, hr, -⟩ := h.root
    have h0 := lt_of_getElem? hr
    have hroot := h2.anc_root
    apply (hsame 0 h0 _).trans hroot
    right
    rw [hroot]
    simp only [List.mem_singleton]
    exact hm0
  · -- anc_child
    intro i n1 k c hi hv hk
    rcases hFclass i n1 hi hv with e | e | ⟨hr, e⟩ | ⟨him, cn, hcn, hcv⟩
    · subst e
      rw [hFm] at hi
      cases hi
      rw [hsame i hmL (Or.inl rfl)]
      rcases hmFch _ hk with e | ⟨-, e⟩
      · cases e
        exact split_anc_L1 _ _ _ _
      · cases e
        exact split_anc_L2 _ _ _ _
    · subst e
      rw [hFc] at hi
      cases hi
      rw [hcl5] at hk
      have hc := h2.anc_child m mn k c hmn hmv hk
      obtain ⟨cc, hcc, hccv, -⟩ := h.child m mn k c hmn hmv hk
      have hcI : Interior ns c := ⟨cc, hcc, hccv⟩
      have hmc : m ∈ anc c := by rw [hc]; exact List.mem_append_left _ hmm
      have hcm : c ≠ m := by
        rintro rfl
        have := congrArg List.length hc
        simp at this
      rw [hbelow c (lt_of_getElem? hcc) hcm hmc, split_anc_L1, hc]
      simp
    · subst e
      rw [hFN hr] at hi
      cases hi
      simp only [bumped, hnn5] at hk
      simp at hk
    · rw [hFold i cn hcn hcv him] at hi
      have hkc : (k, c) ∈ cn.m_children := by
        cases hi
        split_ifs at hk
        · exact hk
        · exact hk
      obtain ⟨cc, hcc, hccv, -⟩ := h.child i cn k c hcn hcv hkc
      have hc := h2.anc_child i cn k c hcn hcv hkc
      have hiL := lt_of_getElem? hcn
      have hcL := lt_of_getElem? hcc
      have hiI : Interior ns i := ⟨cn, hcn, hcv⟩
      have hcI : Interior ns c := ⟨cc, hcc, hccv⟩
      by_cases hmi : m ∈ anc i
      · have hmc : m ∈ anc c := by rw [hc]; exact List.mem_append_left _ hmi
        have hcm : c ≠ m := by
          rintro rfl
          have := h2.anc_nodup c (Or.inr hcI)
          rw [hc] at this
          exact (List.nodup_append.mp this).2.2 hmi (List.mem_singleton_self _)
        rw [hbelow c hcL hcm hmc, hbelow i hiL him hmi, hc]
        have hle := (h2.anc_pref i m (Or.inr hiI) hmi).2.length_le
        rw [List.drop_append_of_le_length hle]
        simp
      · rw [hsame i hiL (Or.inr hmi)]
        by_cases hcm : c = m
        · rw [hsame c hcL (Or.inl hcm)]
          exact hc
        · rw [hsame c hcL (Or.inr ?_)]
          · exact hc
          · rw [hc]
            intro hm
            rcases List.mem_append.mp hm with hm | hm
            · exact hmi hm
            · simp only [List.mem_singleton] at hm
              exact hcm hm.symm
  · -- anc_self
    intro i n1 hi hv
    rcases hFclass i n1 hi hv with e | e | ⟨-, e⟩ | ⟨him, cn, hcn, hcv⟩
    · subst e
      rw [hsame i hmL (Or.inl rfl)]
      exact h2.anc_self i mn hmn hmv
    · subst e
      rw [split_anc_L1]
      simp
    · subst e
      rw [split_anc_L2]
      simp
    · have hiL := lt_of_getElem? hcn
      have hs := h2.anc_self i cn hcn hcv
      by_cases hmi : m ∈ anc i
      · rw [hbelow i hiL him hmi]
        have e := h2.anc_split (Or.inr ⟨cn, hcn, hcv⟩) hmi
        have hD : (anc i).drop (anc m).length ≠ [] := by
          intro hD
          rw [hD, List.append_nil] at e
          rw [e, h2.anc_self m mn hmn hmv] at hs
          exact him (Option.some.inj hs).symm
        rw [e, List.getLast?_append_of_ne_nil _ hD] at hs
        rw [List.append_cons, List.getLast?_append_of_ne_nil _ hD]
        exact hs
      · rw [hsame i hiL (Or.inr hmi)]
        exact hs
  · -- anc_pref
    intro z y hz hy
    have hnew : ∀ k : Nat, (k = ns.length + 1 ∨ (res ∧ k = ns.length + 2)) →
        ∀ w : Nat, w ∈ anc m ++ [k] →
        Interior nsF w ∧ split_anc anc m ns.length res w <+: anc m ++ [k] := by
      intro k hk w hw
      rcases List.mem_append.mp hw with hw | hw
      · exact hpre_m w _ hw
      · simp only [List.mem_singleton] at hw
        subst hw
        rcases hk with hk | ⟨hr, hk⟩
        · subst hk
          rw [split_anc_L1]
          exact ⟨hFint_c, List.prefix_refl _⟩
        · subst hk
          rw [split_anc_L2]
          exact ⟨⟨_, hFN hr, hnn4⟩, List.prefix_refl _⟩
    rcases hnode1 z hz with e | e | ⟨hr, e⟩ | hzo
    · subst e
      rw [split_anc_L] at hy ⊢
      split_ifs at hy ⊢ with hr
      · exact hnew _ (Or.inr ⟨hr, rfl⟩) y hy
      · have := hpre_m y [] hy
        rwa [List.append_nil] at this
    · subst e
      rw [split_anc_L1] at hy ⊢
      exact hnew _ (Or.inl rfl) y hy
    · subst e
      rw [split_anc_L2] at hy ⊢
      exact hnew _ (Or.inr ⟨hr, rfl⟩) y hy
    · have hzL := hnode_lt z hzo
      by_cases hc : z ≠ m ∧ m ∈ anc z
      · rw [hbelow z hzL hc.1 hc.2] at hy ⊢
        have e := h2.anc_split hzo hc.2
        rcases List.mem_append.mp hy with hy | hy
        · exact hpre_m y _ hy
        · rcases List.mem_cons.mp hy with hy | hy
          · subst hy
            rw [split_anc_L1]
            refine ⟨hFint_c, ?_⟩
            exact ⟨(anc z).drop (anc m).length, by simp⟩
          · -- `y` is an old node strictly between `m` and `z`
            have hyz : y ∈ anc z := by rw [e]; exact List.mem_append_right _ hy
            obtain ⟨hyI, hyp⟩ := h2.anc_pref z y hzo hyz
            have hndz := h2.anc_nodup z hzo
            rw [e] at hndz
            have hym : y ∉ anc m := fun hm => (List.nodup_append.mp hndz).2.2 hm hy
            have hyne : y ≠ m := fun e1 => hym (e1 ▸ hmm)
            have hmy : m ∈ anc y := by
              rcases h2.anc_cmp hzo hyz hc.2 with h1 | h1
              · exact absurd h1 hym
              · exact h1
            rw [hbelow y (hint_lt y hyI) hyne hmy]
            refine ⟨hFint_old y hyI, ?_⟩
            have ey := h2.anc_split (Or.inr hyI) hmy
            obtain ⟨T, hT⟩ := hyp
            rw [ey, List.append_assoc] at hT
            rw [e] at hT
            have hD := List.append_cancel_left hT
            rw [← hD]
            exact ⟨T, by simp⟩
      · have hc1 : z = m ∨ m ∉ anc z := by
          by_cases e : z = m
          · exact Or.inl e
          · exact Or.inr (fun hm => hc ⟨e, hm⟩)
        rw [hsame z hzL hc1] at hy ⊢
        obtain ⟨hyI, hyp⟩ := h2.anc_pref z y hzo hy
        refine ⟨hFint_old y hyI, ?_⟩
        rw [hsame y (hint_lt y hyI) ?_]
        · exact hyp
        · by_cases e : y = m
          · exact Or.inl e
          · right
            intro hmy
            rcases hc1 with hc1 | hc1
            · subst hc1
              exact e (h2.anc_antisymm hmI hy hmy)
            · exact hc1 (h2.anc_trans hzo hy hmy)
  · -- anc_nodup
    intro z hz
    rcases hnode1 z hz with e | e | ⟨hr, e⟩ | hzo
    · subst e
      rw [split_anc_L]
      split_ifs
      · exact hnd_new _ (by omega)
      · exact h2.anc_nodup m (Or.inr hmI)
    · subst e
      rw [split_anc_L1]
      exact hnd_new _ (by omega)
    · subst e
      rw [split_anc_L2]
      exact hnd_new _ (by omega)
    · have hzL := hnode_lt z hzo
      by_cases hc : z ≠ m ∧ m ∈ anc z
      · rw [hbelow z hzL hc.1 hc.2]
        have e := h2.anc_split hzo hc.2
        have hndz := h2.anc_nodup z hzo
        rw [e] at hndz
        obtain ⟨n1, n2, n3⟩ := List.nodup_append.mp hndz
        refine List.nodup_append.mpr ⟨n1, List.nodup_cons.mpr ⟨?_, n2⟩, ?_⟩
        · intro hm
          have : ns.length + 1 ∈ anc z := by rw [e]; exact List.mem_append_right _ hm
          exact absurd (hanc_lt z _ hzo this) (by omega)
        · intro a ha hb
          rcases List.mem_cons.mp hb with hb | hb
          · subst hb
            exact hfresh _ (by omega) ha
          · exact n3 ha hb
      · rw [hsame z hzL]
        · exact h2.anc_nodup z hzo
        · by_cases e : z = m
          · exact Or.inl e
          · exact Or.inr (fun hm => hc ⟨e, hm⟩)
  · -- run
    intro i n1 hi hv
    have hold_mem : ∀ (x : Nat), x ≠ ns.length + 1 → ∀ a ∈ chain,
        (x ∈ split_anc anc m ns.length res a ↔ x ∈ anc a) := fun x hx a ha =>
      split_anc_mem h2 m res (Or.inl ha) (h.chain_lt ha) hx
    have hmemL : ∀ x : Nat, x ∈ anc m → x ∈ split_anc anc m ns.length res ns.length := by
      intro x hx
      rw [split_anc_L]
      split_ifs
      · exact List.mem_append_left _ hx
      · exact hx
    have hgrown : ∀ (x : Nat) (n : radix_tree_node V), ns[x]? = some n → n.m_value = none →
        x ∈ anc m →
        (bumped (some tl) ns.length n).m_count =
            (run_of (split_anc anc m ns.length res) (ins_after tl ns.length chain) x).length ∧
          (bumped (some tl) ns.length n).m_first =
            (run_of (split_anc anc m ns.length res) (ins_after tl ns.length chain) x).head? ∧
          (bumped (some tl) ns.length n).m_last =
            (run_of (split_anc anc m ns.length res)
              (ins_after tl ns.length chain) x).getLast? ∧
          run_of (split_anc anc m ns.length res) (ins_after tl ns.length chain) x <:+:
            ins_after tl ns.length chain := by
      intro x n hn hnv hx
      have hxtl : x ∈ anc tl := h2.anc_trans (Or.inl htlc) hmtl hx
      obtain ⟨r1, r2, r3, r4⟩ := h2.run x n hn hnv
      have hxL := lt_of_getElem? hn
      rw [run_of_ins_grown (hold_mem x (by omega)) (hmemL x hx) htlc hxtl]
      exact run_clause_grown hnd r1 r2 r3 r4 (mem_run_of.mpr ⟨htlc, hxtl⟩)
    rcases hFclass i n1 hi hv with e | e | ⟨hr, e⟩ | ⟨him, cn, hcn, hcv⟩
    · subst e
      rw [hFm] at hi
      cases hi
      have := hgrown i mn hmn hmv hmm
      simp only [bumped, hlast, if_true] at this
      rw [hmF1, hmF2, hmF3]
      exact this
    · subst e
      rw [hFc] at hi
      cases hi
      obtain ⟨r1, r2, r3, r4⟩ := h2.run m mn hmn hmv
      have hkept : run_of (split_anc anc m ns.length res) (ins_after tl ns.length chain)
          (ns.length + 1) = run_of anc chain m := by
        apply run_of_ins_kept
        · intro a ha
          rw [split_anc_clone h2 m res (Or.inl ha) (h.chain_lt ha)]
          exact ⟨fun hh => hh.2, fun hh => ⟨hleaf_ne a ha, hh⟩⟩
        · rw [split_anc_L]
          split_ifs
          · intro hm
            rcases List.mem_append.mp hm with hm | hm
            · exact hfresh _ (by omega) hm
            · simp at hm
          · exact hfresh _ (by omega)
      rw [hkept, hcl1, hcl2, hcl3]
      exact ⟨r1, r2, r3, infix_ins_after_kept hnd r4 (fun _ => hlastm)⟩
    · subst e
      rw [hFN hr] at hi
      cases hi
      have hrun : run_of (split_anc anc m ns.length res) (ins_after tl ns.length chain)
          (ns.length + 2) = [ns.length] := by
        apply run_of_ins_single _ _ htlc
        · intro a ha hm
          have := (split_anc_mem h2 m res (Or.inl ha) (h.chain_lt ha) (by omega)).mp hm
          exact absurd (hanc_lt a _ (Or.inl ha) this) (by omega)
        · rw [split_anc_L, if_pos hr]
          simp
      rw [hrun]
      refine ⟨by simp [bumped, hnn1], by simp [bumped, hnn2], ?_, single_infix_ins_after htlc⟩
      simp only [bumped, hnn3, List.getLast?_singleton]
      rw [if_neg]
      intro e
      simp only [Option.some.injEq] at e
      exact hLc (e ▸ htlc)
    · rw [hFold i cn hcn hcv him] at hi
      cases hi
      have hiL := lt_of_getElem? hcn
      by_cases hia : i ∈ anc m
      · rw [if_pos hia]
        exact hgrown i cn hcn hcv hia
      · rw [if_neg hia]
        obtain ⟨r1, r2, r3, r4⟩ := h2.run i cn hcn hcv
        have hkept : run_of (split_anc anc m ns.length res) (ins_after tl ns.length chain) i =
            run_of anc chain i := by
          apply run_of_ins_kept (hold_mem i (by omega))
          rw [split_anc_L]
          split_ifs
          · intro hm
            rcases List.mem_append.mp hm with hm | hm
            · exact hia hm
            · simp only [List.mem_singleton] at hm
              omega
          · exact hia
        rw [hkept]
        exact ⟨r1, r2, r3, infix_ins_after_kept hnd r4
          (fun ht => h2.kept_last hnd hmn hmv hlast hcn hcv hia ht)⟩
  · -- host
    intro i n1 hi hv hi0 hlen
    rcases hFclass i n1 hi hv with e | e | ⟨hr, e⟩ | ⟨him, cn, hcn, hcv⟩
    · subst e
      rw [hFm] at hi
      cases hi
      refine ⟨ns.length, (hmem1 _).mpr (Or.inl rfl), ?_⟩
      rw [split_anc_L, hsame i hmL (Or.inl rfl), if_neg]
      intro hr
      have := hmFlen hr
      omega
    · subst e
      rw [hFc] at hi
      cases hi
      rw [hcl5] at hlen
      obtain ⟨a, ha, hax⟩ := h2.host m mn hmn hmv hm0 hlen
      refine ⟨a, (hmem1 a).mpr (Or.inr ha), ?_⟩
      rw [hbelow a (h.chain_lt ha) (hleaf_ne a ha) (hax ▸ hmm), split_anc_L1, hax]
      simp
    · subst e
      refine ⟨ns.length, (hmem1 _).mpr (Or.inl rfl), ?_⟩
      rw [split_anc_L, split_anc_L2, if_pos hr]
    · rw [hFold i cn hcn hcv him] at hi
      cases hi
      have hlen1 : cn.m_children.length ≤ 1 := by
        split_ifs at hlen
        · exact hlen
        · exact hlen
      obtain ⟨a, ha, hax⟩ := h2.host i cn hcn hcv hi0 hlen1
      refine ⟨a, (hmem1 a).mpr (Or.inr ha), ?_⟩
      rw [split_anc_old anc m ns.length res (h.chain_lt ha),
        split_anc_old anc m ns.length res (lt_of_getElem? hcn), hax]
      have : (a ≠ m ∧ m ∈ anc i) ↔ (i ≠ m ∧ m ∈ anc i) :=
        ⟨fun hh => ⟨him, hh.2⟩, fun hh => ⟨hleaf_ne a ha, hh.2⟩⟩
      simp only [this]
  · -- key
    intro i n1 k c hi hv hk
    have hold_key : ∀ (x : Nat) (n : radix_tree_node V), ns[x]? = some n → n.m_value = none →
        (k, c) ∈ n.m_children →
        ∃ cn : radix_tree_node V, nsF[c]? = some cn ∧ SliceDecode cn.m_key = some k := by
      intro x n hn hnv hkc
      obtain ⟨cn, hcn, hsd⟩ := h2.key x n k c hn hnv hkc
      obtain ⟨cn', hcn', hcv, -⟩ := h.child x n k c hn hnv hkc
      rw [hcn] at hcn'; cases hcn'
      by_cases hcm : c = m
      · subst hcm
        rw [hmn] at hcn; cases hcn
        exact ⟨_, hFm, hmFk x n k hn hnv hkc hsd⟩
      · refine ⟨_, hFold c cn hcn hcv hcm, ?_⟩
        split_ifs
        · exact hsd
        · exact hsd
    rcases hFclass i n1 hi hv with e | e | ⟨hr, e⟩ | ⟨him, cn, hcn, hcv⟩
    · subst e
      rw [hFm] at hi
      cases hi
      rcases hmFch _ hk with e | ⟨hr, e⟩
      · cases e
        exact ⟨_, hFc, hclk⟩
      · cases e
        exact ⟨_, hFN hr, hnnk hr⟩
    · subst e
      rw [hFc] at hi
      cases hi
      rw [hcl5] at hk
      exact hold_key m mn hmn hmv hk
    · subst e
      rw [hFN hr] at hi
      cases hi
      simp only [bumped, hnn5] at hk
      simp at hk
    · rw [hFold i cn hcn hcv him] at hi
      cases hi
      refine hold_key i cn hcn hcv ?_
      split_ifs at hk
      · exact hk
      · exact hk
  · -- keys
    intro i n1 hi hv
    rcases hFclass i n1 hi hv with e | e | ⟨hr, e⟩ | ⟨him, cn, hcn, hcv⟩
    · subst e
      rw [hFm] at hi
      cases hi
      exact hmFkeys
    · subst e
      rw [hFc] at hi
      cases hi
      rw [hcl5]
      exact h2.keys m mn hmn hmv
    · subst e
      rw [hFN hr] at hi
      cases hi
      simp [bumped, hnn5]
    · rw [hFold i cn hcn hcv him] at hi
      cases hi
      have := h2.keys i cn hcn hcv
      split_ifs
      · exact this
      · exact this

/-! ## The second invariant after the first leaf has been attached -/

/-- On a tree without leaves the root is the only interior node, and it has no child. -/
theorem WF.empty_chain {V : Type} {ns : List (radix_tree_node V)}
    {lab : Nat → List Nat} {par : Nat → Nat} {P : List (List Nat)}
    (h : WF ns [] lab par P) :
    (∀ (i : Nat) (n : radix_tree_node V), ns[i]? = some n → n.m_value = none → i = 0) ∧
      ∀ r : radix_tree_node V, ns[0]? = some r → r.m_children = [] := by
  have h0 : ∀ (i : Nat) (n : radix_tree_node V), ns[i]? = some n → n.m_value = none →
      i = 0 := by
    intro i n hi hv
    rcases h.range i n hi hv with ⟨e, -⟩ | ⟨f, l, A, R, -, -, hc, -⟩
    · exact e
    · simp at hc
  refine ⟨h0, ?_⟩
  intro r hr
  obtain ⟨r0, hr0, hr0v, hr0k⟩ := h.root
  rw [hr] at hr0
  cases hr0
  cases hch : r.m_children with
  | nil => rfl
  | cons e rest =>
    obtain ⟨k, c⟩ := e
    have hk : (k, c) ∈ r.m_children := by rw [hch]; exact List.mem_cons_self _ _
    obtain ⟨cn, hcn, hcv, hkne, hpre, -⟩ := h.child 0 r k c hr hr0v hk
    have := h0 c cn hcn hcv
    subst this
    rw [hr] at hcn
    cases hcn
    rw [hr0k] at hpre
    exact absurd (List.prefix_nil.mp hpre) hkne

theorem WF2_first {V : Type} {ns nsF : List (radix_tree_node V)}
    {lab : Nat → List Nat} {par : Nat → Nat} {P : List (List Nat)} {anc : Nat → List Nat}
    (h : WF ns [] lab par P) (h2 : WF2 ns [] anc)
    {rF nF : radix_tree_node V} {ck : Slice}
    (hrF : rF.m_count = 1 ∧ rF.m_first = some ns.length ∧ rF.m_last = some ns.length ∧
      rF.m_value = none)
    (hch : ∀ e, e ∈ rF.m_children → e = (ck, ns.length + 1))
    (hkeys : (rF.m_children.map Prod.fst).Nodup)
    (hnF : nF.m_count = 1 ∧ nF.m_first = some ns.length ∧ nF.m_last = some ns.length ∧
      nF.m_value = none ∧ nF.m_children = [])
    (hnFk : SliceDecode nF.m_key = some ck)
    (hFm : nsF[0]? = some rF)
    (hFN : nsF[ns.length + 1]? = some nF)
    (hFclass : ∀ (i : Nat) (n1 : radix_tree_node V), nsF[i]? = some n1 → n1.m_value = none →
      i = 0 ∨ i = ns.length + 1 ∨
        (i ≠ 0 ∧ ∃ cn : radix_tree_node V, ns[i]? = some cn ∧ cn.m_value = none)) :
    WF2 nsF [ns.length] (attach_anc anc 0 ns.length) := by
  obtain ⟨hrF1, hrF2, hrF3, hrF4⟩ := hrF
  obtain ⟨hnF1, hnF2, hnF3, hnF4, hnF5⟩ := hnF
  obtain ⟨hone, -⟩ := h.empty_chain
  obtain ⟨r, hr, hrv, -⟩ := h.root
  have hL : 0 < ns.length := lt_of_getElem? hr
  have hroot := h2.anc_root
  have ha0 : attach_anc anc 0 ns.length 0 = [0] := by
    unfold attach_anc
    rw [if_neg (by omega)]
    exact hroot
  have haL : attach_anc anc 0 ns.length ns.length = [0, ns.length + 1] := by
    unfold attach_anc
    rw [if_pos (Or.inl rfl), hroot]
    rfl
  have haN : attach_anc anc 0 ns.length (ns.length + 1) = [0, ns.length + 1] := by
    unfold attach_anc
    rw [if_pos (Or.inr rfl), hroot]
    rfl
  have hcls : ∀ (i : Nat) (n1 : radix_tree_node V), nsF[i]? = some n1 → n1.m_value = none →
      (i = 0 ∧ n1 = rF) ∨ (i = ns.length + 1 ∧ n1 = nF) := by
    intro i n1 hi hv
    rcases hFclass i n1 hi hv with e | e | ⟨hne, cn, hcn, hcv⟩
    · subst e
      rw [hFm] at hi
      exact Or.inl ⟨rfl, (Option.some.inj hi).symm⟩
    · subst e
      rw [hFN] at hi
      exact Or.inr ⟨rfl, (Option.some.inj hi).symm⟩
    · exact absurd (hone i cn hcn hcv) hne
  have hnode : ∀ z : Nat, (z ∈ [ns.length] ∨ Interior nsF z) →
      z = 0 ∨ z = ns.length ∨ z = ns.length + 1 := by
    intro z hz
    rcases hz with hz | ⟨n1, hn1, hv1⟩
    · exact Or.inr (Or.inl (List.mem_singleton.mp hz))
    · rcases hcls z n1 hn1 hv1 with ⟨e, -⟩ | ⟨e, -⟩
      · exact Or.inl e
      · exact Or.inr (Or.inr e)
  have hI0 : Interior nsF 0 := ⟨rF, hFm, hrF4⟩
  have hIN : Interior nsF (ns.length + 1) := ⟨nF, hFN, hnF4⟩
  have hpair : ∀ y : Nat, y ∈ [0, ns.length + 1] →
      Interior nsF y ∧ attach_anc anc 0 ns.length y <+: [0, ns.length + 1] := by
    intro y hy
    simp only [List.mem_cons, List.mem_singleton, List.not_mem_nil, or_false] at hy
    rcases hy with e | e
    · subst e
      rw [ha0]
      exact ⟨hI0, ⟨[ns.length + 1], rfl⟩⟩
    · subst e
      rw [haN]
      exact ⟨hIN, List.prefix_refl _⟩
  have hrun0 : run_of (attach_anc anc 0 ns.length) [ns.length] 0 = [ns.length] := by
    simp [run_of, haL]
  have hrunN : run_of (attach_anc anc 0 ns.length) [ns.length] (ns.length + 1) =
      [ns.length] := by
    simp [run_of, haL]
  constructor
  · exact ha0
  · intro i n1 k c hi hv hk
    rcases hcls i n1 hi hv with ⟨e, e1⟩ | ⟨e, e1⟩
    · subst e; subst e1
      have := hch _ hk
      cases this
      rw [haN, ha0]
      rfl
    · subst e; subst e1
      rw [hnF5] at hk
      simp at hk
  · intro i n1 hi hv
    rcases hcls i n1 hi hv with ⟨e, e1⟩ | ⟨e, e1⟩
    · subst e
      rw [ha0]
      rfl
    · subst e
      rw [haN]
      rfl
  · intro z y hz hy
    rcases hnode z hz with e | e | e
    · subst e
      rw [ha0] at hy ⊢
      simp only [List.mem_singleton] at hy
      subst hy
      rw [ha0]
      exact ⟨hI0, List.prefix_refl _⟩
    · subst e
      rw [haL] at hy ⊢
      exact hpair y hy
    · subst e
      rw [haN] at hy ⊢
      exact hpair y hy
  · intro z hz
    rcases hnode z hz with e | e | e
    · subst e
      rw [ha0]
      exact List.nodup_singleton _
    · subst e
      rw [haL]
      simp
    · subst e
      rw [haN]
      simp
  · intro i n1 hi hv
    rcases hcls i n1 hi hv with ⟨e, e1⟩ | ⟨e, e1⟩
    · subst e; subst e1
      rw [hrun0, hrF1, hrF2, hrF3]
      exact ⟨rfl, rfl, rfl, List.infix_refl _⟩
    · subst e; subst e1
      rw [hrunN, hnF1, hnF2, hnF3]
      exact ⟨rfl, rfl, rfl, List.infix_refl _⟩
  · intro i n1 hi hv hi0 _
    rcases hcls i n1 hi hv with ⟨e, e1⟩ | ⟨e, e1⟩
    · exact absurd e hi0
    · subst e
      exact ⟨ns.length, List.mem_singleton_self _, by rw [haL, haN]⟩
  · intro i n1 k c hi hv hk
    rcases hcls i n1 hi hv with ⟨e, e1⟩ | ⟨e, e1⟩
    · subst e; subst e1
      have := hch _ hk
      cases this
      exact ⟨nF, hFN, hnFk⟩
    · subst e; subst e1
      rw [hnF5] at hk
      simp at hk
  · intro i n1 hi hv
    rcases hcls i n1 hi hv with ⟨e, e1⟩ | ⟨e, e1⟩
    · subst e; subst e1
      exact hkeys
    · subst e; subst e1
      rw [hnF5]
      exact List.nodup_nil


/-! ## Decoding the first codepoint of an edge label -/

theorem SliceDecode_eq (s : Slice) :
    SliceDecode s = if s = [] ∨ byteAt s 0 = 0 then none
      else (first_len s).map (fun cl => s.take cl) := by
  by_cases hs : s = []
  · subst hs
    simp [SliceDecode]
  have hl : 0 < s.length := List.length_pos.mpr hs
  by_cases h0 : byteAt s 0 = 0
  · simp [SliceDecode, h0]
  rw [if_neg (by simp [hs, h0])]
  unfold SliceDecode first_len
  rw [if_pos hl, if_neg h0]
  by_cases h8 : byteAt s 0 &&& 0x80 = 0
  · rw [if_pos h8, if_pos h8]
    rfl
  · rw [if_neg h8, if_neg h8]
    cases code_len_loop s 0 6 (byteAt s 0) 1 with
    | none => rfl
    | some cl =>
      simp only
      split_ifs <;> rfl

theorem SliceDecode_isCp {s k : Slice} (h : SliceDecode s = some k) : IsCp k ∧ k <+: s := by
  rw [SliceDecode_eq] at h
  split_ifs at h with hc
  push_neg at hc
  cases hf : first_len s with
  | none => rw [hf] at h; simp at h
  | some cl =>
    rw [hf] at h
    simp only [Option.map_some', Option.some.injEq] at h
    subst h
    exact ⟨isCp_take hc.1 hc.2 hf, List.take_prefix _ _⟩

theorem SliceDecode_append {u : Slice} (hu : IsCp u) (z : List Nat) :
    SliceDecode (u ++ z) = some u := by
  have hul : 0 < u.length := List.length_pos.mpr hu.1
  have hb : byteAt (u ++ z) 0 = byteAt u 0 := byteAt_append_left hul
  rw [SliceDecode_eq, if_neg, first_len_append hu]
  · simp
  · rw [hb]
    push_neg
    exact ⟨by simp [hu.1], hu.2.1⟩

theorem SliceDecode_take {s k : Slice} (h : SliceDecode s = some k) {c : Nat}
    (hk : k.length ≤ c) : SliceDecode (s.take c) = some k := by
  obtain ⟨hcp, z, hz⟩ := SliceDecode_isCp h
  rw [← hz, List.take_append_eq_append_take, List.take_of_length_le hk]
  exact SliceDecode_append hcp _

/-! ## More on the child map -/

theorem map_find_assign_self (l : List (Slice × Nat)) (k : Slice) (v : Nat) :
    map_find (map_assign l k v) k = some v := by
  induction l with
  | nil => simp [map_assign, map_find]
  | cons e rest ih =>
    obtain ⟨k1, v1⟩ := e
    simp only [map_assign]
    split_ifs with h1 h2
    · simp [map_find]
    · simp [map_find]
    · simp only [map_find, if_neg h1]
      exact ih

theorem map_find_none_iff {l : List (Slice × Nat)} {k : Slice} :
    map_find l k = none ↔ k ∉ l.map Prod.fst := by
  induction l with
  | nil => simp [map_find]
  | cons e rest ih =>
    obtain ⟨k1, v1⟩ := e
    simp only [map_find, List.map_cons, List.mem_cons, not_or]
    split_ifs with h1
    · simp [h1]
    · rw [ih]
      exact ⟨fun hh => ⟨fun e => h1 e.symm, hh⟩, fun hh => hh.2⟩

theorem mem_map_assign_of_mem {l : List (Slice × Nat)} {k : Slice} {v : Nat}
    (hk : map_find l k = none) {e : Slice × Nat} (he : e ∈ l) : e ∈ map_assign l k v := by
  induction l with
  | nil => simp at he
  | cons e1 rest ih =>
    obtain ⟨k1, v1⟩ := e1
    simp only [map_find] at hk
    split_ifs at hk with h1
    simp only [map_assign, if_neg h1]
    split_ifs with h2
    · exact List.mem_cons_of_mem _ he
    · rcases List.mem_cons.mp he with he | he
      · exact he ▸ List.mem_cons_self _ _
      · exact List.mem_cons_of_mem _ (ih hk he)

theorem mem_map_assign_self (l : List (Slice × Nat)) (k : Slice) (v : Nat) :
    (k, v) ∈ map_assign l k v :=
  map_find_mem (map_find_assign_self l k v)

theorem map_assign_keys {l : List (Slice × Nat)} {k : Slice} {v : Nat}
    (hk : map_find l k = none) :
    ((map_assign l k v).map Prod.fst).Perm (k :: l.map Prod.fst) := by
  induction l with
  | nil => simp [map_assign]
  | cons e1 rest ih =>
    obtain ⟨k1, v1⟩ := e1
    simp only [map_find] at hk
    split_ifs at hk with h1
    simp only [map_assign, if_neg h1]
    split_ifs with h2
    · exact List.Perm.refl _
    · simp only [List.map_cons]
      exact ((ih hk).cons k1).trans (List.Perm.swap _ _ _)

theorem map_assign_keys_nodup {l : List (Slice × Nat)} {k : Slice} {v : Nat}
    (hk : map_find l k = none) (h : (l.map Prod.fst).Nodup) :
    ((map_assign l k v).map Prod.fst).Nodup :=
  (map_assign_keys hk).nodup_iff.mpr
    (List.nodup_cons.mpr ⟨map_find_none_iff.mp hk, h⟩)

theorem length_map_assign {l : List (Slice × Nat)} {k : Slice} {v : Nat}
    (hk : map_find l k = none) : (map_assign l k v).length = l.length + 1 := by
  have := (map_assign_keys (v := v) hk).length_eq
  simpa using this

/-! ## Where the walk of `find_node` stops inside an edge -/

theorem match_edge_stop (key : Slice) (us : List Slice) :
    ∀ (count depth cnt d : Nat), match_edge key us count depth = (cnt, d) →
      cnt < key.length → d < depth + us.length →
      depth ≤ d ∧ ¬ (us.getD (d - depth) [] <+: key.drop cnt) := by
  induction us with
  | nil =>
    intro count depth cnt d h _ hd
    simp only [match_edge, Prod.mk.injEq] at h
    simp at hd
    omega
  | cons u us ih =>
    intro count depth cnt d h hc hd
    unfold match_edge at h
    by_cases h1 : count < key.length
    · rw [if_pos h1] at h
      by_cases h2 : key.length - count < u.length ∨ u ≠ radix_substr key count u.length
      · rw [if_pos h2] at h
        simp only [Prod.mk.injEq] at h
        obtain ⟨rfl, rfl⟩ := h
        refine ⟨le_rfl, ?_⟩
        simp only [Nat.sub_self, List.getD_cons_zero]
        intro hp
        have hle := hp.length_le
        rw [List.length_drop] at hle
        rcases h2 with h2 | h2
        · omega
        · apply h2
          rw [radix_substr_eq (by omega)]
          exact List.prefix_iff_eq_take.mp hp
      · rw [if_neg h2] at h
        obtain ⟨a, b⟩ := ih _ _ _ _ h hc (by simp at hd ⊢; omega)
        refine ⟨by omega, ?_⟩
        have e : d - depth = (d - (depth + 1)) + 1 := by omega
        rw [e, List.getD_cons_succ]
        exact b
    · rw [if_neg h1] at h
      simp only [Prod.mk.injEq] at h
      obtain ⟨rfl, rfl⟩ := h
      exact absurd hc h1

theorem steps_mismatch {V : Type} {ns : List (radix_tree_node V)} {q : List Slice}
    {x dx : Nat} {path : List Nat} {m cnt d : Nat} (hs : Steps ns q x dx path m cnt d) :
    ∀ mn : radix_tree_node V, ns[m]? = some mn → cnt < mn.m_key.length → d < q.length →
      ¬ (q.getD d [] <+: mn.m_key.drop cnt) := by
  induction hs with
  | exhausted x dx n hn hd =>
    intro mn _ _ hlt
    omega
  | nochild x dx n hn hd hf =>
    intro mn hmn hlt _
    rw [hn] at hmn
    cases hmn
    omega
  | midedge x dx n c cn hn hd hf hcn hlt =>
    intro mn hmn hc hdq
    rw [hcn] at hmn
    cases hmn
    obtain ⟨a, b⟩ := match_edge_stop cn.m_key (q.drop dx) 0 dx _ _ rfl hc
      (by rw [List.length_drop]; omega)
    have e : (q.drop dx).getD ((match_edge cn.m_key (q.drop dx) 0 dx).2 - dx) [] =
        q.getD (match_edge cn.m_key (q.drop dx) 0 dx).2 [] := by
      rw [List.getD_eq_getElem?_getD, List.getD_eq_getElem?_getD, List.getElem?_drop]
      congr 2
      omega
    rw [e] at b
    exact b
  | step x dx n c cn path m cnt d hn hd hf hcn hfull hadv hrest ih =>
    exact ih

/-! ## The residual of the pattern -/

theorem residual_eq {pattern : List Nat} {q : List Slice} (hp : UTF8Decode pattern = some q)
    (depth : Nat) (hd : depth < q.length) :
    ∃ z, residual_key q pattern depth = (q.drop depth).flatten ++ z := by
  obtain ⟨z, hz, -, -⟩ := UTF8Decode_spec hp
  obtain ⟨h1, -⟩ := residual_spec hp depth hd
  refine ⟨z, ?_⟩
  have : (q.take depth).flatten ++ residual_key q pattern depth =
      (q.take depth).flatten ++ ((q.drop depth).flatten ++ z) := by
    rw [h1, ← List.append_assoc, ← List.flatten_append, List.take_append_drop]
    exact hz
  exact List.append_cancel_left this

theorem residual_decode {pattern : List Nat} {q : List Slice}
    (hp : UTF8Decode pattern = some q) (depth : Nat) (hd : depth < q.length) :
    SliceDecode (residual_key q pattern depth) = some (q.getD depth []) := by
  obtain ⟨-, -, -, ⟨z, hz⟩⟩ := residual_spec hp depth hd
  obtain ⟨-, -, -, hcp⟩ := UTF8Decode_spec hp
  rw [← hz]
  apply SliceDecode_append
  apply hcp
  rw [List.getD_eq_getElem?_getD, List.getElem?_eq_getElem hd]
  exact List.getElem_mem _

theorem residual_walk {pattern : List Nat} {q : List Slice}
    (hp : UTF8Decode pattern = some q) (depth : Nat) (hd : depth < q.length) :
    (match_edge (residual_key q pattern depth) (q.drop depth) 0 depth).2 = q.length := by
  obtain ⟨z, hz⟩ := residual_eq hp depth hd
  obtain ⟨-, -, -, hcp⟩ := UTF8Decode_spec hp
  have := match_edge_flatten (q.drop depth)
    (fun u hu => (hcp u (List.mem_of_mem_drop hu)).1) [] z depth
  simp only [List.nil_append, List.length_nil] at this
  rw [hz, this]
  simp only [List.length_drop]
  omega

/-! ## The walks of `find_node` and `update_node` as ancestor lists -/

theorem find_node_steps {V : Type} {t : radix_tree V} {chain : List Nat}
    {lab : Nat → List Nat} {par : Nat → Nat} {P : List (List Nat)} {anc : Nat → List Nat}
    (hr : t.m_root = 0) (h : WF t.nodes chain lab par P) (h2 : WF2 t.nodes chain anc)
    {q : List Slice} (hq : q ≠ []) {m cnt d : Nat} (hfind : find_node t q = some (m, cnt, d)) :
    Steps t.nodes q 0 0 (anc m) m cnt d ∧ Interior t.nodes m := by
  obtain ⟨r, hr0, hrv, hrk⟩ := h.root
  unfold find_node at hfind
  rw [if_neg hq, hr] at hfind
  obtain ⟨path, hs⟩ := find_steps h q _ 0 0 0 r (m, cnt, d) hr0 hrv (by rw [hrk]; rfl) hfind
  simp only at hs
  obtain ⟨hmI, rest, hp, ha⟩ := steps_anc h h2 hs ⟨r, hr0, hrv⟩
  rw [h2.anc_root] at ha
  have e : anc m = path := by rw [ha, hp]; rfl
  rw [e]
  exact ⟨hs, hmI⟩

theorem update_node_steps {V : Type} {mid : List (radix_tree_node V)} {q : List Slice}
    (hq : q ≠ []) (o : Option Nat) (nl : Nat) {path : List Nat} {m cnt d : Nat}
    (hs : Steps mid q 0 0 path m cnt d) (hlen : 0 < mid.length) :
    update_node mid 0 q o nl = some (path.foldl (fun a y => bump a y o nl) mid) := by
  unfold update_node
  rw [if_neg hq]
  apply update_of_steps o nl hs _ mid (KeyEq.refl_key mid)
  unfold walk_fuel
  have : q.length + 1 ≤ (q.length + 1) * mid.length := Nat.le_mul_of_pos_right _ hlen
  omega


/-! ## The second invariant through the attach branch of `insert` -/

theorem attach_WF2 {V : Type} {t : radix_tree V} {chain : List Nat}
    {lab : Nat → List Nat} {par : Nat → Nat} {P : List (List Nat)} {anc : Nat → List Nat}
    (hr : t.m_root = 0) (h : WF t.nodes chain lab par P) (h2 : WF2 t.nodes chain anc)
    {p : List Nat} {q : List Slice} (hdec : UTF8Decode p = some q) (v : V)
    {m cnt d : Nat} (hfind : find_node t q = some (m, cnt, d))
    {mn : radix_tree_node V} (hmn : t.nodes[m]? = some mn) (hmv : mn.m_value = none)
    (hcnt : cnt = mn.m_key.length) (hd : d < q.length) {tl : Nat}
    (hl : mn.m_last = some tl)
    (hstop : map_find mn.m_children (q.getD d []) = none)
    {mid : List (radix_tree_node V)} {pats : List (List Nat)}
    {ns5 : List (radix_tree_node V)}
    (hrew : attach_rewire t q p v m d = some (mid, pats, some tl))
    (hupd : update_node mid 0 q (some tl) t.nodes.length = some ns5) :
    WF2 ns5 (ins_after tl t.nodes.length chain) (attach_anc anc m t.nodes.length) ∧
      Survive t.nodes ns5 := by
  have hq : q ≠ [] := by
    rintro rfl
    simp at hd
  have hdne : d ≠ q.length := by omega
  obtain ⟨mid', pats', hrew', hMm, hMN, hMold, hMcls⟩ := @attach_shape V t chain lab par P h q p v m d mn hmn hmv tl hl
  rw [hrew] at hrew'
  simp only [Option.some.injEq, Prod.mk.injEq] at hrew'
  obtain ⟨rfl, rfl, -⟩ := hrew'
  rw [if_pos hdne] at hMN
  obtain ⟨hs, hmI⟩ := find_node_steps hr h h2 hq hfind
  obtain ⟨r, hr0, hrv, -⟩ := h.root
  obtain ⟨-, hrck, -, -⟩ := residual_spec hdec d hd
  have hmL : m < t.nodes.length := lt_of_getElem? hmn
  have hchild : (attach_m mn q p d t.nodes.length).m_children =
      map_assign mn.m_children (q.getD d []) (t.nodes.length + 1) := by
    simp only [attach_m, if_pos hdne, hrck]
  obtain ⟨cnt1, hs1⟩ := steps_attach h h2 hs mn (attach_m mn q p d t.nodes.length)
    (residual_node q p d t.nodes.length) (t.nodes.length + 1) hmn hcnt hd hMold hMm rfl
    (by rw [hchild]; exact map_find_assign_self _ _ _) hMN (residual_walk hdec d hd)
    ⟨r, hr0, hrv⟩
  have hmidlen : 0 < mid.length := lt_of_le_of_lt (Nat.zero_le _) (lt_of_getElem? hMm)
  rw [update_node_steps hq (some tl) t.nodes.length hs1 hmidlen] at hupd
  simp only [Option.some.injEq] at hupd
  have hfresh : t.nodes.length + 1 ∉ anc m := fun hm => by
    obtain ⟨⟨n, hn, -⟩, -⟩ := h2.anc_pref m _ (Or.inr hmI) hm
    exact absurd (lt_of_getElem? hn) (by omega)
  have hnd : (anc m ++ [t.nodes.length + 1]).Nodup :=
    List.nodup_append.mpr ⟨h2.anc_nodup m (Or.inr hmI), List.nodup_singleton _,
      fun a ha hb => by
        simp only [List.mem_singleton] at hb
        subst hb
        exact hfresh ha⟩
  have hget : ∀ j : Nat, ns5[j]? = if j ∈ anc m ++ [t.nodes.length + 1] then
      (mid[j]?).map (bumped (some tl) t.nodes.length) else mid[j]? := by
    intro j
    rw [← hupd]
    exact getElem?_foldl_bump _ _ _ _ _ hnd
  have hFm : ns5[m]? = some (bumped (some tl) t.nodes.length
      (attach_m mn q p d t.nodes.length)) := by
    rw [hget, if_pos (List.mem_append_left _ (h2.self_mem hmn hmv)), hMm]
    rfl
  have hFN : ns5[t.nodes.length + 1]? = some (bumped (some tl) t.nodes.length
      (residual_node q p d t.nodes.length)) := by
    rw [hget, if_pos (by simp), hMN]
    rfl
  have hFold : ∀ (c : Nat) (cn : radix_tree_node V), t.nodes[c]? = some cn →
      cn.m_value = none → c ≠ m →
      ns5[c]? = some (if c ∈ anc m then bumped (some tl) t.nodes.length cn else cn) := by
    intro c cn hcn hcv hcm
    have hcL := lt_of_getElem? hcn
    rw [hget, hMold c cn hcn hcv hcm]
    by_cases hca : c ∈ anc m
    · rw [if_pos (List.mem_append_left _ hca), if_pos hca]
      rfl
    · rw [if_neg, if_neg hca]
      intro hm
      rcases List.mem_append.mp hm with hm | hm
      · exact hca hm
      · simp only [List.mem_singleton] at hm
        omega
  refine ⟨?_, ?_⟩
  · refine @WF2_attach V t.nodes ns5 chain lab par P anc h h2 m mn
      (attach_m mn q p d t.nodes.length)
      (residual_node q p d t.nodes.length) hmn hmv tl hl (q.getD d [])
      ⟨rfl, rfl, rfl, hmv, rfl⟩ ?_ ?_ ?_ ⟨rfl, rfl, rfl, rfl, rfl⟩
      (residual_decode hdec d hd) hFm hFN hFold ?_
    · intro e he
      rw [hchild] at he
      exact mem_map_assign he
    · rw [hchild, length_map_assign hstop]
      omega
    · rw [hchild]
      exact map_assign_keys_nodup hstop (h2.keys m mn hmn hmv)
    · intro i n1 hi hv
      rw [hget] at hi
      have : ∃ n0 : radix_tree_node V, mid[i]? = some n0 ∧ n0.m_value = none := by
        split_ifs at hi
        · cases hm : mid[i]? with
          | none => rw [hm] at hi; simp at hi
          | some n0 =>
            rw [hm] at hi
            simp only [Option.map_some', Option.some.injEq] at hi
            subst hi
            exact ⟨n0, rfl, hv⟩
        · exact ⟨n1, hi, hv⟩
      obtain ⟨n0, hn0, hn0v⟩ := this
      rcases hMcls i n0 hn0 hn0v with ⟨e, -⟩ | ⟨e, -⟩ | ⟨e, hold⟩
      · exact Or.inl e
      · exact Or.inr (Or.inl e)
      · exact Or.inr (Or.inr ⟨e, n0, hold, hn0v⟩)
  · intro i n k c hi hv hk
    by_cases him : i = m
    · subst him
      rw [hmn] at hi
      cases hi
      refine ⟨i, _, Or.inl rfl, hFm, hmv, ?_⟩
      show (k, c) ∈ (attach_m mn q p d t.nodes.length).m_children
      rw [hchild]
      exact mem_map_assign_of_mem hstop hk
    · refine ⟨i, _, Or.inl rfl, hFold i n hi hv him, ?_, ?_⟩
      · split_ifs
        · exact hv
        · exact hv
      · split_ifs
        · exact hk
        · exact hk

/-! ## The second invariant after the first insertion -/

theorem steps_childless {V : Type} {ns : List (radix_tree_node V)} {q : List Slice}
    {x dx : Nat} {path : List Nat} {m cnt d : Nat} (hs : Steps ns q x dx path m cnt d) :
    ∀ n : radix_tree_node V, ns[x]? = some n → n.m_children = [] → dx < q.length →
      d = dx := by
  induction hs with
  | exhausted x dx n hn hd =>
    intro _ _ _ _
    rfl
  | nochild x dx n hn hd hf =>
    intro _ _ _ _
    rfl
  | midedge x dx n c cn hn hd hf hcn hlt =>
    intro n1 hn1 hch _
    rw [hn] at hn1
    cases hn1
    rw [hch] at hf
    simp [map_find] at hf
  | step x dx n c cn path m cnt d hn hd hf hcn hfull hadv hrest ih =>
    intro n1 hn1 hch _
    rw [hn] at hn1
    cases hn1
    rw [hch] at hf
    simp [map_find] at hf

/-- The arena that the attach branch hands to `update_node` on a tree without leaves. -/
theorem first_shape {V : Type} {t : radix_tree V}
    {lab : Nat → List Nat} {par : Nat → Nat} {P : List (List Nat)}
    (h : WF t.nodes [] lab par P) (q : List Slice) (pattern : List Nat) (v : V)
    {depth : Nat} {mn : radix_tree_node V}
    (hmn : t.nodes[0]? = some mn) (hlast : mn.m_last = none)
    {mid : List (radix_tree_node V)} {pats : List (List Nat)}
    (hrew : attach_rewire t q pattern v 0 depth = some (mid, pats, none)) :
    ∀ j : Nat, mid[j]? =
      if j = 0 then some { attach_m mn q pattern depth t.nodes.length with
          m_first := some t.nodes.length, m_last := some t.nodes.length }
      else if j = t.nodes.length then some (attach_leaf mn q pattern v depth)
      else if j = t.nodes.length + 1 then
        (if depth ≠ q.length then some (residual_node q pattern depth t.nodes.length) else none)
      else none := by
  have hmL : 0 < t.nodes.length := lt_of_getElem? hmn
  have honly : ∀ (i : Nat) (n : radix_tree_node V), t.nodes[i]? = some n → i = 0 := by
    intro i n hn
    by_cases hnv : n.m_value = none
    · exact h.empty_chain.1 i n hn hnv
    · have := (h.chain_leaf i).mpr ⟨n, hn, hnv⟩
      simp at this
  have hlen : t.nodes.length = 1 := by
    by_contra hne
    have h1 : 1 < t.nodes.length := by omega
    have := honly 1 _ (List.getElem?_eq_getElem h1)
    omega
  have hbase := fun j => getElem?_attach_base t.nodes t.m_patterns q pattern v 0 depth j hmn
  have hmid : mid = upd (attach_base t.nodes t.m_patterns q pattern v 0 depth mn) 0
      (fun n => { n with m_first := some t.nodes.length, m_last := some t.nodes.length }) := by
    unfold attach_rewire at hrew
    simp only [hmn, hlast, Option.some.injEq, Prod.mk.injEq] at hrew
    rw [← hrew.1]
    rfl
  intro j
  rw [hmid, getElem?_upd]
  split_ifs with h1 h2 h3 h4
  · rw [hbase, if_pos rfl]; rfl
  · rw [hbase, if_neg h1, if_pos h2]
  · rw [hbase, if_neg h1, if_neg h2, if_pos h3, if_pos h4]
  · rw [hbase, if_neg h1, if_neg h2, if_pos h3, if_neg h4]
  · rw [hbase, if_neg h1, if_neg h2, if_neg h3, List.getElem?_eq_none (by omega)]

theorem first_WF2 {V : Type} {t : radix_tree V} {chain : List Nat}
    {lab : Nat → List Nat} {par : Nat → Nat} {P : List (List Nat)} {anc : Nat → List Nat}
    (hr : t.m_root = 0) (h : WF t.nodes chain lab par P) (h2 : WF2 t.nodes chain anc)
    {p : List Nat} {q : List Slice} (hdec : UTF8Decode p = some q) (hq : q ≠ []) (v : V)
    {m cnt d : Nat} (hfind : find_node t q = some (m, cnt, d))
    {mn : radix_tree_node V} (hmn : t.nodes[m]? = some mn) (hmv : mn.m_value = none)
    (hcnt : cnt = mn.m_key.length) (hl : mn.m_last = none)
    {mid : List (radix_tree_node V)} {pats : List (List Nat)}
    {ns5 : List (radix_tree_node V)}
    (hrew : attach_rewire t q p v m d = some (mid, pats, none))
    (hupd : update_node mid 0 q none t.nodes.length = some ns5) :
    chain = [] ∧ WF2 ns5 [t.nodes.length] (attach_anc anc 0 t.nodes.length) ∧
      Survive t.nodes ns5 := by
  obtain ⟨hm0, hce, -⟩ : m = 0 ∧ chain = [] ∧ mn.m_first = none := by
    rcases h.range m mn hmn hmv with ⟨h1, h2, h3, -⟩ | ⟨f, l, A, R, -, hl', -, -⟩
    · exact ⟨h1, h2, h3⟩
    · rw [hl] at hl'; cases hl'
  subst hm0
  subst hce
  refine ⟨rfl, ?_⟩
  have hch0 := h.empty_chain.2 mn hmn
  obtain ⟨hs, hmI⟩ := find_node_steps hr h h2 hq hfind
  have hqlen : 0 < q.length := List.length_pos.mpr hq
  have hd0 : d = 0 := steps_childless hs mn hmn hch0 hqlen
  subst hd0
  have hdne : (0 : Nat) ≠ q.length := by omega
  have hmid := first_shape h q p v hmn hl hrew
  obtain ⟨-, hrck, -, -⟩ := residual_spec hdec 0 hqlen
  have hmL : 0 < t.nodes.length := lt_of_getElem? hmn
  have hM0 := hmid 0
  rw [if_pos rfl] at hM0
  have hMN := hmid (t.nodes.length + 1)
  rw [if_neg (by omega), if_neg (by omega), if_pos rfl, if_pos hdne] at hMN
  have hchild : (attach_m mn q p 0 t.nodes.length).m_children =
      [(q.getD 0 [], t.nodes.length + 1)] := by
    simp only [attach_m, if_pos hdne, hrck, hch0, map_assign]
  have hMold : ∀ (c : Nat) (cn : radix_tree_node V), t.nodes[c]? = some cn →
      cn.m_value = none → c ≠ 0 → mid[c]? = some cn := by
    intro c cn hcn hcv hc0
    exact absurd (h.empty_chain.1 c cn hcn hcv) hc0
  obtain ⟨cnt1, hs1⟩ := steps_attach h h2 hs mn
    { attach_m mn q p 0 t.nodes.length with
      m_first := some t.nodes.length, m_last := some t.nodes.length }
    (residual_node q p 0 t.nodes.length) (t.nodes.length + 1) hmn hcnt hqlen hMold hM0 rfl
    (by
      show map_find (attach_m mn q p 0 t.nodes.length).m_children (q.getD 0 []) = _
      rw [hchild]
      simp [map_find]) hMN (residual_walk hdec 0 hqlen) hmI
  have hmidlen : 0 < mid.length := lt_of_getElem? hM0
  rw [update_node_steps hq none t.nodes.length hs1 hmidlen] at hupd
  simp only [Option.some.injEq] at hupd
  rw [h2.anc_root] at hupd
  have hget : ∀ j : Nat, ns5[j]? = if j ∈ [0] ++ [t.nodes.length + 1] then
      (mid[j]?).map (bumped none t.nodes.length) else mid[j]? := by
    intro j
    rw [← hupd]
    exact getElem?_foldl_bump _ _ _ _ _ (by simp)
  have hcount : mn.m_count = 0 := by
    have := (h2.run 0 mn hmn hmv).1
    simpa [run_of] using this
  refine ⟨?_, ?_⟩
  · refine @WF2_first V t.nodes ns5 lab par P anc h h2
      (bumped none t.nodes.length { attach_m mn q p 0 t.nodes.length with
        m_first := some t.nodes.length, m_last := some t.nodes.length })
      (bumped none t.nodes.length (residual_node q p 0 t.nodes.length)) (q.getD 0 [])
      ⟨?_, rfl, ?_, hmv⟩ ?_ ?_ ⟨rfl, rfl, ?_, rfl, rfl⟩ (residual_decode hdec 0 hqlen)
      ?_ ?_ ?_
    · show mn.m_count + 1 = 1
      rw [hcount]
    · simp [bumped]
    · intro e he
      have he' : e ∈ (attach_m mn q p 0 t.nodes.length).m_children := he
      rw [hchild] at he'
      simpa using he'
    · show ((attach_m mn q p 0 t.nodes.length).m_children.map Prod.fst).Nodup
      rw [hchild]
      simp
    · simp [bumped, residual_node]
    · rw [hget, if_pos (by simp), hM0]
      rfl
    · rw [hget, if_pos (by simp), hMN]
      rfl
    · intro i n1 hi hv
      rw [hget, hmid] at hi
      by_cases hi0 : i = 0
      · exact Or.inl hi0
      · by_cases hi1 : i = t.nodes.length + 1
        · exact Or.inr (Or.inl hi1)
        · exfalso
          rw [if_neg (by simp [hi0, hi1]), if_neg hi0, if_neg hi1] at hi
          split_ifs at hi with hiL
          simp only [Option.some.injEq] at hi
          subst hi
          simp [attach_leaf] at hv
  · intro i n k c hi hv hk
    have := h.empty_chain.1 i n hi hv
    subst this
    rw [hmn] at hi
    cases hi
    rw [hch0] at hk
    simp at hk

/-! ## The second invariant through the split branch of `insert` -/

theorem split_WF2 {V : Type} {t : radix_tree V} {chain : List Nat}
    {lab : Nat → List Nat} {par : Nat → Nat} {P : List (List Nat)} {anc : Nat → List Nat}
    (hr : t.m_root = 0) (h : WF t.nodes chain lab par P) (h2 : WF2 t.nodes chain anc)
    {p : List Nat} {q : List Slice} (hdec : UTF8Decode p = some q) (hq : q ≠ []) (v : V)
    {m cnt d : Nat} (hfind : find_node t q = some (m, cnt, d))
    {mn : radix_tree_node V} (hmn : t.nodes[m]? = some mn) (hmv : mn.m_value = none)
    (hlt : cnt < mn.m_key.length) (hdle : d ≤ q.length) {nk : Slice}
    (hsd : SliceDecode (mn.m_key.drop cnt) = some nk)
    (hfirst : ∀ (i : Nat) (ni : radix_tree_node V) (k : Slice), t.nodes[i]? = some ni →
      ni.m_value = none → (k, m) ∈ ni.m_children → k.length ≤ cnt)
    {mid : List (radix_tree_node V)} {pats : List (List Nat)} {tl : Nat}
    {ns5 : List (radix_tree_node V)}
    (hrew : split_rewire t q p v m cnt d nk = some (mid, pats, tl))
    (hupd : update_node mid 0 q (some tl) t.nodes.length = some ns5) :
    mn.m_last = some tl ∧
      WF2 ns5 (ins_after tl t.nodes.length chain)
        (split_anc anc m t.nodes.length (d ≠ q.length)) ∧
      Survive t.nodes ns5 := by
  obtain ⟨mid', pats', tl', hrew', hlast, hMm, hMc, hMN, hMold, hMcls⟩ :=
    @split_shape V t chain lab par P h q p v m cnt d mn hmn hmv hlt nk
  rw [hrew] at hrew'
  simp only [Option.some.injEq, Prod.mk.injEq] at hrew'
  obtain ⟨rfl, rfl, rfl⟩ := hrew'
  refine ⟨hlast, ?_⟩
  obtain ⟨r, hr0, hrv, hrk⟩ := h.root
  have hm0 : m ≠ 0 := by
    rintro rfl
    rw [hmn] at hr0
    cases hr0
    rw [hrk] at hlt
    simp at hlt
  obtain ⟨hs, hmI⟩ := find_node_steps hr h h2 hq hfind
  obtain ⟨-, -, -, hcp⟩ := UTF8Decode_spec hdec
  have hq_ne : ∀ u ∈ q, u ≠ [] := fun u hu => (hcp u hu).1
  have hmL : m < t.nodes.length := lt_of_getElem? hmn
  have hnkp := (SliceDecode_spec hsd).2
  -- the two child-map keys of the split node differ
  have hkne : d < q.length → nk ≠ q.getD d [] := by
    intro hd e
    exact steps_mismatch hs mn hmn hlt hd (e ▸ hnkp)
  have hrck : d < q.length → residual_child_key q p d = q.getD d [] := fun hd =>
    (residual_spec hdec d hd).2.1
  have hchild_res : d < q.length →
      (split_m mn cnt q p d nk t.nodes.length).m_children =
        map_assign [(nk, t.nodes.length + 1)] (q.getD d []) (t.nodes.length + 2) := by
    intro hd
    simp only [split_m, if_pos (show d ≠ q.length by omega), hrck hd, map_assign]
  have hchild_no : ¬ d < q.length →
      (split_m mn cnt q p d nk t.nodes.length).m_children = [(nk, t.nodes.length + 1)] := by
    intro hd
    simp only [split_m, if_neg (show ¬ d ≠ q.length by omega), map_assign]
  have hfind1 : d < q.length → map_find [(nk, t.nodes.length + 1)] (q.getD d []) = none := by
    intro hd
    simp only [map_find]
    rw [if_neg (hkne hd)]
  have hkey : (split_m mn cnt q p d nk t.nodes.length).m_key = mn.m_key.take cnt := by
    simp only [split_m]
    exact radix_substr_zero (by omega)
  obtain ⟨cnt1, hs1⟩ := steps_split h h2 hq_ne hs mn
    (split_m mn cnt q p d nk t.nodes.length) (residual_node q p d t.nodes.length)
    (t.nodes.length + 2) hmn hlt hMold hMm hkey
    (by
      intro hd
      refine ⟨?_, ?_, residual_walk hdec d hd⟩
      · rw [hchild_res hd]
        exact map_find_assign_self _ _ _
      · rw [hMN, if_pos (by omega)])
    ⟨r, hr0, hrv⟩
  have hmidlen : 0 < mid.length := lt_of_le_of_lt (Nat.zero_le _) (lt_of_getElem? hMm)
  rw [update_node_steps hq (some tl) t.nodes.length hs1 hmidlen] at hupd
  simp only [Option.some.injEq] at hupd
  have hfresh : ∀ k : Nat, t.nodes.length ≤ k → k ∉ anc m := fun k hk hm => by
    obtain ⟨⟨n, hn, -⟩, -⟩ := h2.anc_pref m _ (Or.inr hmI) hm
    exact absurd (lt_of_getElem? hn) (by omega)
  have hnd : (anc m ++ if d < q.length then [t.nodes.length + 2] else []).Nodup := by
    split_ifs
    · exact List.nodup_append.mpr ⟨h2.anc_nodup m (Or.inr hmI), List.nodup_singleton _,
        fun a ha hb => by
          simp only [List.mem_singleton] at hb
          subst hb
          exact hfresh _ (by omega) ha⟩
    · rw [List.append_nil]
      exact h2.anc_nodup m (Or.inr hmI)
  have hget : ∀ j : Nat, ns5[j]? =
      if j ∈ anc m ++ (if d < q.length then [t.nodes.length + 2] else []) then
        (mid[j]?).map (bumped (some tl) t.nodes.length) else mid[j]? := by
    intro j
    rw [← hupd]
    exact getElem?_foldl_bump _ _ _ _ _ hnd
  have hmem_path : ∀ j : Nat,
      j ∈ anc m ++ (if d < q.length then [t.nodes.length + 2] else []) ↔
        j ∈ anc m ∨ (d < q.length ∧ j = t.nodes.length + 2) := by
    intro j
    split_ifs with hd
    · simp [hd]
    · simp [hd]
  have hFm : ns5[m]? = some (bumped (some tl) t.nodes.length
      (split_m mn cnt q p d nk t.nodes.length)) := by
    rw [hget, if_pos ((hmem_path m).mpr (Or.inl (h2.self_mem hmn hmv))), hMm]
    rfl
  have hFc : ns5[t.nodes.length + 1]? = some (split_node mn cnt) := by
    rw [hget, if_neg, hMc]
    rw [hmem_path]
    rintro (hm | ⟨-, hm⟩)
    · exact hfresh _ (by omega) hm
    · omega
  have hFN : d ≠ q.length → ns5[t.nodes.length + 2]? =
      some (bumped (some tl) t.nodes.length (residual_node q p d t.nodes.length)) := by
    intro hd
    rw [hget, if_pos ((hmem_path _).mpr (Or.inr ⟨by omega, rfl⟩)), hMN, if_pos hd]
    rfl
  have hFold : ∀ (c : Nat) (cn : radix_tree_node V), t.nodes[c]? = some cn →
      cn.m_value = none → c ≠ m →
      ns5[c]? = some (if c ∈ anc m then bumped (some tl) t.nodes.length cn else cn) := by
    intro c cn hcn hcv hcm
    have hcL := lt_of_getElem? hcn
    rw [hget, hMold c cn hcn hcv hcm]
    by_cases hca : c ∈ anc m
    · rw [if_pos ((hmem_path c).mpr (Or.inl hca)), if_pos hca]
      rfl
    · rw [if_neg, if_neg hca]
      rw [hmem_path]
      rintro (hm | ⟨-, hm⟩)
      · exact hca hm
      · omega
  refine ⟨?_, ?_⟩
  · refine @WF2_split V t.nodes ns5 chain lab par P anc h h2 m mn
      (bumped (some tl) t.nodes.length (split_m mn cnt q p d nk t.nodes.length))
      (split_node mn cnt) (residual_node q p d t.nodes.length) hmn hmv hm0 tl hlast
      (d ≠ q.length) _ nk (q.getD d []) ⟨rfl, rfl, ?_, hmv⟩ ?_ ?_ ?_ ?_
      ⟨rfl, rfl, rfl, rfl, rfl⟩ hsd ⟨rfl, rfl, rfl, rfl, rfl⟩
      (fun hd => residual_decode hdec d (by omega)) hFm hFc hFN hFold ?_
    · simp only [bumped, split_m]
      split_ifs <;> rfl
    · intro i n k hi hv hk hsdk
      show SliceDecode (split_m mn cnt q p d nk t.nodes.length).m_key = some k
      rw [hkey]
      exact SliceDecode_take hsdk (hfirst i n k hi hv hk)
    · intro e he
      have he' : e ∈ (split_m mn cnt q p d nk t.nodes.length).m_children := he
      by_cases hd : d < q.length
      · rw [hchild_res hd] at he'
        rcases mem_map_assign he' with e1 | e1
        · exact Or.inr ⟨by omega, e1⟩
        · simp only [List.mem_singleton] at e1
          exact Or.inl e1
      · rw [hchild_no hd] at he'
        simp only [List.mem_singleton] at he'
        exact Or.inl he'
    · intro hd
      have hd' : d < q.length := by omega
      show 2 ≤ (split_m mn cnt q p d nk t.nodes.length).m_children.length
      rw [hchild_res hd', length_map_assign (hfind1 hd')]
      simp
    · show ((split_m mn cnt q p d nk t.nodes.length).m_children.map Prod.fst).Nodup
      by_cases hd : d < q.length
      · rw [hchild_res hd]
        exact map_assign_keys_nodup (hfind1 hd) (by simp)
      · rw [hchild_no hd]
        simp
    · intro i n1 hi hv
      rw [hget] at hi
      have : ∃ n0 : radix_tree_node V, mid[i]? = some n0 ∧ n0.m_value = none := by
        by_cases hp : i ∈ anc m ++ (if d < q.length then [t.nodes.length + 2] else [])
        · rw [if_pos hp] at hi
          cases hm : mid[i]? with
          | none => rw [hm] at hi; simp at hi
          | some n0 =>
            rw [hm] at hi
            simp only [Option.map_some', Option.some.injEq] at hi
            subst hi
            exact ⟨n0, rfl, hv⟩
        · rw [if_neg hp] at hi
          exact ⟨n1, hi, hv⟩
      obtain ⟨n0, hn0, hn0v⟩ := this
      rcases hMcls i n0 hn0 hn0v with ⟨e, -⟩ | ⟨e, -⟩ | ⟨e, hd, -⟩ | ⟨e, hold⟩
      · exact Or.inl e
      · exact Or.inr (Or.inl e)
      · exact Or.inr (Or.inr (Or.inl ⟨hd, e⟩))
      · exact Or.inr (Or.inr (Or.inr ⟨e, n0, hold, hn0v⟩))
  · intro i n k c hi hv hk
    by_cases him : i = m
    · subst him
      rw [hmn] at hi
      cases hi
      refine ⟨t.nodes.length + 1, _, Or.inr ⟨rfl, _, nk, hFm, ?_⟩, hFc, rfl, hk⟩
      show (nk, t.nodes.length + 1) ∈ (split_m mn cnt q p d nk t.nodes.length).m_children
      by_cases hd : d < q.length
      · rw [hchild_res hd]
        exact mem_map_assign_of_mem (hfind1 hd) (List.mem_singleton_self _)
      · rw [hchild_no hd]
        exact List.mem_singleton_self _
    · refine ⟨i, _, Or.inl rfl, hFold i n hi hv him, ?_, ?_⟩
      · split_ifs
        · exact hv
        · exact hv
      · split_ifs
        · exact hk
        · exact hk


/-! ## The second invariant through `insert` -/

theorem WF2_same {V : Type} {ns ns1 : List (radix_tree_node V)} {chain : List Nat}
    {lab : Nat → List Nat} {par : Nat → Nat} {P : List (List Nat)} {anc : Nat → List Nat}
    (h : WF ns chain lab par P) (h2 : WF2 ns chain anc)
    (hs : ∀ (i : Nat) (n : radix_tree_node V),
      (ns1[i]? = some n ∧ n.m_value = none) ↔ (ns[i]? = some n ∧ n.m_value = none)) :
    WF2 ns1 chain anc := by
  have hI : ∀ z : Nat, Interior ns1 z ↔ Interior ns z := fun z =>
    ⟨fun ⟨n, a, b⟩ => ⟨n, ((hs z n).mp ⟨a, b⟩).1, b⟩,
      fun ⟨n, a, b⟩ => ⟨n, ((hs z n).mpr ⟨a, b⟩).1, b⟩⟩
  constructor
  · exact h2.anc_root
  · intro i n k c hi hv hk
    exact h2.anc_child i n k c ((hs i n).mp ⟨hi, hv⟩).1 hv hk
  · intro i n hi hv
    exact h2.anc_self i n ((hs i n).mp ⟨hi, hv⟩).1 hv
  · intro z y hz hy
    have hz' : z ∈ chain ∨ Interior ns z := hz.imp id (hI z).mp
    obtain ⟨a, b⟩ := h2.anc_pref z y hz' hy
    exact ⟨(hI y).mpr a, b⟩
  · intro z hz
    exact h2.anc_nodup z (hz.imp id (hI z).mp)
  · intro i n hi hv
    exact h2.run i n ((hs i n).mp ⟨hi, hv⟩).1 hv
  · intro i n hi hv hi0 hlen
    exact h2.host i n ((hs i n).mp ⟨hi, hv⟩).1 hv hi0 hlen
  · intro i n k c hi hv hk
    have hi' := ((hs i n).mp ⟨hi, hv⟩).1
    obtain ⟨cn, hcn, hsd⟩ := h2.key i n k c hi' hv hk
    obtain ⟨cn', hcn', hcv, -⟩ := h.child i n k c hi' hv hk
    rw [hcn] at hcn'
    cases hcn'
    exact ⟨cn, ((hs c cn).mpr ⟨hcn, hcv⟩).1, hsd⟩
  · intro i n hi hv
    exact h2.keys i n ((hs i n).mp ⟨hi, hv⟩).1 hv

theorem WF2_fresh (V : Type) : WF2 (radix_tree.fresh V).nodes [] (fun _ => [0]) := by
  have hone : ∀ (i : Nat) (n : radix_tree_node V), (radix_tree.fresh V).nodes[i]? = some n →
      i = 0 ∧ n = {} := by
    intro i n hi
    cases i with
    | zero =>
      simp [radix_tree.fresh] at hi
      exact ⟨rfl, hi.symm⟩
    | succ i => simp [radix_tree.fresh] at hi
  have hI : ∀ z : Nat, (z ∈ ([] : List Nat) ∨ Interior (radix_tree.fresh V).nodes z) →
      z = 0 := by
    rintro z (hz | ⟨n, hn, -⟩)
    · simp at hz
    · exact (hone z n hn).1
  constructor
  · rfl
  · intro i n k c hi hv hk
    obtain ⟨-, rfl⟩ := hone i n hi
    simp at hk
  · intro i n hi hv
    obtain ⟨rfl, -⟩ := hone i n hi
    rfl
  · intro z y hz hy
    simp only [List.mem_singleton] at hy
    subst hy
    exact ⟨⟨{}, rfl, rfl⟩, List.prefix_refl _⟩
  · intro z hz
    simp
  · intro i n hi hv
    obtain ⟨-, rfl⟩ := hone i n hi
    simp [run_of]
  · intro i n hi hv hi0
    exact absurd (hone i n hi).1 hi0
  · intro i n k c hi hv hk
    obtain ⟨-, rfl⟩ := hone i n hi
    simp at hk
  · intro i n hi hv
    obtain ⟨-, rfl⟩ := hone i n hi
    simp

theorem LeafNE_step {V : Type} {ns mid ns5 : List (radix_tree_node V)} {chain1 : List Nat}
    {lab1 : Nat → List Nat} {par1 : Nat → Nat} {P1 : List (List Nat)} {o : Option Nat}
    {L : Nat} {v : V} (hne : LeafNE ns) (hwf : WF mid chain1 lab1 par1 P1)
    (hb : Bumped o L mid ns5)
    (hchain : ∀ a ∈ chain1, a = L ∨ ∃ n : radix_tree_node V, ns[a]? = some n ∧
      n.m_value ≠ none)
    (hval : ∀ (a : Nat) (n : radix_tree_node V), ns[a]? = some n → n.m_value ≠ none →
      ∃ n1 : radix_tree_node V, mid[a]? = some n1 ∧ n1.m_value = n.m_value)
    (hL : ∃ nL : radix_tree_node V, mid[L]? = some nL ∧ nL.m_value = some [v]) :
    LeafNE ns5 := by
  intro a n5 hn5 hv5
  have haL : a < mid.length := by
    rw [← hb.1]
    exact lt_of_getElem? hn5
  obtain ⟨n, hn⟩ : ∃ n, mid[a]? = some n := ⟨_, List.getElem?_eq_getElem haL⟩
  obtain ⟨n5', hn5', -, -, -, -, e5, -⟩ := hb.2 a n hn
  rw [hn5] at hn5'
  cases hn5'
  rw [hv5] at e5
  have hac : a ∈ chain1 := (hwf.chain_leaf a).mpr ⟨n, hn, by rw [← e5]; simp⟩
  rcases hchain a hac with rfl | ⟨n0, hn0, hn0v⟩
  · obtain ⟨nL, hnL, hnLv⟩ := hL
    rw [hn] at hnL
    cases hnL
    rw [hnLv] at e5
    simp at e5
  · obtain ⟨n1, hn1, e1⟩ := hval a n0 hn0 hn0v
    rw [hn] at hn1
    cases hn1
    exact hne a n0 hn0 (by rw [← e1, ← e5])

/-- One call of `insert` on a well-formed tree returns, keeps both invariants and removes no
child-map entry. -/
theorem insert_ok2 {V : Type} {t : radix_tree V} {chain : List Nat} {lab : Nat → List Nat}
    {par : Nat → Nat} {P : List (List Nat)} {anc : Nat → List Nat} (hr : t.m_root = 0)
    (h : WF t.nodes chain lab par P) (h2 : WF2 t.nodes chain anc) (p : List Nat) (v : V) :
    ∃ t1 chain1 lab1 par1 anc1, insert t p v = some t1 ∧ t1.m_root = 0 ∧
      WF t1.nodes chain1 lab1 par1 (if accepted p = true then p :: P else P) ∧
      WF2 t1.nodes chain1 anc1 ∧ Survive t.nodes t1.nodes ∧
        (LeafNE t.nodes → LeafNE t1.nodes) := by
  have hmono : WF t.nodes chain lab par (if accepted p = true then p :: P else P) :=
    h.mono (fun x hx => by split_ifs <;> simp [hx])
  have hsurv : Survive t.nodes t.nodes := fun i n k c hi hv hk => ⟨i, n, Or.inl rfl, hi, hv, hk⟩
  have hsame : ∃ t1 chain1 lab1 par1 anc1, some t = some t1 ∧ t1.m_root = 0 ∧
      WF t1.nodes chain1 lab1 par1 (if accepted p = true then p :: P else P) ∧
      WF2 t1.nodes chain1 anc1 ∧ Survive t.nodes t1.nodes ∧
        (LeafNE t.nodes → LeafNE t1.nodes) :=
    ⟨t, chain, lab, par, anc, rfl, hr, hmono, h2, hsurv, id⟩
  unfold insert
  by_cases hp0 : p = []
  · rw [if_pos hp0]; exact hsame
  rw [if_neg hp0]
  cases hdec : UTF8Decode p with
  | none => exact hsame
  | some q =>
    simp only
    by_cases hq0 : q = []
    · rw [if_pos hq0]; exact hsame
    rw [if_neg hq0]
    have hacc : accepted p = true := by
      unfold accepted; rw [hdec]; simp [hp0, hq0]
    rw [hacc] at hmono hsame ⊢
    simp only [if_true] at hmono hsame ⊢
    obtain ⟨⟨m, count, depth⟩, hfind, hf⟩ := find_node_ok hr h q
    obtain ⟨mn, hmn, hmv, hcle, hlab⟩ := hf.node
    simp only at hmn hcle hlab
    simp only [hfind, hmn]
    have hnd := h.chain_nodup
    -- the branch that splits an edge
    have hsplit : count < mn.m_key.length →
        ∃ t1 chain1 lab1 par1 anc1,
          (match SliceDecode (radix_substr mn.m_key count (mn.m_key.length - count)) with
            | none => some t
            | some new_key => insert_split t q p v m count depth new_key) = some t1 ∧
          t1.m_root = 0 ∧ WF t1.nodes chain1 lab1 par1 (p :: P) ∧
          WF2 t1.nodes chain1 anc1 ∧ Survive t.nodes t1.nodes ∧
        (LeafNE t.nodes → LeafNE t1.nodes) := by
      intro hlt
      cases hsd : SliceDecode (radix_substr mn.m_key count (mn.m_key.length - count)) with
      | none => exact hsame
      | some new_key =>
        simp only
        have hnk := SliceDecode_spec hsd
        have hsd' := hsd
        rw [radix_substr_eq (by omega), List.take_of_length_le (by simp)] at hnk hsd'
        obtain ⟨mid, pats, l1, l2, tl, lab1, par1, hrew, hlast, hc, hwf, -, hval, hL⟩ :=
          split_rewire_WF h hdec v hmn hmv hf.depth_le hlt hlab hf.first hnk
        obtain ⟨ns5, hupd, hb⟩ := update_node_ok hwf q (some tl) t.nodes.length
        obtain ⟨-, hw2, hsv⟩ := split_WF2 hr h h2 hdec hq0 v hfind hmn hmv hlt hf.depth_le
          hsd' hf.first hrew hupd
        have htl1 : tl ∉ l1 := fun hm =>
          (List.nodup_append.mp (hc ▸ hnd)).2.2 hm (List.mem_cons_self _ _)
        rw [hc, ins_after_split htl1] at hw2
        refine ⟨{ t with nodes := ns5, m_patterns := pats }, _, lab1, par1, _, ?_, hr,
          WF_of_Bumped hwf (After_ins hwf.chain_nodup) hb, hw2, hsv, ?_⟩
        · unfold insert_split
          simp only [hrew, hr, hupd]
        · intro hne
          refine LeafNE_step hne hwf hb ?_ hval hL
          intro a ha
          have : a = t.nodes.length ∨ a ∈ chain := by
            rw [hc]
            simp only [List.mem_append, List.mem_cons] at ha ⊢
            tauto
          rcases this with e | e
          · exact Or.inl e
          · exact Or.inr ((h.chain_leaf a).mp e)
    -- the branch that hangs a leaf below the matched node
    have hattach : count = mn.m_key.length →
        (mn.m_last ≠ none → depth ≠ q.length) →
        ∃ t1 chain1 lab1 par1 anc1, insert_attach t q p v m depth = some t1 ∧
          t1.m_root = 0 ∧ WF t1.nodes chain1 lab1 par1 (p :: P) ∧
          WF2 t1.nodes chain1 anc1 ∧ Survive t.nodes t1.nodes ∧
        (LeafNE t.nodes → LeafNE t1.nodes) := by
      intro hcnt hdep
      have hlab' : lab m = (q.take depth).flatten := by
        rw [hlab, List.drop_of_length_le (by omega), List.append_nil]
      cases hl : mn.m_last with
      | none =>
        obtain ⟨mid, pats, lab1, par1, hrew, hc, hwf, -, hL⟩ :=
          attach_rewire_WF_empty h hdec v hmn hmv hf.depth_le hlab' hl
        obtain ⟨ns5, hupd, hb⟩ := update_node_ok hwf q none t.nodes.length
        obtain ⟨-, hw2, hsv⟩ := first_WF2 hr h h2 hdec hq0 v hfind hmn hmv hcnt hl hrew hupd
        refine ⟨{ t with nodes := ns5, m_patterns := pats }, _, lab1, par1, _, ?_, hr,
          WF_of_Bumped hwf (by simp [After]) hb, hw2, hsv, ?_⟩
        · unfold insert_attach
          simp only [hrew, hr, hupd]
        · intro hne
          refine LeafNE_step hne hwf hb ?_ ?_ hL
          · intro a ha
            simp only [List.mem_singleton] at ha
            exact Or.inl ha
          · intro a n hn hnv
            have := (h.chain_leaf a).mpr ⟨n, hn, hnv⟩
            rw [hc] at this
            simp at this
      | some tl =>
        obtain ⟨mid, pats, l1, l2, lab1, par1, hrew, hc, hwf, -, hval, hL⟩ :=
          attach_rewire_WF h hdec v hmn hmv hf.depth_le hlab' hl
        obtain ⟨ns5, hupd, hb⟩ := update_node_ok hwf q (some tl) t.nodes.length
        have hd : depth < q.length :=
          lt_of_le_of_ne hf.depth_le (hdep (by rw [hl]; simp))
        have hstop : map_find mn.m_children (q.getD depth []) = none := by
          rcases hf.stop with e | e
          · simp only at e
            omega
          · rcases e mn hmn with e | e
            · simp only at e
              omega
            · exact e
        obtain ⟨hw2, hsv⟩ := attach_WF2 hr h h2 hdec v hfind hmn hmv hcnt hd hl hstop hrew hupd
        have htl1 : tl ∉ l1 := fun hm =>
          (List.nodup_append.mp (hc ▸ hnd)).2.2 hm (List.mem_cons_self _ _)
        rw [hc, ins_after_split htl1] at hw2
        refine ⟨{ t with nodes := ns5, m_patterns := pats }, _, lab1, par1, _, ?_, hr,
          WF_of_Bumped hwf (After_ins hwf.chain_nodup) hb, hw2, hsv, ?_⟩
        · unfold insert_attach
          simp only [hrew, hr, hupd]
        · intro hne
          refine LeafNE_step hne hwf hb ?_ hval hL
          intro a ha
          have : a = t.nodes.length ∨ a ∈ chain := by
            rw [hc]
            simp only [List.mem_append, List.mem_cons] at ha ⊢
            tauto
          rcases this with e | e
          · exact Or.inl e
          · exact Or.inr ((h.chain_leaf a).mp e)
    -- the exact-key test
    by_cases hex : depth = q.length ∧ count = mn.m_key.length
    · rw [if_pos hex]
      rcases h.range m mn hmn hmv with ⟨-, -, hf0, hl0⟩ | ⟨f, l, A, R, hf1, -, hAR, -⟩
      · simp only [hf0]
        rw [if_neg (by omega), if_pos hex.2]
        exact hattach hex.2 (fun hne => absurd hl0 hne)
      · have hfc : f ∈ chain := by rw [hAR]; simp
        obtain ⟨fn, hfn, hfv⟩ := (h.chain_leaf f).mp hfc
        obtain ⟨vs, hvs⟩ : ∃ vs, fn.m_value = some vs := Option.ne_none_iff_exists'.mp hfv
        simp only [hf1, hfn, hvs]
        have hint : ∀ (i : Nat) (n : radix_tree_node V),
            ((upd t.nodes f (fun n => { n with m_value := some (vs ++ [v]) }))[i]? = some n ∧
              n.m_value = none) ↔ (t.nodes[i]? = some n ∧ n.m_value = none) := by
          intro i n
          rw [getElem?_upd]
          split_ifs with hif
          · subst hif
            rw [hfn]
            constructor
            · rintro ⟨a, b⟩
              simp only [Option.map_some', Option.some.injEq] at a
              subst a
              simp at b
            · rintro ⟨a, b⟩
              simp only [Option.some.injEq] at a
              subst a
              rw [hvs] at b
              simp at b
          · exact Iff.rfl
        refine ⟨_, chain, lab, par, anc, rfl, hr,
          WF_of_SameShape hmono (SameShape_upd _ _ _ ?_), WF2_same h h2 hint, ?_, ?_⟩
        · intro n hn
          rw [hfn] at hn; cases hn
          refine ⟨rfl, rfl, rfl, rfl, ?_⟩
          simp [hvs]
        · intro i n k c hi hv hk
          exact ⟨i, n, Or.inl rfl, ((hint i n).mpr ⟨hi, hv⟩).1, hv, hk⟩
        · intro hne a n hn
          simp only at hn
          rw [getElem?_upd] at hn
          split_ifs at hn with haf
          · rw [hfn] at hn
            simp only [Option.map_some', Option.some.injEq] at hn
            subst hn
            simp
          · exact hne a n hn
    · rw [if_neg hex]
      by_cases hlt : count < mn.m_key.length
      · rw [if_pos hlt]
        exact hsplit hlt
      · rw [if_neg hlt, if_pos (by omega)]
        exact hattach (by omega) (fun _ hd => hex ⟨hd, by omega⟩)

theorem insert_list_ok2 {V : Type} (ops : List (List Nat × V)) :
    ∀ {t : radix_tree V} {chain : List Nat} {lab : Nat → List Nat} {par : Nat → Nat}
      {P : List (List Nat)} {anc : Nat → List Nat}, t.m_root = 0 →
      WF t.nodes chain lab par P → WF2 t.nodes chain anc →
      LeafNE t.nodes →
      ∃ t1 chain1 lab1 par1 P1 anc1, insert_list t ops = some t1 ∧ t1.m_root = 0 ∧
        WF t1.nodes chain1 lab1 par1 P1 ∧ WF2 t1.nodes chain1 anc1 ∧ LeafNE t1.nodes := by
  induction ops with
  | nil =>
    intro t chain lab par P anc hr h h2 hne
    exact ⟨t, chain, lab, par, P, anc, rfl, hr, h, h2, hne⟩
  | cons op ops ih =>
    intro t chain lab par P anc hr h h2 hne
    obtain ⟨p, v⟩ := op
    obtain ⟨t1, chain1, lab1, par1, anc1, hins, hr1, h1, h21, -, hne1⟩ :=
      insert_ok2 hr h h2 p v
    obtain ⟨t2, chain2, lab2, par2, P2, anc2, hl, hr2, hw, hw2, hne2⟩ :=
      ih hr1 h1 h21 (hne1 hne)
    refine ⟨t2, chain2, lab2, par2, P2, anc2, ?_, hr2, hw, hw2, hne2⟩
    simp only [insert_list, hins, hl]

/-- Every sequence of `insert` calls on a fresh tree returns, with a tree that satisfies both
invariants. -/
theorem build_ok2 {V : Type} (ops : List (List Nat × V)) :
    ∃ t chain lab par P anc, build ops = some t ∧ t.m_root = 0 ∧
      WF t.nodes chain lab par P ∧ WF2 t.nodes chain anc ∧ LeafNE t.nodes := by
  apply insert_list_ok2 ops (t := radix_tree.fresh V) rfl (WF_fresh V) (WF2_fresh V)
  intro a n hn
  cases a with
  | zero =>
    simp [radix_tree.fresh] at hn
    subst hn
    simp
  | succ a => simp [radix_tree.fresh] at hn

/-! ## Reachable nodes and their runs -/

theorem reach_interior {V : Type} {ns : List (radix_tree_node V)} {chain : List Nat}
    {lab : Nat → List Nat} {par : Nat → Nat} {P : List (List Nat)}
    (h : WF ns chain lab par P) {i : Nat} (hr : Reach ns 0 i) : Interior ns i := by
  induction hr with
  | root =>
    obtain ⟨r, hr0, hrv, -⟩ := h.root
    exact ⟨r, hr0, hrv⟩
  | child i c n k _ hn hk ih =>
    obtain ⟨n', hn', hv⟩ := ih
    rw [hn] at hn'
    cases hn'
    obtain ⟨cn, hcn, hcv, -⟩ := h.child i n k c hn hv hk
    exact ⟨cn, hcn, hcv⟩

theorem range_walk_run {V : Type} (ns : List (radix_tree_node V)) (l : Nat) (T : List Nat) :
    ∀ (S : List Nat) (fuel : Nat),
      (S ++ l :: T).Chain' (fun a b => ∃ na nb : radix_tree_node V,
        ns[a]? = some na ∧ ns[b]? = some nb ∧ na.m_last = some b ∧ nb.m_first = some a) →
      (∃ nl : radix_tree_node V, ns[l]? = some nl) → l ∉ S → S.length < fuel →
      range_walk ns (some l) fuel ((S ++ [l]).head?) = some (S ++ [l]) := by
  intro S
  induction S with
  | nil =>
    intro fuel _ hl _ hfuel
    obtain ⟨nl, hnl⟩ := hl
    obtain ⟨fuel, rfl⟩ : ∃ f, fuel = f + 1 := ⟨fuel - 1, by omega⟩
    simp [range_walk, hnl]
  | cons a S ih =>
    intro fuel hch hl hlS hfuel
    obtain ⟨fuel, rfl⟩ : ∃ f, fuel = f + 1 := ⟨fuel - 1, by simp at hfuel; omega⟩
    simp only [List.mem_cons, not_or] at hlS
    have hna : ∃ na : radix_tree_node V, ns[a]? = some na ∧
        na.m_last = (S ++ [l]).head? := by
      cases S with
      | nil =>
        obtain ⟨na, -, hna, -, hnl, -⟩ := (List.chain'_cons.mp hch).1
        exact ⟨na, hna, by simpa using hnl⟩
      | cons b S =>
        obtain ⟨na, -, hna, -, hnl, -⟩ := (List.chain'_cons.mp hch).1
        exact ⟨na, hna, by simpa using hnl⟩
    obtain ⟨na, hna, hnl⟩ := hna
    have hne : ¬ (some a = some l) := by
      intro e
      exact hlS.1 (Option.some.inj e).symm
    simp only [List.cons_append, List.head?_cons, range_walk, hna, if_neg hne, hnl]
    rw [ih fuel (List.Chain'.tail hch) hl hlS.2 (by simp at hfuel; omega)]
    rfl

/-- The walk from `m_first` to `m_last` of an interior node visits exactly its run. -/
theorem node_range_walk {V : Type} {ns : List (radix_tree_node V)} {chain : List Nat}
    {lab : Nat → List Nat} {par : Nat → Nat} {P : List (List Nat)} {anc : Nat → List Nat}
    (h : WF ns chain lab par P) (h2 : WF2 ns chain anc) {i : Nat} {n : radix_tree_node V}
    (hn : ns[i]? = some n) (hv : n.m_value = none) :
    range_walk ns n.m_last ns.length n.m_first = some (run_of anc chain i) := by
  obtain ⟨-, r2, r3, r4⟩ := h2.run i n hn hv
  rcases List.eq_nil_or_concat (run_of anc chain i) with he | ⟨S, l, he⟩
  · rw [he] at r2 ⊢
    rw [r2]
    cases ns.length <;> rfl
  · have he' : run_of anc chain i = S ++ [l] := by rw [he]; simp
    have hlast : (S ++ [l]).getLast? = some l := by simp
    rw [he'] at r2 r3 r4 ⊢
    rw [r2, r3, hlast]
    obtain ⟨A, T, hc⟩ := r4
    have hc1 : chain = A ++ (S ++ l :: T) := by rw [← hc]; simp
    have hnd : (S ++ l :: T).Nodup := by
      have := h.chain_nodup
      rw [hc1] at this
      exact (List.nodup_append.mp this).2.1
    have hlS : l ∉ S := fun hin =>
      (List.nodup_append.mp hnd).2.2 hin (List.mem_cons_self _ _)
    have hch : (S ++ l :: T).Chain' (fun a b => ∃ na nb : radix_tree_node V,
        ns[a]? = some na ∧ ns[b]? = some nb ∧ na.m_last = some b ∧ nb.m_first = some a) := by
      have := h.chain_link
      rw [hc1] at this
      exact this.right_of_append
    have hlc : l ∈ chain := by rw [hc1]; simp
    obtain ⟨nl, hnl, -⟩ := (h.chain_leaf l).mp hlc
    have hlen : S.length < ns.length := by
      have := h.chain_length_le
      rw [hc1] at this
      simp at this
      omega
    exact range_walk_run ns l T S ns.length hch ⟨nl, hnl⟩ hlS hlen

/-- The run of a child lies in the run of its parent, in the same order. -/
theorem child_run_sublist {V : Type} {ns : List (radix_tree_node V)} {chain : List Nat}
    {anc : Nat → List Nat} (h2 : WF2 ns chain anc) {i : Nat} {n : radix_tree_node V}
    (hn : ns[i]? = some n) (hv : n.m_value = none) {k : Slice} {c : Nat}
    (hk : (k, c) ∈ n.m_children) :
    run_of anc chain c = (run_of anc chain i).filter (fun a => decide (c ∈ anc a)) := by
  unfold run_of
  rw [List.filter_filter]
  apply List.filter_congr
  intro a ha
  have hc := h2.anc_child i n k c hn hv hk
  by_cases hca : c ∈ anc a
  · have hia : i ∈ anc a := by
      apply h2.anc_trans (Or.inl ha) hca
      rw [hc]
      exact List.mem_append_left _ (h2.self_mem hn hv)
    simp [hca, hia]
  · simp [hca]

theorem child_not_above {V : Type} {ns : List (radix_tree_node V)} {chain : List Nat}
    {lab : Nat → List Nat} {par : Nat → Nat} {P : List (List Nat)} {anc : Nat → List Nat}
    (h : WF ns chain lab par P) (h2 : WF2 ns chain anc) {i : Nat} {n : radix_tree_node V}
    (hn : ns[i]? = some n) (hv : n.m_value = none) {k : Slice} {c : Nat}
    (hk : (k, c) ∈ n.m_children) : c ∉ anc i := by
  obtain ⟨cn, hcn, hcv, -⟩ := h.child i n k c hn hv hk
  have hc := h2.anc_child i n k c hn hv hk
  have := h2.anc_nodup c (Or.inr ⟨cn, hcn, hcv⟩)
  rw [hc] at this
  exact fun hm => (List.nodup_append.mp this).2.2 hm (List.mem_singleton_self _)

/-- The runs of two distinct children of one node share no leaf. -/
theorem sibling_runs_disjoint {V : Type} {ns : List (radix_tree_node V)} {chain : List Nat}
    {anc : Nat → List Nat} (h2 : WF2 ns chain anc) {i : Nat} {n : radix_tree_node V}
    (hn : ns[i]? = some n) (hv : n.m_value = none) {k1 k2 : Slice} {c1 c2 : Nat}
    (h1 : (k1, c1) ∈ n.m_children) (hk2 : (k2, c2) ∈ n.m_children) (hne : c1 ≠ c2) (a : Nat)
    (ha1 : a ∈ run_of anc chain c1) : a ∉ run_of anc chain c2 := by
  intro ha2
  obtain ⟨hac, hc1⟩ := mem_run_of.mp ha1
  obtain ⟨-, hc2⟩ := mem_run_of.mp ha2
  have e1 := h2.anc_child i n k1 c1 hn hv h1
  have e2 := h2.anc_child i n k2 c2 hn hv hk2
  have p1 := (h2.anc_pref a c1 (Or.inl hac) hc1).2
  have p2 := (h2.anc_pref a c2 (Or.inl hac) hc2).2
  rw [e1] at p1
  rw [e2] at p2
  have := List.prefix_of_prefix_length_le p1 p2 (by simp)
  have e := this.eq_of_length (by simp)
  have := List.append_cancel_left e
  simp at this
  exact hne this

/-- A non-root node with at most one child hosts a leaf that its child does not reach. -/
theorem count_gt_child {V : Type} {ns : List (radix_tree_node V)} {chain : List Nat}
    {lab : Nat → List Nat} {par : Nat → Nat} {P : List (List Nat)} {anc : Nat → List Nat}
    (h : WF ns chain lab par P) (h2 : WF2 ns chain anc) {i : Nat} {n : radix_tree_node V}
    (hn : ns[i]? = some n) (hv : n.m_value = none) (hi0 : i ≠ 0)
    (hlen : n.m_children.length ≤ 1) {k : Slice} {c : Nat} (hk : (k, c) ∈ n.m_children)
    {cn : radix_tree_node V} (hcn : ns[c]? = some cn) : cn.m_count < n.m_count := by
  obtain ⟨cn', hcn', hcv, -⟩ := h.child i n k c hn hv hk
  rw [hcn] at hcn'
  cases hcn'
  rw [(h2.run i n hn hv).1, (h2.run c cn hcn hcv).1, child_run_sublist h2 hn hv hk]
  obtain ⟨a, ha, hai⟩ := h2.host i n hn hv hi0 hlen
  apply List.length_filter_lt_length_iff_exists.mpr
  refine ⟨a, mem_run_of.mpr ⟨ha, by rw [hai]; exact h2.self_mem hn hv⟩, ?_⟩
  simp only [decide_eq_true_eq]
  rw [hai]
  exact child_not_above h h2 hn hv hk

/-- The leaf chain is doubly linked: the successor of a leaf points back to it. -/
theorem leaf_back_link {V : Type} {ns : List (radix_tree_node V)} {chain : List Nat}
    {lab : Nat → List Nat} {par : Nat → Nat} {P : List (List Nat)}
    (h : WF ns chain lab par P) {l s : Nat} {ln : radix_tree_node V}
    (hl : ns[l]? = some ln) (hlv : ln.m_value ≠ none) (hs : ln.m_last = some s) :
    ∃ sn : radix_tree_node V, ns[s]? = some sn ∧ sn.m_value ≠ none ∧ sn.m_first = some l := by
  have hlc := (h.chain_leaf l).mpr ⟨ln, hl, hlv⟩
  obtain ⟨l1, l2, hc⟩ := List.append_of_mem hlc
  have hnext := h.next_eq hc hl
  rw [hs] at hnext
  cases l2 with
  | nil => simp at hnext
  | cons b l2 =>
    simp only [List.head?_cons, Option.some.injEq] at hnext
    subst hnext
    have hch := h.chain_link
    rw [hc] at hch
    obtain ⟨-, sn, -, hsn, -, hback⟩ := (List.chain'_cons.mp hch.right_of_append).1
    have hsc : s ∈ chain := by rw [hc]; simp
    obtain ⟨sn', hsn', hsv⟩ := (h.chain_leaf s).mp hsc
    rw [hsn] at hsn'
    cases hsn'
    exact ⟨sn, hsn, hsv, hback⟩

/-- A node reachable before an `insert` is reachable after it. -/
theorem reach_survive {V : Type} {ns ns1 : List (radix_tree_node V)} {chain : List Nat}
    {lab : Nat → List Nat} {par : Nat → Nat} {P : List (List Nat)}
    (h : WF ns chain lab par P) (hsv : Survive ns ns1) {i : Nat} (hr : Reach ns 0 i) :
    Reach ns1 0 i := by
  induction hr with
  | root => exact Reach.root
  | child i c n k hri hn hk ih =>
    obtain ⟨n', hn', hv⟩ := reach_interior h hri
    rw [hn] at hn'
    cases hn'
    obtain ⟨j, n1, hj, hn1, -, hk1⟩ := hsv i n k c hn hv hk
    rcases hj with rfl | ⟨-, ni, kj, hni, hkj⟩
    · exact Reach.child j c n1 k ih hn1 hk1
    · exact Reach.child j c n1 k (Reach.child i j ni kj ih hni hkj) hn1 hk1


/-! ## What `insert`, `finish` and `clear` leave alone -/

theorem HeapsNodup_upd_same {V : Type} {ns : List (radix_tree_node V)} (h : HeapsNodup ns)
    (i : Nat) (f : radix_tree_node V → radix_tree_node V)
    (hf : ∀ n : radix_tree_node V, (f n).m_heap = n.m_heap ∨ (f n).m_heap = none) :
    HeapsNodup (upd ns i f) := by
  intro j n heap hj hh
  rw [getElem?_upd] at hj
  split_ifs at hj with hji
  · cases hi : ns[i]? with
    | none => rw [hi] at hj; simp at hj
    | some n0 =>
      rw [hi] at hj
      simp only [Option.map_some', Option.some.injEq] at hj
      subst hj
      rcases hf n0 with e | e
      · rw [e] at hh
        exact h i n0 heap hi hh
      · rw [e] at hh
        cases hh
  · exact h j n heap hj hh

theorem HeapsNodup_append {V : Type} {ns l : List (radix_tree_node V)} (h : HeapsNodup ns)
    (hl : ∀ n ∈ l, ∀ heap : List V, n.m_heap = some heap → heap.Nodup) :
    HeapsNodup (ns ++ l) := by
  intro j n heap hj hh
  rcases Nat.lt_or_ge j ns.length with hlt | hge
  · rw [List.getElem?_append_left hlt] at hj
    exact h j n heap hj hh
  · rw [List.getElem?_append_right hge] at hj
    exact hl n (List.mem_iff_getElem?.mpr ⟨_, hj⟩) heap hh

theorem HeapsNodup_splice {V : Type} {ns ns1 : List (radix_tree_node V)} (h : HeapsNodup ns)
    {tl L : Nat} (hs : splice_after ns tl L = some ns1) : HeapsNodup ns1 := by
  unfold splice_after at hs
  cases htl : ns[tl]? with
  | none => rw [htl] at hs; simp at hs
  | some tln =>
    rw [htl] at hs
    simp only at hs
    cases hl : tln.m_last with
    | none =>
      rw [hl] at hs
      simp only [Option.some.injEq] at hs
      subst hs
      apply HeapsNodup_upd_same
      · apply HeapsNodup_upd_same h
        intro _
        exact Or.inl rfl
      · intro _
        exact Or.inl rfl
    | some nx =>
      rw [hl] at hs
      simp only at hs
      cases hnx : ns[nx]? with
      | none => rw [hnx] at hs; simp at hs
      | some nxn =>
        rw [hnx] at hs
        simp only [Option.some.injEq] at hs
        subst hs
        apply HeapsNodup_upd_same
        · apply HeapsNodup_upd_same
          · apply HeapsNodup_upd_same
            · apply HeapsNodup_upd_same h
              intro _
              exact Or.inl rfl
            · intro _
              exact Or.inl rfl
          · intro _
            exact Or.inl rfl
        · intro _
          exact Or.inl rfl

theorem HeapsNodup_residual {V : Type} {ns : List (radix_tree_node V)} (h : HeapsNodup ns)
    (pats : List (List Nat)) (q : List Slice) (key : Slice) (m L d : Nat) :
    HeapsNodup (attach_residual ns pats q key m L d).1 := by
  unfold attach_residual
  simp only
  apply HeapsNodup_upd_same
  · apply HeapsNodup_upd_same
    · apply HeapsNodup_append h
      intro n hn heap hh
      simp only [List.mem_singleton] at hn
      subst hn
      cases hh
    · intro _
      exact Or.inl rfl
  · intro _
    exact Or.inl rfl

theorem HeapsNodup_update_loop {V : Type} (q : List Slice) (o : Option Nat) (nl : Nat) :
    ∀ (fuel : Nat) (ns : List (radix_tree_node V)) (x dx : Nat)
      (ns1 : List (radix_tree_node V)), HeapsNodup ns →
      update_loop q o nl fuel ns x dx = some ns1 → HeapsNodup ns1 := by
  intro fuel
  induction fuel with
  | zero =>
    intro ns x dx ns1 _ hu
    simp [update_loop] at hu
  | succ fuel ih =>
    intro ns x dx ns1 h hu
    have hb : ∀ (a : List (radix_tree_node V)) (y : Nat), HeapsNodup a →
        HeapsNodup (bump a y o nl) := by
      intro a y ha
      unfold bump
      apply HeapsNodup_upd_same ha
      intro _
      exact Or.inl rfl
    unfold update_loop at hu
    split_ifs at hu with hlen
    · cases hx : ns[x]? with
      | none => rw [hx] at hu; simp at hu
      | some r =>
        rw [hx] at hu
        simp only at hu
        cases hf : map_find r.m_children (q.getD dx []) with
        | none =>
          rw [hf] at hu
          simp only [Option.some.injEq] at hu
          subst hu
          exact hb _ _ h
        | some child =>
          rw [hf] at hu
          simp only at hu
          cases hc : (bump ns x o nl)[child]? with
          | none => rw [hc] at hu; simp at hu
          | some c =>
            rw [hc] at hu
            simp only at hu
            split_ifs at hu with hlt
            · simp only [Option.some.injEq] at hu
              subst hu
              exact hb _ _ (hb _ _ h)
            · exact ih _ _ _ _ (hb _ _ h) hu
    · cases hx : ns[x]? with
      | none => rw [hx] at hu; simp at hu
      | some r =>
        rw [hx] at hu
        simp only [Option.some.injEq] at hu
        subst hu
        exact hb _ _ h

theorem HeapsNodup_update_node {V : Type} {ns ns1 : List (radix_tree_node V)}
    (h : HeapsNodup ns) {root : Nat} {q : List Slice} {o : Option Nat} {nl : Nat}
    (hu : update_node ns root q o nl = some ns1) : HeapsNodup ns1 := by
  unfold update_node at hu
  split_ifs at hu
  · simp only [Option.some.injEq] at hu
    subst hu
    exact h
  · exact HeapsNodup_update_loop q o nl _ _ _ _ _ h hu

theorem HeapsNodup_split_rewire {V : Type} {t : radix_tree V} (hh : HeapsNodup t.nodes)
    {q : List Slice} {p : List Nat} {v : V} {m cnt d : Nat} {nk : Slice}
    {mid : List (radix_tree_node V)} {pats : List (List Nat)} {tl : Nat}
    (hrew : split_rewire t q p v m cnt d nk = some (mid, pats, tl)) : HeapsNodup mid := by
  unfold split_rewire at hrew
  cases hmn : t.nodes[m]? with
  | none => rw [hmn] at hrew; simp at hrew
  | some mn =>
    rw [hmn] at hrew
    simp only at hrew
    split at hrew
    · cases hrew
    · split at hrew
      · cases hrew
      · rename_i ns3 hsp
        simp only [Option.some.injEq, Prod.mk.injEq] at hrew
        obtain ⟨e1, -, -⟩ := hrew
        rw [← e1]
        have h3 : HeapsNodup ns3 := by
          refine HeapsNodup_splice ?_ hsp
          apply HeapsNodup_upd_same
          · apply HeapsNodup_append hh
            intro n hn heap hheap
            simp only [List.mem_cons, List.mem_singleton, List.not_mem_nil, or_false] at hn
            rcases hn with rfl | rfl
            · cases hheap
            · exact hh m mn heap hmn hheap
          · intro _
            exact Or.inr rfl
        split_ifs
        · apply HeapsNodup_residual
          apply HeapsNodup_upd_same h3
          intro _
          exact Or.inl rfl
        · apply HeapsNodup_upd_same h3
          intro _
          exact Or.inl rfl

theorem HeapsNodup_attach_rewire {V : Type} {t : radix_tree V} (hh : HeapsNodup t.nodes)
    {q : List Slice} {p : List Nat} {v : V} {m d : Nat}
    {mid : List (radix_tree_node V)} {pats : List (List Nat)} {tl : Option Nat}
    (hrew : attach_rewire t q p v m d = some (mid, pats, tl)) : HeapsNodup mid := by
  unfold attach_rewire at hrew
  cases hmn : t.nodes[m]? with
  | none => rw [hmn] at hrew; simp at hrew
  | some mn =>
    rw [hmn] at hrew
    simp only at hrew
    have h1 : HeapsNodup (t.nodes ++
        [({ m_key := mn.m_key, m_value := some [v] } : radix_tree_node V)]) := by
      apply HeapsNodup_append hh
      intro n hn heap hheap
      simp only [List.mem_singleton] at hn
      subst hn
      cases hheap
    have h2 : HeapsNodup (if d ≠ q.length then
        attach_residual (t.nodes ++
          [({ m_key := mn.m_key, m_value := some [v] } : radix_tree_node V)])
          t.m_patterns q p m t.nodes.length d
        else (t.nodes ++
          [({ m_key := mn.m_key, m_value := some [v] } : radix_tree_node V)],
          t.m_patterns)).1 := by
      split_ifs
      · exact HeapsNodup_residual h1 _ _ _ _ _ _
      · exact h1
    split at hrew
    · cases hrew
    · rename_i ns2 hsp
      simp only [Option.some.injEq, Prod.mk.injEq] at hrew
      obtain ⟨e1, -, -⟩ := hrew
      rw [← e1]
      split at hsp
      · simp only [Option.some.injEq] at hsp
        rw [← hsp]
        apply HeapsNodup_upd_same h2
        intro _
        exact Or.inl rfl
      · exact HeapsNodup_splice h2 hsp

theorem insert_frame_all {V : Type} (t : radix_tree V) (p : List Nat) (v : V) :
    ∀ t1 : radix_tree V, insert t p v = some t1 →
      t1.m_size = t.m_size ∧ (HeapsNodup t.nodes → HeapsNodup t1.nodes) := by
  have hsame : ∀ t2 : radix_tree V, some t = some t2 →
      t2.m_size = t.m_size ∧ (HeapsNodup t.nodes → HeapsNodup t2.nodes) := by
    intro t2 e
    simp only [Option.some.injEq] at e
    subst e
    exact ⟨rfl, id⟩
  have hnone : ∀ t2 : radix_tree V, (none : Option (radix_tree V)) = some t2 →
      t2.m_size = t.m_size ∧ (HeapsNodup t.nodes → HeapsNodup t2.nodes) :=
    fun _ e => Option.noConfusion e
  unfold insert
  by_cases hp0 : p = []
  · rw [if_pos hp0]; exact hsame
  rw [if_neg hp0]
  cases hdec : UTF8Decode p with
  | none => exact hsame
  | some q =>
    simp only
    by_cases hq0 : q = []
    · rw [if_pos hq0]; exact hsame
    rw [if_neg hq0]
    cases hfind : find_node t q with
    | none => exact hnone
    | some r =>
      obtain ⟨m, cnt, d⟩ := r
      simp only
      cases hmn : t.nodes[m]? with
      | none => exact hnone
      | some mn =>
        simp only
        have hsplit : ∀ (nk : Slice) (t1 : radix_tree V),
            insert_split t q p v m cnt d nk = some t1 →
            t1.m_size = t.m_size ∧ (HeapsNodup t.nodes → HeapsNodup t1.nodes) := by
          intro nk t1 hs
          unfold insert_split at hs
          cases hrew : split_rewire t q p v m cnt d nk with
          | none => rw [hrew] at hs; simp at hs
          | some r =>
            obtain ⟨mid, pats, tl⟩ := r
            rw [hrew] at hs
            simp only at hs
            cases hupd : update_node mid t.m_root q (some tl) t.nodes.length with
            | none => rw [hupd] at hs; simp at hs
            | some ns5 =>
              rw [hupd] at hs
              simp only [Option.some.injEq] at hs
              subst hs
              exact ⟨rfl, fun hh =>
                HeapsNodup_update_node (HeapsNodup_split_rewire hh hrew) hupd⟩
        have hattach : ∀ t1 : radix_tree V, insert_attach t q p v m d = some t1 →
            t1.m_size = t.m_size ∧ (HeapsNodup t.nodes → HeapsNodup t1.nodes) := by
          intro t1 hs
          unfold insert_attach at hs
          cases hrew : attach_rewire t q p v m d with
          | none => rw [hrew] at hs; simp at hs
          | some r =>
            obtain ⟨mid, pats, tl⟩ := r
            rw [hrew] at hs
            simp only at hs
            cases hupd : update_node mid t.m_root q tl t.nodes.length with
            | none => rw [hupd] at hs; simp at hs
            | some ns5 =>
              rw [hupd] at hs
              simp only [Option.some.injEq] at hs
              subst hs
              exact ⟨rfl, fun hh =>
                HeapsNodup_update_node (HeapsNodup_attach_rewire hh hrew) hupd⟩
        have hstruct : ∀ t1 : radix_tree V, (if cnt < mn.m_key.length then
              match SliceDecode (radix_substr mn.m_key cnt (mn.m_key.length - cnt)) with
              | none => some t
              | some new_key => insert_split t q p v m cnt d new_key
            else if cnt = mn.m_key.length then insert_attach t q p v m d else some t) =
            some t1 → t1.m_size = t.m_size ∧ (HeapsNodup t.nodes → HeapsNodup t1.nodes) := by
          by_cases h1 : cnt < mn.m_key.length
          · rw [if_pos h1]
            cases hsd : SliceDecode (radix_substr mn.m_key cnt (mn.m_key.length - cnt)) with
            | none => exact hsame
            | some nk => exact hsplit nk
          · rw [if_neg h1]
            by_cases h2 : cnt = mn.m_key.length
            · rw [if_pos h2]; exact hattach
            · rw [if_neg h2]; exact hsame
        by_cases hex : d = q.length ∧ cnt = mn.m_key.length
        · rw [if_pos hex]
          cases hf : mn.m_first with
          | none =>
            simp only
            exact hstruct
          | some f =>
            simp only
            cases hfn : t.nodes[f]? with
            | none => exact hnone
            | some fn =>
              simp only
              cases hfv : fn.m_value with
              | none =>
                simp only
                exact hstruct
              | some vs =>
                simp only
                intro t1 e
                simp only [Option.some.injEq] at e
                subst e
                refine ⟨rfl, fun hh => ?_⟩
                apply HeapsNodup_upd_same hh
                intro _
                exact Or.inl rfl
        · rw [if_neg hex]
          exact hstruct

/-- The call `insert` does not write `m_size`, and it keeps every precomputed heap free of
duplicates. -/
theorem insert_frame {V : Type} {t t1 : radix_tree V} {p : List Nat} {v : V}
    (hins : insert t p v = some t1) :
    t1.m_size = t.m_size ∧ (HeapsNodup t.nodes → HeapsNodup t1.nodes) :=
  insert_frame_all t p v t1 hins

theorem finish_frame {V : Type} [DecidableEq V] {H : StdHeap V} {t t1 : radix_tree V}
    {cmp : V → V → Bool} {K : Nat} (hf : finish H t cmp K = some t1) :
    t1.m_size = t.m_size := by
  unfold finish at hf
  cases hr : t.nodes[t.m_root]? with
  | none => rw [hr] at hf; simp at hf
  | some root =>
    rw [hr] at hf
    simp only at hf
    split_ifs at hf
    · simp only [Option.some.injEq] at hf
      subst hf
      rfl
    · cases hc : collect_nodes t.nodes (t.nodes.length + 1) 0 [t.m_root] with
      | none => rw [hc] at hf; simp at hf
      | some pn =>
        rw [hc] at hf
        simp only at hf
        cases hn : finish_nodes H cmp K pn.reverse t.nodes with
        | none => rw [hn] at hf; simp at hf
        | some ns =>
          rw [hn] at hf
          simp only [Option.some.injEq] at hf
          subst hf
          rfl

/-- In every state that a sequence of calls reaches, `m_size` has the value it started with
unless `clear` has set it to 0. -/
theorem run_calls_size {V : Type} [DecidableEq V] (H : StdHeap V) (calls : List (Call V)) :
    ∀ t t1 : radix_tree V, t.m_size = 0 → run_calls H t calls = some t1 → t1.m_size = 0 := by
  induction calls with
  | nil =>
    intro t t1 h0 hrun
    simp only [run_calls, Option.some.injEq] at hrun
    subst hrun
    exact h0
  | cons c rest ih =>
    intro t t1 h0 hrun
    cases c with
    | insert p v =>
      simp only [run_calls] at hrun
      cases hins : insert t p v with
      | none => rw [hins] at hrun; simp at hrun
      | some t2 =>
        rw [hins] at hrun
        exact ih t2 t1 (by rw [(insert_frame hins).1]; exact h0) hrun
    | finish cmp K =>
      simp only [run_calls] at hrun
      cases hf : finish H t cmp K with
      | none => rw [hf] at hrun; simp at hrun
      | some t2 =>
        rw [hf] at hrun
        exact ih t2 t1 (by rw [finish_frame hf]; exact h0) hrun
    | clear =>
      simp only [run_calls] at hrun
      exact ih t.clear t1 rfl hrun

/-- A sequence of calls returns when the heap algorithms only rearrange their range and every
`finish` is given a limit of at least 1. -/
theorem run_calls_returns {V : Type} [DecidableEq V] {H : StdHeap V} (hH : H.Permutes)
    (calls : List (Call V)) :
    ∀ (t : radix_tree V) (chain : List Nat) (lab : Nat → List Nat) (par : Nat → Nat)
      (P : List (List Nat)), t.m_root = 0 → WF t.nodes chain lab par P →
      HeapsNodup t.nodes →
      (∀ (cmp : V → V → Bool) (K : Nat), Call.finish cmp K ∈ calls → 1 ≤ K) →
      ∃ t1, run_calls H t calls = some t1 := by
  induction calls with
  | nil =>
    intro t chain lab par P _ _ _ _
    exact ⟨t, rfl⟩
  | cons c rest ih =>
    intro t chain lab par P hr h hhn hK
    have hK' : ∀ (cmp : V → V → Bool) (K : Nat), Call.finish cmp K ∈ rest → 1 ≤ K :=
      fun cmp K hm => hK cmp K (List.mem_cons_of_mem _ hm)
    cases c with
    | insert p v =>
      obtain ⟨t2, chain2, lab2, par2, hins, hr2, h2, -⟩ := insert_ok hr h p v
      obtain ⟨t1, hrun⟩ := ih t2 chain2 lab2 par2 _ hr2 h2 ((insert_frame hins).2 hhn) hK'
      exact ⟨t1, by simp only [run_calls, hins, hrun]⟩
    | finish cmp K =>
      obtain ⟨t2, hf, hr2, h2, hhn2⟩ :=
        finish_ok hH cmp (hK cmp K (List.mem_cons_self _ _)) hr h hhn
      obtain ⟨t1, hrun⟩ := ih t2 chain lab par P hr2 h2 hhn2 hK'
      exact ⟨t1, by simp only [run_calls, hf, hrun]⟩
    | clear =>
      have hfresh : t.clear.nodes = (radix_tree.fresh V).nodes := rfl
      obtain ⟨t1, hrun⟩ := ih t.clear [] (fun _ => []) (fun _ => 0) [] rfl
        (by rw [hfresh]; exact WF_fresh V)
        (by
          rw [hfresh]
          intro j n heap hj hh
          cases j with
          | zero =>
            simp [radix_tree.fresh] at hj
            subst hj
            cases hh
          | succ j => simp [radix_tree.fresh] at hj) hK'
      exact ⟨t1, by simp only [run_calls, hrun]⟩


/-! ## The iterator -/

theorem drain_of_trace {V : Type} (ns : List (radix_tree_node V)) :
    ∀ (fuel : Nat) (it : radix_tree_iter) (acc : List (Nat × V)),
      drain ns fuel it (acc.map Prod.snd) =
        (drain_trace ns fuel it acc).map (List.map Prod.snd) := by
  intro fuel
  induction fuel with
  | zero => intro it acc; rfl
  | succ fuel ih =>
    intro it acc
    unfold drain drain_trace
    cases hval : it.valid ns with
    | none => rfl
    | some b =>
      cases b with
      | false => rfl
      | true =>
        simp only
        cases hcur : it.m_current with
        | none =>
          simp [radix_tree_iter.valid, hcur] at hval
        | some cur =>
          cases hv : it.value ns with
          | none => rfl
          | some v =>
            cases hn : it.next ns with
            | none => rfl
            | some it1 =>
              simp only
              rw [← ih it1 (acc ++ [(cur, v)])]
              simp

/-- The loop inside one leaf: from index `i` it emits the remaining values of the leaf and
leaves it through the last `next()`. -/
theorem drain_leaf {V : Type} {ns : List (radix_tree_node V)} {it : radix_tree_iter}
    {a e : Nat} {na : radix_tree_node V} {vs : List V}
    (hcur : it.m_current = some a) (hend : it.m_end = some e) (hna : ns[a]? = some na)
    (hvs : na.m_value = some vs) (hcnt : it.m_cursor < it.m_count) :
    ∀ (k i : Nat) (acc : List (Nat × V)) (fuel : Nat), i + k + 1 = vs.length →
      drain_trace ns (fuel + k + 1) { it with m_index := i } acc =
        drain_trace ns fuel
          (if a ≠ e then
            { it with m_index := 0, m_current := na.m_last, m_cursor := it.m_cursor + 1 }
            else { it with m_index := vs.length })
          (acc ++ (vs.drop i).map (fun v => (a, v))) := by
  have hvalid : ∀ i : Nat, i < vs.length →
      radix_tree_iter.valid ns { it with m_index := i } = some true := by
    intro i hi
    simp only [radix_tree_iter.valid, hcur, hna, hvs]
    rw [if_neg (by omega)]
    split_ifs
    · simp [hi]
    · rfl
  have hvalue : ∀ i : Nat, (hi : i < vs.length) →
      radix_tree_iter.value ns { it with m_index := i } = some (vs.get ⟨i, hi⟩) := by
    intro i hi
    simp only [radix_tree_iter.value, hcur, hna, hvs]
    exact List.getElem?_eq_getElem hi
  intro k
  induction k with
  | zero =>
    intro i acc fuel hik
    have hi : i < vs.length := by omega
    have hdrop : vs.drop i = [vs.get ⟨i, hi⟩] := by
      rw [List.drop_eq_getElem_cons hi, List.drop_of_length_le (by omega)]
      rfl
    have hnext : radix_tree_iter.next ns { it with m_index := i } =
        some (if a ≠ e then
            { it with m_index := 0, m_current := na.m_last, m_cursor := it.m_cursor + 1 }
            else { it with m_index := vs.length }) := by
      simp only [radix_tree_iter.next, hcur, hna, hvs]
      rw [if_neg (by omega)]
      by_cases hae : a = e
      · rw [if_neg (by simp [hend, hae]), if_neg (by simp [hae])]
        rw [← hik]
      · rw [if_pos ⟨by simp [hend, hae], hcnt⟩, if_pos hae]
    have hm : ({ it with m_index := i } : radix_tree_iter).m_current = some a := hcur
    show drain_trace ns (fuel + 1) _ acc = _
    rw [drain_trace, hvalid i hi]
    simp only []
    rw [hvalue i hi, hnext, hm, hdrop]
    rfl
  | succ k ih =>
    intro i acc fuel hik
    have hi : i < vs.length := by omega
    have hdrop : vs.drop i = vs.get ⟨i, hi⟩ :: vs.drop (i + 1) := by
      rw [List.drop_eq_getElem_cons hi]
      rfl
    have hnext : radix_tree_iter.next ns { it with m_index := i } =
        some { it with m_index := i + 1 } := by
      simp only [radix_tree_iter.next, hcur, hna, hvs]
      rw [if_pos (by omega)]
    have hm : ({ it with m_index := i } : radix_tree_iter).m_current = some a := hcur
    show drain_trace ns (fuel + (k + 1) + 1) _ acc = _
    rw [drain_trace, hvalid i hi]
    simp only []
    rw [hvalue i hi, hnext, hm]
    have := ih (i + 1) (acc ++ [(a, vs.get ⟨i, hi⟩)]) fuel (by omega)
    rw [hdrop, List.map_cons]
    rw [hcur] at this
    show drain_trace ns (fuel + k + 1) _ _ = _
    rw [this]
    simp

/-- The loop over a run of chained leaves emits the values of the leaves in chain order. -/
theorem drain_run {V : Type} {ns : List (radix_tree_node V)} :
    ∀ (R : List Nat) (a : Nat) (it : radix_tree_iter) (acc : List (Nat × V)) (fuel : Nat),
      (a :: R).Chain' (fun x y => ∃ nx ny : radix_tree_node V,
        ns[x]? = some nx ∧ ns[y]? = some ny ∧ nx.m_last = some y ∧ ny.m_first = some x) →
      (a :: R).Nodup → it.m_current = some a → it.m_end = (a :: R).getLast? →
      it.m_index = 0 → it.m_count = it.m_cursor + ((R.length : Int) + 1) →
      (∀ x ∈ a :: R, ∃ (n : radix_tree_node V) (vs : List V),
        ns[x]? = some n ∧ n.m_value = some vs ∧ vs ≠ []) →
      ((a :: R).map (leaf_values ns)).flatten.length < fuel →
      drain_trace ns fuel it acc =
        some (acc ++ ((a :: R).map (fun x => (leaf_values ns x).map (fun v => (x, v)))).flatten) := by
  intro R
  induction R with
  | nil =>
    intro a it acc fuel _ _ hcur hend hidx hcount hleaf hfuel
    obtain ⟨na, vs, hna, hvs, hne⟩ := hleaf a (List.mem_cons_self _ _)
    have hlv : leaf_values ns a = vs := by simp [leaf_values, hna, hvs]
    have hpos : 0 < vs.length := List.length_pos.mpr hne
    simp only [List.map_cons, List.map_nil, List.flatten_cons, List.flatten_nil,
      List.append_nil, hlv] at hfuel ⊢
    simp only [List.getLast?_singleton] at hend
    simp only [List.length_nil, Nat.cast_zero, zero_add] at hcount
    have hit : it = { it with m_index := 0 } := by
      cases it
      simp only at hidx
      subst hidx
      rfl
    rw [hit, show fuel = (fuel - vs.length) + (vs.length - 1) + 1 by omega,
      drain_leaf hcur hend hna hvs (by omega) (vs.length - 1) 0 acc _ (by omega),
      if_neg (by simp)]
    obtain ⟨f, hf⟩ : ∃ f, fuel - vs.length = f + 1 := ⟨fuel - vs.length - 1, by omega⟩
    rw [hf, drain_trace]
    have hvalid : radix_tree_iter.valid ns { it with m_index := vs.length } = some false := by
      simp only [radix_tree_iter.valid, hcur, hna, hvs]
      rw [if_neg (by omega), if_pos (Or.inl (by omega))]
      simp
    rw [hvalid]
    simp
  | cons b R ih =>
    intro a it acc fuel hch hnd hcur hend hidx hcount hleaf hfuel
    obtain ⟨na, vs, hna, hvs, hne⟩ := hleaf a (List.mem_cons_self _ _)
    have hlv : leaf_values ns a = vs := by simp [leaf_values, hna, hvs]
    have hpos : 0 < vs.length := List.length_pos.mpr hne
    obtain ⟨e, he⟩ : ∃ e, (b :: R).getLast? = some e := by
      cases hl : (b :: R).getLast? with
      | none => simp at hl
      | some e => exact ⟨e, rfl⟩
    have hend' : it.m_end = some e := by
      rw [hend, List.getLast?_cons_cons]
      exact he
    have hae : a ≠ e := by
      rintro rfl
      exact (List.nodup_cons.mp hnd).1 (List.mem_of_getLast?_eq_some he)
    have hnext : na.m_last = some b := by
      obtain ⟨nx, -, hnx, -, hl, -⟩ := (List.chain'_cons.mp hch).1
      rw [hna] at hnx
      cases hnx
      exact hl
    simp only [List.length_cons, Nat.cast_add, Nat.cast_one] at hcount
    have hit : it = { it with m_index := 0 } := by
      cases it
      simp only at hidx
      subst hidx
      rfl
    have hsplit : ((a :: b :: R).map (leaf_values ns)).flatten.length =
        vs.length + (((b :: R).map (leaf_values ns)).flatten.length) := by
      simp [hlv]
    rw [hsplit] at hfuel
    rw [hit, show fuel = (fuel - vs.length) + (vs.length - 1) + 1 by omega,
      drain_leaf hcur hend' hna hvs (by omega) (vs.length - 1) 0 acc _ (by omega),
      if_pos hae]
    rw [ih b { it with m_index := 0, m_current := na.m_last, m_cursor := it.m_cursor + 1 }
      _ (fuel - vs.length) (List.Chain'.tail hch) (List.nodup_cons.mp hnd).2 hnext
      (hend'.trans he.symm) rfl (by simp only; omega)
      (fun x hx => hleaf x (List.mem_cons_of_mem _ hx)) (by omega)]
    simp [hlv]

/-- The walk of `match` over the range of an interior node returns the values of its run. -/
theorem node_collect_walk {V : Type} {ns : List (radix_tree_node V)} {chain : List Nat}
    {lab : Nat → List Nat} {par : Nat → Nat} {P : List (List Nat)} {anc : Nat → List Nat}
    (h : WF ns chain lab par P) (h2 : WF2 ns chain anc) {i : Nat} {n : radix_tree_node V}
    (hn : ns[i]? = some n) (hv : n.m_value = none) (vec : List V) :
    collect_walk ns n.m_last ns.length n.m_first vec =
      some (vec ++ ((run_of anc chain i).map (leaf_values ns)).flatten) := by
  obtain ⟨-, r2, r3, r4⟩ := h2.run i n hn hv
  rcases List.eq_nil_or_concat (run_of anc chain i) with he | ⟨S, l, he⟩
  · rw [he] at r2 ⊢
    rw [r2]
    cases ns.length <;> simp [collect_walk]
  · have he' : run_of anc chain i = S ++ [l] := by rw [he]; simp
    have hlast : (S ++ [l]).getLast? = some l := by simp
    rw [he'] at r2 r3 r4 ⊢
    rw [r2, r3, hlast]
    obtain ⟨A, T, hc⟩ := r4
    have hc1 : chain = A ++ (S ++ l :: T) := by rw [← hc]; simp
    have hnd : (S ++ l :: T).Nodup := by
      have := h.chain_nodup
      rw [hc1] at this
      exact (List.nodup_append.mp this).2.1
    have hlS : l ∉ S := fun hin =>
      (List.nodup_append.mp hnd).2.2 hin (List.mem_cons_self _ _)
    have hch : (S ++ l :: T).Chain' (fun a b => ∃ na nb : radix_tree_node V,
        ns[a]? = some na ∧ ns[b]? = some nb ∧ na.m_last = some b ∧ nb.m_first = some a) := by
      have := h.chain_link
      rw [hc1] at this
      exact this.right_of_append
    have hlc : l ∈ chain := by rw [hc1]; simp
    obtain ⟨nl, hnl, -⟩ := (h.chain_leaf l).mp hlc
    have hlen : S.length < ns.length := by
      have := h.chain_length_le
      rw [hc1] at this
      simp at this
      omega
    exact collect_walk_run ns l T S ns.length vec hch ⟨nl, hnl⟩ hlS hlen

/-- The client loop on the iterator over the range of an interior node emits the values of its
run, leaf by leaf. -/
theorem node_drain {V : Type} {ns : List (radix_tree_node V)} {chain : List Nat}
    {lab : Nat → List Nat} {par : Nat → Nat} {P : List (List Nat)} {anc : Nat → List Nat}
    (h : WF ns chain lab par P) (h2 : WF2 ns chain anc) (hne : LeafNE ns) {i : Nat}
    {n : radix_tree_node V} (hn : ns[i]? = some n) (hv : n.m_value = none) (fuel : Nat)
    (hfuel : (((run_of anc chain i).map (leaf_values ns)).flatten.length < fuel)) :
    drain_trace ns fuel (radix_tree_iter.mk3 n.m_first n.m_last n.m_count) [] =
      some (((run_of anc chain i).map
        (fun x => (leaf_values ns x).map (fun v => (x, v)))).flatten) := by
  obtain ⟨r1, r2, r3, r4⟩ := h2.run i n hn hv
  cases hR : run_of anc chain i with
  | nil =>
    rw [hR] at r2
    simp only [List.head?_nil] at r2
    rw [r2]
    obtain ⟨f, rfl⟩ : ∃ f, fuel = f + 1 := ⟨fuel - 1, by omega⟩
    simp [drain_trace, radix_tree_iter.valid, radix_tree_iter.mk3]
  | cons a R =>
    rw [hR] at r1 r2 r3 r4 hfuel
    have hch : (a :: R).Chain' (fun x y => ∃ nx ny : radix_tree_node V,
        ns[x]? = some nx ∧ ns[y]? = some ny ∧ nx.m_last = some y ∧ ny.m_first = some x) :=
      List.Chain'.infix h.chain_link r4
    have hnd : (a :: R).Nodup := by
      rw [← hR]
      exact nodup_run_of h.chain_nodup i
    have hleaf : ∀ x ∈ a :: R, ∃ (nx : radix_tree_node V) (vs : List V),
        ns[x]? = some nx ∧ nx.m_value = some vs ∧ vs ≠ [] := by
      intro x hx
      have hxc : x ∈ chain := r4.subset hx
      obtain ⟨nx, hnx, hnxv⟩ := (h.chain_leaf x).mp hxc
      obtain ⟨vs, hvs⟩ := Option.ne_none_iff_exists'.mp hnxv
      refine ⟨nx, vs, hnx, hvs, ?_⟩
      rintro rfl
      exact hne x nx hnx hvs
    have := drain_run R a (radix_tree_iter.mk3 n.m_first n.m_last n.m_count) ([] : List (Nat × V))
      fuel hch hnd (by simp [radix_tree_iter.mk3, r2]) (by simp only [radix_tree_iter.mk3]; exact r3) rfl
      (by simp [radix_tree_iter.mk3, r1]) hleaf hfuel
    rw [this]
    simp

theorem trace_values {V : Type} (ns : List (radix_tree_node V)) (R : List Nat) :
    ((R.map (fun x => (leaf_values ns x).map (fun v => (x, v)))).flatten).map Prod.snd =
      (R.map (leaf_values ns)).flatten := by
  induction R with
  | nil => rfl
  | cons a R ih =>
    simp only [List.map_cons, List.flatten_cons, List.map_append, ih]
    congr 1
    simp [Function.comp_def]

theorem trace_leaves {V : Type} (ns : List (radix_tree_node V)) (R : List Nat)
    (hne : ∀ x ∈ R, leaf_values ns x ≠ []) (a : Nat) :
    a ∈ ((R.map (fun x => (leaf_values ns x).map (fun v => (x, v)))).flatten).map Prod.fst ↔
      a ∈ R := by
  simp only [List.mem_map, List.mem_flatten, Prod.exists, exists_and_right, exists_eq_right]
  constructor
  · rintro ⟨v, l, ⟨x, hx, rfl⟩, hl⟩
    simp only [List.mem_map, Prod.mk.injEq] at hl
    obtain ⟨w, -, rfl, -⟩ := hl
    exact hx
  · intro ha
    obtain ⟨v, hv⟩ := List.exists_mem_of_ne_nil _ (hne a ha)
    exact ⟨v, _, ⟨a, ha, rfl⟩, List.mem_map.mpr ⟨v, hv, rfl⟩⟩

/-- On a tree that satisfies the invariants the iterator form of `match` and the exhaustive
`match` walk the same run of leaves. -/
theorem match_iter_ok {V : Type} {t : radix_tree V} {chain : List Nat} {lab : Nat → List Nat}
    {par : Nat → Nat} {P : List (List Nat)} {anc : Nat → List Nat} (hr : t.m_root = 0)
    (h : WF t.nodes chain lab par P) (h2 : WF2 t.nodes chain anc) (hne : LeafNE t.nodes)
    (q : List Nat) :
    ∃ (it : radix_tree_iter) (R : List Nat), R <:+: chain ∧ match_iter t q = some it ∧
      match_all t q [] = some ((R.map (leaf_values t.nodes)).flatten) ∧
      (∀ fuel : Nat, ((R.map (leaf_values t.nodes)).flatten).length < fuel →
        drain_trace t.nodes fuel it [] =
          some ((R.map (fun x => (leaf_values t.nodes x).map (fun v => (x, v)))).flatten)) ∧
      it.count = R.length := by
  have hnone : ∀ fuel : Nat, (([] : List Nat).map (leaf_values t.nodes)).flatten.length < fuel →
      drain_trace t.nodes fuel (radix_tree_iter.mk3 none none 0) [] =
        some ((([] : List Nat).map
          (fun x => (leaf_values t.nodes x).map (fun v => (x, v)))).flatten) := by
    intro fuel hf
    obtain ⟨f, rfl⟩ : ∃ f, fuel = f + 1 := ⟨fuel - 1, by simp at hf; omega⟩
    simp [drain_trace, radix_tree_iter.valid, radix_tree_iter.mk3]
  unfold match_iter match_all
  cases hd : UTF8Decode q with
  | none => exact ⟨_, [], List.nil_infix, rfl, rfl, hnone, rfl⟩
  | some uchars =>
    simp only
    by_cases he : uchars = []
    · rw [if_pos he, if_pos he]
      exact ⟨_, [], List.nil_infix, rfl, rfl, hnone, rfl⟩
    · rw [if_neg he, if_neg he]
      obtain ⟨r, hfind, hok⟩ := find_node_ok hr h uchars
      obtain ⟨m, cnt, d⟩ := r
      rw [hfind]
      simp only
      by_cases hdep : d = uchars.length
      · rw [if_pos hdep, if_pos hdep]
        obtain ⟨mn, hmn, hv, -⟩ := hok.node
        simp only at hmn
        rw [hmn]
        simp only
        refine ⟨_, run_of anc chain m, (h2.run m mn hmn hv).2.2.2, rfl, ?_, ?_, ?_⟩
        · simpa using node_collect_walk h h2 hmn hv []
        · intro fuel hf
          exact node_drain h h2 hne hmn hv fuel hf
        · simp [radix_tree_iter.count, radix_tree_iter.mk3, (h2.run m mn hmn hv).1]
      · rw [if_neg hdep, if_neg hdep]
        exact ⟨_, [], List.nil_infix, rfl, rfl, hnone, rfl⟩

/-! ## The claims -/

/-- C1 (prefix correctness of exhaustive match) fails on the code: after
`insert("abc", 1); insert("abd", 2); insert("ab", 3)` the exact-key branch of `insert` appends
the value `3` of pattern `"ab"` to the first leaf of the subtree of `"ab"`, which is the leaf of
`"abc"`; `match("abc")` then returns `[1, 3]` although only the pattern of value `1` has `"abc"`
as a prefix. -/
theorem C1_exact_key_append_hits_foreign_leaf :
    (build [([97, 98, 99], 1), ([97, 98, 100], 2), ([97, 98], 3)]).bind
        (fun t => match_all t [97, 98, 99] []) = some [1, 3] ∧
      prefix_values [([97, 98, 99], 1), ([97, 98, 100], 2), ([97, 98], 3)] [97, 98, 99] = [1] := by
  decide

/-- C2 (completeness) fails on the code: the pattern `"a\0b"` is accepted and its bytes after
the NUL become part of an edge label; the later `insert("a", 2)` stops in the middle of that
edge, `SliceDecode` fails on the residual `"\0b"`, and the value `2` is dropped:
`match("a")` returns `[1]`. -/
theorem C2_insert_after_nul_pattern_drops_value :
    accepted [97, 0, 98] = true ∧ accepted [97] = true ∧
      (build [([97, 0, 98], 1), ([97], 2)]).bind (fun t => match_all t [97] []) = some [1] := by
  decide

/-- C3 as stated (exhaustive match lists values in insertion order of their patterns) does not
hold: after `insert("aab", 1); insert("ac", 2); insert("aad", 3)`, three pairwise distinct
accepted patterns, `match("a")` returns `[1, 3, 2]`, while the insertion order of the matching
values is `[1, 2, 3]`: the leaf of `"aad"` is linked in behind the leaf of `"aab"`, the last
leaf of the subtree of `"aa"`. -/
theorem C3_insertion_order_counterexample :
    accepted [97, 97, 98] = true ∧ accepted [97, 99] = true ∧ accepted [97, 97, 100] = true ∧
      (build [([97, 97, 98], 1), ([97, 99], 2), ([97, 97, 100], 3)]).bind
        (fun t => match_all t [97] []) = some [1, 3, 2] ∧
      prefix_values [([97, 97, 98], 1), ([97, 99], 2), ([97, 97, 100], 3)] [97] = [1, 2, 3] := by
  decide

/-- C3, amended: exhaustive match lists values in leaf-chain order, and the leaf chain is
grouped by subtree rather than ordered by insertion time. After every sequence `ops` of
inserts on a fresh tree, a further `insert(p, v)` returns and either leaves the leaf chain as
it is, or makes the new leaf (at the next free address) the whole chain of a tree without
leaves, or links the new leaf in directly behind the last leaf `tl` of the node at which
`find_node` stops for `p`; the other leaves keep their relative order. When a leaf is created
it holds exactly `[v]` and the old leaves keep their values. Every exhaustive match on the
resulting tree returns the values of a contiguous run of the leaf chain, in chain order. -/
theorem C3_match_lists_values_in_leaf_chain_order {V : Type} (ops : List (List Nat × V))
    (p : List Nat) (v : V) :
    ∃ t t1 chain chain1, build ops = some t ∧ insert t p v = some t1 ∧
      leaf_chain t = some chain ∧ leaf_chain t1 = some chain1 ∧
      ChainStep t p chain chain1 ∧
      (chain1 ≠ chain → leaf_values t1.nodes t.nodes.length = [v] ∧
        ∀ a ∈ chain, leaf_values t1.nodes a = leaf_values t.nodes a) ∧
      ∀ key : List Nat, ∃ run, run <:+: chain1 ∧
        match_all t1 key [] = some ((run.map (leaf_values t1.nodes)).flatten) := by
  obtain ⟨t, chain, lab, par, P, hb, hr, h, -, -⟩ := build_ok ops
  obtain ⟨t1, chain1, lab1, par1, hins, hr1, h1, -, hstep, hval⟩ := insert_ok hr h p v
  refine ⟨t, t1, chain, chain1, hb, hins, leaf_chain_ok hr h, leaf_chain_ok hr1 h1, hstep,
    ?_, ?_⟩
  · intro hne
    obtain ⟨hold, nL, hnL, hv⟩ := hval hne
    refine ⟨by simp [leaf_values, hnL, hv], fun a ha => ?_⟩
    obtain ⟨n, hn, hnv⟩ := (h.chain_leaf a).mp ha
    obtain ⟨n1, hn1, e⟩ := hold a n hn hnv
    simp [leaf_values, hn, hn1, e]
  · intro key
    obtain ⟨run, hrun, hm⟩ := match_all_ok hr1 h1 key []
    exact ⟨run, hrun, by simpa using hm⟩

/-- C4 (repeated insertion of one pattern) fails on the code: after
`insert("abc", 1); insert("ab", 2); insert("ab", 3)` the second value of `"ab"` is appended to
the leaf of `"abc"`, so `match("ab")` returns `[1, 3, 2]`: the values `2, 3` of `"ab"` are not
in insertion order and `3` does not sit in the leaf created by the first insertion of `"ab"`. -/
theorem C4_repeated_pattern_values_out_of_order :
    (build [([97, 98, 99], 1), ([97, 98], 2), ([97, 98], 3)]).bind
        (fun t => match_all t [97, 98] []) = some [1, 3, 2] ∧
      (build [([97, 98, 99], 1), ([97, 98], 2), ([97, 98], 3)]).bind
        (fun t => match_all t [97, 98, 99] []) = some [1, 3] := by
  decide

/-- C5: after every sequence of `insert` calls on a fresh tree, a key `q` that decodes to a
non-empty codepoint list `dq` which is a prefix of the codepoint list of no accepted pattern of
the sequence gets the empty list from the exhaustive `match` (the call returns, with nothing
pushed). -/
theorem C5_no_match_yields_empty {V : Type} (ops : List (List Nat × V)) (q : List Nat)
    (dq : List Slice) (hq : UTF8Decode q = some dq) (hne : dq ≠ [])
    (hno : ∀ pv ∈ ops, ∀ d : List Slice, pv.1 ≠ [] → UTF8Decode pv.1 = some d → d ≠ [] →
      ¬ dq <+: d) :
    ∃ t, build ops = some t ∧ match_all t q [] = some [] := by
  obtain ⟨t, chain, lab, par, P, hb, hr, h, hP, -⟩ := build_ok ops
  refine ⟨t, hb, ?_⟩
  obtain ⟨⟨m, count, depth⟩, hfind, hf⟩ := find_node_ok hr h dq
  unfold match_all
  simp only [hq, if_neg hne, hfind]
  rw [if_neg]
  intro hd
  subst hd
  obtain ⟨mn, hmn, hmv, hcle, hlab⟩ := hf.node
  simp only [List.take_length] at hmn hcle hlab
  obtain ⟨zq, -, -, hcpq⟩ := UTF8Decode_spec hq
  -- the matched node is not the root
  have hm0 : m ≠ 0 := by
    rintro rfl
    rw [h.lab_root] at hlab
    have h1 := (List.append_eq_nil.mp hlab.symm).1
    cases dq with
    | nil => exact hne rfl
    | cons u rest =>
      rw [List.flatten_cons] at h1
      exact (hcpq u (List.mem_cons_self _ _)).1 (List.append_eq_nil.mp h1).1
  obtain ⟨p, hpP, hpre⟩ := h.label m mn hmn hmv hm0
  obtain ⟨hpops, hacc⟩ := hP p hpP
  obtain ⟨pv, hpv, rfl⟩ := List.mem_map.mp hpops
  unfold accepted at hacc
  cases hd : UTF8Decode pv.1 with
  | none => rw [hd] at hacc; simp at hacc
  | some d =>
    rw [hd] at hacc
    simp only [decide_eq_true_eq] at hacc
    obtain ⟨z, hz, hz0, hcpd⟩ := UTF8Decode_spec hd
    apply hno pv hpv d hacc.1 hd hacc.2
    apply prefix_code hcpq hcpd hz0
    rw [← hz]
    exact (List.prefix_append _ _).trans (hlab ▸ hpre)

/-- Witness of C5: after `insert("abc", 1); insert("abd", 2)` the key `"abe"` matches nothing. -/
theorem C5_no_match_yields_empty_witness :
    ∃ t, build [([97, 98, 99], 1), ([97, 98, 100], 2)] = some t ∧
      match_all t [97, 98, 101] [] = some [] :=
  C5_no_match_yields_empty [([97, 98, 99], 1), ([97, 98, 100], 2)] [97, 98, 101]
    [[97], [98], [101]] (by decide) (by decide) (by
      intro pv hpv d _ hd _
      simp only [List.mem_cons, List.mem_singleton, List.not_mem_nil, or_false] at hpv
      rcases hpv with rfl | rfl
      · have e : UTF8Decode [97, 98, 99] = some [[97], [98], [99]] := by decide
        rw [e] at hd
        cases hd
        decide
      · have e : UTF8Decode [97, 98, 100] = some [[97], [98], [100]] := by decide
        rw [e] at hd
        cases hd
        decide)

/-- C6: a key that is empty, starts with a NUL byte or fails UTF-8 decoding matches nothing in
any tree state: the exhaustive and the ranked `match` leave `vec` as it was, and the iterator
form returns an iterator with `count() = 0` that is not `valid()`.  In particular a key that
ends inside a multi-byte codepoint of a decodable pattern (the first `j` codepoints of the
pattern followed by `k` bytes of the next one, `0 < k <` its length) fails decoding. -/
theorem C6_undecodable_key_matches_nothing :
    (∀ (V : Type) [DecidableEq V] (H : StdHeap V) (t : radix_tree V) (key : List Nat)
        (vec : List V) (cmp : V → V → Bool) (K : Nat),
        (key = [] ∨ key.head? = some 0 ∨ UTF8Decode key = none) →
          match_all t key vec = some vec ∧ match_ranked H t key vec cmp K = some vec ∧
            ∃ it, match_iter t key = some it ∧ it.count = 0 ∧ it.valid t.nodes = some false) ∧
      (∀ (p : List Nat) (d : List Slice) (j k : Nat), UTF8Decode p = some d → j < d.length →
        0 < k → k < (d.getD j []).length →
          UTF8Decode ((d.take j).flatten ++ (d.getD j []).take k) = none) := by
  constructor
  · intro V _ H t key vec cmp K h
    have hd : UTF8Decode key = none ∨ UTF8Decode key = some [] := by
      rcases h with rfl | h | h
      · exact Or.inr UTF8Decode_nil
      · cases key with
        | nil => exact Or.inr UTF8Decode_nil
        | cons a rest =>
          simp only [List.head?_cons, Option.some.injEq] at h
          subst h
          exact Or.inr (UTF8Decode_nul rest)
      · exact Or.inl h
    rcases hd with hd | hd <;>
      simp [match_all, match_ranked, match_iter, hd, radix_tree_iter.mk3, radix_tree_iter.count,
        radix_tree_iter.valid]
  · intro p d j k hp hj hk hku
    obtain ⟨z, -, -, hcp⟩ := UTF8Decode_spec hp
    have hu : IsCp (d.getD j []) := by
      apply hcp
      rw [List.getD_eq_getElem?_getD, List.getElem?_eq_getElem hj]
      exact List.getElem_mem _
    rw [UTF8Decode_append (fun u hu => hcp u (List.mem_of_mem_take hu)),
      UTF8Decode_truncated hu hk hku]
    rfl

/-- Witness of C6 on the key `"caf\xC3"`, the pattern `"café"` cut inside its last codepoint. -/
theorem C6_undecodable_key_matches_nothing_witness :
    (match_all (radix_tree.fresh Nat) [99, 97, 102, 195] [] = some [] ∧
      match_ranked (refHeap Nat) (radix_tree.fresh Nat) [99, 97, 102, 195] []
        (fun a b => decide (a < b)) 3 = some [] ∧
      ∃ it, match_iter (radix_tree.fresh Nat) [99, 97, 102, 195] = some it ∧ it.count = 0 ∧
        it.valid (radix_tree.fresh Nat).nodes = some false) ∧
      UTF8Decode (([[99], [97], [102], [195, 169]].take 3).flatten ++
        (([[99], [97], [102], [195, 169]] : List Slice).getD 3 []).take 1) = none :=
  ⟨C6_undecodable_key_matches_nothing.1 Nat (refHeap Nat) (radix_tree.fresh Nat)
      [99, 97, 102, 195] [] (fun a b => decide (a < b)) 3 (Or.inr (Or.inr (by decide))),
    C6_undecodable_key_matches_nothing.2 [99, 97, 102, 195, 169]
      [[99], [97], [102], [195, 169]] 3 1 (by decide) (by decide) (by decide) (by decide)⟩

/-- C7: in every tree state, `insert` of a pattern that is empty, starts with a NUL byte or
fails UTF-8 decoding returns with the tree unchanged. -/
theorem C7_rejected_insert_is_noop (V : Type) (t : radix_tree V) (p : List Nat) (v : V)
    (h : p = [] ∨ p.head? = some 0 ∨ UTF8Decode p = none) : insert t p v = some t := by
  rcases h with rfl | h | h
  · simp [insert]
  · cases p with
    | nil => simp [insert]
    | cons a rest =>
      simp only [List.head?_cons, Option.some.injEq] at h
      subst h
      simp [insert, UTF8Decode_nul]
  · simp [insert, h]

/-- Witness of C7 on a lone continuation byte, in the fresh tree. -/
theorem C7_rejected_insert_is_noop_witness :
    (UTF8Decode [128] = none) ∧
      insert (radix_tree.fresh Nat) [128] 5 = some (radix_tree.fresh Nat) :=
  ⟨by decide, C7_rejected_insert_is_noop Nat (radix_tree.fresh Nat) [128] 5
    (Or.inr (Or.inr (by decide)))⟩

/-- C8: after every sequence of inserts on a fresh tree (no `finish`), for every key `q`, every
`K >= 1`, every comparator `cmp` that is a strict total order, and heap algorithms that meet
their contract for `cmp`, both the exhaustive and the ranked `match` return, and the ranked
`match(q, cmp, K)` returns the first `min(K, d)` elements of the exhaustive result with
duplicates removed and sorted `cmp`-preferred values first. -/
theorem C8_ranked_match_is_top_k_of_exhaustive {V : Type} [DecidableEq V] (H : StdHeap V)
    (cmp : V → V → Bool) (hH : H.Conforms cmp) (hc : StrictTotal cmp)
    (ops : List (List Nat × V)) (q : List Nat) (K : Nat) (hK : 1 ≤ K) :
    ∃ t all, build ops = some t ∧ match_all t q [] = some all ∧
      match_ranked H t q [] cmp K = some (ranked_spec cmp K all) ∧
      (ranked_spec cmp K all).length = min K all.dedup.length := by
  obtain ⟨t, chain, lab, par, P, hb, hr, h, -, hno⟩ := build_ok ops
  obtain ⟨all, hall, hranked⟩ := match_ranked_noheap hr h hno hH hc hK q
  refine ⟨t, all, hb, hall, hranked, ?_⟩
  simp [ranked_spec, List.length_insertionSort]

theorem C8_ranked_match_is_top_k_of_exhaustive_witness :
    (∃ t all, build [([97, 98], 3), ([97, 99], 1), ([97, 100], 2), ([97, 101], 1)] = some t ∧
      match_all t [97] [] = some all ∧
      match_ranked (refHeap Nat) t [97] [] (fun a b => decide (a < b)) 2 =
        some (ranked_spec (fun a b => decide (a < b)) 2 all) ∧
      (ranked_spec (fun a b => decide (a < b)) 2 all).length = min 2 all.dedup.length) ∧
    (build [([97, 98], 3), ([97, 99], 1), ([97, 100], 2), ([97, 101], 1)]).bind
      (fun t => match_ranked (refHeap Nat) t [97] [] (fun a b => decide (a < b)) 2) =
        some [1, 2] :=
  ⟨C8_ranked_match_is_top_k_of_exhaustive (refHeap Nat) (fun a b => decide (a < b))
    (refHeap_conforms nat_lt_strictTotal) nat_lt_strictTotal
    [([97, 98], 3), ([97, 99], 1), ([97, 100], 2), ([97, 101], 1)] [97] 2 (by decide),
   by decide⟩

/-- C9 (a tree with precomputed heaps answers like one without) fails on the code because the
leaf walk of `finish` can run past `current->m_last`. On the tree of
`insert("ac", 1); insert("abc", 10); insert("z", 0); insert("abd", 11)` the nodes of `""`,
`"a"` and `"ab"` sit at addresses `0`, `2` and `5`; they are the nodes that the first loop of
`finish` collects once more than `nodes_threshold` patterns lie under `"ab"`. Running the
second loop of `finish` over them (last entry first) gives the node of `"a"` the heap
`[0, 1]`: while the walk skips the range of the child `"ab"`, whose last leaf is also the last
leaf of `"a"`, the test `temp == current->m_last` is not reached, so the walk goes on to the
leaf of `"z"`. The ranked `match("a", less, 2)` then returns `[0, 1]` instead of `[1, 10]`. -/
theorem C9_finish_walk_runs_past_last_leaf :
    (build [([97, 99], 1), ([97, 98, 99], 10), ([122], 0), ([97, 98, 100], 11)]).bind
        (fun t => match_ranked (refHeap Nat) t [97] [] (fun a b => decide (a < b)) 2) =
      some [1, 10] ∧
    (build [([97, 99], 1), ([97, 98, 99], 10), ([122], 0), ([97, 98, 100], 11)]).bind
        (fun t => (finish_nodes (refHeap Nat) (fun a b => decide (a < b)) 2 [5, 2, 0]
          t.nodes).bind (fun ns => match_ranked (refHeap Nat) { t with nodes := ns } [97] []
            (fun a b => decide (a < b)) 2)) = some [0, 1] := by
  decide

/-- C10: after every sequence of inserts on a fresh tree, for every key `q`, comparator `cmp`,
`K >= 1` and heap algorithms that only rearrange their range, the ranked `match(q, cmp, K)`
into an empty vector returns a list without duplicates; `finish(cmp, K)` returns as well, and
the ranked `match(q, cmp, K)` on the finished tree returns a list without duplicates too. -/
theorem C10_ranked_match_has_no_duplicates {V : Type} [DecidableEq V] (H : StdHeap V)
    (hH : H.Permutes) (cmp : V → V → Bool) (ops : List (List Nat × V)) (q : List Nat) (K : Nat)
    (hK : 1 ≤ K) :
    ∃ t r t1 r1, build ops = some t ∧ match_ranked H t q [] cmp K = some r ∧ r.Nodup ∧
      finish H t cmp K = some t1 ∧ match_ranked H t1 q [] cmp K = some r1 ∧ r1.Nodup := by
  obtain ⟨t, chain, lab, par, P, hb, hr, h, -, hno⟩ := build_ok ops
  have hhn := HeapsNodup_of_NoHeap hno
  obtain ⟨r, hm, hnd⟩ := match_ranked_nodup hr h hhn hH cmp hK q
  obtain ⟨t1, hf, hr1, h1, hhn1⟩ := finish_ok hH cmp hK hr h hhn
  obtain ⟨r1, hm1, hnd1⟩ := match_ranked_nodup hr1 h1 hhn1 hH cmp hK q
  exact ⟨t, r, t1, r1, hb, hm, hnd, hf, hm1, hnd1⟩

theorem C10_ranked_match_has_no_duplicates_witness :
    (∃ t r t1 r1, build [([97, 98], 2), ([97, 99], 1), ([97, 100], 2)] = some t ∧
      match_ranked (refHeap Nat) t [97] [] (fun a b => decide (a < b)) 3 = some r ∧ r.Nodup ∧
      finish (refHeap Nat) t (fun a b => decide (a < b)) 3 = some t1 ∧
      match_ranked (refHeap Nat) t1 [97] [] (fun a b => decide (a < b)) 3 = some r1 ∧
      r1.Nodup) ∧
    (build [([97, 98], 2), ([97, 99], 1), ([97, 100], 2)]).bind
      (fun t => match_ranked (refHeap Nat) t [97] [] (fun a b => decide (a < b)) 3) =
        some [1, 2] :=
  ⟨C10_ranked_match_has_no_duplicates (refHeap Nat) (refHeap_permutes Nat)
    (fun a b => decide (a < b)) [([97, 98], 2), ([97, 99], 1), ([97, 100], 2)] [97] 3
    (by decide), by decide⟩

/-- C11: for `K >= 1`, a strict weak order `cmp`, heap algorithms that meet their contract and
a buffer that is a heap under `cmp` with at most `K` items, `heap_insert(buf, item, cmp, K)`
returns; the result is a heap of `min(K, size + 1)` items; it and the dropped items together
are the old contents plus `item`, and no dropped item is preferred to a kept one. Below `K`
items nothing is dropped; at `K` items the root is dropped and `item` enters exactly when
`cmp(item, root)`, and otherwise `item` is dropped and the buffer is unchanged. -/
theorem C11_heap_insert_keeps_k_best {V : Type} (H : StdHeap V) (cmp : V → V → Bool)
    (hH : H.Conforms cmp) (hc : StrictWeak cmp) (K : Nat) (hK : 1 ≤ K) (buf : List V)
    (item : V) (hheap : IsHeap cmp buf) (hlen : buf.length ≤ K) :
    ∃ buf1 dropped, heap_insert H buf item cmp K = some buf1 ∧
      IsHeap cmp buf1 ∧ buf1.length = min K (buf.length + 1) ∧
      (buf1 ++ dropped).Perm (buf ++ [item]) ∧
      (∀ a ∈ buf1, ∀ b ∈ dropped, cmp b a = false) ∧
      (buf.length < K → dropped = []) ∧
      (∀ (root : V) (rest : List V), buf = root :: rest → buf.length = K →
        (cmp item root = true → dropped = [root] ∧ buf1.Perm (rest ++ [item])) ∧
        (cmp item root = false → dropped = [item] ∧ buf1 = buf)) := by
  unfold heap_insert
  by_cases hlt : buf.length < K
  · rw [if_pos hlt]
    have hp := hH.push_perm buf item hheap
    refine ⟨_, [], rfl, hH.push_heap buf item hheap, ?_, ?_, ?_, fun _ => rfl, ?_⟩
    · rw [hp.length_eq]; simp; omega
    · simpa using hp
    · intro a _ b hb; simp at hb
    · intro root rest _ hfull; omega
  · rw [if_neg hlt]
    have hfull : buf.length = K := le_antisymm hlen (by omega)
    cases buf with
    | nil => simp at hfull; omega
    | cons r0 rest1 =>
      simp only
      have hroot := hheap.root_max_weak hc
      by_cases hcx : cmp item r0 = true
      · rw [if_pos hcx]
        obtain ⟨l1, hpop, hl1, hheap1⟩ := hH.pop r0 rest1 hheap
        have hdl : (H.pop_heap cmp (r0 :: rest1)).dropLast = l1 := by
          rw [hpop]; simp
        rw [hdl]
        have hp := hH.push_perm l1 item hheap1
        refine ⟨_, [r0], rfl, hH.push_heap l1 item hheap1, ?_, ?_, ?_, fun h => absurd h hlt, ?_⟩
        · rw [hp.length_eq]
          simp only [List.length_append, List.length_singleton, hl1.length_eq]
          simp at hfull ⊢
          omega
        · refine (hp.append_right _).trans ?_
          have e1 : (l1 ++ [item] ++ [r0]).Perm (r0 :: (l1 ++ [item])) :=
            List.perm_append_singleton _ _
          refine e1.trans ?_
          simp only [List.cons_append]
          exact List.Perm.cons r0 ((hl1.append_right [item]))
        · intro a ha b hb
          simp only [List.mem_singleton] at hb
          subst hb
          rcases List.mem_append.mp (hp.subset ha) with h1 | h1
          · exact hroot a (List.mem_cons_of_mem _ (hl1.subset h1))
          · simp only [List.mem_singleton] at h1
            subst h1
            by_contra hcontra
            have h2 : cmp b a = true := by simpa using hcontra
            have := hc.trans _ _ _ hcx h2
            rw [hc.irrefl] at this
            exact Bool.noConfusion this
        · intro root rest hbuf _
          simp only [List.cons.injEq] at hbuf
          obtain ⟨rfl, rfl⟩ := hbuf
          refine ⟨fun _ => ⟨rfl, hp.trans (hl1.append_right _)⟩, fun hneg => ?_⟩
          rw [hcx] at hneg
          exact Bool.noConfusion hneg
      · rw [if_neg hcx]
        have hcx : cmp item r0 = false := by simpa using hcx
        refine ⟨_, [item], rfl, hheap, ?_, List.Perm.refl _, ?_, fun h => absurd h hlt, ?_⟩
        · simp at hfull ⊢; omega
        · intro a ha b hb
          simp only [List.mem_singleton] at hb
          subst hb
          exact hc.neg_trans _ _ _ hcx (hroot a ha)
        · intro root rest hbuf _
          simp only [List.cons.injEq] at hbuf
          obtain ⟨rfl, rfl⟩ := hbuf
          refine ⟨fun hpos => ?_, fun _ => ⟨rfl, rfl⟩⟩
          rw [hcx] at hpos
          exact Bool.noConfusion hpos

theorem C11_heap_insert_keeps_k_best_witness :
    ∃ buf1 dropped, heap_insert (refHeap Nat) [5, 3] 4 (fun a b => decide (a < b)) 2 =
        some buf1 ∧
      IsHeap (fun a b => decide (a < b)) buf1 ∧ buf1.length = min 2 (([5, 3] : List Nat).length + 1) ∧
      (buf1 ++ dropped).Perm ([5, 3] ++ [4]) ∧
      (∀ a ∈ buf1, ∀ b ∈ dropped, (fun a b => decide (a < b)) b a = false) ∧
      (([5, 3] : List Nat).length < 2 → dropped = []) ∧
      (∀ (root : Nat) (rest : List Nat), [5, 3] = root :: rest → ([5, 3] : List Nat).length = 2 →
        ((fun a b => decide (a < b)) 4 root = true →
          dropped = [root] ∧ buf1.Perm (rest ++ [4])) ∧
        ((fun a b => decide (a < b)) 4 root = false → dropped = [4] ∧ buf1 = [5, 3])) :=
  C11_heap_insert_keeps_k_best (refHeap Nat) (fun a b => decide (a < b))
    (refHeap_conforms nat_lt_strictTotal) nat_lt_strictTotal.weak 2 (by decide) [5, 3] 4
    isHeap_pair (by decide)

/-- C13 (paging by `reset`) fails on the code when `start` reaches the length of the run:
`reset` stops advancing `m_begin` at `m_end`, so the last leaf is never skipped. On the
two-leaf run that `match("a")` returns after `insert("ab", 1); insert("ac", 2)`, the loop
`while valid(): emit value(); next()` emits `[1, 2]` on the fresh iterator, and emits `[2]`
after `reset(2, 1)` and after `reset(7, 3)`, where the claim says that nothing is emitted. -/
theorem C13_reset_past_the_run_yields_last_leaf :
    (build [([97, 98], 1), ([97, 99], 2)]).bind (fun t =>
      (match_iter t [97]).bind (fun it => drain t.nodes 10 it [])) = some [1, 2] ∧
    (build [([97, 98], 1), ([97, 99], 2)]).bind (fun t =>
      (match_iter t [97]).bind (fun it => (it.reset t.nodes 2 1).bind (fun it1 =>
        drain t.nodes 10 it1 []))) = some [2] ∧
    (build [([97, 98], 1), ([97, 99], 2)]).bind (fun t =>
      (match_iter t [97]).bind (fun it => (it.reset t.nodes 7 3).bind (fun it1 =>
        drain t.nodes 10 it1 []))) = some [2] := by
  decide

/-- C14: when `UTF8Decode` succeeds on the bytes `s` of a `std::string`, every emitted slice is
non-empty and the slices, concatenated in order, are `s` truncated at its first NUL byte (all
of `s` when it holds no NUL): they are adjacent, in input order and lose nothing. -/
theorem C14_segmentation_is_lossless (s : List Nat) (d : List Slice)
    (h : UTF8Decode s = some d) :
    (∀ u ∈ d, u ≠ []) ∧ d.flatten = until_nul s := by
  obtain ⟨z, hs, hz, hcp⟩ := UTF8Decode_spec h
  refine ⟨fun u hu => (hcp u hu).1, ?_⟩
  unfold until_nul
  conv_rhs => rw [hs]
  rw [takeWhile_append_nul _ hz]
  intro b hb
  obtain ⟨u, hu, hbu⟩ := List.mem_flatten.mp hb
  exact (hcp u hu).no_nul b hbu

theorem C14_segmentation_is_lossless_witness :
    (∀ u ∈ [[97], [195, 169]], u ≠ []) ∧
      ([[97], [195, 169]] : List Slice).flatten = until_nul [97, 195, 169, 0, 98] :=
  C14_segmentation_is_lossless [97, 195, 169, 0, 98] [[97], [195, 169]] (by decide)

/-- C15 (every emitted slice has 1 to 6 bytes, a `k`-byte slice starting with exactly `k`
leading 1-bits) fails on the code: the `code_len` loop of `UTF8Decode` and `SliceDecode` leaves
with `code_len = 7` for the lead bytes `0xFE` and `0xFF` followed by six continuation bytes,
so decoding succeeds and emits a 7-byte slice (whose lead byte has 7 or 8 leading 1-bits). -/
theorem C15_decoder_emits_seven_byte_slice :
    UTF8Decode [254, 128, 128, 128, 128, 128, 128] =
        some [[254, 128, 128, 128, 128, 128, 128]] ∧
      UTF8Decode [255, 128, 128, 128, 128, 128, 128, 97] =
        some [[255, 128, 128, 128, 128, 128, 128], [97]] ∧
      SliceDecode [254, 128, 128, 128, 128, 128, 128] =
        some [254, 128, 128, 128, 128, 128, 128] := by
  decide

/-- C19 (the leaf walk of `finish` stays inside the run of the node) fails on the code. On the
tree of `insert("ac", 1); insert("abc", 10); insert("z", 0); insert("abd", 11)` the node of
`"a"` sits at address `2` and its run holds the values `[1, 10, 11]`. The second loop of
`finish`, run for the nodes `"ab"`, `"a"` and the root (the nodes its first loop collects once
more than `nodes_threshold` patterns lie under `"ab"`), stores the heap `[0, 1]` in the node
of `"a"`: value `0` is held only by the leaf of `"z"`, which lies behind the run. -/
theorem C19_finish_heap_holds_foreign_value :
    (build [([97, 99], 1), ([97, 98, 99], 10), ([122], 0), ([97, 98, 100], 11)]).bind
        (fun t => (finish_nodes (refHeap Nat) (fun a b => decide (a < b)) 2 [5, 2, 0]
          t.nodes).bind (fun ns => (ns[2]?).bind (fun n => n.m_heap))) = some [0, 1] ∧
    (build [([97, 99], 1), ([97, 98, 99], 10), ([122], 0), ([97, 98, 100], 11)]).bind
        (fun t => (t.nodes[2]?).bind (fun n =>
          collect_walk t.nodes n.m_last t.nodes.length n.m_first [])) = some [1, 10, 11] := by
  decide

/-- C12: after every sequence of inserts on a fresh tree, for every key `q`, the iterator form
of `match(q)` returns an iterator on which the loop `while valid(): emit value(); next()`
returns (for every fuel above the number of emitted values) and emits exactly the list that the
exhaustive `match(q)` pushes into an empty vector, in the same order. `trace` pairs every
emitted value with the leaf it was read from; the leaves walked are the distinct leaves
`leaves`, and `count()` is their number. -/
theorem C12_iterator_agrees_with_exhaustive_match {V : Type} (ops : List (List Nat × V))
    (q : List Nat) :
    ∃ (t : radix_tree V) (it : radix_tree_iter) (trace : List (Nat × V)) (leaves : List Nat),
      build ops = some t ∧ match_iter t q = some it ∧
      (∀ fuel : Nat, trace.length < fuel →
        drain_trace t.nodes fuel it [] = some trace ∧
          drain t.nodes fuel it [] = some (trace.map Prod.snd)) ∧
      match_all t q [] = some (trace.map Prod.snd) ∧
      leaves.Nodup ∧ (∀ a : Nat, a ∈ leaves ↔ a ∈ trace.map Prod.fst) ∧
      it.count = leaves.length := by
  obtain ⟨t, chain, lab, par, P, anc, hb, hr, h, h2, hne⟩ := build_ok2 ops
  obtain ⟨it, R, hR, hit, hall, hdrain, hcount⟩ := match_iter_ok hr h h2 hne q
  have hlen : ((R.map (fun x => (leaf_values t.nodes x).map (fun v => (x, v)))).flatten).length =
      ((R.map (leaf_values t.nodes)).flatten).length := by
    rw [← trace_values, List.length_map]
  refine ⟨t, it, (R.map (fun x => (leaf_values t.nodes x).map (fun v => (x, v)))).flatten, R,
    hb, hit, ?_, ?_, h.chain_nodup.sublist hR.sublist, ?_, hcount⟩
  · intro fuel hf
    have hd := hdrain fuel (by rw [← hlen]; exact hf)
    refine ⟨hd, ?_⟩
    have := drain_of_trace t.nodes fuel it []
    rw [hd] at this
    simpa using this
  · rw [trace_values]
    exact hall
  · intro a
    rw [trace_leaves]
    intro x hx
    obtain ⟨n, hn, hnv⟩ := (h.chain_leaf x).mp (hR.subset hx)
    obtain ⟨vs, hvs⟩ := Option.ne_none_iff_exists'.mp hnv
    have : leaf_values t.nodes x = vs := by simp [leaf_values, hn, hvs]
    rw [this]
    rintro rfl
    exact hne x n hn hvs

/-- C16: after every sequence of inserts on a fresh tree, for every node `N` reachable from the
root through child maps (the root included), the walk of the leaf chain from `N.first` through
the next-links up to and including `N.last` returns, and `N.count` is the number of leaves it
visits (no leaf, and a count of 0, when `N.first` is null). -/
theorem C16_count_is_length_of_walked_run {V : Type} (ops : List (List Nat × V)) :
    ∃ t, build ops = some t ∧
      ∀ (i : Nat) (n : radix_tree_node V), Reach t.nodes t.m_root i → t.nodes[i]? = some n →
        ∃ leaves, range_walk t.nodes n.m_last t.nodes.length n.m_first = some leaves ∧
          n.m_count = leaves.length ∧ (n.m_first = none → n.m_count = 0) := by
  obtain ⟨t, chain, lab, par, P, anc, hb, hr, h, h2, -⟩ := build_ok2 ops
  refine ⟨t, hb, ?_⟩
  intro i n hreach hn
  rw [hr] at hreach
  obtain ⟨n', hn', hv⟩ := reach_interior h hreach
  rw [hn] at hn'
  cases hn'
  obtain ⟨r1, r2, -, -⟩ := h2.run i n hn hv
  refine ⟨_, node_range_walk h h2 hn hv, r1, ?_⟩
  intro hf
  rw [hf] at r2
  rw [r1]
  cases hR : run_of anc chain i with
  | nil => rfl
  | cons a R => rw [hR] at r2; simp at r2

/-- C17: after every sequence of inserts on a fresh tree, for every node `N` reachable from the
root, the walk from `N.first` along the next-links reaches `N.last` (it returns the leaves
`leaves`, which start at `N.first` and end at `N.last`); for every child `C` of `N` the walk
from `C.first` to `C.last` visits leaves of the walk of `N`, in the same order; the walks of two
distinct children of `N` share no leaf; and for every leaf `l` with a successor `s`, the
prev-link of `s` is `l`. -/
theorem C17_leaf_chain_is_continuous {V : Type} (ops : List (List Nat × V)) :
    ∃ t, build ops = some t ∧
      (∀ (i : Nat) (n : radix_tree_node V), Reach t.nodes t.m_root i → t.nodes[i]? = some n →
        ∃ leaves, range_walk t.nodes n.m_last t.nodes.length n.m_first = some leaves ∧
          leaves.head? = n.m_first ∧ leaves.getLast? = n.m_last ∧
          (∀ (k : Slice) (c : Nat) (cn : radix_tree_node V), (k, c) ∈ n.m_children →
            t.nodes[c]? = some cn →
            ∃ cl, range_walk t.nodes cn.m_last t.nodes.length cn.m_first = some cl ∧
              cl.Sublist leaves) ∧
          (∀ (k1 k2 : Slice) (c1 c2 : Nat) (cn1 cn2 : radix_tree_node V),
            (k1, c1) ∈ n.m_children → (k2, c2) ∈ n.m_children → c1 ≠ c2 →
            t.nodes[c1]? = some cn1 → t.nodes[c2]? = some cn2 →
            ∃ l1 l2, range_walk t.nodes cn1.m_last t.nodes.length cn1.m_first = some l1 ∧
              range_walk t.nodes cn2.m_last t.nodes.length cn2.m_first = some l2 ∧
              ∀ a ∈ l1, a ∉ l2)) ∧
      (∀ (l s : Nat) (ln : radix_tree_node V), t.nodes[l]? = some ln → ln.m_value ≠ none →
        ln.m_last = some s →
        ∃ sn : radix_tree_node V, t.nodes[s]? = some sn ∧ sn.m_value ≠ none ∧
          sn.m_first = some l) := by
  obtain ⟨t, chain, lab, par, P, anc, hb, hr, h, h2, -⟩ := build_ok2 ops
  refine ⟨t, hb, ?_, fun l s ln hl hlv hs => leaf_back_link h hl hlv hs⟩
  intro i n hreach hn
  rw [hr] at hreach
  obtain ⟨n', hn', hv⟩ := reach_interior h hreach
  rw [hn] at hn'
  cases hn'
  obtain ⟨-, r2, r3, -⟩ := h2.run i n hn hv
  have hchild : ∀ (k : Slice) (c : Nat) (cn : radix_tree_node V), (k, c) ∈ n.m_children →
      t.nodes[c]? = some cn →
      range_walk t.nodes cn.m_last t.nodes.length cn.m_first = some (run_of anc chain c) := by
    intro k c cn hk hcn
    obtain ⟨cn', hcn', hcv, -⟩ := h.child i n k c hn hv hk
    rw [hcn] at hcn'
    cases hcn'
    exact node_range_walk h h2 hcn hcv
  refine ⟨_, node_range_walk h h2 hn hv, r2.symm, r3.symm, ?_, ?_⟩
  · intro k c cn hk hcn
    refine ⟨_, hchild k c cn hk hcn, ?_⟩
    rw [child_run_sublist h2 hn hv hk]
    exact List.filter_sublist _
  · intro k1 k2 c1 c2 cn1 cn2 h1 hk2 hne hcn1 hcn2
    exact ⟨_, _, hchild k1 c1 cn1 h1 hcn1, hchild k2 c2 cn2 hk2 hcn2,
      fun a ha => sibling_runs_disjoint h2 hn hv h1 hk2 hne a ha⟩

/-- C18: after every sequence of inserts on a fresh tree, for every reachable node `N` and
every entry `(k -> C)` of its child map, the edge label of `C` is non-empty and `SliceDecode`
of it returns `k`; two distinct children of `N` have edge labels with different first
codepoints; and a further `insert(p, v)` returns and overwrites no entry: `(k -> C)` is still
an entry of the child map of a node reachable from the root, which is `N` or the `new_node` (at
the address `t.nodes.length + 1`) to which the split branch moves the child map of `N` by
`swap`. -/
theorem C18_child_keys_are_first_codepoints {V : Type} (ops : List (List Nat × V))
    (p : List Nat) (v : V) :
    ∃ t t1, build ops = some t ∧ insert t p v = some t1 ∧
      ∀ (i : Nat) (n : radix_tree_node V), Reach t.nodes t.m_root i → t.nodes[i]? = some n →
        (∀ (k : Slice) (c : Nat), (k, c) ∈ n.m_children →
          (∃ cn : radix_tree_node V, t.nodes[c]? = some cn ∧ cn.m_key ≠ [] ∧
            SliceDecode cn.m_key = some k) ∧
          ∃ (j : Nat) (n1 : radix_tree_node V), (j = i ∨ j = t.nodes.length + 1) ∧
            Reach t1.nodes t1.m_root j ∧ t1.nodes[j]? = some n1 ∧ (k, c) ∈ n1.m_children) ∧
        (∀ (k1 k2 : Slice) (c1 c2 : Nat) (cn1 cn2 : radix_tree_node V),
          (k1, c1) ∈ n.m_children → (k2, c2) ∈ n.m_children → c1 ≠ c2 →
          t.nodes[c1]? = some cn1 → t.nodes[c2]? = some cn2 →
          SliceDecode cn1.m_key ≠ SliceDecode cn2.m_key) := by
  obtain ⟨t, chain, lab, par, P, anc, hb, hr, h, h2, -⟩ := build_ok2 ops
  obtain ⟨t1, chain1, lab1, par1, anc1, hins, hr1, -, -, hsv, -⟩ := insert_ok2 hr h h2 p v
  refine ⟨t, t1, hb, hins, ?_⟩
  intro i n hreach hn
  rw [hr] at hreach
  obtain ⟨n', hn', hv⟩ := reach_interior h hreach
  rw [hn] at hn'
  cases hn'
  refine ⟨?_, ?_⟩
  · intro k c hk
    refine ⟨?_, ?_⟩
    swap
    · obtain ⟨j, n1, hj, hn1, -, hk1⟩ := hsv i n k c hn hv hk
      have hri := reach_survive h hsv hreach
      rw [hr1]
      rcases hj with rfl | ⟨rfl, ni, kj, hni, hkj⟩
      · exact ⟨j, n1, Or.inl rfl, hri, hn1, hk1⟩
      · exact ⟨_, n1, Or.inr rfl, Reach.child i _ ni kj hri hni hkj, hn1, hk1⟩
    obtain ⟨cn, hcn, hsd⟩ := h2.key i n k c hn hv hk
    refine ⟨cn, hcn, ?_, hsd⟩
    rintro he
    rw [he] at hsd
    simp [SliceDecode] at hsd
  · intro k1 k2 c1 c2 cn1 cn2 h1 hk2 hne hcn1 hcn2 heq
    obtain ⟨cn1', hcn1', hsd1⟩ := h2.key i n k1 c1 hn hv h1
    obtain ⟨cn2', hcn2', hsd2⟩ := h2.key i n k2 c2 hn hv hk2
    rw [hcn1] at hcn1'
    rw [hcn2] at hcn2'
    cases hcn1'
    cases hcn2'
    rw [hsd1, hsd2] at heq
    simp only [Option.some.injEq] at heq
    subst heq
    have hkeys := h2.keys i n hn hv
    have hinj := List.inj_on_of_nodup_map hkeys h1 hk2 rfl
    exact hne (Prod.mk.inj hinj).2

/-- C20: after every sequence of inserts on a fresh tree, every reachable non-root node whose
child map has exactly one entry hosts a leaf of its own: a leaf `a` of its walk that the walk
of its sole child does not visit, so that its count is strictly greater than the count of the
child. -/
theorem C20_single_child_node_hosts_a_leaf {V : Type} (ops : List (List Nat × V)) :
    ∃ t, build ops = some t ∧
      ∀ (i : Nat) (n : radix_tree_node V) (k : Slice) (c : Nat) (cn : radix_tree_node V),
        Reach t.nodes t.m_root i → i ≠ t.m_root → t.nodes[i]? = some n →
        n.m_children = [(k, c)] → t.nodes[c]? = some cn →
        cn.m_count < n.m_count ∧
          ∃ own cl a, range_walk t.nodes n.m_last t.nodes.length n.m_first = some own ∧
            range_walk t.nodes cn.m_last t.nodes.length cn.m_first = some cl ∧
            a ∈ own ∧ a ∉ cl := by
  obtain ⟨t, chain, lab, par, P, anc, hb, hr, h, h2, -⟩ := build_ok2 ops
  refine ⟨t, hb, ?_⟩
  intro i n k c cn hreach hi0 hn hch hcn
  rw [hr] at hreach hi0
  obtain ⟨n', hn', hv⟩ := reach_interior h hreach
  rw [hn] at hn'
  cases hn'
  have hk : (k, c) ∈ n.m_children := by rw [hch]; exact List.mem_singleton_self _
  have hlen : n.m_children.length ≤ 1 := by rw [hch]; simp
  obtain ⟨cn', hcn', hcv, -⟩ := h.child i n k c hn hv hk
  rw [hcn] at hcn'
  cases hcn'
  refine ⟨count_gt_child h h2 hn hv hi0 hlen hk hcn, ?_⟩
  obtain ⟨a, ha, hai⟩ := h2.host i n hn hv hi0 hlen
  refine ⟨_, _, a, node_range_walk h h2 hn hv, node_range_walk h h2 hcn hcv,
    mem_run_of.mpr ⟨ha, by rw [hai]; exact h2.self_mem hn hv⟩, ?_⟩
  intro hm
  have := (mem_run_of.mp hm).2
  rw [hai] at this
  exact child_not_above h h2 hn hv hk this

/-- C21: `size()` never counts anything. In every state that a sequence of `insert`, `finish`
and `clear` calls on a fresh tree reaches, `size()` returns 0 and `empty()` returns true; and
the sequence does reach a state (every call returns) when the heap algorithms only rearrange
their range and every `finish` is given a limit of at least 1. -/
theorem C21_size_never_counts {V : Type} [DecidableEq V] (H : StdHeap V)
    (calls : List (Call V)) :
    (∀ t : radix_tree V, run_calls H (radix_tree.fresh V) calls = some t →
      t.size = 0 ∧ t.empty = true) ∧
    (H.Permutes →
      (∀ (cmp : V → V → Bool) (K : Nat), Call.finish cmp K ∈ calls → 1 ≤ K) →
      ∃ t : radix_tree V, run_calls H (radix_tree.fresh V) calls = some t) := by
  refine ⟨?_, ?_⟩
  · intro t hrun
    have h0 : t.m_size = 0 := run_calls_size H calls (radix_tree.fresh V) t rfl hrun
    exact ⟨h0, by simp [radix_tree.empty, h0]⟩
  · intro hH hK
    refine run_calls_returns hH calls (radix_tree.fresh V) [] (fun _ => []) (fun _ => 0) []
      rfl (WF_fresh V) ?_ hK
    intro j n heap hj hh
    cases j with
    | zero =>
      simp [radix_tree.fresh] at hj
      subst hj
      cases hh
    | succ j => simp [radix_tree.fresh] at hj

/-- Witness of C21: after `insert("a", 1); clear(); insert("b", 2); finish(<, 2)` the exhaustive
`match("b")` returns `[2]`, yet `size()` is 0 and `empty()` is true. -/
theorem C21_size_never_counts_witness :
    ∃ t : radix_tree Nat,
      run_calls (refHeap Nat) (radix_tree.fresh Nat)
        [Call.insert [97] 1, Call.clear, Call.insert [98] 2,
          Call.finish (fun a b => decide (a < b)) 2] = some t ∧
      match_all t [98] [] = some [2] ∧ t.size = 0 ∧ t.empty = true :=
  ⟨(run_calls (refHeap Nat) (radix_tree.fresh Nat)
      [Call.insert [97] 1, Call.clear, Call.insert [98] 2,
        Call.finish (fun a b => decide (a < b)) 2]).getD (radix_tree.fresh Nat),
    by decide, by decide,
    (C21_size_never_counts (refHeap Nat)
      [Call.insert [97] 1, Call.clear, Call.insert [98] 2,
        Call.finish (fun a b => decide (a < b)) 2]).1 _ (by decide)⟩

end radix
